import Mathlib

/-!
# Ordered set backed by a skip list (`modules/SkipList/ADTOrderedSet.c`)

A shallow embedding of the skip list of `ADTOrderedSet.c`.  Nodes live in an explicit
heap (`Nat → Option node`), pointers are `Option Nat` (`none` is the null pointer), every
`while` loop is a recursive function driven by fuel, and the outcomes of `coinflip()` during
one `oset_insert` are given by the number of `HEADS` seen before the first `TAILS`.
An operation returns `none` when the C code would dereference a null or freed pointer, or
when a loop runs out of fuel; the theorems show that this never happens on sets built by
`oset_create`, `oset_insert` and `oset_remove`.
-/

namespace Coolbox

/-! ## Data model -/

/-- A node pointer (`OrderedSetNode` in C): `none` is the null pointer and `some a` is the
address of a heap cell. -/
abbrev OrderedSetNode := Option Nat

/-- Modelled from the spec: the macro `OSET_EOF` of the header `ADTOrderedSet.h`, which is not
among the sources.  The "virtual end" sentinel is the null pointer: `oset_find` compares the
result of `oset_find_node` (which is `OSET_EOF` when nothing is found) with `NULL`, and the
sibling header `ADTList.h` defines `LIST_EOF` as `(ListNode)0`. -/
abbrev OSET_EOF : OrderedSetNode := none

/-- Modelled from the spec: the macro `OSET_BOF` of the header `ADTOrderedSet.h`, which is not
among the sources.  The "virtual beginning" sentinel is the null pointer as well:
`node_create` initialises `previous` with `OSET_EOF` while `node_promote` and
`node_destroy_top` test `previous` against `OSET_BOF` (and `ADTList.h` defines `LIST_BOF` as
`(ListNode)0`). -/
abbrev OSET_BOF : OrderedSetNode := none

/-- A destructor callback (`DestroyFunc`): `none` is `NULL`, `some f` the function number `f`. -/
abbrev DestroyFunc := Option Nat

/-- A record of one destructor invocation. -/
inductive Call (K V : Type) where
  | key (f : Nat) (k : Option K)
  | value (f : Nat) (v : Option V)

/-- The C `struct ordered_set_node`.  Keys and values are references; `none` is `NULL`
(headers carry `OSET_BOF` in both fields). -/
structure ordered_set_node (K V : Type) where
  top : OrderedSetNode
  bottom : OrderedSetNode
  next : OrderedSetNode
  previous : OrderedSetNode
  is_header : Bool
  level : Int
  key : Option K
  value : Option V

/-- The C `struct ordered_set`, together with the heap its nodes live in (`heap`, with `brk`
the next address `malloc` hands out) and the log of destructor invocations (`calls`).  The
field `size` is a C `int`; it is modelled without wrap-around (a signed overflow is undefined
behaviour in C and needs more than `INT_MAX` live entries). -/
structure ordered_set (K V : Type) where
  compare : K → K → Int
  destroy_key : DestroyFunc
  destroy_value : DestroyFunc
  size : Int
  first : OrderedSetNode
  last : OrderedSetNode
  header : OrderedSetNode
  heap : Nat → Option (ordered_set_node K V)
  brk : Nat
  calls : List (Call K V)

variable {K V : Type}

/-! ## Memory primitives -/

/-- Overwrite the cell at address `a`. -/
def ordered_set.store (s : ordered_set K V) (a : Nat) (n : ordered_set_node K V) :
    ordered_set K V :=
  { s with heap := fun b => if b = a then some n else s.heap b }

/-- Assignment through a node pointer, `a->field = ...`: fails on a cell that is not allocated. -/
def ordered_set.modify (s : ordered_set K V) (a : Nat)
    (f : ordered_set_node K V → ordered_set_node K V) : Option (ordered_set K V) :=
  match s.heap a with
  | none => none
  | some n => some (s.store a (f n))

/-- The call `malloc(sizeof(*node))` followed by the initialisation of the new cell, which gets
the address `s.brk`.  Allocation is assumed to succeed. -/
def ordered_set.malloc (s : ordered_set K V) (n : ordered_set_node K V) : ordered_set K V :=
  { s.store s.brk n with brk := s.brk + 1 }

/-- The call `free(node)`. -/
def ordered_set.free (s : ordered_set K V) (a : Nat) : ordered_set K V :=
  { s with heap := fun b => if b = a then none else s.heap b }

/-! ## Node and level manager -/

/-- The node built by `node_create` (before it is stored in its freshly allocated cell). -/
def node_create (key : Option K) (value : Option V) (level : Int) (is_header : Bool) :
    ordered_set_node K V :=
  { top := OSET_EOF, bottom := OSET_EOF, next := OSET_EOF, previous := OSET_EOF,
    is_header := is_header, level := level, key := key, value := value }

/-- The destructor invocations made by `node_destroy` on the node `n`. -/
def destroy_calls (n : ordered_set_node K V) (destroy_key destroy_value : DestroyFunc) :
    List (Call K V) :=
  if !n.is_header then
    if n.level = 0 then
      (match destroy_key with
        | some f => [Call.key f n.key]
        | none => []) ++
      (match destroy_value with
        | some f => [Call.value f n.value]
        | none => [])
    else []
  else []

/-- The C function `node_destroy`. -/
def node_destroy (s : ordered_set K V) (node : Nat) (destroy_key destroy_value : DestroyFunc) :
    Option (ordered_set K V) :=
  match s.heap node with
  | none => none
  | some n =>
    some { s.free node with calls := s.calls ++ destroy_calls n destroy_key destroy_value }

/-- The inner loop of `node_find_previous`:
`while (node->next != OSET_EOF && oset->compare(node->next->key, key) < 0) node = node->next;`
returning the final value of `node`. -/
def scan_level (s : ordered_set K V) (key : K) : Nat → Nat → Option Nat
  | 0, _ => none
  | fuel + 1, node =>
    match s.heap node with
    | none => none
    | some n =>
      match n.next with
      | none => some node
      | some nx =>
        match s.heap nx with
        | none => none
        | some nn =>
          match nn.key with
          | none => none
          | some k => if s.compare k key < 0 then scan_level s key fuel nx else some node

/-- The outer loop of `node_find_previous`, `while (node != OSET_EOF) { ... }`, with the loop
variables `target` and `node`; returns the final `target`. -/
def find_previous_loop (s : ordered_set K V) (key : K) :
    Nat → OrderedSetNode → OrderedSetNode → Option OrderedSetNode
  | _, target, none => some target
  | 0, _, some _ => none
  | fuel + 1, _, some node =>
    match scan_level s key (s.brk + 1) node with
    | none => none
    | some nd =>
      match s.heap nd with
      | none => none
      | some n => find_previous_loop s key fuel (some nd) n.bottom

/-- The C function `node_find_previous`. -/
def node_find_previous (s : ordered_set K V) (key : K) : Option OrderedSetNode :=
  find_previous_loop s key (s.brk + 1) OSET_EOF s.header

/-- The C function `level_create`. -/
def level_create (s : ordered_set K V) : Option (ordered_set K V) :=
  match s.header with
  | none => none
  | some old_header =>
    match s.heap old_header with
    | none => none
    | some oh =>
      let new_header := s.brk
      -- the key and value of a header are `OSET_BOF`, the null pointer
      let s1 := s.malloc (node_create none none (1 + oh.level) true)
      match s1.modify new_header (fun n => { n with bottom := some old_header }) with
      | none => none
      | some s2 =>
        match s2.modify old_header (fun n => { n with top := some new_header }) with
        | none => none
        | some s3 => some { s3 with header := some new_header }

/-- The four statements "insert `new_node` after `target`" shared by `node_promote` and
`oset_insert`:
`new_node->next = target->next; new_node->previous = target; target->next = new_node;`
`if (new_node->next != OSET_EOF) new_node->next->previous = new_node;`. -/
def link_after (s : ordered_set K V) (target new_node : Nat) : Option (ordered_set K V) :=
  match s.heap target with
  | none => none
  | some t =>
    match s.modify new_node (fun n => { n with next := t.next }) with
    | none => none
    | some s1 =>
      match s1.modify new_node (fun n => { n with previous := some target }) with
      | none => none
      | some s2 =>
        match s2.modify target (fun n => { n with next := some new_node }) with
        | none => none
        | some s3 =>
          match s3.heap new_node with
          | none => none
          | some nn =>
            match nn.next with
            | none => some s3
            | some nx => s3.modify nx (fun n => { n with previous := some new_node })

/-- The loop of `node_promote`,
`while (target != OSET_BOF && target->top == OSET_EOF) target = target->previous;`
returning the final `target`. -/
def promote_scan (s : ordered_set K V) : Nat → OrderedSetNode → Option OrderedSetNode
  | _, none => some none
  | 0, some _ => none
  | fuel + 1, some t =>
    match s.heap t with
    | none => none
    | some n =>
      match n.top with
      | some _ => some (some t)
      | none => promote_scan s fuel n.previous

/-- The second half of `node_promote`, from the call of `node_create` on: create the copy of
`node` for the next level, insert it after `target`, and connect the copy and `node`
vertically. -/
def promote_link (s : ordered_set K V) (node target : Nat) : Option (ordered_set K V) :=
  match s.heap node with
  | none => none
  | some n =>
    let new_node := s.brk
    let s2 := s.malloc (node_create n.key n.value (1 + n.level) n.is_header)
    match link_after s2 target new_node with
    | none => none
    | some s3 =>
      match s3.modify node (fun x => { x with top := some new_node }) with
      | none => none
      | some s4 => s4.modify new_node (fun x => { x with bottom := some node })

/-- The C function `node_promote`: locate `target` (creating a level when the scan runs off
the left end), then link the copy of `node` behind it (`promote_link`). -/
def node_promote (s : ordered_set K V) (node : Nat) : Option (ordered_set K V) :=
  match s.heap node with
  | none => none
  | some n0 =>
    match promote_scan s (s.brk + 1) n0.previous with
    | none => none
    | some none =>
      match level_create s with
      | none => none
      | some s1 =>
        match s1.header with
        | none => none
        | some target => promote_link s1 node target
    | some (some t) =>
      match s.heap t with
      | none => none
      | some tn =>
        match tn.top with
        | none => none
        | some target => promote_link s node target

/-- The loop of `node_destroy_top`, `while (node != OSET_EOF) { ... }`. -/
def node_destroy_top (destroy_key destroy_value : DestroyFunc) :
    Nat → ordered_set K V → OrderedSetNode → Option (ordered_set K V)
  | _, s, none => some s
  | 0, _, some _ => none
  | fuel + 1, s, some node =>
    match s.heap node with
    | none => none
    | some n =>
      let top := n.top
      let relinked_next : Option (ordered_set K V) :=
        match n.next with
        | none => some s
        | some nx => s.modify nx (fun x => { x with previous := n.previous })
      match relinked_next with
      | none => none
      | some s1 =>
        match s1.heap node with
        | none => none
        | some n1 =>
          let relinked_previous : Option (ordered_set K V) :=
            match n1.previous with
            | none => some s1
            | some pv => s1.modify pv (fun x => { x with next := n1.next })
          match relinked_previous with
          | none => none
          | some s2 =>
            match node_destroy s2 node destroy_key destroy_value with
            | none => none
            | some s3 => node_destroy_top destroy_key destroy_value fuel s3 top

/-! ## Public operations -/

/-- The C function `oset_create` (both allocations succeed); the header gets address `0`. -/
def oset_create (compare : K → K → Int) (destroy_key destroy_value : DestroyFunc) :
    ordered_set K V :=
  let s0 : ordered_set K V :=
    { compare := compare, destroy_key := destroy_key, destroy_value := destroy_value,
      size := 0, first := OSET_EOF, last := OSET_EOF, header := OSET_EOF,
      heap := fun _ => none, brk := 0, calls := [] }
  let header := s0.brk
  -- the key and value of a header are `OSET_BOF`, the null pointer
  let s1 := s0.malloc (node_create none none 0 true)
  { s1 with header := some header }

/-- The C function `oset_set_destroy_key`: the previous destructor and the new set. -/
def oset_set_destroy_key (s : ordered_set K V) (destroy_key : DestroyFunc) :
    DestroyFunc × ordered_set K V :=
  (s.destroy_key, { s with destroy_key := destroy_key })

/-- The C function `oset_set_destroy_value`: the previous destructor and the new set. -/
def oset_set_destroy_value (s : ordered_set K V) (destroy_value : DestroyFunc) :
    DestroyFunc × ordered_set K V :=
  (s.destroy_value, { s with destroy_value := destroy_value })

/-- The C function `oset_size`. -/
def oset_size (s : ordered_set K V) : Int := s.size

/-- The promotion loop of `oset_insert`,
`while (coinflip() == HEADS) { node_promote(oset, promotion); promotion = promotion->top; }`,
where `coinflip()` returns `HEADS` exactly `heads` times before it returns `TAILS`. -/
def promote_loop : Nat → ordered_set K V → OrderedSetNode → Option (ordered_set K V)
  | 0, s, _ => some s
  | _ + 1, _, none => none
  | heads + 1, s, some promotion =>
    match node_promote s promotion with
    | none => none
    | some s1 =>
      match s1.heap promotion with
      | none => none
      | some p => promote_loop heads s1 p.top

/-- The statement `if (oset->first == OSET_EOF || compare(new_node->key, oset->first->key) < 0)
oset->first = new_node;` of `oset_insert`. -/
def update_first (s : ordered_set K V) (new_node : Nat) : Option (ordered_set K V) :=
  match s.first with
  | none => some { s with first := some new_node }
  | some f =>
    match s.heap new_node, s.heap f with
    | some nn, some fn =>
      match nn.key, fn.key with
      | some nk, some fk =>
        if s.compare nk fk < 0 then some { s with first := some new_node } else some s
      | _, _ => none
    | _, _ => none

/-- The statement `if (oset->last == OSET_EOF || compare(new_node->key, oset->last->key) > 0)
oset->last = new_node;` of `oset_insert`. -/
def update_last (s : ordered_set K V) (new_node : Nat) : Option (ordered_set K V) :=
  match s.last with
  | none => some { s with last := some new_node }
  | some l =>
    match s.heap new_node, s.heap l with
    | some nn, some ln =>
      match nn.key, ln.key with
      | some nk, some lk =>
        if s.compare nk lk > 0 then some { s with last := some new_node } else some s
      | _, _ => none
    | _, _ => none

/-- The C function `oset_insert`; `key` is not `NULL` (the assertion), `value` may be, and
`heads` is the number of `HEADS` that `coinflip()` returns before its first `TAILS`. -/
def oset_insert (s : ordered_set K V) (key : K) (value : Option V) (heads : Nat) :
    Option (ordered_set K V) :=
  match node_find_previous s key with
  | none => none
  | some none => none
  | some (some node) =>
    let new_node := s.brk
    let s1 := s.malloc (node_create (some key) value 0 false)
    match link_after s1 node new_node with
    | none => none
    | some s2 =>
      match promote_loop heads s2 (some new_node) with
      | none => none
      | some s3 =>
        match update_first s3 new_node with
        | none => none
        | some s4 =>
          match update_last s4 new_node with
          | none => none
          | some s5 => some { s5 with size := s5.size + 1 }

/-- The C function `oset_remove`: the returned flag and the set afterwards. -/
def oset_remove (s : ordered_set K V) (key : K) : Option (Bool × ordered_set K V) :=
  match node_find_previous s key with
  | none => none
  | some none => none
  | some (some node) =>
    match s.heap node with
    | none => none
    | some n =>
      match n.next with
      | none => some (false, s)
      | some nx =>
        match s.heap nx with
        | none => none
        | some x =>
          match x.key with
          | none => none
          | some xk =>
            if s.compare xk key ≠ 0 then some (false, s)
            else
              let first_updated : Option (ordered_set K V) :=
                if n.next = s.first then
                  match s.heap nx with
                  | none => none
                  | some fn => some { s with first := fn.next }
                else some s
              match first_updated with
              | none => none
              | some s1 =>
                let s2 : ordered_set K V :=
                  if n.next = s1.last then
                    { s1 with last := if n.is_header then OSET_BOF else some node }
                  else s1
                match node_destroy_top s2.destroy_key s2.destroy_value (s2.brk + 1) s2 n.next with
                | none => none
                | some s3 => some (true, { s3 with size := s3.size - 1 })

/-- The C function `oset_find_node`. -/
def oset_find_node (s : ordered_set K V) (key : K) : Option OrderedSetNode :=
  match node_find_previous s key with
  | none => none
  | some none => none
  | some (some node) =>
    match s.heap node with
    | none => none
    | some n =>
      match n.next with
      | none => some OSET_EOF
      | some nx =>
        match s.heap nx with
        | none => none
        | some x =>
          match x.key with
          | none => none
          | some xk => if s.compare xk key = 0 then some (some nx) else some OSET_EOF

/-- The C function `oset_find`: `none` is a failure, `some none` the result `NULL`. -/
def oset_find (s : ordered_set K V) (key : K) : Option (Option V) :=
  match oset_find_node s key with
  | none => none
  | some none => some none
  | some (some node) =>
    match s.heap node with
    | none => none
    | some n => some n.value

/-- The C function `oset_node_key` (`node` is not `NULL`). -/
def oset_node_key (s : ordered_set K V) (node : Nat) : Option (Option K) :=
  (s.heap node).map fun n => n.key

/-- The C function `oset_node_value` (`node` is not `NULL`). -/
def oset_node_value (s : ordered_set K V) (node : Nat) : Option (Option V) :=
  (s.heap node).map fun n => n.value

/-- The C function `oset_first`. -/
def oset_first (s : ordered_set K V) : OrderedSetNode := s.first

/-- The C function `oset_last`. -/
def oset_last (s : ordered_set K V) : OrderedSetNode := s.last

/-- The C function `oset_next` (`node` is not `NULL`). -/
def oset_next (s : ordered_set K V) (node : Nat) : Option OrderedSetNode :=
  (s.heap node).map fun n => n.next

/-- The C function `oset_previous` (`node` is not `NULL`). -/
def oset_previous (s : ordered_set K V) (node : Nat) : Option OrderedSetNode :=
  (s.heap node).map fun n => n.previous

/-! ## Client loops and observations -/

/-- The client loop `for (node = start; node != OSET_EOF; node = oset_next(oset, node))` of the
tests: the addresses of the visited nodes, in order. -/
def traverse_forward (s : ordered_set K V) : Nat → OrderedSetNode → Option (List Nat)
  | _, none => some []
  | 0, some _ => none
  | fuel + 1, some node =>
    match oset_next s node with
    | none => none
    | some nx =>
      match traverse_forward s fuel nx with
      | none => none
      | some rest => some (node :: rest)

/-- The client loop `for (node = start; node != OSET_BOF; node = oset_previous(oset, node))` of
the tests: the addresses of the visited nodes, in order. -/
def traverse_backward (s : ordered_set K V) : Nat → OrderedSetNode → Option (List Nat)
  | _, none => some []
  | 0, some _ => none
  | fuel + 1, some node =>
    match oset_previous s node with
    | none => none
    | some pv =>
      match traverse_backward s fuel pv with
      | none => none
      | some rest => some (node :: rest)

/-- The ascending traversal of the tests: from `oset_first` along `oset_next` to `OSET_EOF`. -/
def ascending (s : ordered_set K V) : Option (List Nat) :=
  traverse_forward s (s.brk + 1) (oset_first s)

/-- The descending traversal of the tests: from `oset_last` along `oset_previous` to
`OSET_BOF`. -/
def descending (s : ordered_set K V) : Option (List Nat) :=
  traverse_backward s (s.brk + 1) (oset_last s)

/-- The key reference stored in the cell at address `a`, if there is one. -/
def key_at (s : ordered_set K V) (a : Nat) : Option K :=
  (s.heap a).bind fun n => n.key

/-- The value reference stored in the cell at address `a` (`none` also for `NULL`). -/
def value_at (s : ordered_set K V) (a : Nat) : Option V :=
  (s.heap a).bind fun n => n.value

/-- The (key, value) pairs read through `oset_node_key` and `oset_node_value` at the given
nodes; `none` when one of the nodes is not allocated or carries a `NULL` key. -/
def pairs_at (s : ordered_set K V) : List Nat → Option (List (K × Option V))
  | [] => some []
  | a :: rest =>
    match oset_node_key s a, oset_node_value s a, pairs_at s rest with
    | some (some k), some v, some ps => some ((k, v) :: ps)
    | _, _, _ => none

/-- The header of level 0: follow `bottom` from the top header `oset->header`. -/
def bottom_header (s : ordered_set K V) : Nat → Nat → Option Nat
  | 0, _ => none
  | fuel + 1, node =>
    match s.heap node with
    | none => none
    | some n =>
      match n.bottom with
      | none => some node
      | some b => bottom_header s fuel b

/-- The level-0 chain of the set: the nodes that follow the level-0 header along `next`. -/
def level0 (s : ordered_set K V) : Option (List Nat) :=
  match s.header with
  | none => none
  | some h =>
    match bottom_header s (s.brk + 1) h with
    | none => none
    | some h0 =>
      match oset_next s h0 with
      | none => none
      | some start => traverse_forward s (s.brk + 1) start

/-- The entries of the set: the (key, value) pairs along the level-0 chain. -/
def entries (s : ordered_set K V) : Option (List (K × Option V)) :=
  (level0 s).bind (pairs_at s)

/-- The key stored at address `a` compares equal to `key`. -/
def key_eq (s : ordered_set K V) (key : K) (a : Nat) : Bool :=
  match key_at s a with
  | some ka => decide (s.compare ka key = 0)
  | none => false

/-- One call of the public mutators: an insertion (with the number of `HEADS` its coin flips
produce) or a removal. -/
inductive Op (K V : Type) where
  | insert (key : K) (value : Option V) (heads : Nat)
  | remove (key : K)

/-- The call is an insertion. -/
def Op.is_insert : Op K V → Bool
  | Op.insert _ _ _ => true
  | Op.remove _ => false

/-- Apply one call to the set. -/
def Op.apply (s : ordered_set K V) : Op K V → Option (ordered_set K V)
  | Op.insert key value heads => oset_insert s key value heads
  | Op.remove key => (oset_remove s key).map Prod.snd

/-- Apply a sequence of calls, first to last. -/
def run_ops (s : ordered_set K V) : List (Op K V) → Option (ordered_set K V)
  | [] => some s
  | op :: rest => (op.apply s).bind fun s1 => run_ops s1 rest

/-- Apply a sequence of calls, first to last, counting the insertions and the removals that
returned `true`: the two counts and the final set. -/
def run_count (s : ordered_set K V) : List (Op K V) → Option (Nat × Nat × ordered_set K V)
  | [] => some (0, 0, s)
  | Op.insert key value heads :: rest =>
    match oset_insert s key value heads with
    | none => none
    | some s1 =>
      match run_count s1 rest with
      | none => none
      | some (n, r, s2) => some (n + 1, r, s2)
  | Op.remove key :: rest =>
    match oset_remove s key with
    | none => none
    | some (found, s1) =>
      match run_count s1 rest with
      | none => none
      | some (n, r, s2) => some (n, if found then r + 1 else r, s2)

/-- A sequence of insertions, each given by its key, its value and the number of `HEADS` of
its coin flips. -/
def insert_calls (ins : List (K × Option V × Nat)) : List (Op K V) :=
  ins.map fun t => Op.insert t.1 t.2.1 t.2.2

/-- The comparator `compare_ints` of the tests, on mathematical integers. -/
def int_compare : Int → Int → Int := fun a b => a - b

/-- The scenario of the specification: insert (5,50), (3,30), (8,80), (3,31) in this order,
with some coin flips. -/
def demo_inserts : List (Int × Option Int × Nat) :=
  [(5, some 50, 1), (3, some 30, 0), (8, some 80, 2), (3, some 31, 1)]

/-- The set built by the scenario `demo_inserts` with `compare_ints` and no destructors. -/
def demo_set : ordered_set Int Int :=
  (run_ops (oset_create int_compare none none) (insert_calls demo_inserts)).getD
    (oset_create int_compare none none)

/-- A mixed sequence of calls: insert (3,30), remove the absent key 4, insert (3,31), remove
key 3. -/
def demo_calls : List (Op Int Int) :=
  [Op.insert 3 (some 30) 1, Op.remove 4, Op.insert 3 (some 31) 0, Op.remove 3]

/-- The set holding the single entry (1,10). -/
def solo_set : ordered_set Int Int :=
  (run_ops (oset_create int_compare none none) [Op.insert 1 (some 10) 0]).getD
    (oset_create int_compare none none)

/-- The set built by inserting (3,30) and then (3,31), two entries with equal keys. -/
def twin_set : ordered_set Int Int :=
  (run_ops (oset_create int_compare none none)
    [Op.insert 3 (some 30) 0, Op.insert 3 (some 31) 0]).getD
    (oset_create int_compare none none)

/-- A comparator that is a consistent three-way total (pre)order: swapping the arguments
swaps the sign, and "less than or equal" is transitive. -/
structure TotalCompare (compare : K → K → Int) : Prop where
  swap_neg : ∀ a b, compare a b < 0 ↔ 0 < compare b a
  le_trans : ∀ a b c, compare a b ≤ 0 → compare b c ≤ 0 → compare a c ≤ 0

/-! ## The representation invariant

The nodes of a well-formed set are laid out in rows: `rows j` lists the addresses of the
nodes of level `j` from left to right, the header of the level first.  `H` is the number of
levels; the rows from `H` on are empty. -/

/-- Insert `x` into the list `l` so that it gets index `i`. -/
def ins_at {α : Type} (l : List α) (i : Nat) (x : α) : List α :=
  l.take i ++ x :: l.drop i

/-- Replace row `j` by `r`. -/
def set_row (rows : Nat → List Nat) (j : Nat) (r : List Nat) : Nat → List Nat :=
  fun m => if m = j then r else rows m

/-- Horizontal well-formedness: the rows are duplicate-free and pairwise disjoint, they hold
exactly the allocated cells, and inside every row `next` and `previous` link each node with its
neighbours, the first node being the only header and the only node without a key; a header
has no value either. -/
structure Hz (s : ordered_set K V) (rows : Nat → List Nat) : Prop where
  nodup : ∀ j, (rows j).Nodup
  disj : ∀ j j2 a, a ∈ rows j → a ∈ rows j2 → j = j2
  live : ∀ a n, s.heap a = some n → ∃ j, a ∈ rows j
  fresh : ∀ a, s.brk ≤ a → s.heap a = none
  link : ∀ j i a, (rows j)[i]? = some a → ∃ n, s.heap a = some n ∧
    n.next = (rows j)[i + 1]? ∧
    n.previous = (if i = 0 then none else (rows j)[i - 1]?) ∧
    n.level = (j : Int) ∧ n.is_header = decide (i = 0) ∧ (n.key = none ↔ i = 0) ∧
    (i = 0 → n.value = none)

/-- Vertical well-formedness: below every node of a level above 0 sits a node of the level
underneath with the same key, value and header flag whose `top` points back, nodes of level 0
have no `bottom`, and a `top` pointer leads to a node of the next level whose `bottom` points
back.  The node `ex`, if any, is exempt from the condition on `bottom`. -/
structure Vt (s : ordered_set K V) (rows : Nat → List Nat) (ex : OrderedSetNode) : Prop where
  down : ∀ j a n, a ∈ rows j → s.heap a = some n → some a ≠ ex →
    (n.bottom = none ∧ j = 0) ∨
    (∃ b nb, n.bottom = some b ∧ 0 < j ∧ b ∈ rows (j - 1) ∧ s.heap b = some nb ∧
      nb.top = some a ∧ nb.key = n.key ∧ nb.value = n.value ∧ nb.is_header = n.is_header)
  up : ∀ j a n t, a ∈ rows j → s.heap a = some n → n.top = some t →
    ∃ nt, t ∈ rows (j + 1) ∧ s.heap t = some nt ∧ nt.bottom = some a

/-- Well-formedness of the linked structure with `H` levels. -/
structure Wf (s : ordered_set K V) (rows : Nat → List Nat) (H : Nat) (ex : OrderedSetNode) :
    Prop where
  hz : Hz s rows
  vt : Vt s rows ex
  height_pos : 0 < H
  height_le : H ≤ s.brk
  rows_le : ∀ j, (rows j).length ≤ s.brk
  row_nil : ∀ j, H ≤ j → rows j = []
  row_ne : ∀ j, j < H → rows j ≠ []
  header_eq : s.header = (rows (H - 1))[0]?

/-- The invariant of the sets built by `oset_create`, `oset_insert` and `oset_remove`: the
linked structure is well formed, the keys of level 0 are non-decreasing, `size` counts the
entries of level 0, and `first` and `last` are `OSET_EOF` or entries of level 0. -/
structure Inv (s : ordered_set K V) (rows : Nat → List Nat) (H : Nat) : Prop where
  wf : Wf s rows H none
  sorted : ∀ i i2 a a2 k k2, 0 < i → i < i2 → (rows 0)[i]? = some a → (rows 0)[i2]? = some a2 →
    key_at s a = some k → key_at s a2 = some k2 → s.compare k k2 ≤ 0
  size_eq : s.size = ((rows 0).length : Int) - 1
  first_mem : s.first = none ∨ ∃ i, 0 < i ∧ (rows 0)[i]? = s.first
  last_mem : s.last = none ∨ ∃ i, 0 < i ∧ (rows 0)[i]? = s.last

/-- The fields of a node that the horizontal structure depends on. -/
def hview (n : ordered_set_node K V) :
    OrderedSetNode × OrderedSetNode × Int × Bool × Option K × Option V :=
  (n.next, n.previous, n.level, n.is_header, n.key, n.value)

/-- The fields of a node that the vertical structure depends on. -/
def vview (n : ordered_set_node K V) :
    OrderedSetNode × OrderedSetNode × Option K × Option V × Bool :=
  (n.top, n.bottom, n.key, n.value, n.is_header)

/-- Every cell allocated in `s` is still allocated in `s2` and holds the same key and value. -/
def Payload (s s2 : ordered_set K V) : Prop :=
  ∀ b n, s.heap b = some n → ∃ n2, s2.heap b = some n2 ∧ n2.key = n.key ∧ n2.value = n.value

/-- The two sets agree on every field except the heap, `header` and `brk`. -/
structure Scalars (s s2 : ordered_set K V) : Prop where
  compare : s2.compare = s.compare
  destroy_key : s2.destroy_key = s.destroy_key
  destroy_value : s2.destroy_value = s.destroy_value
  size : s2.size = s.size
  first : s2.first = s.first
  last : s2.last = s.last
  calls : s2.calls = s.calls

/-- The two sets agree on every field except the heap. -/
structure Frame (s s2 : ordered_set K V) : Prop where
  compare : s2.compare = s.compare
  destroy_key : s2.destroy_key = s.destroy_key
  destroy_value : s2.destroy_value = s.destroy_value
  size : s2.size = s.size
  first : s2.first = s.first
  last : s2.last = s.last
  header : s2.header = s.header
  brk : s2.brk = s.brk
  calls : s2.calls = s.calls

/-- The effect of a successful `oset_insert s k v` with result `s2`: the new node has the
address `s.brk` and follows the node `p` of index `i` of level 0, which is the last one with
a key smaller than `k`. -/
structure InsertPost (s : ordered_set K V) (rows : Nat → List Nat) (k : K) (v : Option V)
    (s2 : ordered_set K V) (rows2 : Nat → List Nat) (i p : Nat) : Prop where
  pred_at : (rows 0)[i]? = some p
  found : node_find_previous s k = some (some p)
  row0 : rows2 0 = ins_at (rows 0) (i + 1) s.brk
  before : ∀ m a, 0 < m → m ≤ i → (rows 0)[m]? = some a →
    ∃ ka, key_at s a = some ka ∧ s.compare ka k < 0
  after : ∀ m a, i < m → (rows 0)[m]? = some a →
    ∃ ka, key_at s a = some ka ∧ ¬ s.compare ka k < 0
  payload : Payload s s2
  new_key : key_at s2 s.brk = some k
  new_value : value_at s2 s.brk = v
  size : s2.size = s.size + 1
  compare : s2.compare = s.compare
  destroy_key : s2.destroy_key = s.destroy_key
  destroy_value : s2.destroy_value = s.destroy_value
  calls : s2.calls = s.calls
  brk : s.brk < s2.brk
  first_none : s.first = none → s2.first = some s.brk
  first_some : ∀ f fk, s.first = some f → key_at s f = some fk →
    s2.first = if s.compare k fk < 0 then some s.brk else some f
  last_none : s.last = none → s2.last = some s.brk
  last_some : ∀ f fk, s.last = some f → key_at s f = some fk →
    s2.last = if s.compare k fk > 0 then some s.brk else some f

/-- The effect of a successful `oset_remove s key` with result `s2`: the removed node `nx` has
index `i + 1` on level 0, right behind the node `p` found by `node_find_previous`, and is the
first node whose key compares equal to `key`. -/
structure RemovePost (s : ordered_set K V) (rows : Nat → List Nat) (key : K)
    (s2 : ordered_set K V) (rows2 : Nat → List Nat) (i p nx : Nat) : Prop where
  pred_at : (rows 0)[i]? = some p
  found : node_find_previous s key = some (some p)
  victim_at : (rows 0)[i + 1]? = some nx
  victim_eq : ∃ kx, key_at s nx = some kx ∧ s.compare kx key = 0
  before : ∀ m a, 0 < m → m ≤ i → (rows 0)[m]? = some a →
    ∃ ka, key_at s a = some ka ∧ s.compare ka key < 0
  row0 : rows2 0 = (rows 0).eraseIdx (i + 1)
  rows_sub : ∀ m a, a ∈ rows2 m → a ∈ rows m
  survive : ∀ a n2, s2.heap a = some n2 →
    ∃ n, s.heap a = some n ∧ n2.key = n.key ∧ n2.value = n.value
  freed : s2.heap nx = none
  size : s2.size = s.size - 1
  compare : s2.compare = s.compare
  destroy_key : s2.destroy_key = s.destroy_key
  destroy_value : s2.destroy_value = s.destroy_value
  header : s2.header = s.header
  brk : s2.brk = s.brk
  calls : ∃ xn, s.heap nx = some xn ∧
    s2.calls = s.calls ++ destroy_calls xn s.destroy_key s.destroy_value
  first : s2.first = if s.first = some nx then (rows 0)[i + 2]? else s.first
  last : s2.last = if s.last = some nx then (if i = 0 then none else some p) else s.last

/-- Further invariants of level 0: among entries with equal keys the later allocated one comes
first, `last` is exactly the last entry, `first` is `OSET_EOF` only on an empty set, and no
entry in front of `first` has a key smaller than the key of `first`. -/
structure Ext (s : ordered_set K V) (rows : Nat → List Nat) : Prop where
  recent : ∀ i i2 a a2 k k2, 0 < i → i < i2 → (rows 0)[i]? = some a →
    (rows 0)[i2]? = some a2 → key_at s a = some k → key_at s a2 = some k2 →
    s.compare k2 k ≤ 0 → a2 < a
  last_eq : s.last = if (rows 0).length ≤ 1 then none else (rows 0)[(rows 0).length - 1]?
  first_none : s.first = none → (rows 0).length ≤ 1
  first_min : ∀ q f kf, 0 < q → (rows 0)[q]? = some f → s.first = some f →
    key_at s f = some kf → ∀ m a ka, 0 < m → m < q → (rows 0)[m]? = some a →
    key_at s a = some ka → s.compare kf ka ≤ 0

/-- The sets reachable from a freshly created set by inserts (with any coin flips) and
removes. -/
def Reachable (s : ordered_set K V) : Prop :=
  ∃ (dk dv : DestroyFunc) (ops : List (Op K V)),
    run_ops (oset_create s.compare dk dv) ops = some s

/-! ## Teardown, and the operations whose bodies the source leaves empty -/

/-- A set handle (`OrderedSet` in C, a pointer to a `struct ordered_set`): `none` is the null
pointer and `some s` a pointer to a set in state `s`. -/
abbrev OrderedSet (K V : Type) := Option (ordered_set K V)

/-- Modelled from the spec: the macro `OSET_ERROR` of the header `ADTOrderedSet.h`, which is not
among the sources.  The "designated error value" is the null handle: `oset_create` returns
`OSET_ERROR` exactly when `malloc` returned `NULL` for the set, and the tests compare a created
set with `OSET_ERROR` to see that the allocation worked. -/
abbrev OSET_ERROR : OrderedSet K V := none

/-- The inner loop of `oset_destroy`,
`while (node != OSET_EOF) { next = node->next; node_destroy(node, ...); node = next; }`. -/
def destroy_level (destroy_key destroy_value : DestroyFunc) :
    Nat → ordered_set K V → OrderedSetNode → Option (ordered_set K V)
  | _, s, none => some s
  | 0, _, some _ => none
  | fuel + 1, s, some node =>
    match s.heap node with
    | none => none
    | some n =>
      match node_destroy s node destroy_key destroy_value with
      | none => none
      | some s1 => destroy_level destroy_key destroy_value fuel s1 n.next

/-- The outer loop of `oset_destroy`,
`while (node != OSET_EOF) { bottom = node->bottom; ...inner loop...; node = bottom; }`. -/
def destroy_levels : Nat → ordered_set K V → OrderedSetNode → Option (ordered_set K V)
  | _, s, none => some s
  | 0, _, some _ => none
  | fuel + 1, s, some node =>
    match s.heap node with
    | none => none
    | some n =>
      match destroy_level s.destroy_key s.destroy_value (s.brk + 1) s (some node) with
      | none => none
      | some s1 => destroy_levels fuel s1 n.bottom

/-- The C function `oset_destroy`: the memory and the log of destructor invocations when the
function returns (the final `free(oset)` ends the life of the record itself). -/
def oset_destroy (s : ordered_set K V) : Option (ordered_set K V) :=
  destroy_levels (s.brk + 1) s s.header

/-- The C function `oset_split`, whose body is `return OSET_ERROR;`: the returned handle and
the receiver after the call. -/
def oset_split (oset : ordered_set K V) (_split_key : K) : OrderedSet K V × ordered_set K V :=
  (OSET_ERROR, oset)

/-- The C function `oset_merge`, whose body is empty: the sets behind `a` and `b` after the
call. -/
def oset_merge (a : ordered_set K V) (b : OrderedSet K V) : ordered_set K V × OrderedSet K V :=
  (a, b)

/-- The C function `oset_concat`, whose body is empty: the sets behind `a` and `b` after the
call. -/
def oset_concat (a : ordered_set K V) (b : OrderedSet K V) : ordered_set K V × OrderedSet K V :=
  (a, b)

/-! ## Further observations -/

/-- The (key, value) pairs seen by the ascending traversal of the tests, from `oset_first`
along `oset_next` to `OSET_EOF`. -/
def iterate (s : ordered_set K V) : Option (List (K × Option V)) :=
  (ascending s).bind (pairs_at s)

/-- The node reached from `node` by following `top` `d` times. -/
def tower_up (s : ordered_set K V) : Nat → Nat → Option Nat
  | 0, node => some node
  | d + 1, node =>
    match s.heap node with
    | none => none
    | some n =>
      match n.top with
      | none => none
      | some t => tower_up s d t

/-- The node reached from `node` by following `bottom` `d` times. -/
def tower_down (s : ordered_set K V) : Nat → Nat → Option Nat
  | 0, node => some node
  | d + 1, node =>
    match s.heap node with
    | none => none
    | some n =>
      match n.bottom with
      | none => none
      | some b => tower_down s d b

/-- Every cell allocated in `s2` was already allocated in `s`, with the same `top` and
`bottom`. -/
def Upright (s s2 : ordered_set K V) : Prop :=
  ∀ b n2, s2.heap b = some n2 → ∃ n, s.heap b = some n ∧ n2.top = n.top ∧ n2.bottom = n.bottom

/-- The destructor invocations that `node_destroy` makes on the cells `l` of the set `s`, in
this order. -/
def row_calls (s : ordered_set K V) (destroy_key destroy_value : DestroyFunc) (l : List Nat) :
    List (Call K V) :=
  (l.map fun a =>
    match s.heap a with
    | some n => destroy_calls n destroy_key destroy_value
    | none => []).flatten

/-- The destructor invocations owed to the entries `ps`: for each of them one call of the key
destructor `fk` on its key and one call of the value destructor `fv` on its value. -/
def entry_calls (fk fv : Nat) (ps : List (K × Option V)) : List (Call K V) :=
  (ps.map fun p => [Call.key fk (some p.1), Call.value fv p.2]).flatten

/-- The entries handed to the insertions among the calls, in the order of the calls. -/
def inserted : List (Op K V) → List (K × Option V)
  | [] => []
  | Op.insert key value _ :: rest => (key, value) :: inserted rest
  | Op.remove _ :: rest => inserted rest

deriving instance DecidableEq for Call

/-- The scenario of the specification for `split`: the keys 1 to 5, inserted in the order
3, 1, 5, 2, 4 with the values 10 times the key. -/
def span_set : ordered_set Int Int :=
  (run_ops (oset_create int_compare none none)
    [Op.insert 3 (some 30) 1, Op.insert 1 (some 10) 0, Op.insert 5 (some 50) 0,
      Op.insert 2 (some 20) 2, Op.insert 4 (some 40) 0]).getD
    (oset_create int_compare none none)

/-- The set with the odd keys 1 and 3 (value = key), as in `test_merge`. -/
def odd_set : ordered_set Int Int :=
  (run_ops (oset_create int_compare none none)
    [Op.insert 3 (some 3) 0, Op.insert 1 (some 1) 1]).getD
    (oset_create int_compare none none)

/-- The set with the even keys 0 and 2 (value = key), as in `test_merge`. -/
def even_set : ordered_set Int Int :=
  (run_ops (oset_create int_compare none none)
    [Op.insert 0 (some 0) 0, Op.insert 2 (some 2) 1]).getD
    (oset_create int_compare none none)

/-- The set with the keys 1, 2 and 3 (values 10 times the key). -/
def low_set : ordered_set Int Int :=
  (run_ops (oset_create int_compare none none)
    [Op.insert 2 (some 20) 0, Op.insert 1 (some 10) 1, Op.insert 3 (some 30) 0]).getD
    (oset_create int_compare none none)

/-- The set with the keys 4 and 5 (values 10 times the key). -/
def high_set : ordered_set Int Int :=
  (run_ops (oset_create int_compare none none)
    [Op.insert 5 (some 50) 0, Op.insert 4 (some 40) 0]).getD
    (oset_create int_compare none none)

/-- A run with destructors: insert (5,50), insert (3,30), remove key 5, insert (8,80). -/
def lifetime_calls : List (Op Int Int) :=
  [Op.insert 5 (some 50) 1, Op.insert 3 (some 30) 0, Op.remove 5, Op.insert 8 (some 80) 2]

/-! ## Order between the levels, and the sorted-list model of the interface -/

/-- The towers do not cross: when the node `a` comes before the node `a2` on a level above 0,
the node below `a` comes before the node below `a2` on the level underneath. -/
def Mono (s : ordered_set K V) (rows : Nat → List Nat) : Prop :=
  ∀ (j i i2 a a2 : Nat) (n n2 : ordered_set_node K V) (b b2 q q2 : Nat), i < i2 →
    (rows (j + 1))[i]? = some a → (rows (j + 1))[i2]? = some a2 →
    s.heap a = some n → s.heap a2 = some n2 → n.bottom = some b → n2.bottom = some b2 →
    (rows j)[q]? = some b → (rows j)[q2]? = some b2 → q < q2

/-- The elements of `l` that occur in `l2` occur there in the same order as in `l`. -/
def OrderKept (l2 l : List Nat) : Prop :=
  ∀ (i i2 a a2 : Nat), i < i2 → l2[i]? = some a → l2[i2]? = some a2 → a ∈ l → a2 ∈ l →
    ∃ q q2 : Nat, q < q2 ∧ l[q]? = some a ∧ l[q2]? = some a2

/-- Every cell with an address below `m` that is allocated in `s` is still allocated in `s2`
and has the same `bottom`. -/
def KeptBelow (m : Nat) (s s2 : ordered_set K V) : Prop :=
  ∀ b n, b < m → s.heap b = some n → ∃ n2, s2.heap b = some n2 ∧ n2.bottom = n.bottom

/-- The level of the top header `oset->header`. -/
def top_level (s : ordered_set K V) : Option Int :=
  s.header.bind fun h => (s.heap h).map fun n => n.level

/-- One call of the public interface, without the coin flips of an insertion. -/
inductive Cmd (K V : Type) where
  | insert (key : K) (value : Option V)
  | remove (key : K)
  | find (key : K)
  | find_node (key : K)

/-- What the caller observes of one call: nothing for `oset_insert`, the returned flag for
`oset_remove`, the returned value reference for `oset_find` (`none` is `NULL`), and for
`oset_find_node` either `OSET_EOF` (`none`) or the key and value read through the returned
node. -/
inductive Obs (K V : Type) where
  | done
  | removed (found : Bool)
  | value (v : Option V)
  | node (e : Option (K × Option V))
  deriving DecidableEq

/-- The key and value read through a node returned by `oset_find_node` (with `oset_node_key`
and `oset_node_value`); `some none` stands for the result `OSET_EOF`. -/
def node_entry (s : ordered_set K V) : OrderedSetNode → Option (Option (K × Option V))
  | none => some none
  | some a =>
    match oset_node_key s a, oset_node_value s a with
    | some (some k), some v => some (some (k, v))
    | _, _ => none

/-- Perform one call on the skip list, an insertion with `heads` times `HEADS`: what the
caller observes and the set afterwards. -/
def Cmd.run (s : ordered_set K V) (heads : Nat) : Cmd K V → Option (Obs K V × ordered_set K V)
  | Cmd.insert key value => (oset_insert s key value heads).map fun s2 => (Obs.done, s2)
  | Cmd.remove key => (oset_remove s key).map fun r => (Obs.removed r.1, r.2)
  | Cmd.find key => (oset_find s key).map fun w => (Obs.value w, s)
  | Cmd.find_node key =>
    ((oset_find_node s key).bind (node_entry s)).map fun e => (Obs.node e, s)

/-- Perform a sequence of calls on the skip list, where the call number `n` (if it is an
insertion) sees `coins n` times `HEADS`: the observations and the final set. -/
def run_cmds (coins : Nat → Nat) :
    Nat → ordered_set K V → List (Cmd K V) → Option (List (Obs K V) × ordered_set K V)
  | _, s, [] => some ([], s)
  | n, s, c :: rest =>
    match c.run s (coins n) with
    | none => none
    | some (o, s1) =>
      match run_cmds coins (n + 1) s1 rest with
      | none => none
      | some (os, s2) => some (o :: os, s2)

/-- Spec model: insertion into a plain sorted list, "before the first entry with key >= k". -/
def sorted_list_insert (cmp : K → K → Int) (k : K) (v : Option V) :
    List (K × Option V) → List (K × Option V)
  | [] => [(k, v)]
  | e :: rest =>
    if 0 ≤ cmp e.1 k then (k, v) :: e :: rest else e :: sorted_list_insert cmp k v rest

/-- Spec model: removal from a plain sorted list, "erases the first entry with key equal to
k"; the flag tells whether there was one. -/
def sorted_list_remove (cmp : K → K → Int) (k : K) :
    List (K × Option V) → Bool × List (K × Option V)
  | [] => (false, [])
  | e :: rest =>
    if cmp e.1 k = 0 then (true, rest)
    else ((sorted_list_remove cmp k rest).1, e :: (sorted_list_remove cmp k rest).2)

/-- Spec model: lookup in a plain sorted list, the first entry with key equal to `k`. -/
def sorted_list_find (cmp : K → K → Int) (k : K) (l : List (K × Option V)) :
    Option (K × Option V) :=
  l.find? fun e => decide (cmp e.1 k = 0)

/-- Spec model: one call on the plain sorted list. -/
def Cmd.model (cmp : K → K → Int) (l : List (K × Option V)) :
    Cmd K V → Obs K V × List (K × Option V)
  | Cmd.insert key value => (Obs.done, sorted_list_insert cmp key value l)
  | Cmd.remove key =>
    (Obs.removed (sorted_list_remove cmp key l).1, (sorted_list_remove cmp key l).2)
  | Cmd.find key => (Obs.value ((sorted_list_find cmp key l).bind fun e => e.2), l)
  | Cmd.find_node key => (Obs.node (sorted_list_find cmp key l), l)

/-- Spec model: a sequence of calls on the plain sorted list. -/
def model_cmds (cmp : K → K → Int) :
    List (K × Option V) → List (Cmd K V) → List (Obs K V) × List (K × Option V)
  | l, [] => ([], l)
  | l, c :: rest =>
    ((c.model cmp l).1 :: (model_cmds cmp (c.model cmp l).2 rest).1,
      (model_cmds cmp (c.model cmp l).2 rest).2)

/-- A sequence of calls with duplicate keys, removals and lookups. -/
def mixed_cmds : List (Cmd Int Int) :=
  [Cmd.insert 5 (some 50), Cmd.insert 3 (some 30), Cmd.find 3, Cmd.insert 3 (some 31),
    Cmd.find_node 3, Cmd.remove 4, Cmd.remove 3, Cmd.find 3, Cmd.insert 8 none,
    Cmd.find 8, Cmd.find_node 9]

/-- A coin-flip stream. -/
def coins_a : Nat → Nat := fun n => n % 3

/-- Another coin-flip stream. -/
def coins_b : Nat → Nat := fun n => (n + 2) % 4

/-- The set built by inserting (3,30) and then (3,31), each promoted once: two entries with
equal keys that both reach level 1. -/
def dup_set : ordered_set Int Int :=
  (run_ops (oset_create int_compare none none)
    [Op.insert 3 (some 30) 1, Op.insert 3 (some 31) 1]).getD
    (oset_create int_compare none none)

/-! # Theorems -/

/-! ## Lists -/

theorem getElem?_ins_at {α : Type} (l : List α) (i : Nat) (x : α) (k : Nat)
    (hi : i ≤ l.length) :
    (ins_at l i x)[k]? = if k < i then l[k]? else if k = i then some x else l[k - 1]? := by
  unfold ins_at
  rw [List.getElem?_append]
  have hl : (List.take i l).length = i := by simp [List.length_take]; omega
  rw [hl]
  by_cases h1 : k < i
  · simp [h1, List.getElem?_take]
  · simp only [h1, if_false]
    by_cases h2 : k = i
    · subst h2; simp
    · simp only [h2, if_false]
      obtain ⟨d, rfl⟩ : ∃ d, k = i + d + 1 := ⟨k - i - 1, by omega⟩
      have e1 : i + d + 1 - i = d + 1 := by omega
      have e2 : i + d + 1 - 1 = i + d := by omega
      rw [e1, e2, List.getElem?_cons_succ, List.getElem?_drop]

theorem length_ins_at {α : Type} (l : List α) (i : Nat) (x : α) :
    (ins_at l i x).length = l.length + 1 := by
  unfold ins_at
  simp [List.length_append, List.length_take, List.length_drop]
  omega

theorem mem_ins_at (l : List Nat) (i x a : Nat) : a ∈ ins_at l i x ↔ a = x ∨ a ∈ l := by
  unfold ins_at
  constructor
  · intro h
    rw [List.mem_append, List.mem_cons] at h
    rcases h with h | h | h
    · exact Or.inr (List.mem_of_mem_take h)
    · exact Or.inl h
    · exact Or.inr (List.mem_of_mem_drop h)
  · intro h
    rcases h with h | h
    · subst h; simp
    · have : a ∈ List.take i l ++ List.drop i l := by rw [List.take_append_drop]; exact h
      rw [List.mem_append] at this
      rcases this with h | h
      · exact List.mem_append_left _ h
      · exact List.mem_append_right _ (List.mem_cons_of_mem _ h)

theorem nodup_ins_at (l : List Nat) (i x : Nat) (hl : l.Nodup) (hx : x ∉ l) :
    (ins_at l i x).Nodup := by
  unfold ins_at
  have h0 : (List.take i l ++ List.drop i l).Nodup := by rw [List.take_append_drop]; exact hl
  rw [List.nodup_append] at h0
  obtain ⟨h1, h2, h3⟩ := h0
  rw [List.nodup_append]
  refine ⟨h1, ?_, ?_⟩
  · rw [List.nodup_cons]
    exact ⟨fun h => hx (List.mem_of_mem_drop h), h2⟩
  · intro a ha hb
    rw [List.mem_cons] at hb
    rcases hb with hb | hb
    · subst hb; exact hx (List.mem_of_mem_take ha)
    · exact h3 ha hb

theorem nodup_index_eq {l : List Nat} (hl : l.Nodup) {i j a : Nat}
    (hi : l[i]? = some a) (hj : l[j]? = some a) : i = j := by
  have h1 : i < l.length := by
    by_contra h
    rw [List.getElem?_eq_none (by omega)] at hi
    exact Option.noConfusion hi
  exact List.getElem?_inj h1 hl (hi.trans hj.symm)

theorem lt_length_of_getElem? {l : List Nat} {i a : Nat} (h : l[i]? = some a) :
    i < l.length := by
  by_contra hn
  rw [List.getElem?_eq_none (by omega)] at h
  exact Option.noConfusion h

theorem mem_of_getElem? {l : List Nat} {i a : Nat} (h : l[i]? = some a) : a ∈ l :=
  List.mem_iff_getElem?.mpr ⟨i, h⟩

/-! ## Memory primitives -/

@[simp]
theorem store_heap (s : ordered_set K V) (a b : Nat) (n : ordered_set_node K V) :
    (s.store a n).heap b = if b = a then some n else s.heap b := rfl

@[simp]
theorem store_brk (s : ordered_set K V) (a : Nat) (n : ordered_set_node K V) :
    (s.store a n).brk = s.brk := rfl

@[simp]
theorem store_header (s : ordered_set K V) (a : Nat) (n : ordered_set_node K V) :
    (s.store a n).header = s.header := rfl

@[simp]
theorem store_compare (s : ordered_set K V) (a : Nat) (n : ordered_set_node K V) :
    (s.store a n).compare = s.compare := rfl

@[simp]
theorem store_first (s : ordered_set K V) (a : Nat) (n : ordered_set_node K V) :
    (s.store a n).first = s.first := rfl

@[simp]
theorem store_last (s : ordered_set K V) (a : Nat) (n : ordered_set_node K V) :
    (s.store a n).last = s.last := rfl

@[simp]
theorem store_size (s : ordered_set K V) (a : Nat) (n : ordered_set_node K V) :
    (s.store a n).size = s.size := rfl

@[simp]
theorem store_calls (s : ordered_set K V) (a : Nat) (n : ordered_set_node K V) :
    (s.store a n).calls = s.calls := rfl

@[simp]
theorem store_destroy_key (s : ordered_set K V) (a : Nat) (n : ordered_set_node K V) :
    (s.store a n).destroy_key = s.destroy_key := rfl

@[simp]
theorem store_destroy_value (s : ordered_set K V) (a : Nat) (n : ordered_set_node K V) :
    (s.store a n).destroy_value = s.destroy_value := rfl

theorem modify_eq (s : ordered_set K V) (a : Nat) (f : ordered_set_node K V → ordered_set_node K V)
    (n : ordered_set_node K V) (h : s.heap a = some n) :
    s.modify a f = some (s.store a (f n)) := by
  simp [ordered_set.modify, h]

/-! ## Searching -/

theorem scan_level_spec {s : ordered_set K V} {rows : Nat → List Nat} (hz : Hz s rows)
    (key : K) (j : Nat) :
    ∀ fuel i a, (rows j)[i]? = some a → (rows j).length ≤ i + fuel →
      ∃ i2 p, i ≤ i2 ∧ (rows j)[i2]? = some p ∧ scan_level s key fuel a = some p ∧
        (∀ m b, i < m → m ≤ i2 → (rows j)[m]? = some b →
          ∃ kb, key_at s b = some kb ∧ s.compare kb key < 0) ∧
        (∀ b, (rows j)[i2 + 1]? = some b →
          ∃ kb, key_at s b = some kb ∧ ¬ s.compare kb key < 0) := by
  intro fuel
  induction fuel with
  | zero =>
    intro i a ha hlen
    have := lt_length_of_getElem? ha
    omega
  | succ fuel ih =>
    intro i a ha hlen
    obtain ⟨n, hn, hnext, -⟩ := hz.link j i a ha
    cases hnx : (rows j)[i + 1]? with
    | none =>
      refine ⟨i, a, le_refl _, ha, ?_, ?_, ?_⟩
      · simp [scan_level, hn, hnext, hnx]
      · intro m b h1 h2; omega
      · intro b hb; rw [hnx] at hb; exact Option.noConfusion hb
    | some nx =>
      obtain ⟨nn, hnn, -, -, -, -, hkey, -⟩ := hz.link j (i + 1) nx hnx
      cases hk : nn.key with
      | none => exact absurd (hkey.mp hk) (by omega)
      | some kx =>
        have hkat : key_at s nx = some kx := by simp [key_at, hnn, hk]
        by_cases hc : s.compare kx key < 0
        · obtain ⟨i2, p, h1, h2, h3, h4, h5⟩ := ih (i + 1) nx hnx (by omega)
          refine ⟨i2, p, by omega, h2, ?_, ?_, h5⟩
          · simp [scan_level, hn, hnext, hnx, hnn, hk, hc, h3]
          · intro m b hm1 hm2 hb
            by_cases hm : m = i + 1
            · subst hm
              rw [hnx] at hb
              cases hb
              exact ⟨kx, hkat, hc⟩
            · exact h4 m b (by omega) hm2 hb
        · refine ⟨i, a, le_refl _, ha, ?_, ?_, ?_⟩
          · simp [scan_level, hn, hnext, hnx, hnn, hk, hc]
          · intro m b h1 h2; omega
          · intro b hb
            rw [hnx] at hb
            cases hb
            exact ⟨kx, hkat, hc⟩

theorem find_previous_loop_spec {s : ordered_set K V} {rows : Nat → List Nat} {H : Nat}
    (wf : Wf s rows H none) (key : K) :
    ∀ j fuel i a tgt, j < fuel → (rows j)[i]? = some a →
      (i = 0 ∨ ∃ k, key_at s a = some k ∧ s.compare k key < 0) →
      ∃ i0 p, (rows 0)[i0]? = some p ∧
        find_previous_loop s key fuel tgt (some a) = some (some p) ∧
        (i0 = 0 ∨ ∃ k, key_at s p = some k ∧ s.compare k key < 0) ∧
        (∀ b, (rows 0)[i0 + 1]? = some b →
          ∃ kb, key_at s b = some kb ∧ ¬ s.compare kb key < 0) := by
  intro j
  induction j with
  | zero =>
    intro fuel i a tgt hf ha hleft
    obtain ⟨f, rfl⟩ : ∃ f, fuel = f + 1 := ⟨fuel - 1, by omega⟩
    obtain ⟨i2, p, h1, h2, h3, h4, h5⟩ :=
      scan_level_spec wf.hz key 0 (s.brk + 1) i a ha (by have := wf.rows_le 0; omega)
    obtain ⟨n, hn, -⟩ := wf.hz.link 0 i2 p h2
    have hleft2 : i2 = 0 ∨ ∃ k, key_at s p = some k ∧ s.compare k key < 0 := by
      by_cases hi : i2 = i
      · subst hi
        rw [ha] at h2; cases h2
        exact hleft
      · exact Or.inr (h4 i2 p (by omega) (le_refl _) h2)
    rcases wf.vt.down 0 p n (mem_of_getElem? h2) hn (by simp) with ⟨hb, -⟩ | ⟨b, nb, -, hpos, -⟩
    · refine ⟨i2, p, h2, ?_, hleft2, h5⟩
      simp [find_previous_loop, h3, hn, hb]
    · omega
  | succ j ih =>
    intro fuel i a tgt hf ha hleft
    obtain ⟨f, rfl⟩ : ∃ f, fuel = f + 1 := ⟨fuel - 1, by omega⟩
    obtain ⟨i2, p, h1, h2, h3, h4, h5⟩ :=
      scan_level_spec wf.hz key (j + 1) (s.brk + 1) i a ha
        (by have := wf.rows_le (j + 1); omega)
    obtain ⟨n, hn, -, -, -, hhdr, hkey, -⟩ := wf.hz.link (j + 1) i2 p h2
    have hleft2 : i2 = 0 ∨ ∃ k, key_at s p = some k ∧ s.compare k key < 0 := by
      by_cases hi : i2 = i
      · subst hi
        rw [ha] at h2; cases h2
        exact hleft
      · exact Or.inr (h4 i2 p (by omega) (le_refl _) h2)
    rcases wf.vt.down (j + 1) p n (mem_of_getElem? h2) hn (by simp) with
      ⟨-, h0⟩ | ⟨b, nb, hb, -, hbmem, hnb, -, hk, -, hh⟩
    · omega
    · simp only [Nat.add_sub_cancel] at hbmem
      obtain ⟨ib, hib⟩ := List.mem_iff_getElem?.mp hbmem
      obtain ⟨nb2, hnb2, -, -, -, hhdr2, -⟩ := wf.hz.link j ib b hib
      rw [hnb] at hnb2; cases hnb2
      have hleft3 : ib = 0 ∨ ∃ k, key_at s b = some k ∧ s.compare k key < 0 := by
        rcases hleft2 with h0 | ⟨k, hk1, hk2⟩
        · left
          subst h0
          have : nb.is_header = true := by rw [hh, hhdr]; simp
          rw [hhdr2] at this
          simpa using this
        · right
          refine ⟨k, ?_, hk2⟩
          simp only [key_at, hn, hnb, Option.some_bind] at hk1 ⊢
          rw [hk]; exact hk1
      obtain ⟨i0, q, g1, g2, g3, g4⟩ := ih f ib b (some p) (by omega) hib hleft3
      refine ⟨i0, q, g1, ?_, g3, g4⟩
      simp [find_previous_loop, h3, hn, hb, g2]

theorem node_find_previous_spec {s : ordered_set K V} {rows : Nat → List Nat} {H : Nat}
    (wf : Wf s rows H none) (key : K) :
    ∃ i0 p, (rows 0)[i0]? = some p ∧ node_find_previous s key = some (some p) ∧
      (i0 = 0 ∨ ∃ k, key_at s p = some k ∧ s.compare k key < 0) ∧
      (∀ b, (rows 0)[i0 + 1]? = some b →
        ∃ kb, key_at s b = some kb ∧ ¬ s.compare kb key < 0) := by
  have hne := wf.row_ne (H - 1) (by have := wf.height_pos; omega)
  obtain ⟨h, hh⟩ : ∃ h, (rows (H - 1))[0]? = some h := by
    cases hr : rows (H - 1) with
    | nil => exact absurd hr hne
    | cons x xs => exact ⟨x, by simp⟩
  have hhd : s.header = some h := by rw [wf.header_eq, hh]
  unfold node_find_previous
  rw [hhd]
  exact find_previous_loop_spec wf key (H - 1) (s.brk + 1) 0 h OSET_EOF
    (by have := wf.height_le; omega) hh (Or.inl rfl)

theorem link_after_spec (s : ordered_set K V) (target new_node : Nat)
    (t nn : ordered_set_node K V) (ht : s.heap target = some t) (hn : s.heap new_node = some nn)
    (hne : target ≠ new_node)
    (hnx : ∀ nx, t.next = some nx → nx ≠ new_node ∧ nx ≠ target ∧ ∃ x, s.heap nx = some x) :
    ∃ s2, link_after s target new_node = some s2 ∧ Frame s s2 ∧
      ∀ b, s2.heap b =
        if b = new_node then some { nn with next := t.next, previous := some target }
        else if b = target then some { t with next := some new_node }
        else if t.next = some b then
          (s.heap b).map fun x => { x with previous := some new_node }
        else s.heap b := by
  have e1 : s.modify new_node (fun n => { n with next := t.next }) =
      some (s.store new_node { nn with next := t.next }) := modify_eq s _ _ _ hn
  have e2 : (s.store new_node { nn with next := t.next }).modify new_node
      (fun n => { n with previous := some target }) =
      some ((s.store new_node { nn with next := t.next }).store new_node
        { nn with next := t.next, previous := some target }) :=
    modify_eq _ _ _ { nn with next := t.next } (by simp)
  have e3 : ((s.store new_node { nn with next := t.next }).store new_node
        { nn with next := t.next, previous := some target }).modify target
      (fun n => { n with next := some new_node }) =
      some (((s.store new_node { nn with next := t.next }).store new_node
        { nn with next := t.next, previous := some target }).store target
        { t with next := some new_node }) :=
    modify_eq _ _ _ t (by simp [hne, ht])
  cases htn : t.next with
  | none =>
    refine ⟨((s.store new_node { nn with next := t.next }).store new_node
        { nn with next := t.next, previous := some target }).store target
        { t with next := some new_node }, ?_, ?_, ?_⟩
    · simp only [link_after, ht, e1, e2, e3]
      simp [Ne.symm hne, htn]
    · exact ⟨rfl, rfl, rfl, rfl, rfl, rfl, rfl, rfl, rfl⟩
    · intro b
      by_cases h1 : b = new_node
      · subst h1
        simp [Ne.symm hne, htn]
      · by_cases h2 : b = target
        · subst h2; simp [h1]
        · simp [h1, h2]
  | some nx =>
    obtain ⟨h1, h2, x, hx⟩ := hnx nx htn
    refine ⟨(((s.store new_node { nn with next := t.next }).store new_node
        { nn with next := t.next, previous := some target }).store target
        { t with next := some new_node }).store nx { x with previous := some new_node },
        ?_, ?_, ?_⟩
    · simp only [link_after, ht, e1, e2, e3]
      simp [Ne.symm hne, htn, ordered_set.modify, h1, h2, hx]
    · exact ⟨rfl, rfl, rfl, rfl, rfl, rfl, rfl, rfl, rfl⟩
    · intro b
      by_cases h3 : b = new_node
      · subst h3
        simp [Ne.symm hne, Ne.symm h1, htn]
      · by_cases h4 : b = target
        · subst h4; simp [h3, Ne.symm h2]
        · by_cases h5 : b = nx
          · subst h5; simp [h3, h4, hx]
          · have : ¬ nx = b := fun h => h5 h.symm
            simp [h3, h4, h5, this]

@[simp]
theorem malloc_heap (s : ordered_set K V) (n : ordered_set_node K V) (b : Nat) :
    (s.malloc n).heap b = if b = s.brk then some n else s.heap b := rfl

@[simp]
theorem malloc_brk (s : ordered_set K V) (n : ordered_set_node K V) :
    (s.malloc n).brk = s.brk + 1 := rfl

@[simp]
theorem malloc_header (s : ordered_set K V) (n : ordered_set_node K V) :
    (s.malloc n).header = s.header := rfl

@[simp]
theorem malloc_compare (s : ordered_set K V) (n : ordered_set_node K V) :
    (s.malloc n).compare = s.compare := rfl

@[simp]
theorem malloc_first (s : ordered_set K V) (n : ordered_set_node K V) :
    (s.malloc n).first = s.first := rfl

@[simp]
theorem malloc_last (s : ordered_set K V) (n : ordered_set_node K V) :
    (s.malloc n).last = s.last := rfl

@[simp]
theorem malloc_size (s : ordered_set K V) (n : ordered_set_node K V) :
    (s.malloc n).size = s.size := rfl

@[simp]
theorem malloc_calls (s : ordered_set K V) (n : ordered_set_node K V) :
    (s.malloc n).calls = s.calls := rfl

@[simp]
theorem malloc_destroy_key (s : ordered_set K V) (n : ordered_set_node K V) :
    (s.malloc n).destroy_key = s.destroy_key := rfl

@[simp]
theorem malloc_destroy_value (s : ordered_set K V) (n : ordered_set_node K V) :
    (s.malloc n).destroy_value = s.destroy_value := rfl

theorem Hz.lt_brk {s : ordered_set K V} {rows : Nat → List Nat} (hz : Hz s rows)
    {j a : Nat} (ha : a ∈ rows j) : a < s.brk := by
  obtain ⟨i, hi⟩ := List.mem_iff_getElem?.mp ha
  obtain ⟨n, hn, -⟩ := hz.link j i a hi
  by_contra h
  rw [hz.fresh a (by omega)] at hn
  exact Option.noConfusion hn

theorem Hz.heap_of_mem {s : ordered_set K V} {rows : Nat → List Nat} (hz : Hz s rows)
    {j a : Nat} (ha : a ∈ rows j) : ∃ n, s.heap a = some n := by
  obtain ⟨i, hi⟩ := List.mem_iff_getElem?.mp ha
  obtain ⟨n, hn, -⟩ := hz.link j i a hi
  exact ⟨n, hn⟩

@[simp]
theorem set_row_same (rows : Nat → List Nat) (j : Nat) (r : List Nat) :
    set_row rows j r j = r := by simp [set_row]

theorem set_row_other (rows : Nat → List Nat) (j : Nat) (r : List Nat) {m : Nat} (h : m ≠ j) :
    set_row rows j r m = rows m := by simp [set_row, h]

theorem hz_splice {s : ordered_set K V} {rows : Nat → List Nat} (hz : Hz s rows)
    (j i target : Nat) (hi : (rows j)[i]? = some target) (nn : ordered_set_node K V)
    (hlev : nn.level = (j : Int)) (hhd : nn.is_header = false) (hkey : nn.key ≠ none) :
    ∃ s2 t, s.heap target = some t ∧ link_after (s.malloc nn) target s.brk = some s2 ∧
      Frame (s.malloc nn) s2 ∧
      Hz s2 (set_row rows j (ins_at (rows j) (i + 1) s.brk)) ∧
      ∀ b, s2.heap b =
        if b = s.brk then some { nn with next := (rows j)[i + 1]?, previous := some target }
        else if b = target then some { t with next := some s.brk }
        else if (rows j)[i + 1]? = some b then
          (s.heap b).map fun x => { x with previous := some s.brk }
        else s.heap b := by
  obtain ⟨t, ht, htnext, htprev, htlev, hthd, htkey, htval⟩ := hz.link j i target hi
  have hilt := lt_length_of_getElem? hi
  have hle : i + 1 ≤ (rows j).length := hilt
  have htlt : target < s.brk := hz.lt_brk (mem_of_getElem? hi)
  have hfresh : ∀ m a, a ∈ rows m → a ≠ s.brk := fun m a ha h => by
    have := hz.lt_brk ha; omega
  obtain ⟨s2, hs2, hfr, hheap⟩ := link_after_spec (s.malloc nn) target s.brk t nn
    (by simp [Nat.ne_of_lt htlt, ht]) (by simp) (Nat.ne_of_lt htlt) (by
      intro nx hnx
      rw [htnext] at hnx
      have hmem := mem_of_getElem? hnx
      obtain ⟨x, hx⟩ := hz.heap_of_mem hmem
      refine ⟨hfresh _ _ hmem, ?_, x, by simp [hfresh _ _ hmem, hx]⟩
      intro h
      subst h
      have := nodup_index_eq (hz.nodup j) hnx hi
      omega)
  have hheap2 : ∀ b, s2.heap b =
        if b = s.brk then some { nn with next := (rows j)[i + 1]?, previous := some target }
        else if b = target then some { t with next := some s.brk }
        else if (rows j)[i + 1]? = some b then
          (s.heap b).map fun x => { x with previous := some s.brk }
        else s.heap b := by
    intro b
    rw [hheap b, htnext]
    by_cases h1 : b = s.brk
    · simp [h1]
    · simp [h1]
  refine ⟨s2, t, ht, hs2, hfr, ?_, hheap2⟩
  have hget := fun k => getElem?_ins_at (rows j) (i + 1) s.brk k hle
  constructor
  · intro m
    by_cases hm : m = j
    · subst hm
      rw [set_row_same]
      exact nodup_ins_at _ _ _ (hz.nodup m) (fun h => hfresh m _ h rfl)
    · rw [set_row_other _ _ _ hm]; exact hz.nodup m
  · intro m m2 a ha ha2
    have key : ∀ m, a ∈ set_row rows j (ins_at (rows j) (i + 1) s.brk) m →
        (a = s.brk ∧ m = j) ∨ (a ≠ s.brk ∧ a ∈ rows m) := by
      intro m ha
      by_cases hm : m = j
      · subst hm
        rw [set_row_same, mem_ins_at] at ha
        rcases ha with ha | ha
        · exact Or.inl ⟨ha, rfl⟩
        · exact Or.inr ⟨hfresh _ _ ha, ha⟩
      · rw [set_row_other _ _ _ hm] at ha
        exact Or.inr ⟨hfresh _ _ ha, ha⟩
    rcases key m ha with ⟨h1, h2⟩ | ⟨h1, h2⟩ <;> rcases key m2 ha2 with ⟨h3, h4⟩ | ⟨h3, h4⟩
    · rw [h2, h4]
    · exact absurd h1 h3
    · exact absurd h3 h1
    · exact hz.disj m m2 a h2 h4
  · intro a n ha
    rw [hheap2 a] at ha
    by_cases h1 : a = s.brk
    · exact ⟨j, by rw [set_row_same, mem_ins_at]; exact Or.inl h1⟩
    · have hlive : ∃ n, s.heap a = some n := by
        simp only [h1, if_false] at ha
        by_cases h2 : a = target
        · subst h2; exact ⟨t, ht⟩
        · simp only [h2, if_false] at ha
          by_cases h3 : (rows j)[i + 1]? = some a
          · exact hz.heap_of_mem (mem_of_getElem? h3)
          · simp only [h3, if_false] at ha
            exact ⟨n, ha⟩
      obtain ⟨n0, hn0⟩ := hlive
      obtain ⟨m, hm⟩ := hz.live a n0 hn0
      refine ⟨m, ?_⟩
      by_cases hmj : m = j
      · subst hmj
        rw [set_row_same, mem_ins_at]; exact Or.inr hm
      · rw [set_row_other _ _ _ hmj]; exact hm
  · intro a ha
    rw [hfr.brk, malloc_brk] at ha
    rw [hheap2 a]
    have h1 : a ≠ s.brk := by omega
    have h2 : a ≠ target := by omega
    have h3 : ¬ (rows j)[i + 1]? = some a := by
      intro h
      have := hz.lt_brk (mem_of_getElem? h)
      omega
    simp only [h1, h2, h3, if_false]
    exact hz.fresh a (by omega)
  · intro m k a ha
    by_cases hm : m = j
    swap
    · rw [set_row_other _ _ _ hm] at ha ⊢
      have hmem := mem_of_getElem? ha
      have h1 : a ≠ s.brk := hfresh _ _ hmem
      have h2 : a ≠ target := fun h => hm (hz.disj m j a hmem (h ▸ mem_of_getElem? hi))
      have h3 : ¬ (rows j)[i + 1]? = some a := fun h =>
        hm (hz.disj m j a hmem (mem_of_getElem? h))
      rw [hheap2 a]
      simp only [h1, h2, h3, if_false]
      exact hz.link m k a ha
    · subst hm
      rw [set_row_same] at ha ⊢
      rw [hget k] at ha
      rw [hheap2 a]
      by_cases c1 : k < i
      · rw [if_pos (by omega)] at ha
        have h1 : a ≠ s.brk := hfresh _ _ (mem_of_getElem? ha)
        have h2 : a ≠ target := fun h => by
          subst h; have := nodup_index_eq (hz.nodup m) ha hi; omega
        have h3 : ¬ (rows m)[i + 1]? = some a := fun h => by
          have := nodup_index_eq (hz.nodup m) ha h; omega
        simp only [h1, h2, h3, if_false]
        obtain ⟨n, hn, g1, g2, g3, g4, g5, g6⟩ := hz.link m k a ha
        refine ⟨n, hn, ?_, ?_, g3, g4, g5, g6⟩
        · rw [g1, hget (k + 1), if_pos (by omega)]
        · rw [g2]
          by_cases hk0 : k = 0
          · simp [hk0]
          · simp only [hk0, if_false]
            rw [hget (k - 1), if_pos (by omega)]
      · by_cases c2 : k = i
        · subst c2
          rw [if_pos (by omega)] at ha
          rw [hi] at ha; cases ha
          rw [if_neg (Nat.ne_of_lt htlt), if_pos rfl]
          refine ⟨_, rfl, ?_, ?_, htlev, hthd, htkey, htval⟩
          · show some s.brk = _
            rw [hget (k + 1), if_neg (by omega), if_pos rfl]
          · show t.previous = _
            rw [htprev]
            by_cases hk0 : k = 0
            · simp [hk0]
            · simp only [hk0, if_false]
              rw [hget (k - 1), if_pos (by omega)]
        · by_cases c3 : k = i + 1
          · subst c3
            rw [if_neg (by omega), if_pos rfl] at ha
            cases ha
            rw [if_pos rfl]
            refine ⟨_, rfl, ?_, ?_, hlev, ?_, ?_, fun h => by omega⟩
            · show (rows m)[i + 1]? = _
              rw [hget (i + 1 + 1), if_neg (by omega), if_neg (by omega)]
              simp
            · show some target = _
              rw [if_neg (by omega), hget (i + 1 - 1), if_pos (by omega)]
              simp [hi]
            · show nn.is_header = _
              rw [hhd]; simp
            · show nn.key = none ↔ _
              constructor
              · intro h; exact absurd h hkey
              · intro h; omega
          · rw [if_neg (by omega), if_neg c3] at ha
            have h1 : a ≠ s.brk := hfresh _ _ (mem_of_getElem? ha)
            have h2 : a ≠ target := fun h => by
              subst h; have := nodup_index_eq (hz.nodup m) ha hi; omega
            obtain ⟨n, hn, g1, g2, g3, g4, g5, g6⟩ := hz.link m (k - 1) a ha
            have e1 : k - 1 + 1 = k := by omega
            have gnext : n.next = (ins_at (rows m) (i + 1) s.brk)[k + 1]? := by
              rw [g1, hget (k + 1), if_neg (by omega), if_neg (by omega), e1]
              simp
            have ghd : n.is_header = decide (k = 0) := by
              rw [g4]
              have : ¬ (k - 1 = 0) := by omega
              have : ¬ (k = 0) := by omega
              simp [*]
            have gkey : n.key = none ↔ k = 0 := by
              rw [g5]; omega
            by_cases c4 : k = i + 2
            · subst c4
              have h3 : (rows m)[i + 1]? = some a := by simpa using ha
              simp only [h1, h2, h3, if_false, if_true, hn, Option.map_some']
              refine ⟨_, rfl, gnext, ?_, g3, ghd, gkey, fun h => by omega⟩
              show some s.brk = _
              rw [if_neg (by omega), hget (i + 2 - 1), if_neg (by omega), if_pos (by omega)]
            · have h3 : ¬ (rows m)[i + 1]? = some a := fun h => by
                have := nodup_index_eq (hz.nodup m) ha h; omega
              simp only [h1, h2, h3, if_false]
              refine ⟨n, hn, gnext, ?_, g3, ghd, gkey, fun h => by omega⟩
              rw [g2, if_neg (by omega), if_neg (by omega), hget (k - 1), if_neg (by omega),
                if_neg (by omega)]

theorem vview_of_map_eq {h1 h2 : Option (ordered_set_node K V)}
    (h : h2.map vview = h1.map vview) {n : ordered_set_node K V} (hn : h1 = some n) :
    ∃ n2, h2 = some n2 ∧ n2.top = n.top ∧ n2.bottom = n.bottom ∧ n2.key = n.key ∧
      n2.value = n.value ∧ n2.is_header = n.is_header := by
  subst hn
  cases h2 with
  | none => simp at h
  | some n2 =>
    simp only [Option.map_some', Option.some.injEq, vview, Prod.mk.injEq] at h
    exact ⟨n2, rfl, h.1, h.2.1, h.2.2.1, h.2.2.2.1, h.2.2.2.2⟩

theorem hview_of_map_eq {h1 h2 : Option (ordered_set_node K V)}
    (h : h2.map hview = h1.map hview) {n : ordered_set_node K V} (hn : h1 = some n) :
    ∃ n2, h2 = some n2 ∧ n2.next = n.next ∧ n2.previous = n.previous ∧ n2.level = n.level ∧
      n2.is_header = n.is_header ∧ n2.key = n.key ∧ n2.value = n.value := by
  subst hn
  cases h2 with
  | none => simp at h
  | some n2 =>
    simp only [Option.map_some', Option.some.injEq, hview, Prod.mk.injEq] at h
    exact ⟨n2, rfl, h.1, h.2.1, h.2.2.1, h.2.2.2.1, h.2.2.2.2.1, h.2.2.2.2.2⟩

theorem map_eq_none_of {α β : Type} {f : α → β} {h1 h2 : Option α}
    (h : h2.map f = h1.map f) (hn : h1 = none) : h2 = none := by
  subst hn
  cases h2 with
  | none => rfl
  | some x => simp at h

/-- The horizontal structure only depends on the horizontal fields. -/
theorem hz_of_hview {s s2 : ordered_set K V} {rows : Nat → List Nat} (hz : Hz s rows)
    (hbrk : s2.brk = s.brk) (hsame : ∀ b, (s2.heap b).map hview = (s.heap b).map hview) :
    Hz s2 rows := by
  constructor
  · exact hz.nodup
  · exact hz.disj
  · intro a n ha
    cases h0 : s.heap a with
    | none => rw [map_eq_none_of (hsame a) h0] at ha; exact Option.noConfusion ha
    | some n0 => exact hz.live a n0 h0
  · intro a ha
    exact map_eq_none_of (hsame a) (hz.fresh a (by omega))
  · intro j i a ha
    obtain ⟨n, hn, g1, g2, g3, g4, g5, g6⟩ := hz.link j i a ha
    obtain ⟨n2, hn2, e1, e2, e3, e4, e5, e6⟩ := hview_of_map_eq (hsame a) hn
    exact ⟨n2, hn2, e1 ▸ g1, e2 ▸ g2, e3 ▸ g3, e4 ▸ g4, e5 ▸ g5, e6 ▸ g6⟩

/-- Adding a fresh node without `top` to a row keeps the vertical structure, the new node
being exempt from the condition on `bottom`. -/
theorem vt_extend {s s2 : ordered_set K V} {rows rows2 : Nat → List Nat} (vt : Vt s rows none)
    (new_node j0 : Nat)
    (hmem : ∀ m a, a ∈ rows2 m ↔ a ∈ rows m ∨ (a = new_node ∧ m = j0))
    (hnew : ∀ m, new_node ∉ rows m)
    (hsame : ∀ b, b ≠ new_node → (s2.heap b).map vview = (s.heap b).map vview)
    (htop : ∀ n, s2.heap new_node = some n → n.top = none) :
    Vt s2 rows2 (some new_node) := by
  have hold : ∀ m a, a ∈ rows m → a ≠ new_node := fun m a ha h => hnew m (h ▸ ha)
  have back : ∀ a n2, a ≠ new_node → s2.heap a = some n2 → ∃ n, s.heap a = some n ∧
      n2.top = n.top ∧ n2.bottom = n.bottom ∧ n2.key = n.key ∧ n2.value = n.value ∧
      n2.is_header = n.is_header := by
    intro a n2 ha hn2
    cases h0 : s.heap a with
    | none => rw [map_eq_none_of (hsame a ha) h0] at hn2; exact Option.noConfusion hn2
    | some n =>
      obtain ⟨n3, hn3, e⟩ := vview_of_map_eq (hsame a ha) h0
      rw [hn2] at hn3; cases hn3
      exact ⟨n, rfl, e⟩
  constructor
  · intro m a n2 ha hn2 hex
    have hane : a ≠ new_node := fun h => hex (by rw [h])
    have ha0 : a ∈ rows m := by
      rcases (hmem m a).mp ha with h | ⟨h, -⟩
      · exact h
      · exact absurd h hane
    obtain ⟨n, hn, e1, e2, e3, e4, e5⟩ := back a n2 hane hn2
    rcases vt.down m a n ha0 hn (by simp) with ⟨g1, g2⟩ | ⟨b, nb, g1, g2, g3, g4, g5, g6, g7, g8⟩
    · exact Or.inl ⟨by rw [e2, g1], g2⟩
    · obtain ⟨nb2, hnb2, f1, f2, f3, f4, f5⟩ := vview_of_map_eq (hsame b (hold _ _ g3)) g4
      exact Or.inr ⟨b, nb2, by rw [e2, g1], g2, (hmem _ _).mpr (Or.inl g3), hnb2,
        by rw [f1, g5], by rw [f3, g6, e3], by rw [f4, g7, e4], by rw [f5, g8, e5]⟩
  · intro m a n2 t ha hn2 ht
    by_cases hane : a = new_node
    · subst hane
      rw [htop n2 hn2] at ht
      exact Option.noConfusion ht
    · have ha0 : a ∈ rows m := by
        rcases (hmem m a).mp ha with h | ⟨h, -⟩
        · exact h
        · exact absurd h hane
      obtain ⟨n, hn, e1, e2, e3, e4, e5⟩ := back a n2 hane hn2
      obtain ⟨nt, g1, g2, g3⟩ := vt.up m a n t ha0 hn (by rw [← e1, ht])
      obtain ⟨nt2, hnt2, f1, f2, f3, f4, f5⟩ := vview_of_map_eq (hsame t (hold _ _ g1)) g2
      exact ⟨nt2, (hmem _ _).mpr (Or.inl g1), hnt2, by rw [f2, g3]⟩

/-- Lift the exemption of a node that satisfies the condition on `bottom`. -/
theorem vt_unexempt {s : ordered_set K V} {rows : Nat → List Nat} {x : Nat}
    (vt : Vt s rows (some x))
    (hx : ∀ j n, x ∈ rows j → s.heap x = some n →
      (n.bottom = none ∧ j = 0) ∨
      (∃ b nb, n.bottom = some b ∧ 0 < j ∧ b ∈ rows (j - 1) ∧ s.heap b = some nb ∧
        nb.top = some x ∧ nb.key = n.key ∧ nb.value = n.value ∧ nb.is_header = n.is_header)) :
    Vt s rows none := by
  constructor
  · intro j a n ha hn _
    by_cases h : a = x
    · subst h; exact hx j n ha hn
    · exact vt.down j a n ha hn (by simpa using h)
  · exact vt.up

theorem vt_exempt {s : ordered_set K V} {rows : Nat → List Nat} (x : OrderedSetNode)
    (vt : Vt s rows none) : Vt s rows x := by
  constructor
  · intro j a n ha hn _
    exact vt.down j a n ha hn (by simp)
  · exact vt.up

/-- The heap after splicing the fresh node `nn` (at address `s.brk`) behind the node
`target`, whose old successor is `succ`. -/
theorem splice_vview {s s2 : ordered_set K V} {target : Nat} {t nn : ordered_set_node K V}
    {succ : OrderedSetNode} (ht : s.heap target = some t)
    (hheap : ∀ b, s2.heap b =
        if b = s.brk then some { nn with next := succ, previous := some target }
        else if b = target then some { t with next := some s.brk }
        else if succ = some b then
          (s.heap b).map fun x => { x with previous := some s.brk }
        else s.heap b) :
    ∀ b, b ≠ s.brk → (s2.heap b).map vview = (s.heap b).map vview := by
  intro b hb
  rw [hheap b, if_neg hb]
  by_cases h2 : b = target
  · subst h2
    rw [if_pos rfl, ht]
    rfl
  · rw [if_neg h2]
    by_cases h3 : succ = some b
    · rw [if_pos h3]
      cases s.heap b with
      | none => rfl
      | some x => rfl
    · rw [if_neg h3]

theorem wf_link_base {s : ordered_set K V} {rows : Nat → List Nat} {H : Nat}
    (wf : Wf s rows H none) (i p : Nat) (hp : (rows 0)[i]? = some p) (k : K) (v : Option V) :
    ∃ s2 t, s.heap p = some t ∧
      link_after (s.malloc (node_create (some k) v 0 false)) p s.brk = some s2 ∧
      Frame (s.malloc (node_create (some k) v 0 false)) s2 ∧
      Wf s2 (set_row rows 0 (ins_at (rows 0) (i + 1) s.brk)) H none ∧
      ∀ b, s2.heap b =
        if b = s.brk then
          some { node_create (some k) v 0 false with
            next := (rows 0)[i + 1]?, previous := some p }
        else if b = p then some { t with next := some s.brk }
        else if (rows 0)[i + 1]? = some b then
          (s.heap b).map fun x => { x with previous := some s.brk }
        else s.heap b := by
  obtain ⟨s2, t, ht, hs2, hfr, hz2, hheap⟩ :=
    hz_splice wf.hz 0 i p hp (node_create (some k) v 0 false) rfl rfl (by simp [node_create])
  refine ⟨s2, t, ht, hs2, hfr, ?_, hheap⟩
  have hnew : ∀ m, s.brk ∉ rows m := fun m h => by
    have := wf.hz.lt_brk h; omega
  have hmem : ∀ m a, a ∈ set_row rows 0 (ins_at (rows 0) (i + 1) s.brk) m ↔
      a ∈ rows m ∨ (a = s.brk ∧ m = 0) := by
    intro m a
    by_cases hm : m = 0
    · subst hm
      rw [set_row_same, mem_ins_at]
      constructor
      · rintro (h | h)
        · exact Or.inr ⟨h, rfl⟩
        · exact Or.inl h
      · rintro (h | ⟨h, -⟩)
        · exact Or.inr h
        · exact Or.inl h
    · rw [set_row_other _ _ _ hm]
      constructor
      · exact Or.inl
      · rintro (h | ⟨-, h⟩)
        · exact h
        · exact absurd h hm
  have hnewnode : s2.heap s.brk = some { node_create (some k) v 0 false with
      next := (rows 0)[i + 1]?, previous := some p } := by
    rw [hheap, if_pos rfl]
  have vt2 : Vt s2 (set_row rows 0 (ins_at (rows 0) (i + 1) s.brk)) (some s.brk) :=
    vt_extend wf.vt s.brk 0 hmem hnew (splice_vview ht hheap) (by
      intro n hn
      rw [hnewnode] at hn
      cases hn
      rfl)
  constructor
  · exact hz2
  · apply vt_unexempt vt2
    intro j n hj hn
    rw [hnewnode] at hn
    cases hn
    left
    refine ⟨rfl, ?_⟩
    exact hz2.disj j 0 s.brk hj ((hmem 0 s.brk).mpr (Or.inr ⟨rfl, rfl⟩))
  · exact wf.height_pos
  · rw [hfr.brk, malloc_brk]
    have := wf.height_le
    omega
  · intro j
    rw [hfr.brk, malloc_brk]
    by_cases hj : j = 0
    · subst hj
      rw [set_row_same, length_ins_at]
      have := wf.rows_le 0
      omega
    · rw [set_row_other _ _ _ hj]
      have := wf.rows_le j
      omega
  · intro j hj
    have := wf.height_pos
    rw [set_row_other _ _ _ (by omega)]
    exact wf.row_nil j hj
  · intro j hj
    by_cases h0 : j = 0
    · subst h0
      rw [set_row_same]
      intro h
      have := congrArg List.length h
      rw [length_ins_at] at this
      simp at this
    · rw [set_row_other _ _ _ h0]
      exact wf.row_ne j hj
  · rw [hfr.header, malloc_header, wf.header_eq]
    by_cases h0 : H - 1 = 0
    · rw [h0, set_row_same, getElem?_ins_at _ _ _ _ (lt_length_of_getElem? hp),
        if_pos (by omega)]
    · rw [set_row_other _ _ _ h0]

/-- Adding a fresh node to level `j + 1` on top of the node `x` of level `j`, which had no
`top`, keeps the vertical structure. -/
theorem vt_add_above {s s2 : ordered_set K V} {rows rows2 : Nat → List Nat}
    (vt : Vt s rows none) (new_node x j : Nat) (xn : ordered_set_node K V)
    (hmem : ∀ m a, a ∈ rows2 m ↔ a ∈ rows m ∨ (a = new_node ∧ m = j + 1))
    (hnew : ∀ m, new_node ∉ rows m)
    (hxj : ∀ m, x ∈ rows m ↔ m = j) (hx : s.heap x = some xn) (hxtop : xn.top = none)
    (hsame : ∀ b, b ≠ new_node → b ≠ x → (s2.heap b).map vview = (s.heap b).map vview)
    (hx2 : ∃ xn2, s2.heap x = some xn2 ∧ xn2.top = some new_node ∧ xn2.bottom = xn.bottom ∧
      xn2.key = xn.key ∧ xn2.value = xn.value ∧ xn2.is_header = xn.is_header)
    (hn2 : ∃ nn2, s2.heap new_node = some nn2 ∧ nn2.top = none ∧ nn2.bottom = some x ∧
      nn2.key = xn.key ∧ nn2.value = xn.value ∧ nn2.is_header = xn.is_header) :
    Vt s2 rows2 none := by
  obtain ⟨xn2, hxn2, x1, x2, x3, x4, x5⟩ := hx2
  obtain ⟨nn2, hnn2, n1, n2, n3, n4, n5⟩ := hn2
  have hold : ∀ m a, a ∈ rows m → a ≠ new_node := fun m a ha h => hnew m (h ▸ ha)
  have hxne : x ≠ new_node := hold j x ((hxj j).mpr rfl)
  have back : ∀ a n2, a ≠ new_node → a ≠ x → s2.heap a = some n2 → ∃ n, s.heap a = some n ∧
      n2.top = n.top ∧ n2.bottom = n.bottom ∧ n2.key = n.key ∧ n2.value = n.value ∧
      n2.is_header = n.is_header := by
    intro a n2 ha hax hn2
    cases h0 : s.heap a with
    | none => rw [map_eq_none_of (hsame a ha hax) h0] at hn2; exact Option.noConfusion hn2
    | some n =>
      obtain ⟨n3, hn3, e⟩ := vview_of_map_eq (hsame a ha hax) h0
      rw [hn2] at hn3; cases hn3
      exact ⟨n, rfl, e⟩
  have old_mem : ∀ m a, a ≠ new_node → a ∈ rows2 m → a ∈ rows m := by
    intro m a hane ha
    rcases (hmem m a).mp ha with h | ⟨h, -⟩
    · exact h
    · exact absurd h hane
  constructor
  · intro m a a2 ha ha2 _
    by_cases c1 : a = new_node
    · subst c1
      have hm : m = j + 1 := by
        rcases (hmem m a).mp ha with h | ⟨-, h⟩
        · exact absurd h (hnew m)
        · exact h
      subst hm
      rw [hnn2] at ha2; cases ha2
      right
      refine ⟨x, xn2, n2, by omega, ?_, hxn2, x1, by rw [x3, n3], by rw [x4, n4],
        by rw [x5, n5]⟩
      simp only [Nat.add_sub_cancel]
      exact (hmem _ _).mpr (Or.inl ((hxj j).mpr rfl))
    · have ha0 := old_mem m a c1 ha
      by_cases c2 : a = x
      · subst c2
        have hm : m = j := (hxj m).mp ha0
        subst hm
        rw [hxn2] at ha2; cases ha2
        rcases vt.down m a xn ha0 hx (by simp) with
          ⟨g1, g2⟩ | ⟨b, nb, g1, g2, g3, g4, g5, g6, g7, g8⟩
        · exact Or.inl ⟨by rw [x2, g1], g2⟩
        · have hbx : b ≠ a := fun h => by
            rw [h] at g3
            have := (hxj (m - 1)).mp g3
            omega
          obtain ⟨nb2, hnb2, f1, f2, f3, f4, f5⟩ :=
            vview_of_map_eq (hsame b (hold _ _ g3) hbx) g4
          exact Or.inr ⟨b, nb2, by rw [x2, g1], g2, (hmem _ _).mpr (Or.inl g3), hnb2,
            by rw [f1, g5], by rw [f3, g6, x3], by rw [f4, g7, x4], by rw [f5, g8, x5]⟩
      · obtain ⟨n, hn, e1, e2, e3, e4, e5⟩ := back a a2 c1 c2 ha2
        rcases vt.down m a n ha0 hn (by simp) with
          ⟨g1, g2⟩ | ⟨b, nb, g1, g2, g3, g4, g5, g6, g7, g8⟩
        · exact Or.inl ⟨by rw [e2, g1], g2⟩
        · have hbx : b ≠ x := fun h => by
            subst h
            rw [hx] at g4; cases g4
            rw [hxtop] at g5
            exact Option.noConfusion g5
          obtain ⟨nb2, hnb2, f1, f2, f3, f4, f5⟩ :=
            vview_of_map_eq (hsame b (hold _ _ g3) hbx) g4
          exact Or.inr ⟨b, nb2, by rw [e2, g1], g2, (hmem _ _).mpr (Or.inl g3), hnb2,
            by rw [f1, g5], by rw [f3, g6, e3], by rw [f4, g7, e4], by rw [f5, g8, e5]⟩
  · intro m a a2 t ha ha2 ht
    by_cases c1 : a = new_node
    · subst c1
      rw [hnn2] at ha2; cases ha2
      rw [n1] at ht
      exact Option.noConfusion ht
    · have ha0 := old_mem m a c1 ha
      by_cases c2 : a = x
      · subst c2
        have hm : m = j := (hxj m).mp ha0
        subst hm
        rw [hxn2] at ha2; cases ha2
        rw [x1] at ht; cases ht
        exact ⟨nn2, (hmem _ _).mpr (Or.inr ⟨rfl, rfl⟩), hnn2, n2⟩
      · obtain ⟨n, hn, e1, e2, e3, e4, e5⟩ := back a a2 c1 c2 ha2
        obtain ⟨nt, g1, g2, g3⟩ := vt.up m a n t ha0 hn (by rw [← e1, ht])
        by_cases c3 : t = x
        · subst c3
          rw [hx] at g2; cases g2
          exact ⟨xn2, (hmem _ _).mpr (Or.inl g1), hxn2, by rw [x2, g3]⟩
        · obtain ⟨nt2, hnt2, f1, f2, f3, f4, f5⟩ :=
            vview_of_map_eq (hsame t (hold _ _ g1) c3) g2
          exact ⟨nt2, (hmem _ _).mpr (Or.inl g1), hnt2, by rw [f2, g3]⟩

theorem Wf.header_top {s : ordered_set K V} {rows : Nat → List Nat} {H : Nat}
    (wf : Wf s rows H none) :
    ∃ h oh, (rows (H - 1))[0]? = some h ∧ s.header = some h ∧ s.heap h = some oh ∧
      oh.top = none ∧ oh.level = ((H - 1 : Nat) : Int) ∧ oh.is_header = true ∧
      oh.key = none ∧ oh.value = none ∧ oh.next = (rows (H - 1))[1]? ∧
      oh.previous = none := by
  have hne := wf.row_ne (H - 1) (by have := wf.height_pos; omega)
  obtain ⟨h, hh⟩ : ∃ h, (rows (H - 1))[0]? = some h := by
    cases hr : rows (H - 1) with
    | nil => exact absurd hr hne
    | cons x xs => exact ⟨x, by simp⟩
  obtain ⟨oh, hoh, g1, g2, g3, g4, g5, g6⟩ := wf.hz.link (H - 1) 0 h hh
  refine ⟨h, oh, hh, by rw [wf.header_eq, hh], hoh, ?_, g3, by simpa using g4, g5.mpr rfl,
    g6 rfl, g1, by simpa using g2⟩
  cases htop : oh.top with
  | none => rfl
  | some t =>
    obtain ⟨nt, h1, -⟩ := wf.vt.up (H - 1) h oh t (mem_of_getElem? hh) hoh htop
    rw [wf.row_nil (H - 1 + 1) (by omega)] at h1
    exact absurd h1 (List.not_mem_nil t)

theorem wf_level_create {s : ordered_set K V} {rows : Nat → List Nat} {H : Nat}
    (wf : Wf s rows H none) :
    ∃ s1 h oh, s.header = some h ∧ s.heap h = some oh ∧ (rows (H - 1))[0]? = some h ∧
      level_create s = some s1 ∧
      Wf s1 (set_row rows H [s.brk]) (H + 1) none ∧ Scalars s s1 ∧
      s1.header = some s.brk ∧ s1.brk = s.brk + 1 ∧
      ∀ b, s1.heap b =
        if b = h then some { oh with top := some s.brk }
        else if b = s.brk then
          some { node_create none none (1 + oh.level) true with bottom := some h }
        else s.heap b := by
  obtain ⟨h, oh, hh, hhd, hoh, htop, hlev, hishd, hkey, hval, hnext, hprev⟩ := wf.header_top
  have hpos := wf.height_pos
  have hhmem : h ∈ rows (H - 1) := mem_of_getElem? hh
  have hhlt : h < s.brk := wf.hz.lt_brk hhmem
  have hne : h ≠ s.brk := Nat.ne_of_lt hhlt
  have hrowH : rows H = [] := wf.row_nil H (le_refl _)
  have hfresh : ∀ m a, a ∈ rows m → a ≠ s.brk := fun m a ha h => by
    have := wf.hz.lt_brk ha; omega
  let nc : ordered_set_node K V := node_create none none (1 + oh.level) true
  let s1 : ordered_set K V :=
    { ((s.malloc nc).store s.brk { nc with bottom := some h }).store h
        { oh with top := some s.brk } with header := some s.brk }
  have hcomp : level_create s = some s1 := by
    simp only [level_create, hhd, hoh]
    rw [modify_eq (s.malloc nc) s.brk _ nc (by simp)]
    simp only []
    rw [modify_eq _ h _ oh (by simp [hne, hoh])]
  have hheap : ∀ b, s1.heap b =
        if b = h then some { oh with top := some s.brk }
        else if b = s.brk then some { nc with bottom := some h }
        else s.heap b := by
    intro b
    show (if b = h then _ else if b = s.brk then _ else if b = s.brk then _ else _) = _
    by_cases c1 : b = h
    · simp [c1]
    · by_cases c2 : b = s.brk
      · simp [c2]
      · simp [c1, c2]
  have hmem : ∀ m a, a ∈ set_row rows H [s.brk] m ↔ a ∈ rows m ∨ (a = s.brk ∧ m = H) := by
    intro m a
    by_cases hm : m = H
    · subst hm
      rw [set_row_same, hrowH]
      simp
    · rw [set_row_other _ _ _ hm]
      simp [hm]
  have hz1 : Hz s1 (set_row rows H [s.brk]) := by
    constructor
    · intro m
      by_cases hm : m = H
      · subst hm; rw [set_row_same]; simp
      · rw [set_row_other _ _ _ hm]; exact wf.hz.nodup m
    · intro m m2 a ha ha2
      rcases (hmem m a).mp ha with h1 | ⟨h1, h2⟩ <;>
        rcases (hmem m2 a).mp ha2 with h3 | ⟨h3, h4⟩
      · exact wf.hz.disj m m2 a h1 h3
      · exact absurd h3 (hfresh _ _ h1)
      · exact absurd h1 (hfresh _ _ h3)
      · rw [h2, h4]
    · intro a n ha
      rw [hheap a] at ha
      by_cases c1 : a = h
      · exact ⟨H - 1, (hmem _ _).mpr (Or.inl (c1 ▸ hhmem))⟩
      · by_cases c2 : a = s.brk
        · exact ⟨H, (hmem _ _).mpr (Or.inr ⟨c2, rfl⟩)⟩
        · simp only [c1, c2, if_false] at ha
          obtain ⟨m, hm⟩ := wf.hz.live a n ha
          exact ⟨m, (hmem _ _).mpr (Or.inl hm)⟩
    · intro a ha
      have hb : s1.brk = s.brk + 1 := rfl
      rw [hb] at ha
      rw [hheap a, if_neg (by omega), if_neg (by omega)]
      exact wf.hz.fresh a (by omega)
    · intro m i a ha
      by_cases hm : m = H
      · subst hm
        rw [set_row_same] at ha ⊢
        have hi : i = 0 := by
          have := lt_length_of_getElem? ha
          simpa using this
        subst hi
        simp only [List.getElem?_cons_zero, Option.some.injEq] at ha
        subst ha
        rw [hheap, if_neg (Ne.symm hne), if_pos rfl]
        refine ⟨_, rfl, ?_, ?_, ?_, ?_, ?_, ?_⟩
        · simp [nc, node_create]
        · simp [nc, node_create]
        · show 1 + oh.level = (m : Int)
          rw [hlev]; omega
        · simp [nc, node_create]
        · simp [nc, node_create]
        · intro _; simp [nc, node_create]
      · rw [set_row_other _ _ _ hm] at ha ⊢
        have hane : a ≠ s.brk := hfresh _ _ (mem_of_getElem? ha)
        obtain ⟨n, hn, g⟩ := wf.hz.link m i a ha
        rw [hheap a, if_neg hane]
        by_cases c1 : a = h
        · subst c1
          rw [hoh] at hn; cases hn
          rw [if_pos rfl]
          exact ⟨_, rfl, g⟩
        · rw [if_neg c1]
          exact ⟨n, hn, g⟩
  have vt1 : Vt s1 (set_row rows H [s.brk]) none := by
    apply vt_add_above wf.vt s.brk h (H - 1) oh
    · intro m a
      rw [hmem m a]
      have : H - 1 + 1 = H := by omega
      rw [this]
    · intro m hm; exact hfresh m _ hm rfl
    · intro m
      constructor
      · intro hm; exact wf.hz.disj m (H - 1) h hm hhmem
      · intro hm; rw [hm]; exact hhmem
    · exact hoh
    · exact htop
    · intro b hb1 hb2
      rw [hheap b, if_neg hb2, if_neg hb1]
    · exact ⟨{ oh with top := some s.brk }, by rw [hheap, if_pos rfl], rfl, rfl, rfl, rfl, rfl⟩
    · refine ⟨{ nc with bottom := some h }, by rw [hheap, if_neg (Ne.symm hne), if_pos rfl],
        rfl, rfl, ?_, ?_, ?_⟩
      · simp [nc, node_create, hkey]
      · simp [nc, node_create, hval]
      · simp [nc, node_create, hishd]
  refine ⟨s1, h, oh, hhd, hoh, hh, hcomp, ?_, ⟨rfl, rfl, rfl, rfl, rfl, rfl, rfl⟩, rfl, rfl,
    hheap⟩
  constructor
  · exact hz1
  · exact vt1
  · omega
  · have := wf.height_le
    show H + 1 ≤ s.brk + 1
    omega
  · intro m
    show _ ≤ s.brk + 1
    by_cases hm : m = H
    · subst hm; rw [set_row_same]; simp
    · rw [set_row_other _ _ _ hm]
      have := wf.rows_le m
      omega
  · intro m hm
    rw [set_row_other _ _ _ (by omega)]
    exact wf.row_nil m (by omega)
  · intro m hm
    by_cases c : m = H
    · subst c; rw [set_row_same]; simp
    · rw [set_row_other _ _ _ c]
      exact wf.row_ne m (by omega)
  · show some s.brk = _
    simp

theorem payload_refl (s : ordered_set K V) : Payload s s := fun _ n h => ⟨n, h, rfl, rfl⟩

theorem payload_trans {s s2 s3 : ordered_set K V} (h1 : Payload s s2) (h2 : Payload s2 s3) :
    Payload s s3 := by
  intro b n hn
  obtain ⟨n2, hn2, e1, e2⟩ := h1 b n hn
  obtain ⟨n3, hn3, f1, f2⟩ := h2 b n2 hn2
  exact ⟨n3, hn3, f1.trans e1, f2.trans e2⟩

theorem scalars_refl (s : ordered_set K V) : Scalars s s := ⟨rfl, rfl, rfl, rfl, rfl, rfl, rfl⟩

theorem scalars_trans {s s2 s3 : ordered_set K V} (h1 : Scalars s s2) (h2 : Scalars s2 s3) :
    Scalars s s3 :=
  ⟨h2.compare.trans h1.compare, h2.destroy_key.trans h1.destroy_key,
    h2.destroy_value.trans h1.destroy_value, h2.size.trans h1.size, h2.first.trans h1.first,
    h2.last.trans h1.last, h2.calls.trans h1.calls⟩

theorem frame_scalars {s s2 : ordered_set K V} (h : Frame s s2) : Scalars s s2 :=
  ⟨h.compare, h.destroy_key, h.destroy_value, h.size, h.first, h.last, h.calls⟩

/-- Below the top level every header has a `top`. -/
theorem Wf.header_has_top {s : ordered_set K V} {rows : Nat → List Nat} {H : Nat}
    (wf : Wf s rows H none) {j h : Nat} {n : ordered_set_node K V} (hj : j + 1 < H)
    (hh : (rows j)[0]? = some h) (hn : s.heap h = some n) : ∃ t, n.top = some t := by
  have hne := wf.row_ne (j + 1) hj
  obtain ⟨h2, hh2⟩ : ∃ h2, (rows (j + 1))[0]? = some h2 := by
    cases hr : rows (j + 1) with
    | nil => exact absurd hr hne
    | cons x xs => exact ⟨x, by simp⟩
  obtain ⟨n2, hn2, -, -, -, g4, -⟩ := wf.hz.link (j + 1) 0 h2 hh2
  rcases wf.vt.down (j + 1) h2 n2 (mem_of_getElem? hh2) hn2 (by simp) with
    ⟨-, g⟩ | ⟨b, nb, -, -, g3, g4b, g5, -, -, g8⟩
  · omega
  · simp only [Nat.add_sub_cancel] at g3
    obtain ⟨ib, hib⟩ := List.mem_iff_getElem?.mp g3
    obtain ⟨nb2, hnb2, -, -, -, f4, -⟩ := wf.hz.link j ib b hib
    rw [g4b] at hnb2; cases hnb2
    have hib0 : ib = 0 := by
      have : nb.is_header = true := by rw [g8, g4]; simp
      rw [f4] at this
      simpa using this
    subst hib0
    rw [hh] at hib; cases hib
    rw [hn] at g4b; cases g4b
    exact ⟨h2, g5⟩

theorem promote_scan_spec {s : ordered_set K V} {rows : Nat → List Nat} {H : Nat}
    (wf : Wf s rows H none) (j : Nat) :
    ∀ i fuel a, (rows j)[i]? = some a → i < fuel →
      (∃ i2 t nt tt, i2 ≤ i ∧ (rows j)[i2]? = some t ∧ s.heap t = some nt ∧
        nt.top = some tt ∧ promote_scan s fuel (some a) = some (some t)) ∨
      (promote_scan s fuel (some a) = some none ∧ j + 1 = H) := by
  intro i
  induction i with
  | zero =>
    intro fuel a ha hf
    obtain ⟨f, rfl⟩ : ∃ f, fuel = f + 1 := ⟨fuel - 1, by omega⟩
    obtain ⟨n, hn, -, g2, -⟩ := wf.hz.link j 0 a ha
    cases htop : n.top with
    | some tt =>
      left
      exact ⟨0, a, n, tt, le_refl _, ha, hn, htop, by simp [promote_scan, hn, htop]⟩
    | none =>
      right
      have hprev : n.previous = none := by simpa using g2
      refine ⟨?_, ?_⟩
      · simp only [promote_scan, hn, htop, hprev]
      · have hjH : j < H := by
          by_contra hc
          rw [wf.row_nil j (by omega)] at ha
          simp at ha
        by_contra hne
        have hj1 : j + 1 < H := by omega
        obtain ⟨t, ht⟩ := wf.header_has_top hj1 ha hn
        rw [htop] at ht
        exact Option.noConfusion ht
  | succ i ih =>
    intro fuel a ha hf
    obtain ⟨f, rfl⟩ : ∃ f, fuel = f + 1 := ⟨fuel - 1, by omega⟩
    obtain ⟨n, hn, -, g2, -⟩ := wf.hz.link j (i + 1) a ha
    cases htop : n.top with
    | some tt =>
      left
      exact ⟨i + 1, a, n, tt, le_refl _, ha, hn, htop, by simp [promote_scan, hn, htop]⟩
    | none =>
      have hprev : n.previous = (rows j)[i]? := by simpa using g2
      obtain ⟨b, hb⟩ : ∃ b, (rows j)[i]? = some b := by
        have := lt_length_of_getElem? ha
        exact ⟨(rows j)[i], List.getElem?_eq_getElem (by omega)⟩
      have hstep : promote_scan s (f + 1) (some a) = promote_scan s f (some b) := by
        simp only [promote_scan, hn, htop, hprev, hb]
      rw [hstep]
      rcases ih f b hb (by omega) with ⟨i2, t, nt, tt, h1, h2, h3, h4, h5⟩ | h
      · left
        exact ⟨i2, t, nt, tt, by omega, h2, h3, h4, h5⟩
      · right; exact h

theorem wf_promote_link {s : ordered_set K V} {rows : Nat → List Nat} {H : Nat}
    (wf : Wf s rows H none) {j i x p target : Nat} {xn : ordered_set_node K V}
    (hx : (rows j)[i]? = some x) (hi : 0 < i) (hxn : s.heap x = some xn)
    (hxtop : xn.top = none) (htg : (rows (j + 1))[p]? = some target) :
    ∃ s2, promote_link s x target = some s2 ∧
      Wf s2 (set_row rows (j + 1) (ins_at (rows (j + 1)) (p + 1) s.brk)) H none ∧
      Scalars s s2 ∧ s2.header = s.header ∧ s2.brk = s.brk + 1 ∧ Payload s s2 ∧
      (∃ x2, s2.heap x = some x2 ∧ x2.top = some s.brk) ∧
      (∃ nn2, s2.heap s.brk = some nn2 ∧ nn2.top = none ∧ nn2.key = xn.key ∧
        nn2.value = xn.value) := by
  obtain ⟨xn0, hxn0, -, -, xlev, xhd, xkey, -⟩ := wf.hz.link j i x hx
  rw [hxn] at hxn0; cases hxn0
  have xhd2 : xn.is_header = false := by rw [xhd]; simp; omega
  have xkey2 : xn.key ≠ none := fun h => by have := xkey.mp h; omega
  have hxmem : x ∈ rows j := mem_of_getElem? hx
  have htmem : target ∈ rows (j + 1) := mem_of_getElem? htg
  have hfresh : ∀ m a, a ∈ rows m → a ≠ s.brk := fun m a ha h => by
    have := wf.hz.lt_brk ha; omega
  have hxb : x ≠ s.brk := hfresh _ _ hxmem
  have hxt : x ≠ target := fun h => by
    have := wf.hz.disj j (j + 1) x hxmem (h ▸ htmem); omega
  have hxs : ¬ (rows (j + 1))[p + 1]? = some x := fun h => by
    have := wf.hz.disj j (j + 1) x hxmem (mem_of_getElem? h); omega
  let nn : ordered_set_node K V := node_create xn.key xn.value (1 + xn.level) xn.is_header
  obtain ⟨s3, t, ht, hs3, hfr, hz3, hheap3⟩ := hz_splice wf.hz (j + 1) p target htg nn
    (by show 1 + xn.level = _; rw [xlev]; push_cast; ring) xhd2 xkey2
  have h3x : s3.heap x = some xn := by
    rw [hheap3 x, if_neg hxb, if_neg hxt, if_neg hxs, hxn]
  have h3n : s3.heap s.brk =
      some { nn with next := (rows (j + 1))[p + 1]?, previous := some target } := by
    rw [hheap3, if_pos rfl]
  let n3 : ordered_set_node K V :=
    { nn with next := (rows (j + 1))[p + 1]?, previous := some target }
  let s5 : ordered_set K V :=
    (s3.store x { xn with top := some s.brk }).store s.brk { n3 with bottom := some x }
  have hcomp : promote_link s x target = some s5 := by
    simp only [promote_link, hxn, hs3]
    rw [modify_eq s3 x _ xn h3x]
    simp only []
    rw [modify_eq _ s.brk _ n3 (by simp [Ne.symm hxb, h3n])]
  have hheap5 : ∀ b, s5.heap b =
      if b = s.brk then some { n3 with bottom := some x }
      else if b = x then some { xn with top := some s.brk } else s3.heap b := fun b => rfl
  have hmem : ∀ m a, a ∈ set_row rows (j + 1) (ins_at (rows (j + 1)) (p + 1) s.brk) m ↔
      a ∈ rows m ∨ (a = s.brk ∧ m = j + 1) := by
    intro m a
    by_cases hm : m = j + 1
    · subst hm
      rw [set_row_same, mem_ins_at]
      constructor
      · rintro (h | h)
        · exact Or.inr ⟨h, rfl⟩
        · exact Or.inl h
      · rintro (h | ⟨h, -⟩)
        · exact Or.inr h
        · exact Or.inl h
    · rw [set_row_other _ _ _ hm]
      constructor
      · exact Or.inl
      · rintro (h | ⟨-, h⟩)
        · exact h
        · exact absurd h hm
  have hjH : j + 1 < H := by
    by_contra hc
    rw [wf.row_nil (j + 1) (by omega)] at htg
    simp at htg
  have hbrk5 : s5.brk = s.brk + 1 := hfr.brk
  refine ⟨s5, hcomp, ?_, ?_, hfr.header, hbrk5, ?_, ?_, ?_⟩
  · constructor
    · have hb35 : s5.brk = s3.brk := rfl
      apply hz_of_hview hz3 hb35
      intro b
      rw [hheap5 b]
      by_cases c1 : b = s.brk
      · subst c1
        rw [if_pos rfl, h3n]
        rfl
      · rw [if_neg c1]
        by_cases c2 : b = x
        · subst c2
          rw [if_pos rfl, h3x]
          rfl
        · rw [if_neg c2]
    · apply vt_add_above wf.vt s.brk x j xn hmem
      · intro m hm; exact hfresh m _ hm rfl
      · intro m
        constructor
        · intro hm; exact wf.hz.disj m j x hm hxmem
        · intro hm; rw [hm]; exact hxmem
      · exact hxn
      · exact hxtop
      · intro b hb1 hb2
        rw [hheap5 b, if_neg hb1, if_neg hb2]
        exact splice_vview ht hheap3 b hb1
      · exact ⟨{ xn with top := some s.brk }, by rw [hheap5, if_neg hxb, if_pos rfl],
          rfl, rfl, rfl, rfl, rfl⟩
      · exact ⟨{ n3 with bottom := some x }, by rw [hheap5, if_pos rfl], rfl, rfl, rfl, rfl,
          rfl⟩
    · exact wf.height_pos
    · rw [hbrk5]
      have := wf.height_le
      omega
    · intro m
      rw [hbrk5]
      by_cases hm : m = j + 1
      · subst hm
        rw [set_row_same, length_ins_at]
        have := wf.rows_le (j + 1)
        omega
      · rw [set_row_other _ _ _ hm]
        have := wf.rows_le m
        omega
    · intro m hm
      rw [set_row_other _ _ _ (by omega)]
      exact wf.row_nil m hm
    · intro m hm
      by_cases c : m = j + 1
      · subst c
        rw [set_row_same]
        intro h
        have := congrArg List.length h
        rw [length_ins_at] at this
        simp at this
      · rw [set_row_other _ _ _ c]
        exact wf.row_ne m hm
    · show s3.header = _
      rw [hfr.header, malloc_header, wf.header_eq]
      by_cases h0 : H - 1 = j + 1
      · rw [h0, set_row_same, getElem?_ins_at _ _ _ _ (lt_length_of_getElem? htg),
          if_pos (by omega)]
      · rw [set_row_other _ _ _ h0]
  · have := frame_scalars hfr
    exact ⟨this.compare, this.destroy_key, this.destroy_value, this.size, this.first,
      this.last, this.calls⟩
  · intro b n hn
    have hb : b ≠ s.brk := fun h => by
      rw [h, wf.hz.fresh s.brk (le_refl _)] at hn
      exact Option.noConfusion hn
    rw [hheap5 b, if_neg hb]
    by_cases c2 : b = x
    · subst c2
      rw [hxn] at hn; cases hn
      rw [if_pos rfl]
      exact ⟨_, rfl, rfl, rfl⟩
    · rw [if_neg c2, hheap3 b, if_neg hb]
      by_cases c3 : b = target
      · subst c3
        rw [ht] at hn; cases hn
        rw [if_pos rfl]
        exact ⟨_, rfl, rfl, rfl⟩
      · rw [if_neg c3]
        by_cases c4 : (rows (j + 1))[p + 1]? = some b
        · rw [if_pos c4, hn]
          exact ⟨_, rfl, rfl, rfl⟩
        · rw [if_neg c4]
          exact ⟨n, hn, rfl, rfl⟩
  · exact ⟨{ xn with top := some s.brk }, by rw [hheap5, if_neg hxb, if_pos rfl], rfl⟩
  · exact ⟨{ n3 with bottom := some x }, by rw [hheap5, if_pos rfl], rfl, rfl, rfl⟩

theorem node_promote_spec {s : ordered_set K V} {rows : Nat → List Nat} {H : Nat}
    (wf : Wf s rows H none) {j i x : Nat} {xn : ordered_set_node K V}
    (hx : (rows j)[i]? = some x) (hi : 0 < i) (hxn : s.heap x = some xn)
    (hxtop : xn.top = none) :
    ∃ s2 rows2 H2 new_node i2, node_promote s x = some s2 ∧ Wf s2 rows2 H2 none ∧
      Scalars s s2 ∧ Payload s s2 ∧ s.brk ≤ s2.brk ∧ H ≤ H2 ∧
      (∀ m, m ≤ j → rows2 m = rows m) ∧
      (∃ x2, s2.heap x = some x2 ∧ x2.top = some new_node) ∧
      (rows2 (j + 1))[i2]? = some new_node ∧ 0 < i2 ∧
      (∃ nn2, s2.heap new_node = some nn2 ∧ nn2.top = none ∧ nn2.key = xn.key ∧
        nn2.value = xn.value) := by
  obtain ⟨xn0, hxn0, -, xprev, -⟩ := wf.hz.link j i x hx
  rw [hxn] at hxn0; cases hxn0
  obtain ⟨a, ha⟩ : ∃ a, (rows j)[i - 1]? = some a := by
    have := lt_length_of_getElem? hx
    exact ⟨(rows j)[i - 1], List.getElem?_eq_getElem (by omega)⟩
  have hprev : xn.previous = some a := by
    rw [xprev, if_neg (by omega), ha]
  rcases promote_scan_spec wf j (i - 1) (s.brk + 1) a ha
      (by have := lt_length_of_getElem? hx; have := wf.rows_le j; omega) with
    ⟨i2, t, nt, tt, h1, h2, h3, h4, h5⟩ | ⟨h5, hjH⟩
  · obtain ⟨ntt, g1, g2, g3⟩ := wf.vt.up j t nt tt (mem_of_getElem? h2) h3 h4
    obtain ⟨p, hp⟩ := List.mem_iff_getElem?.mp g1
    obtain ⟨s2, e1, e2, e3, e4, e5, e6, e7, e8⟩ := wf_promote_link wf hx hi hxn hxtop hp
    refine ⟨s2, _, H, s.brk, p + 1, ?_, e2, e3, e6, by omega, le_refl _, ?_, e7, ?_,
      by omega, e8⟩
    · simp only [node_promote, hxn, hprev, h5, h3, h4]
      exact e1
    · intro m hm
      rw [set_row_other _ _ _ (by omega)]
    · rw [set_row_same, getElem?_ins_at _ _ _ _ (lt_length_of_getElem? hp),
        if_neg (by omega), if_pos rfl]
  · obtain ⟨s1, h, oh, c1, c2, c3, c4, c5, c6, c7, c8, c9⟩ := wf_level_create wf
    have hpos := wf.height_pos
    have hxmem : x ∈ rows j := mem_of_getElem? hx
    have hxb : x ≠ s.brk := fun e => by
      have := wf.hz.lt_brk hxmem; omega
    have hxh : x ≠ h := fun e => by
      subst e
      have e2 : H - 1 = j := by omega
      rw [e2] at c3
      have := nodup_index_eq (wf.hz.nodup j) hx c3
      omega
    have hx1 : s1.heap x = some xn := by rw [c9, if_neg hxh, if_neg hxb, hxn]
    have hxrow : (set_row rows H [s.brk] j)[i]? = some x := by
      rw [set_row_other _ _ _ (by omega)]; exact hx
    have htg : (set_row rows H [s.brk] (j + 1))[0]? = some s.brk := by
      rw [hjH, set_row_same]; simp
    obtain ⟨s2, e1, e2, e3, e4, e5, e6, e7, e8⟩ :=
      wf_promote_link c5 hxrow hi hx1 hxtop htg
    have hpay1 : Payload s s1 := by
      intro b n hn
      have hb : b ≠ s.brk := fun e => by
        rw [e, wf.hz.fresh s.brk (le_refl _)] at hn
        exact Option.noConfusion hn
      rw [c9, if_neg hb]
      by_cases hbh : b = h
      · subst hbh
        rw [c2] at hn; cases hn
        rw [if_pos rfl]
        exact ⟨_, rfl, rfl, rfl⟩
      · rw [if_neg hbh]
        exact ⟨n, hn, rfl, rfl⟩
    refine ⟨s2, _, H + 1, s1.brk, 1, ?_, e2, scalars_trans c6 e3, payload_trans hpay1 e6, by omega,
      by omega, ?_, e7, ?_, by omega, e8⟩
    · simp only [node_promote, hxn, hprev, h5, c4, c7]
      exact e1
    · intro m hm
      rw [set_row_other _ _ _ (by omega), set_row_other _ _ _ (by omega)]
    · rw [set_row_same, getElem?_ins_at _ _ _ _ (lt_length_of_getElem? htg),
        if_neg (by omega), if_pos rfl]

theorem promote_loop_spec (heads : Nat) :
    ∀ {s : ordered_set K V} {rows : Nat → List Nat} {H : Nat} (_ : Wf s rows H none)
      {j i x : Nat} {xn : ordered_set_node K V}, (rows j)[i]? = some x → 0 < i →
      s.heap x = some xn → xn.top = none →
      ∃ s2 rows2 H2, promote_loop heads s (some x) = some s2 ∧ Wf s2 rows2 H2 none ∧
        Scalars s s2 ∧ Payload s s2 ∧ s.brk ≤ s2.brk ∧ H ≤ H2 ∧
        (∀ m, m ≤ j → rows2 m = rows m) := by
  induction heads with
  | zero =>
    intro s rows H wf j i x xn _ _ _ _
    exact ⟨s, rows, H, rfl, wf, scalars_refl s, payload_refl s, le_refl _, le_refl _,
      fun _ _ => rfl⟩
  | succ heads ih =>
    intro s rows H wf j i x xn hx hi hxn hxtop
    obtain ⟨s1, rows1, H1, nw, i1, a1, a2, a3, a4, a5, a6, a7, ⟨x2, a8, a9⟩, a10, a11,
      ⟨nn2, b1, b2, -, -⟩⟩ := node_promote_spec wf hx hi hxn hxtop
    obtain ⟨s2, rows2, H2, c1, c2, c3, c4, c5, c6, c7⟩ := ih a2 a10 a11 b1 b2
    refine ⟨s2, rows2, H2, ?_, c2, scalars_trans a3 c3, payload_trans a4 c4, by omega, by omega, ?_⟩
    · simp only [promote_loop, a1, a8, a9]
      exact c1
    · intro m hm
      rw [c7 m (by omega), a7 m hm]

/-! ## Comparator laws -/

theorem TotalCompare.le_of_not_lt {cmp : K → K → Int} (tc : TotalCompare cmp) {a b : K}
    (h : ¬ cmp a b < 0) : cmp b a ≤ 0 := by
  by_contra hc
  have h1 : 0 < cmp b a := by omega
  exact h ((tc.swap_neg a b).mpr h1)

theorem TotalCompare.not_lt_of_le {cmp : K → K → Int} (tc : TotalCompare cmp) {a b : K}
    (h : cmp b a ≤ 0) : ¬ cmp a b < 0 := by
  intro hc
  have := (tc.swap_neg a b).mp hc
  omega

theorem TotalCompare.lt_of_le_of_lt {cmp : K → K → Int} (tc : TotalCompare cmp) {a b c : K}
    (h1 : cmp a b ≤ 0) (h2 : cmp b c < 0) : cmp a c < 0 := by
  by_contra hc
  have h3 := tc.le_of_not_lt hc
  have h4 := tc.le_trans c a b h3 h1
  exact tc.not_lt_of_le h4 h2

theorem TotalCompare.lt_of_lt_of_le {cmp : K → K → Int} (tc : TotalCompare cmp) {a b c : K}
    (h1 : cmp a b < 0) (h2 : cmp b c ≤ 0) : cmp a c < 0 := by
  by_contra hc
  have h3 := tc.le_of_not_lt hc
  have h4 := tc.le_trans b c a h2 h3
  exact tc.not_lt_of_le h4 h1

theorem TotalCompare.eq_symm {cmp : K → K → Int} (tc : TotalCompare cmp) {a b : K}
    (h : cmp a b = 0) : cmp b a = 0 := by
  have h1 : ¬ cmp b a < 0 := fun hc => by
    have := (tc.swap_neg b a).mp hc
    omega
  have h2 : ¬ 0 < cmp b a := fun hc => by
    have := (tc.swap_neg a b).mpr hc
    omega
  omega

/-! ## Transfer of the invariant between sets with the same heap -/

theorem wf_of_heap_eq {s s2 : ordered_set K V} {rows : Nat → List Nat} {H : Nat}
    {ex : OrderedSetNode} (wf : Wf s rows H ex) (hheap : s2.heap = s.heap)
    (hhd : s2.header = s.header) (hbrk : s2.brk = s.brk) : Wf s2 rows H ex := by
  constructor
  · exact hz_of_hview wf.hz hbrk (fun b => by rw [hheap])
  · constructor
    · intro j a n ha hn hex
      rw [hheap] at hn
      rcases wf.vt.down j a n ha hn hex with h | ⟨b, nb, g⟩
      · exact Or.inl h
      · exact Or.inr ⟨b, nb, by rw [hheap]; exact g⟩
    · intro j a n t ha hn ht
      rw [hheap] at hn
      obtain ⟨nt, g⟩ := wf.vt.up j a n t ha hn ht
      exact ⟨nt, by rw [hheap]; exact g⟩
  · exact wf.height_pos
  · rw [hbrk]; exact wf.height_le
  · rw [hbrk]; exact wf.rows_le
  · exact wf.row_nil
  · exact wf.row_ne
  · rw [hhd]; exact wf.header_eq

theorem key_at_of_payload {s s2 : ordered_set K V} (hp : Payload s s2) {a : Nat}
    {n : ordered_set_node K V} (hn : s.heap a = some n) : key_at s2 a = key_at s a := by
  obtain ⟨n2, hn2, e1, -⟩ := hp a n hn
  simp [key_at, hn, hn2, e1]

theorem value_at_of_payload {s s2 : ordered_set K V} (hp : Payload s s2) {a : Nat}
    {n : ordered_set_node K V} (hn : s.heap a = some n) : value_at s2 a = value_at s a := by
  obtain ⟨n2, hn2, -, e2⟩ := hp a n hn
  simp [value_at, hn, hn2, e2]

theorem Hz.key_at_some {s : ordered_set K V} {rows : Nat → List Nat} (hz : Hz s rows)
    {j i a : Nat} (ha : (rows j)[i]? = some a) (hi : 0 < i) : ∃ k, key_at s a = some k := by
  obtain ⟨n, hn, -, -, -, -, hk, -⟩ := hz.link j i a ha
  cases h : n.key with
  | none => have := hk.mp h; omega
  | some k => exact ⟨k, by simp [key_at, hn, h]⟩

theorem update_first_spec (s : ordered_set K V) (new_node : Nat) (k : K)
    (hk : key_at s new_node = some k)
    (hf : ∀ f, s.first = some f → ∃ fk, key_at s f = some fk) :
    ∃ s2, update_first s new_node = some s2 ∧ s2.heap = s.heap ∧ s2.header = s.header ∧
      s2.brk = s.brk ∧ s2.compare = s.compare ∧ s2.destroy_key = s.destroy_key ∧
      s2.destroy_value = s.destroy_value ∧ s2.size = s.size ∧ s2.last = s.last ∧
      s2.calls = s.calls ∧
      (s.first = none → s2.first = some new_node) ∧
      (∀ f fk, s.first = some f → key_at s f = some fk →
        s2.first = if s.compare k fk < 0 then some new_node else some f) := by
  cases hfirst : s.first with
  | none =>
    refine ⟨{ s with first := some new_node }, ?_, rfl, rfl, rfl, rfl, rfl, rfl, rfl, rfl, rfl,
      fun _ => rfl, ?_⟩
    · simp [update_first, hfirst]
    · intro f fk h; exact Option.noConfusion h
  | some f =>
    obtain ⟨fk, hfk⟩ := hf f hfirst
    obtain ⟨nn, hnn, hnk⟩ : ∃ nn, s.heap new_node = some nn ∧ nn.key = some k := by
      unfold key_at at hk
      cases h : s.heap new_node with
      | none => rw [h] at hk; simp at hk
      | some nn => rw [h] at hk; exact ⟨nn, rfl, by simpa using hk⟩
    obtain ⟨fn, hfn, hfnk⟩ : ∃ fn, s.heap f = some fn ∧ fn.key = some fk := by
      unfold key_at at hfk
      cases h : s.heap f with
      | none => rw [h] at hfk; simp at hfk
      | some fn => rw [h] at hfk; exact ⟨fn, rfl, by simpa using hfk⟩
    by_cases hc : s.compare k fk < 0
    · refine ⟨{ s with first := some new_node }, ?_, rfl, rfl, rfl, rfl, rfl, rfl, rfl, rfl,
        rfl, fun h => Option.noConfusion h, ?_⟩
      · simp [update_first, hfirst, hnn, hfn, hnk, hfnk, hc]
      · intro f2 fk2 h1 h2
        cases h1
        rw [hfk] at h2; cases h2
        simp [hc]
    · refine ⟨s, ?_, rfl, rfl, rfl, rfl, rfl, rfl, rfl, rfl, rfl,
        fun h => Option.noConfusion h, ?_⟩
      · simp [update_first, hfirst, hnn, hfn, hnk, hfnk, hc]
      · intro f2 fk2 h1 h2
        cases h1
        rw [hfk] at h2; cases h2
        simp [hc, hfirst]

theorem update_last_spec (s : ordered_set K V) (new_node : Nat) (k : K)
    (hk : key_at s new_node = some k)
    (hf : ∀ f, s.last = some f → ∃ fk, key_at s f = some fk) :
    ∃ s2, update_last s new_node = some s2 ∧ s2.heap = s.heap ∧ s2.header = s.header ∧
      s2.brk = s.brk ∧ s2.compare = s.compare ∧ s2.destroy_key = s.destroy_key ∧
      s2.destroy_value = s.destroy_value ∧ s2.size = s.size ∧ s2.first = s.first ∧
      s2.calls = s.calls ∧
      (s.last = none → s2.last = some new_node) ∧
      (∀ f fk, s.last = some f → key_at s f = some fk →
        s2.last = if s.compare k fk > 0 then some new_node else some f) := by
  cases hlast : s.last with
  | none =>
    refine ⟨{ s with last := some new_node }, ?_, rfl, rfl, rfl, rfl, rfl, rfl, rfl, rfl, rfl,
      fun _ => rfl, ?_⟩
    · simp [update_last, hlast]
    · intro f fk h; exact Option.noConfusion h
  | some f =>
    obtain ⟨fk, hfk⟩ := hf f hlast
    obtain ⟨nn, hnn, hnk⟩ : ∃ nn, s.heap new_node = some nn ∧ nn.key = some k := by
      unfold key_at at hk
      cases h : s.heap new_node with
      | none => rw [h] at hk; simp at hk
      | some nn => rw [h] at hk; exact ⟨nn, rfl, by simpa using hk⟩
    obtain ⟨fn, hfn, hfnk⟩ : ∃ fn, s.heap f = some fn ∧ fn.key = some fk := by
      unfold key_at at hfk
      cases h : s.heap f with
      | none => rw [h] at hfk; simp at hfk
      | some fn => rw [h] at hfk; exact ⟨fn, rfl, by simpa using hfk⟩
    by_cases hc : s.compare k fk > 0
    · refine ⟨{ s with last := some new_node }, ?_, rfl, rfl, rfl, rfl, rfl, rfl, rfl, rfl,
        rfl, fun h => Option.noConfusion h, ?_⟩
      · simp [update_last, hlast, hnn, hfn, hnk, hfnk, hc]
      · intro f2 fk2 h1 h2
        cases h1
        rw [hfk] at h2; cases h2
        simp [hc]
    · refine ⟨s, ?_, rfl, rfl, rfl, rfl, rfl, rfl, rfl, rfl, rfl,
        fun h => Option.noConfusion h, ?_⟩
      · simp [update_last, hlast, hnn, hfn, hnk, hfnk, hc]
      · intro f2 fk2 h1 h2
        cases h1
        rw [hfk] at h2; cases h2
        simp [hc, hlast]

/-- The node returned by `node_find_previous` splits level 0 into the entries with a key
smaller than `key` (up to and including it) and the entries with a key that is not smaller. -/
theorem find_position {s : ordered_set K V} {rows : Nat → List Nat} {H : Nat}
    (tc : TotalCompare s.compare) (inv : Inv s rows H) (key : K) :
    ∃ i p, (rows 0)[i]? = some p ∧ node_find_previous s key = some (some p) ∧
      (∀ m a, 0 < m → m ≤ i → (rows 0)[m]? = some a →
        ∃ ka, key_at s a = some ka ∧ s.compare ka key < 0) ∧
      (∀ m a, i < m → (rows 0)[m]? = some a →
        ∃ ka, key_at s a = some ka ∧ ¬ s.compare ka key < 0) := by
  obtain ⟨i, p, hp, hfind, hleft, hright⟩ := node_find_previous_spec inv.wf key
  refine ⟨i, p, hp, hfind, ?_, ?_⟩
  · intro m a hm1 hm2 ha
    rcases hleft with h0 | ⟨kp, hkp, hlt⟩
    · omega
    · by_cases hmi : m = i
      · subst hmi
        rw [hp] at ha; cases ha
        exact ⟨kp, hkp, hlt⟩
      · obtain ⟨ka, hka⟩ := inv.wf.hz.key_at_some ha hm1
        have := inv.sorted m i a p ka kp hm1 (by omega) ha hp hka hkp
        exact ⟨ka, hka, tc.lt_of_le_of_lt this hlt⟩
  · intro m a hm ha
    obtain ⟨b, hb⟩ : ∃ b, (rows 0)[i + 1]? = some b := by
      have := lt_length_of_getElem? ha
      exact ⟨(rows 0)[i + 1], List.getElem?_eq_getElem (by omega)⟩
    obtain ⟨kb, hkb, hnlt⟩ := hright b hb
    by_cases hmi : m = i + 1
    · subst hmi
      rw [hb] at ha; cases ha
      exact ⟨kb, hkb, hnlt⟩
    · obtain ⟨ka, hka⟩ := inv.wf.hz.key_at_some ha (by omega)
      have h1 := inv.sorted (i + 1) m b a kb ka (by omega) (by omega) hb ha hkb hka
      have h2 := tc.le_of_not_lt hnlt
      exact ⟨ka, hka, tc.not_lt_of_le (tc.le_trans _ _ _ h2 h1)⟩

theorem oset_insert_spec {s : ordered_set K V} {rows : Nat → List Nat} {H : Nat}
    (tc : TotalCompare s.compare) (inv : Inv s rows H) (k : K) (v : Option V) (heads : Nat) :
    ∃ s2 rows2 H2 i p, oset_insert s k v heads = some s2 ∧ Inv s2 rows2 H2 ∧ H ≤ H2 ∧
      InsertPost s rows k v s2 rows2 i p := by
  obtain ⟨i, p, hp, hfind, hbefore, hafter⟩ := find_position tc inv k
  obtain ⟨sa, t, ht, hlink, hfra, wfa, hheapa⟩ := wf_link_base inv.wf i p hp k v
  have hilt := lt_length_of_getElem? hp
  have hget := fun m => getElem?_ins_at (rows 0) (i + 1) s.brk m hilt
  have hnewrow : (set_row rows 0 (ins_at (rows 0) (i + 1) s.brk) 0)[i + 1]? = some s.brk := by
    rw [set_row_same, hget, if_neg (by omega), if_pos rfl]
  have hnewa : sa.heap s.brk = some { node_create (some k) v 0 false with
      next := (rows 0)[i + 1]?, previous := some p } := by
    rw [hheapa, if_pos rfl]
  have hpaya : Payload s sa := by
    intro b n hn
    have hb : b ≠ s.brk := fun e => by
      rw [e, inv.wf.hz.fresh s.brk (le_refl _)] at hn
      exact Option.noConfusion hn
    rw [hheapa b, if_neg hb]
    by_cases c3 : b = p
    · subst c3
      rw [ht] at hn; cases hn
      rw [if_pos rfl]
      exact ⟨_, rfl, rfl, rfl⟩
    · rw [if_neg c3]
      by_cases c4 : (rows 0)[i + 1]? = some b
      · rw [if_pos c4, hn]
        exact ⟨_, rfl, rfl, rfl⟩
      · rw [if_neg c4]
        exact ⟨n, hn, rfl, rfl⟩
  obtain ⟨s3, rows3, H3, hloop, wf3, sc3, pay3, hbrk3, hH3, hrows3⟩ :=
    promote_loop_spec heads wfa hnewrow (by omega) hnewa rfl
  have hrow0 : rows3 0 = ins_at (rows 0) (i + 1) s.brk := by
    rw [hrows3 0 (le_refl _), set_row_same]
  have hpay : Payload s s3 := payload_trans hpaya pay3
  have hkey3 : key_at s3 s.brk = some k := by
    rw [key_at_of_payload pay3 hnewa]
    simp [key_at, hnewa, node_create]
  have hval3 : value_at s3 s.brk = v := by
    rw [value_at_of_payload pay3 hnewa]
    simp [value_at, hnewa, node_create]
  have hold_key : ∀ (m a : Nat), (rows 0)[m]? = some a → key_at s3 a = key_at s a := by
    intro m a ha
    obtain ⟨n, hn⟩ := inv.wf.hz.heap_of_mem (mem_of_getElem? ha)
    exact key_at_of_payload hpay hn
  have hfirst3 : s3.first = s.first := by rw [sc3.first, hfra.first, malloc_first]
  have hlast3 : s3.last = s.last := by rw [sc3.last, hfra.last, malloc_last]
  have hcmp3 : s3.compare = s.compare := by rw [sc3.compare, hfra.compare, malloc_compare]
  obtain ⟨s4, hu4, e1, e2, e3, e4, e5, e6, e7, e8, e9, e10, e11⟩ :=
    update_first_spec s3 s.brk k hkey3 (by
      intro f hf
      rw [hfirst3] at hf
      rcases inv.first_mem with h | ⟨q, hq1, hq2⟩
      · rw [h] at hf; exact Option.noConfusion hf
      · rw [hf] at hq2
        obtain ⟨fk, hfk⟩ := inv.wf.hz.key_at_some hq2 hq1
        exact ⟨fk, by rw [hold_key q f hq2]; exact hfk⟩)
  have hkey4 : ∀ a, key_at s4 a = key_at s3 a := fun a => by simp [key_at, e1]
  obtain ⟨s5, hu5, f1, f2, f3, f4, f5, f6, f7, f8, f9, f10, f11⟩ :=
    update_last_spec s4 s.brk k (by rw [hkey4]; exact hkey3) (by
      intro f hf
      rw [e8, hlast3] at hf
      rcases inv.last_mem with h | ⟨q, hq1, hq2⟩
      · rw [h] at hf; exact Option.noConfusion hf
      · rw [hf] at hq2
        obtain ⟨fk, hfk⟩ := inv.wf.hz.key_at_some hq2 hq1
        exact ⟨fk, by rw [hkey4, hold_key q f hq2]; exact hfk⟩)
  have hheap6 : ({ s5 with size := s5.size + 1 } : ordered_set K V).heap = s3.heap := by
    show s5.heap = s3.heap
    rw [f1, e1]
  have hkey6 : ∀ a, key_at ({ s5 with size := s5.size + 1 } : ordered_set K V) a =
      key_at s3 a := fun a => by
    have h56 : s5.heap a = s3.heap a := congrFun hheap6 a
    show (s5.heap a).bind _ = _
    rw [h56]
    rfl
  have hval6 : ∀ a, value_at ({ s5 with size := s5.size + 1 } : ordered_set K V) a =
      value_at s3 a := fun a => by
    have h56 : s5.heap a = s3.heap a := congrFun hheap6 a
    show (s5.heap a).bind _ = _
    rw [h56]
    rfl
  have hcomp : oset_insert s k v heads = some { s5 with size := s5.size + 1 } := by
    simp only [oset_insert, hfind, hlink, hloop, hu4, hu5]
  have hfirst_none : s.first = none → s5.first = some s.brk := by
    intro h
    rw [f8]
    exact e10 (by rw [hfirst3, h])
  have hfirst_some : ∀ f fk, s.first = some f → key_at s f = some fk →
      s5.first = if s.compare k fk < 0 then some s.brk else some f := by
    intro f fk h1 h2
    rw [f8, ← hcmp3]
    apply e11 f fk (by rw [hfirst3, h1])
    rcases inv.first_mem with h | ⟨q, hq1, hq2⟩
    · rw [h] at h1; exact Option.noConfusion h1
    · rw [h1] at hq2
      rw [hold_key q f hq2]; exact h2
  have hlast_none : s.last = none → s5.last = some s.brk := by
    intro h
    exact f10 (by rw [e8, hlast3, h])
  have hlast_some : ∀ f fk, s.last = some f → key_at s f = some fk →
      s5.last = if s.compare k fk > 0 then some s.brk else some f := by
    intro f fk h1 h2
    rw [← hcmp3, ← e4]
    apply f11 f fk (by rw [e8, hlast3, h1])
    rcases inv.last_mem with h | ⟨q, hq1, hq2⟩
    · rw [h] at h1; exact Option.noConfusion h1
    · rw [h1] at hq2
      rw [hkey4, hold_key q f hq2]; exact h2
  have hsize5 : s5.size = s.size := by
    rw [f7, e7, sc3.size, hfra.size, malloc_size]
  refine ⟨{ s5 with size := s5.size + 1 }, rows3, H3, i, p, hcomp, ?_, hH3, ?_⟩
  · constructor
    · exact wf_of_heap_eq wf3 hheap6 (by show s5.header = _; rw [f2, e2])
        (by show s5.brk = _; rw [f3, e3])
    · intro m m2 a a2 ka ka2 hm hm2 ha ha2 hka hka2
      show s5.compare ka ka2 ≤ 0
      rw [f4, e4, hcmp3]
      rw [hkey6] at hka hka2
      rw [hrow0, hget] at ha ha2
      by_cases c1 : m < i + 1
      · rw [if_pos c1] at ha
        rw [hold_key m a ha] at hka
        by_cases c2 : m2 < i + 1
        · rw [if_pos c2] at ha2
          rw [hold_key m2 a2 ha2] at hka2
          exact inv.sorted m m2 a a2 ka ka2 hm hm2 ha ha2 hka hka2
        · rw [if_neg c2] at ha2
          obtain ⟨ka0, g1, g2⟩ := hbefore m a hm (by omega) ha
          rw [hka] at g1; cases g1
          by_cases c3 : m2 = i + 1
          · rw [if_pos c3] at ha2
            cases ha2
            rw [hkey3] at hka2; cases hka2
            omega
          · rw [if_neg c3] at ha2
            rw [hold_key _ a2 ha2] at hka2
            exact inv.sorted m (m2 - 1) a a2 ka ka2 hm (by omega) ha ha2 hka hka2
      · rw [if_neg c1] at ha
        rw [if_neg (by omega), if_neg (by omega)] at ha2
        rw [hold_key _ a2 ha2] at hka2
        by_cases c3 : m = i + 1
        · rw [if_pos c3] at ha
          cases ha
          rw [hkey3] at hka; cases hka
          obtain ⟨ka0, g1, g2⟩ := hafter (m2 - 1) a2 (by omega) ha2
          rw [hka2] at g1; cases g1
          exact tc.le_of_not_lt g2
        · rw [if_neg c3] at ha
          rw [hold_key _ a ha] at hka
          exact inv.sorted (m - 1) (m2 - 1) a a2 ka ka2 (by omega) (by omega) ha ha2 hka hka2
    · show s5.size + 1 = _
      rw [hsize5, inv.size_eq, hrow0, length_ins_at]
      push_cast
      ring
    · show s5.first = none ∨ ∃ q, 0 < q ∧ (rows3 0)[q]? = s5.first
      right
      cases hs : s.first with
      | none =>
        rw [hfirst_none hs]
        exact ⟨i + 1, by omega, by rw [hrow0, hget, if_neg (by omega), if_pos rfl]⟩
      | some f =>
        rcases inv.first_mem with h | ⟨q, hq1, hq2⟩
        · rw [h] at hs; exact Option.noConfusion hs
        · rw [hs] at hq2
          obtain ⟨fk, hfk⟩ := inv.wf.hz.key_at_some hq2 hq1
          rw [hfirst_some f fk hs hfk]
          by_cases hc : s.compare k fk < 0
          · rw [if_pos hc]
            exact ⟨i + 1, by omega, by rw [hrow0, hget, if_neg (by omega), if_pos rfl]⟩
          · rw [if_neg hc]
            by_cases hq : q < i + 1
            · exact ⟨q, hq1, by rw [hrow0, hget, if_pos hq]; exact hq2⟩
            · refine ⟨q + 1, by omega, ?_⟩
              rw [hrow0, hget, if_neg (by omega), if_neg (by omega)]
              simpa using hq2
    · show s5.last = none ∨ ∃ q, 0 < q ∧ (rows3 0)[q]? = s5.last
      right
      cases hs : s.last with
      | none =>
        rw [hlast_none hs]
        exact ⟨i + 1, by omega, by rw [hrow0, hget, if_neg (by omega), if_pos rfl]⟩
      | some f =>
        rcases inv.last_mem with h | ⟨q, hq1, hq2⟩
        · rw [h] at hs; exact Option.noConfusion hs
        · rw [hs] at hq2
          obtain ⟨fk, hfk⟩ := inv.wf.hz.key_at_some hq2 hq1
          rw [hlast_some f fk hs hfk]
          by_cases hc : s.compare k fk > 0
          · rw [if_pos hc]
            exact ⟨i + 1, by omega, by rw [hrow0, hget, if_neg (by omega), if_pos rfl]⟩
          · rw [if_neg hc]
            by_cases hq : q < i + 1
            · exact ⟨q, hq1, by rw [hrow0, hget, if_pos hq]; exact hq2⟩
            · refine ⟨q + 1, by omega, ?_⟩
              rw [hrow0, hget, if_neg (by omega), if_neg (by omega)]
              simpa using hq2
  · constructor
    · exact hp
    · exact hfind
    · exact hrow0
    · exact hbefore
    · exact hafter
    · intro b n hn
      obtain ⟨n2, hn2, g1, g2⟩ := hpay b n hn
      exact ⟨n2, by rw [congrFun hheap6 b]; exact hn2, g1, g2⟩
    · rw [hkey6]; exact hkey3
    · rw [hval6]; exact hval3
    · show s5.size + 1 = s.size + 1
      rw [hsize5]
    · show s5.compare = _
      rw [f4, e4, hcmp3]
    · show s5.destroy_key = _
      rw [f5, e5, sc3.destroy_key, hfra.destroy_key, malloc_destroy_key]
    · show s5.destroy_value = _
      rw [f6, e6, sc3.destroy_value, hfra.destroy_value, malloc_destroy_value]
    · show s5.calls = _
      rw [f9, e9, sc3.calls, hfra.calls, malloc_calls]
    · show s.brk < s5.brk
      rw [f3, e3]
      have := hfra.brk
      rw [malloc_brk] at this
      omega
    · exact hfirst_none
    · exact hfirst_some
    · exact hlast_none
    · exact hlast_some

/-- One iteration of the loop of `node_destroy_top` on a node `x` that is not a header: `x` is
taken out of its row and freed. -/
theorem destroy_step {s : ordered_set K V} {rows : Nat → List Nat} (hz : Hz s rows)
    {j i x : Nat} (hx : (rows j)[i]? = some x) (hi : 0 < i) (dk dv : DestroyFunc) (fuel : Nat) :
    ∃ s3 xn pv pvn, s.heap x = some xn ∧ (rows j)[i - 1]? = some pv ∧ s.heap pv = some pvn ∧
      node_destroy_top dk dv (fuel + 1) s (some x) = node_destroy_top dk dv fuel s3 xn.top ∧
      s3.compare = s.compare ∧ s3.destroy_key = s.destroy_key ∧
      s3.destroy_value = s.destroy_value ∧ s3.size = s.size ∧ s3.first = s.first ∧
      s3.last = s.last ∧ s3.header = s.header ∧ s3.brk = s.brk ∧
      s3.calls = s.calls ++ destroy_calls xn dk dv ∧
      ∀ b, s3.heap b =
        if b = x then none
        else if b = pv then some { pvn with next := (rows j)[i + 1]? }
        else if (rows j)[i + 1]? = some b then
          (s.heap b).map fun y => { y with previous := some pv }
        else s.heap b := by
  obtain ⟨xn, hxn, xnext, xprev, -⟩ := hz.link j i x hx
  have hilt := lt_length_of_getElem? hx
  obtain ⟨pv, hpv⟩ : ∃ pv, (rows j)[i - 1]? = some pv :=
    ⟨(rows j)[i - 1], List.getElem?_eq_getElem (by omega)⟩
  obtain ⟨pvn, hpvn, -⟩ := hz.link j (i - 1) pv hpv
  have hprev : xn.previous = some pv := by rw [xprev, if_neg (by omega), hpv]
  have hpx : pv ≠ x := fun e => by
    subst e
    have := nodup_index_eq (hz.nodup j) hpv hx
    omega
  cases hnx : (rows j)[i + 1]? with
  | none =>
    have hnext : xn.next = none := by rw [xnext, hnx]
    refine ⟨{ (s.store pv { pvn with next := xn.next }).free x with
        calls := s.calls ++ destroy_calls xn dk dv }, xn, pv, pvn, hxn, hpv, hpvn, ?_,
      rfl, rfl, rfl, rfl, rfl, rfl, rfl, rfl, rfl, ?_⟩
    · simp only [node_destroy_top, hxn, hnext, hprev]
      rw [modify_eq s pv _ pvn hpvn]
      simp only [node_destroy, store_heap, if_neg (Ne.symm hpx), hxn, hnext]
      rfl
    · intro b
      show (if b = x then none else if b = pv then _ else s.heap b) = _
      by_cases c1 : b = x
      · simp [c1]
      · by_cases c2 : b = pv
        · simp [c1, c2, hnext]
        · simp [c1, c2]
  | some nx =>
    have hnext : xn.next = some nx := by rw [xnext, hnx]
    obtain ⟨nxn, hnxn, -⟩ := hz.link j (i + 1) nx hnx
    have hnxx : nx ≠ x := fun e => by
      subst e
      have := nodup_index_eq (hz.nodup j) hnx hx
      omega
    have hnxp : nx ≠ pv := fun e => by
      subst e
      have := nodup_index_eq (hz.nodup j) hnx hpv
      omega
    refine ⟨{ ((s.store nx { nxn with previous := xn.previous }).store pv
          { pvn with next := xn.next }).free x with
        calls := s.calls ++ destroy_calls xn dk dv }, xn, pv, pvn, hxn, hpv, hpvn, ?_,
      rfl, rfl, rfl, rfl, rfl, rfl, rfl, rfl, rfl, ?_⟩
    · simp only [node_destroy_top, hxn, hnext]
      rw [modify_eq s nx _ nxn hnxn]
      simp only [store_heap, if_neg (Ne.symm hnxx), hxn, hprev]
      rw [modify_eq _ pv _ pvn (by simp [Ne.symm hnxp, hpvn])]
      simp only [node_destroy, store_heap, if_neg (Ne.symm hpx), if_neg (Ne.symm hnxx), hxn,
        hnext]
      rfl
    · intro b
      show (if b = x then none else if b = pv then _ else if b = nx then _ else s.heap b) = _
      by_cases c1 : b = x
      · simp [c1]
      · by_cases c2 : b = pv
        · simp [c1, c2, hnext]
        · by_cases c3 : b = nx
          · subst c3
            simp [c1, c2, hnxn, hprev]
          · have : ¬ nx = b := fun e => c3 e.symm
            simp [c1, c2, c3, this]

/-- Taking the node of index `i > 0` out of row `j` keeps the horizontal structure. -/
theorem hz_unlink {s s3 : ordered_set K V} {rows : Nat → List Nat} (hz : Hz s rows)
    {j i x pv : Nat} {pvn : ordered_set_node K V} (hx : (rows j)[i]? = some x) (hi : 0 < i)
    (hpv : (rows j)[i - 1]? = some pv) (hpvn : s.heap pv = some pvn)
    (hbrk : s3.brk = s.brk)
    (hheap : ∀ b, s3.heap b =
        if b = x then none
        else if b = pv then some { pvn with next := (rows j)[i + 1]? }
        else if (rows j)[i + 1]? = some b then
          (s.heap b).map fun y => { y with previous := some pv }
        else s.heap b) :
    Hz s3 (set_row rows j ((rows j).eraseIdx i)) := by
  have hilt := lt_length_of_getElem? hx
  have hget := fun k => List.getElem?_eraseIdx (rows j) i k
  have hsub : ∀ m a, a ∈ set_row rows j ((rows j).eraseIdx i) m → a ∈ rows m := by
    intro m a ha
    by_cases hm : m = j
    · subst hm
      rw [set_row_same] at ha
      exact (List.eraseIdx_sublist _ _).subset ha
    · rw [set_row_other _ _ _ hm] at ha; exact ha
  have hxout : ∀ m, x ∉ set_row rows j ((rows j).eraseIdx i) m := by
    intro m hm
    have h1 := hsub m x hm
    have h2 : m = j := hz.disj m j x h1 (mem_of_getElem? hx)
    subst h2
    rw [set_row_same, List.mem_eraseIdx_iff_getElem?] at hm
    obtain ⟨i2, hne, h3⟩ := hm
    exact hne (nodup_index_eq (hz.nodup m) h3 hx)
  have hpx : pv ≠ x := fun e => by
    subst e
    have := nodup_index_eq (hz.nodup j) hpv hx
    omega
  constructor
  · intro m
    by_cases hm : m = j
    · subst hm
      rw [set_row_same]
      exact (hz.nodup m).sublist (List.eraseIdx_sublist _ _)
    · rw [set_row_other _ _ _ hm]; exact hz.nodup m
  · intro m m2 a ha ha2
    exact hz.disj m m2 a (hsub _ _ ha) (hsub _ _ ha2)
  · intro a n ha
    rw [hheap a] at ha
    by_cases c1 : a = x
    · rw [if_pos c1] at ha; exact Option.noConfusion ha
    · have hlive : ∃ n0, s.heap a = some n0 := by
        rw [if_neg c1] at ha
        by_cases c2 : a = pv
        · subst c2; exact ⟨pvn, hpvn⟩
        · rw [if_neg c2] at ha
          by_cases c3 : (rows j)[i + 1]? = some a
          · exact hz.heap_of_mem (mem_of_getElem? c3)
          · rw [if_neg c3] at ha; exact ⟨n, ha⟩
      obtain ⟨n0, hn0⟩ := hlive
      obtain ⟨m, hm⟩ := hz.live a n0 hn0
      refine ⟨m, ?_⟩
      by_cases hmj : m = j
      · subst hmj
        rw [set_row_same, List.mem_eraseIdx_iff_getElem?]
        obtain ⟨i2, hi2⟩ := List.mem_iff_getElem?.mp hm
        refine ⟨i2, ?_, hi2⟩
        intro e
        subst e
        rw [hx] at hi2; cases hi2
        exact c1 rfl
      · rw [set_row_other _ _ _ hmj]; exact hm
  · intro a ha
    rw [hbrk] at ha
    rw [hheap a]
    by_cases c1 : a = x
    · rw [if_pos c1]
    · rw [if_neg c1]
      have h2 : a ≠ pv := fun e => by
        have := hz.lt_brk (mem_of_getElem? hpv); omega
      have h3 : ¬ (rows j)[i + 1]? = some a := fun h => by
        have := hz.lt_brk (mem_of_getElem? h); omega
      rw [if_neg h2, if_neg h3]
      exact hz.fresh a ha
  · intro m k a ha
    by_cases hm : m = j
    swap
    · rw [set_row_other _ _ _ hm] at ha ⊢
      have hmem := mem_of_getElem? ha
      have h1 : a ≠ x := fun h => hm (hz.disj m j a hmem (h ▸ mem_of_getElem? hx))
      have h2 : a ≠ pv := fun h => hm (hz.disj m j a hmem (h ▸ mem_of_getElem? hpv))
      have h3 : ¬ (rows j)[i + 1]? = some a := fun h =>
        hm (hz.disj m j a hmem (mem_of_getElem? h))
      rw [hheap a, if_neg h1, if_neg h2, if_neg h3]
      exact hz.link m k a ha
    · subst hm
      rw [set_row_same] at ha ⊢
      rw [hget k] at ha
      rw [hheap a]
      by_cases c1 : k < i
      · rw [if_pos c1] at ha
        have h1 : a ≠ x := fun h => by
          subst h; have := nodup_index_eq (hz.nodup m) ha hx; omega
        have h3 : ¬ (rows m)[i + 1]? = some a := fun h => by
          have := nodup_index_eq (hz.nodup m) ha h; omega
        rw [if_neg h1]
        obtain ⟨n, hn, g1, g2, g3, g4, g5, g6⟩ := hz.link m k a ha
        have gprev : n.previous =
            if k = 0 then none else ((rows m).eraseIdx i)[k - 1]? := by
          rw [g2]
          by_cases hk0 : k = 0
          · simp [hk0]
          · rw [if_neg hk0, if_neg hk0, hget (k - 1), if_pos (by omega)]
        by_cases c2 : k = i - 1
        · have hap : a = pv := by
            rw [c2, hpv] at ha; cases ha; rfl
          subst hap
          rw [hpvn] at hn; cases hn
          rw [if_pos rfl]
          refine ⟨_, rfl, ?_, gprev, g3, g4, g5, g6⟩
          show (rows m)[i + 1]? = _
          rw [hget (k + 1), if_neg (by omega)]
          have : k + 1 + 1 = i + 1 := by omega
          rw [this]
        · have h2 : a ≠ pv := fun h => by
            subst h; have := nodup_index_eq (hz.nodup m) ha hpv; omega
          rw [if_neg h2, if_neg h3]
          refine ⟨n, hn, ?_, gprev, g3, g4, g5, g6⟩
          rw [g1, hget (k + 1), if_pos (by omega)]
      · rw [if_neg c1] at ha
        have h1 : a ≠ x := fun h => by
          subst h; have := nodup_index_eq (hz.nodup m) ha hx; omega
        have h2 : a ≠ pv := fun h => by
          subst h; have := nodup_index_eq (hz.nodup m) ha hpv; omega
        rw [if_neg h1, if_neg h2]
        obtain ⟨n, hn, g1, g2, g3, g4, g5, g6⟩ := hz.link m (k + 1) a ha
        have gnext : n.next = ((rows m).eraseIdx i)[k + 1]? := by
          rw [g1, hget (k + 1), if_neg (by omega)]
        have ghd : n.is_header = decide (k = 0) := by
          rw [g4]
          have : ¬ (k + 1 = 0) := by omega
          have : ¬ (k = 0) := by omega
          simp [*]
        have gkey : n.key = none ↔ k = 0 := by
          rw [g5]; omega
        by_cases c2 : k = i
        · subst c2
          rw [if_pos ha, hn]
          refine ⟨_, rfl, gnext, ?_, g3, ghd, gkey, fun h => by omega⟩
          show some pv = _
          rw [if_neg (by omega), hget (k - 1), if_pos (by omega), hpv]
        · have h3 : ¬ (rows m)[i + 1]? = some a := fun h => by
            have := nodup_index_eq (hz.nodup m) ha h; omega
          rw [if_neg h3]
          refine ⟨n, hn, gnext, ?_, g3, ghd, gkey, fun h => by omega⟩
          rw [g2, if_neg (by omega), if_neg (by omega), hget (k - 1), if_neg (by omega)]
          have : k - 1 + 1 = k + 1 - 1 := by omega
          rw [this]

/-- Freeing the exempt node `x`, to which no `top` pointer leads, keeps the vertical
structure; the node above `x` becomes the exempt one, and no `top` pointer leads to it. -/
theorem vt_unlink {s s3 : ordered_set K V} {rows rows2 : Nat → List Nat} {x j : Nat}
    {xn : ordered_set_node K V} (vt : Vt s rows (some x))
    (hlive : ∀ a n, s.heap a = some n → ∃ j, a ∈ rows j) (hxj : x ∈ rows j)
    (hxn : s.heap x = some xn)
    (hnotop : ∀ a n, s.heap a = some n → n.top ≠ some x)
    (hfree : s3.heap x = none)
    (hsame : ∀ b, b ≠ x → (s3.heap b).map vview = (s.heap b).map vview)
    (hmem : ∀ m a, a ∈ rows2 m ↔ a ∈ rows m ∧ a ≠ x) :
    Vt s3 rows2 xn.top ∧
      ∀ t, xn.top = some t → ∀ a n, s3.heap a = some n → n.top ≠ some t := by
  have back : ∀ a n2, s3.heap a = some n2 → a ≠ x ∧ ∃ n, s.heap a = some n ∧
      n2.top = n.top ∧ n2.bottom = n.bottom ∧ n2.key = n.key ∧ n2.value = n.value ∧
      n2.is_header = n.is_header := by
    intro a n2 hn2
    have hax : a ≠ x := fun e => by
      rw [e, hfree] at hn2; exact Option.noConfusion hn2
    refine ⟨hax, ?_⟩
    cases h0 : s.heap a with
    | none => rw [map_eq_none_of (hsame a hax) h0] at hn2; exact Option.noConfusion hn2
    | some n =>
      obtain ⟨n3, hn3, e⟩ := vview_of_map_eq (hsame a hax) h0
      rw [hn2] at hn3; cases hn3
      exact ⟨n, rfl, e⟩
  refine ⟨⟨?_, ?_⟩, ?_⟩
  · intro m a n2 ha hn2 hex
    obtain ⟨hax, n, hn, e1, e2, e3, e4, e5⟩ := back a n2 hn2
    have ha0 := ((hmem m a).mp ha).1
    rcases vt.down m a n ha0 hn (by simpa using hax) with
      ⟨g1, g2⟩ | ⟨b, nb, g1, g2, g3, g4, g5, g6, g7, g8⟩
    · exact Or.inl ⟨by rw [e2, g1], g2⟩
    · have hbx : b ≠ x := fun e => by
        subst e
        rw [hxn] at g4; cases g4
        exact hex g5.symm
      obtain ⟨nb2, hnb2, f1, f2, f3, f4, f5⟩ := vview_of_map_eq (hsame b hbx) g4
      exact Or.inr ⟨b, nb2, by rw [e2, g1], g2, (hmem _ _).mpr ⟨g3, hbx⟩, hnb2,
        by rw [f1, g5], by rw [f3, g6, e3], by rw [f4, g7, e4], by rw [f5, g8, e5]⟩
  · intro m a n2 t ha hn2 ht
    obtain ⟨hax, n, hn, e1, e2, e3, e4, e5⟩ := back a n2 hn2
    have ha0 := ((hmem m a).mp ha).1
    have htop : n.top = some t := by rw [← e1, ht]
    obtain ⟨nt, g1, g2, g3⟩ := vt.up m a n t ha0 hn htop
    have htx : t ≠ x := fun e => hnotop a n hn (by rw [htop, e])
    obtain ⟨nt2, hnt2, f1, f2, f3, f4, f5⟩ := vview_of_map_eq (hsame t htx) g2
    exact ⟨nt2, (hmem _ _).mpr ⟨g1, htx⟩, hnt2, by rw [f2, g3]⟩
  · intro t ht a n2 hn2 htop2
    obtain ⟨hax, n, hn, e1, e2, e3, e4, e5⟩ := back a n2 hn2
    have htop : n.top = some t := by rw [← e1, htop2]
    obtain ⟨j2, hj2⟩ := hlive a n hn
    obtain ⟨nt, g1, g2, g3⟩ := vt.up j2 a n t hj2 hn htop
    obtain ⟨nt2, h1, h2, h3⟩ := vt.up j x xn t hxj hxn ht
    rw [g2] at h2; cases h2
    rw [g3] at h3; cases h3
    exact hax rfl

theorem destroy_calls_upper (n : ordered_set_node K V) (dk dv : DestroyFunc) (j : Nat)
    (h : n.level = ((j + 1 : Nat) : Int)) : destroy_calls n dk dv = [] := by
  unfold destroy_calls
  have : ¬ n.level = 0 := by rw [h]; omega
  simp [this]

theorem mem_unlink_iff {s : ordered_set K V} {rows : Nat → List Nat} (hz : Hz s rows)
    {j i x : Nat} (hx : (rows j)[i]? = some x) (m a : Nat) :
    a ∈ set_row rows j ((rows j).eraseIdx i) m ↔ a ∈ rows m ∧ a ≠ x := by
  by_cases hm : m = j
  · subst hm
    rw [set_row_same, List.mem_eraseIdx_iff_getElem?]
    constructor
    · rintro ⟨i2, hne, h⟩
      refine ⟨mem_of_getElem? h, ?_⟩
      intro e
      subst e
      exact hne (nodup_index_eq (hz.nodup m) h hx)
    · rintro ⟨h1, h2⟩
      obtain ⟨i2, hi2⟩ := List.mem_iff_getElem?.mp h1
      refine ⟨i2, ?_, hi2⟩
      intro e
      subst e
      rw [hx] at hi2; cases hi2
      exact h2 rfl
  · rw [set_row_other _ _ _ hm]
    constructor
    · intro h
      refine ⟨h, ?_⟩
      intro e
      subst e
      exact hm (hz.disj m j a h (mem_of_getElem? hx))
    · exact fun h => h.1

theorem node_destroy_top_spec (dk dv : DestroyFunc) {H : Nat} :
    ∀ (fuel : Nat) {s : ordered_set K V} {rows : Nat → List Nat} {j i x : Nat},
      Wf s rows H (some x) → (∀ a n, s.heap a = some n → n.top ≠ some x) →
      (rows j)[i]? = some x → 0 < i → H ≤ j + fuel →
      ∃ s2 rows2 xn, s.heap x = some xn ∧
        node_destroy_top dk dv fuel s (some x) = some s2 ∧ Wf s2 rows2 H none ∧
        (∀ m, m < j → rows2 m = rows m) ∧ rows2 j = (rows j).eraseIdx i ∧
        (∀ m a, a ∈ rows2 m → a ∈ rows m) ∧
        (∀ a n2, s2.heap a = some n2 →
          ∃ n, s.heap a = some n ∧ n2.key = n.key ∧ n2.value = n.value) ∧
        s2.heap x = none ∧
        s2.compare = s.compare ∧ s2.destroy_key = s.destroy_key ∧
        s2.destroy_value = s.destroy_value ∧ s2.size = s.size ∧ s2.first = s.first ∧
        s2.last = s.last ∧ s2.header = s.header ∧ s2.brk = s.brk ∧
        s2.calls = s.calls ++ destroy_calls xn dk dv := by
  intro fuel
  induction fuel with
  | zero =>
    intro s rows j i x wf _ hx _ hf
    have : rows j = [] := wf.row_nil j (by omega)
    rw [this] at hx
    simp at hx
  | succ fuel ih =>
    intro s rows j i x wf hnotop hx hi hf
    have hjH : j < H := by
      by_contra hc
      rw [wf.row_nil j (by omega)] at hx
      simp at hx
    have hilt := lt_length_of_getElem? hx
    obtain ⟨s3, xn, pv, pvn, hxn, hpv, hpvn, hstep, c1, c2, c3, c4, c5, c6, c7, c8, c9,
      hheap⟩ := destroy_step wf.hz hx hi dk dv fuel
    have hxmem : x ∈ rows j := mem_of_getElem? hx
    have hpx : pv ≠ x := fun e => by
      subst e
      have := nodup_index_eq (wf.hz.nodup j) hpv hx
      omega
    have hz3 := hz_unlink wf.hz hx hi hpv hpvn c8 hheap
    have hfree : s3.heap x = none := by rw [hheap, if_pos rfl]
    have hsame : ∀ b, b ≠ x → (s3.heap b).map vview = (s.heap b).map vview := by
      intro b hb
      rw [hheap b, if_neg hb]
      by_cases h2 : b = pv
      · subst h2
        rw [if_pos rfl, hpvn]
        rfl
      · rw [if_neg h2]
        by_cases h3 : (rows j)[i + 1]? = some b
        · rw [if_pos h3]
          cases s.heap b with
          | none => rfl
          | some y => rfl
        · rw [if_neg h3]
    obtain ⟨vt3, hnotop3⟩ := vt_unlink wf.vt wf.hz.live hxmem hxn hnotop hfree hsame
      (mem_unlink_iff wf.hz hx)
    have hback3 : ∀ a n2, s3.heap a = some n2 →
        ∃ n, s.heap a = some n ∧ n2.key = n.key ∧ n2.value = n.value := by
      intro a n2 hn2
      have hax : a ≠ x := fun e => by
        rw [e, hfree] at hn2; exact Option.noConfusion hn2
      cases h0 : s.heap a with
      | none => rw [map_eq_none_of (hsame a hax) h0] at hn2; exact Option.noConfusion hn2
      | some n =>
        obtain ⟨n3, hn3, -, -, e3, e4, -⟩ := vview_of_map_eq (hsame a hax) h0
        rw [hn2] at hn3; cases hn3
        exact ⟨n, rfl, e3, e4⟩
    have wf3 : Wf s3 (set_row rows j ((rows j).eraseIdx i)) H xn.top := by
      constructor
      · exact hz3
      · exact vt3
      · exact wf.height_pos
      · rw [c8]; exact wf.height_le
      · intro m
        rw [c8]
        by_cases hm : m = j
        · subst hm
          rw [set_row_same, List.length_eraseIdx]
          have := wf.rows_le m
          split <;> omega
        · rw [set_row_other _ _ _ hm]; exact wf.rows_le m
      · intro m hm
        rw [set_row_other _ _ _ (by omega)]
        exact wf.row_nil m hm
      · intro m hm
        by_cases c : m = j
        · subst c
          rw [set_row_same]
          intro h
          have := congrArg List.length h
          rw [List.length_eraseIdx, if_pos hilt] at this
          simp at this
          omega
        · rw [set_row_other _ _ _ c]
          exact wf.row_ne m hm
      · rw [c7, wf.header_eq]
        by_cases h0 : H - 1 = j
        · rw [h0, set_row_same, List.getElem?_eraseIdx, if_pos hi]
        · rw [set_row_other _ _ _ h0]
    have hsub3 : ∀ m a, a ∈ set_row rows j ((rows j).eraseIdx i) m → a ∈ rows m :=
      fun m a h => ((mem_unlink_iff wf.hz hx m a).mp h).1
    cases htop : xn.top with
    | none =>
      rw [htop] at hstep wf3
      refine ⟨s3, _, xn, hxn, ?_, wf3, ?_, by rw [set_row_same], hsub3, hback3, hfree,
        c1, c2, c3, c4, c5, c6, c7, c8, c9⟩
      · rw [hstep]
        cases fuel <;> rfl
      · intro m hm
        rw [set_row_other _ _ _ (by omega)]
    | some t =>
      rw [htop] at hstep wf3
      obtain ⟨nt, g1, g2, g3⟩ := wf.vt.up j x xn t hxmem hxn htop
      obtain ⟨i2, hi2⟩ := List.mem_iff_getElem?.mp g1
      have htx : t ≠ x := fun e => by
        subst e
        have := wf.hz.disj j (j + 1) t hxmem g1
        omega
      have hi2pos : 0 < i2 := by
        obtain ⟨nt0, hnt0, -, -, -, f4, -⟩ := wf.hz.link (j + 1) i2 t hi2
        rw [g2] at hnt0; cases hnt0
        obtain ⟨xn0, hxn0, -, -, -, f4x, -⟩ := wf.hz.link j i x hx
        rw [hxn] at hxn0; cases hxn0
        rcases wf.vt.down (j + 1) t nt g1 g2 (by simpa using htx) with
          ⟨-, h0⟩ | ⟨b, nb, d1, -, -, d4, -, -, -, d8⟩
        · omega
        · rw [g3] at d1; cases d1
          rw [hxn] at d4; cases d4
          by_contra hc
          have hz0 : i2 = 0 := by omega
          rw [f4, f4x] at d8
          simp [hz0] at d8
          omega
      have hi2row : (set_row rows j ((rows j).eraseIdx i) (j + 1))[i2]? = some t := by
        rw [set_row_other _ _ _ (by omega)]; exact hi2
      obtain ⟨s2, rows2, tn, e0, e1, e2, e3, e4, e5, e6, e7, d1, d2, d3, d4, d5, d6, d7, d8,
        d9⟩ := ih wf3 (hnotop3 t htop) hi2row hi2pos (by omega)
      have htlev : tn.level = ((j + 1 : Nat) : Int) := by
        obtain ⟨tn0, htn0, -, -, f3, -⟩ := hz3.link (j + 1) i2 t hi2row
        rw [e0] at htn0; cases htn0
        exact f3
      refine ⟨s2, rows2, xn, hxn, ?_, e2, ?_, ?_, ?_, ?_, ?_, d1.trans c1, d2.trans c2,
        d3.trans c3, d4.trans c4, d5.trans c5, d6.trans c6, d7.trans c7, d8.trans c8, ?_⟩
      · rw [hstep]; exact e1
      · intro m hm
        rw [e3 m (by omega), set_row_other _ _ _ (by omega)]
      · rw [e3 j (by omega), set_row_same]
      · intro m a ha
        exact hsub3 m a (e5 m a ha)
      · intro a n2 hn2
        obtain ⟨n3, h1, h2, h3⟩ := e6 a n2 hn2
        obtain ⟨n, k1, k2, k3⟩ := hback3 a n3 h1
        exact ⟨n, k1, h2.trans k2, h3.trans k3⟩
      · cases h : s2.heap x with
        | none => rfl
        | some n2 =>
          obtain ⟨n3, h1, -⟩ := e6 x n2 h
          rw [hfree] at h1
          exact Option.noConfusion h1
      · rw [d9, c9, destroy_calls_upper tn dk dv j htlev, List.append_nil]

theorem key_at_heap {s : ordered_set K V} {a : Nat} {k : K} (h : key_at s a = some k) :
    ∃ n, s.heap a = some n ∧ n.key = some k := by
  unfold key_at at h
  cases h0 : s.heap a with
  | none => rw [h0] at h; simp at h
  | some n => rw [h0] at h; exact ⟨n, rfl, by simpa using h⟩

/-- When `oset_remove` does not find the key, it returns `false` and the set itself. -/
theorem oset_remove_miss {s : ordered_set K V} {rows : Nat → List Nat} {H : Nat}
    (tc : TotalCompare s.compare) (inv : Inv s rows H) (key : K)
    (hno : ∀ m a ka, 0 < m → (rows 0)[m]? = some a → key_at s a = some ka →
      s.compare ka key ≠ 0) :
    oset_remove s key = some (false, s) := by
  obtain ⟨i, p, hp, hfind, hbefore, hafter⟩ := find_position tc inv key
  obtain ⟨n, hn, hnext, -⟩ := inv.wf.hz.link 0 i p hp
  cases hnx : (rows 0)[i + 1]? with
  | none =>
    rw [hnx] at hnext
    simp only [oset_remove, hfind, hn, hnext]
  | some nx =>
    rw [hnx] at hnext
    obtain ⟨kx, hkx, -⟩ := hafter (i + 1) nx (by omega) hnx
    obtain ⟨x, hx, hxk⟩ := key_at_heap hkx
    have hne := hno (i + 1) nx kx (by omega) hnx hkx
    simp only [oset_remove, hfind, hn, hnext, hx, hxk]
    simp [hne]

/-- The set on which `oset_remove` calls `node_destroy_top`: `first` and `last` are already
moved off the node `nx` that is about to be removed. -/
theorem oset_remove_unfold (s : ordered_set K V) (key : K) (p nx : Nat)
    (n x : ordered_set_node K V) (xk : K)
    (hfind : node_find_previous s key = some (some p)) (hn : s.heap p = some n)
    (hnext : n.next = some nx) (hx : s.heap nx = some x) (hxk : x.key = some xk)
    (heq : s.compare xk key = 0) :
    oset_remove s key =
      match node_destroy_top s.destroy_key s.destroy_value (s.brk + 1)
        { s with
          first := if s.first = some nx then x.next else s.first,
          last := if s.last = some nx then (if n.is_header then none else some p)
            else s.last } (some nx) with
      | none => none
      | some s3 => some (true, { s3 with size := s3.size - 1 }) := by
  simp only [oset_remove, hfind, hn, hnext, hx, hxk, heq, ne_eq, not_true_eq_false, if_false]
  by_cases c1 : s.first = some nx
  · by_cases c2 : s.last = some nx
    · simp only [c1, c2, if_true]
    · have c2b : ¬ some nx = s.last := fun e => c2 e.symm
      simp only [c1, c2, c2b, if_true, if_false]
  · have c1b : ¬ some nx = s.first := fun e => c1 e.symm
    by_cases c2 : s.last = some nx
    · simp only [c1, c2, c1b, if_true, if_false]
    · have c2b : ¬ some nx = s.last := fun e => c2 e.symm
      simp only [c1, c2, c1b, c2b, if_false]

theorem oset_remove_hit_at {s : ordered_set K V} {rows : Nat → List Nat} {H : Nat}
    (inv : Inv s rows H) (key : K) {i p nx : Nat} {kx : K}
    (hp : (rows 0)[i]? = some p) (hfind : node_find_previous s key = some (some p))
    (hbefore : ∀ m a, 0 < m → m ≤ i → (rows 0)[m]? = some a →
      ∃ ka, key_at s a = some ka ∧ s.compare ka key < 0)
    (hnx : (rows 0)[i + 1]? = some nx) (hkx : key_at s nx = some kx)
    (heq : s.compare kx key = 0) :
    ∃ s2 rows2, oset_remove s key = some (true, s2) ∧ Inv s2 rows2 H ∧
      RemovePost s rows key s2 rows2 i p nx := by
  obtain ⟨n, hn, hnext, -, -, nhd, -⟩ := inv.wf.hz.link 0 i p hp
  rw [hnx] at hnext
  obtain ⟨x, hx, hxk⟩ := key_at_heap hkx
  obtain ⟨x0, hx0, xnext, -⟩ := inv.wf.hz.link 0 (i + 1) nx hnx
  rw [hx] at hx0; cases hx0
  have hunf := oset_remove_unfold s key p nx n x kx hfind hn hnext hx hxk heq
  let sp : ordered_set K V :=
    { s with
      first := if s.first = some nx then x.next else s.first,
      last := if s.last = some nx then (if n.is_header then none else some p) else s.last }
  have wfp : Wf sp rows H none := wf_of_heap_eq inv.wf rfl rfl rfl
  have wfx : Wf sp rows H (some nx) :=
    ⟨wfp.hz, vt_exempt _ wfp.vt, wfp.height_pos, wfp.height_le, wfp.rows_le, wfp.row_nil,
      wfp.row_ne, wfp.header_eq⟩
  have hnotop : ∀ a m, sp.heap a = some m → m.top ≠ some nx := by
    intro a m hm htop
    obtain ⟨j, hj⟩ := wfp.hz.live a m hm
    obtain ⟨nt, g1, -⟩ := wfp.vt.up j a m nx hj hm htop
    have := wfp.hz.disj (j + 1) 0 nx g1 (mem_of_getElem? hnx)
    omega
  obtain ⟨s3, rows3, xn, e0, e1, e2, e3, e4, e5, e6, e7, d1, d2, d3, d4, d5, d6, d7, d8, d9⟩ :=
    node_destroy_top_spec s.destroy_key s.destroy_value (s.brk + 1) wfx hnotop hnx (by omega)
      (by have := inv.wf.height_le; show H ≤ 0 + (s.brk + 1); omega)
  have e0b : s.heap nx = some xn := e0
  rw [hx] at e0b; cases e0b
  have hcomp : oset_remove s key = some (true, { s3 with size := s3.size - 1 }) := by
    rw [hunf]
    have : node_destroy_top s.destroy_key s.destroy_value (s.brk + 1) sp (some nx) = some s3 :=
      e1
    rw [this]
  have hilt := lt_length_of_getElem? hnx
  have hget := fun k => List.getElem?_eraseIdx (rows 0) (i + 1) k
  have hkeyback : ∀ a k, key_at ({ s3 with size := s3.size - 1 } : ordered_set K V) a = some k →
      key_at s a = some k := by
    intro a k hk
    obtain ⟨n2, hn2, hk2⟩ := key_at_heap hk
    obtain ⟨n0, hn0, g1, -⟩ := e6 a n2 hn2
    have hn0b : s.heap a = some n0 := hn0
    simp [key_at, hn0b, ← g1, hk2]
  have hfirst : s3.first = if s.first = some nx then (rows 0)[i + 2]? else s.first := by
    rw [d5]
    show (if s.first = some nx then x.next else s.first) = _
    rw [xnext]
  have hlast : s3.last = if s.last = some nx then (if i = 0 then none else some p)
      else s.last := by
    rw [d6]
    show (if s.last = some nx then (if n.is_header then none else some p) else s.last) = _
    rw [nhd]
    by_cases hi0 : i = 0
    · simp [hi0]
    · simp [hi0]
  refine ⟨{ s3 with size := s3.size - 1 }, rows3, hcomp, ?_, ?_⟩
  · constructor
    · exact wf_of_heap_eq e2 rfl rfl rfl
    · intro m m2 a a2 ka ka2 hm hm2 ha ha2 hka hka2
      show s3.compare ka ka2 ≤ 0
      rw [d1]
      have hka0 := hkeyback a ka hka
      have hka20 := hkeyback a2 ka2 hka2
      rw [e4, hget] at ha ha2
      by_cases c1 : m < i + 1
      · rw [if_pos c1] at ha
        by_cases c2 : m2 < i + 1
        · rw [if_pos c2] at ha2
          exact inv.sorted m m2 a a2 ka ka2 hm hm2 ha ha2 hka0 hka20
        · rw [if_neg c2] at ha2
          exact inv.sorted m (m2 + 1) a a2 ka ka2 hm (by omega) ha ha2 hka0 hka20
      · rw [if_neg c1] at ha
        rw [if_neg (by omega)] at ha2
        exact inv.sorted (m + 1) (m2 + 1) a a2 ka ka2 (by omega) (by omega) ha ha2 hka0 hka20
    · show s3.size - 1 = _
      rw [d4, e4, List.length_eraseIdx, if_pos hilt]
      show s.size - 1 = _
      rw [inv.size_eq]
      omega
    · show s3.first = none ∨ ∃ q, 0 < q ∧ (rows3 0)[q]? = s3.first
      rw [hfirst]
      by_cases c : s.first = some nx
      · rw [if_pos c]
        cases h2 : (rows 0)[i + 2]? with
        | none => exact Or.inl rfl
        | some b =>
          right
          exact ⟨i + 1, by omega, by rw [e4, hget, if_neg (by omega), h2]⟩
      · rw [if_neg c]
        rcases inv.first_mem with h | ⟨q, hq1, hq2⟩
        · exact Or.inl h
        · right
          have hq : q ≠ i + 1 := fun e => by
            rw [e, hnx] at hq2
            exact c hq2.symm
          by_cases hlt : q < i + 1
          · exact ⟨q, hq1, by rw [e4, hget, if_pos hlt]; exact hq2⟩
          · refine ⟨q - 1, by omega, ?_⟩
            rw [e4, hget, if_neg (by omega)]
            have : q - 1 + 1 = q := by omega
            rw [this]; exact hq2
    · show s3.last = none ∨ ∃ q, 0 < q ∧ (rows3 0)[q]? = s3.last
      rw [hlast]
      by_cases c : s.last = some nx
      · rw [if_pos c]
        by_cases hi0 : i = 0
        · rw [if_pos hi0]; exact Or.inl rfl
        · rw [if_neg hi0]
          right
          exact ⟨i, by omega, by rw [e4, hget, if_pos (by omega)]; exact hp⟩
      · rw [if_neg c]
        rcases inv.last_mem with h | ⟨q, hq1, hq2⟩
        · exact Or.inl h
        · right
          have hq : q ≠ i + 1 := fun e => by
            rw [e, hnx] at hq2
            exact c hq2.symm
          by_cases hlt : q < i + 1
          · exact ⟨q, hq1, by rw [e4, hget, if_pos hlt]; exact hq2⟩
          · refine ⟨q - 1, by omega, ?_⟩
            rw [e4, hget, if_neg (by omega)]
            have : q - 1 + 1 = q := by omega
            rw [this]; exact hq2
  · constructor
    · exact hp
    · exact hfind
    · exact hnx
    · exact ⟨kx, hkx, heq⟩
    · exact hbefore
    · exact e4
    · exact e5
    · exact e6
    · exact e7
    · show s3.size - 1 = s.size - 1
      rw [d4]
    · exact d1
    · exact d2
    · exact d3
    · exact d7
    · exact d8
    · exact ⟨x, hx, d9⟩
    · exact hfirst
    · exact hlast

/-- The rows of a freshly created set: the header of level 0 alone. -/
theorem create_inv (cmp : K → K → Int) (dk dv : DestroyFunc) :
    Inv (oset_create cmp dk dv : ordered_set K V) (fun j => if j = 0 then [0] else []) 1 := by
  have hheap : ∀ b, (oset_create cmp dk dv : ordered_set K V).heap b =
      if b = 0 then some (node_create none none 0 true) else none := fun b => rfl
  have hrow0 : (fun j => if j = 0 then [0] else ([] : List Nat)) 0 = [0] := rfl
  have hrow : ∀ j, j ≠ 0 → (fun j => if j = 0 then [0] else ([] : List Nat)) j = [] :=
    fun j hj => by simp [hj]
  have hmem : ∀ j a, a ∈ (fun j => if j = 0 then [0] else ([] : List Nat)) j →
      j = 0 ∧ a = 0 := by
    intro j a ha
    by_cases hj : j = 0
    · subst hj
      simp at ha
      exact ⟨rfl, ha⟩
    · simp [hj] at ha
  have hidx : ∀ j i a, ((fun j => if j = 0 then [0] else ([] : List Nat)) j)[i]? = some a →
      j = 0 ∧ i = 0 ∧ a = 0 := by
    intro j i a ha
    obtain ⟨h1, h2⟩ := hmem j a (mem_of_getElem? ha)
    subst h1
    have := lt_length_of_getElem? ha
    simp at this
    exact ⟨rfl, this, h2⟩
  constructor
  · constructor
    · constructor
      · intro j
        by_cases hj : j = 0
        · subst hj; simp
        · simp [hj]
      · intro j j2 a h1 h2
        rw [(hmem j a h1).1, (hmem j2 a h2).1]
      · intro a n ha
        rw [hheap] at ha
        by_cases h0 : a = 0
        · exact ⟨0, by simp [h0]⟩
        · rw [if_neg h0] at ha; exact Option.noConfusion ha
      · intro a ha
        have hb : (oset_create cmp dk dv : ordered_set K V).brk = 1 := rfl
        rw [hb] at ha
        rw [hheap, if_neg (by omega)]
      · intro j i a ha
        obtain ⟨h1, h2, h3⟩ := hidx j i a ha
        subst h1; subst h2; subst h3
        refine ⟨node_create none none 0 true, rfl, ?_, ?_, ?_, ?_, ?_, ?_⟩ <;>
          simp [node_create]
    · constructor
      · intro j a n ha hn _
        obtain ⟨h1, h2⟩ := hmem j a ha
        subst h1; subst h2
        rw [hheap, if_pos rfl] at hn
        cases hn
        exact Or.inl ⟨rfl, rfl⟩
      · intro j a n t ha hn ht
        obtain ⟨h1, h2⟩ := hmem j a ha
        subst h1; subst h2
        rw [hheap, if_pos rfl] at hn
        cases hn
        exact Option.noConfusion ht
    · omega
    · show 1 ≤ 1
      omega
    · intro j
      show _ ≤ 1
      by_cases hj : j = 0
      · subst hj; simp
      · simp [hj]
    · intro j hj
      exact hrow j (by omega)
    · intro j hj
      have : j = 0 := by omega
      subst this
      simp
    · rfl
  · intro i i2 a a2 k k2 h1 h2 ha
    obtain ⟨-, h3, -⟩ := hidx 0 i a ha
    omega
  · rfl
  · exact Or.inl rfl
  · exact Or.inl rfl

/-! ## Traversals -/

theorem traverse_forward_none (s : ordered_set K V) (fuel : Nat) :
    traverse_forward s fuel none = some [] := by
  cases fuel <;> rfl

theorem traverse_forward_row {s : ordered_set K V} {rows : Nat → List Nat} (hz : Hz s rows)
    (j : Nat) :
    ∀ fuel i a, (rows j)[i]? = some a → (rows j).length ≤ i + fuel →
      traverse_forward s fuel (some a) = some ((rows j).drop i) := by
  intro fuel
  induction fuel with
  | zero =>
    intro i a ha hlen
    have := lt_length_of_getElem? ha
    omega
  | succ fuel ih =>
    intro i a ha hlen
    obtain ⟨n, hn, hnext, -⟩ := hz.link j i a ha
    have hilt := lt_length_of_getElem? ha
    have hdrop : (rows j).drop i = a :: (rows j).drop (i + 1) := by
      rw [List.drop_eq_getElem_cons hilt]
      congr 1
      rw [List.getElem?_eq_getElem hilt] at ha
      exact Option.some.inj ha
    have hnx : oset_next s a = some ((rows j)[i + 1]?) := by
      simp [oset_next, hn, hnext]
    cases h1 : (rows j)[i + 1]? with
    | none =>
      have hlen2 : (rows j).length ≤ i + 1 := by
        by_contra hc
        rw [List.getElem?_eq_getElem (by omega)] at h1
        exact Option.noConfusion h1
      rw [hdrop, List.drop_eq_nil_of_le hlen2]
      simp only [traverse_forward, hnx, h1, traverse_forward_none]
    | some b =>
      have := ih (i + 1) b h1 (by omega)
      rw [hdrop]
      simp only [traverse_forward, hnx, h1, this]

theorem bottom_header_spec {s : ordered_set K V} {rows : Nat → List Nat} {H : Nat}
    (wf : Wf s rows H none) :
    ∀ j fuel h, (rows j)[0]? = some h → j < fuel → bottom_header s fuel h = (rows 0)[0]? := by
  intro j
  induction j with
  | zero =>
    intro fuel h hh hf
    obtain ⟨f, rfl⟩ : ∃ f, fuel = f + 1 := ⟨fuel - 1, by omega⟩
    obtain ⟨n, hn, -⟩ := wf.hz.link 0 0 h hh
    rcases wf.vt.down 0 h n (mem_of_getElem? hh) hn (by simp) with ⟨hb, -⟩ | ⟨b, nb, -, h0, -⟩
    · simp only [bottom_header, hn, hb, hh]
    · omega
  | succ j ih =>
    intro fuel h hh hf
    obtain ⟨f, rfl⟩ : ∃ f, fuel = f + 1 := ⟨fuel - 1, by omega⟩
    obtain ⟨n, hn, -, -, -, nhd, -⟩ := wf.hz.link (j + 1) 0 h hh
    rcases wf.vt.down (j + 1) h n (mem_of_getElem? hh) hn (by simp) with
      ⟨-, h0⟩ | ⟨b, nb, hb, -, hbmem, hnb, -, -, -, hhd⟩
    · omega
    · simp only [Nat.add_sub_cancel] at hbmem
      obtain ⟨ib, hib⟩ := List.mem_iff_getElem?.mp hbmem
      obtain ⟨nb2, hnb2, -, -, -, bhd, -⟩ := wf.hz.link j ib b hib
      rw [hnb] at hnb2; cases hnb2
      have hib0 : ib = 0 := by
        have : nb.is_header = true := by rw [hhd, nhd]; simp
        rw [bhd] at this
        simpa using this
      subst hib0
      simp only [bottom_header, hn, hb]
      exact ih f b hib (by omega)

/-- The level-0 chain of a well-formed set is its row 0 without the header. -/
theorem level0_eq {s : ordered_set K V} {rows : Nat → List Nat} {H : Nat}
    (wf : Wf s rows H none) : level0 s = some ((rows 0).drop 1) := by
  obtain ⟨h, oh, hh, hhd, -⟩ := wf.header_top
  have hpos := wf.height_pos
  have hb := bottom_header_spec wf (H - 1) (s.brk + 1) h hh (by have := wf.height_le; omega)
  obtain ⟨h0, hh0⟩ : ∃ h0, (rows 0)[0]? = some h0 := by
    have hne := wf.row_ne 0 hpos
    cases hr : rows 0 with
    | nil => exact absurd hr hne
    | cons x xs => exact ⟨x, by simp⟩
  obtain ⟨n0, hn0, hnext, -⟩ := wf.hz.link 0 0 h0 hh0
  have hnx : oset_next s h0 = some ((rows 0)[1]?) := by
    simp [oset_next, hn0, hnext]
  simp only [level0, hhd, hb, hh0, hnx]
  cases h1 : (rows 0)[1]? with
  | none =>
    have hlen : (rows 0).length ≤ 1 := by
      by_contra hc
      rw [List.getElem?_eq_getElem (by omega)] at h1
      exact Option.noConfusion h1
    rw [traverse_forward_none, List.drop_eq_nil_of_le hlen]
  | some b =>
    exact traverse_forward_row wf.hz 0 (s.brk + 1) 1 b h1 (by have := wf.rows_le 0; omega)

/-- The ascending traversal from `oset_first` is a suffix of row 0. -/
theorem ascending_eq {s : ordered_set K V} {rows : Nat → List Nat} {H : Nat}
    (inv : Inv s rows H) :
    (s.first = none ∧ ascending s = some []) ∨
    (∃ q, 0 < q ∧ (rows 0)[q]? = s.first ∧ q < (rows 0).length ∧
      ascending s = some ((rows 0).drop q)) := by
  cases hf : s.first with
  | none =>
    left
    exact ⟨rfl, by simp only [ascending, oset_first, hf, traverse_forward_none]⟩
  | some f =>
    right
    rcases inv.first_mem with h | ⟨q, hq1, hq2⟩
    · rw [h] at hf; exact Option.noConfusion hf
    · rw [hf] at hq2
      refine ⟨q, hq1, hq2, lt_length_of_getElem? hq2, ?_⟩
      simp only [ascending, oset_first, hf]
      exact traverse_forward_row inv.wf.hz 0 (s.brk + 1) q f hq2
        (by have := inv.wf.rows_le 0; omega)

/-- Reading the keys and values of nodes that carry keys. -/
theorem pairs_at_spec (s : ordered_set K V) :
    ∀ l : List Nat, (∀ a, a ∈ l → ∃ k, key_at s a = some k) →
      ∃ ps, pairs_at s l = some ps ∧ ps.length = l.length ∧
        ∀ (i a : Nat), l[i]? = some a →
          ∃ k, key_at s a = some k ∧ ps[i]? = some (k, value_at s a) := by
  intro l
  induction l with
  | nil =>
    intro _
    exact ⟨[], rfl, rfl, fun i a h => by simp at h⟩
  | cons a rest ih =>
    intro h
    obtain ⟨ps, hps, hlen, hidx⟩ := ih (fun b hb => h b (List.mem_cons_of_mem _ hb))
    obtain ⟨k, hk⟩ := h a (List.mem_cons_self _ _)
    obtain ⟨n, hn, hnk⟩ := key_at_heap hk
    refine ⟨(k, n.value) :: ps, ?_, by simp [hlen], ?_⟩
    · simp only [pairs_at, oset_node_key, oset_node_value, hn, Option.map_some', hnk, hps]
    · intro i b hb
      cases i with
      | zero =>
        simp only [List.getElem?_cons_zero, Option.some.injEq] at hb
        subst hb
        exact ⟨k, hk, by simp [value_at, hn]⟩
      | succ i =>
        simp only [List.getElem?_cons_succ] at hb ⊢
        exact hidx i b hb

theorem ins_at_cases {l : List Nat} {i x m a : Nat} (hi : i ≤ l.length)
    (h : (ins_at l i x)[m]? = some a) :
    (m < i ∧ l[m]? = some a) ∨ (m = i ∧ a = x) ∨ (i < m ∧ l[m - 1]? = some a) := by
  rw [getElem?_ins_at l i x m hi] at h
  by_cases c1 : m < i
  · rw [if_pos c1] at h; exact Or.inl ⟨c1, h⟩
  · rw [if_neg c1] at h
    by_cases c2 : m = i
    · rw [if_pos c2] at h
      exact Or.inr (Or.inl ⟨c2, (Option.some.inj h).symm⟩)
    · rw [if_neg c2] at h
      exact Or.inr (Or.inr ⟨by omega, h⟩)

theorem erase_cases {l : List Nat} {i m a : Nat} (h : (l.eraseIdx i)[m]? = some a) :
    (m < i ∧ l[m]? = some a) ∨ (i ≤ m ∧ l[m + 1]? = some a) := by
  rw [List.getElem?_eraseIdx] at h
  by_cases c1 : m < i
  · rw [if_pos c1] at h; exact Or.inl ⟨c1, h⟩
  · rw [if_neg c1] at h; exact Or.inr ⟨by omega, h⟩

theorem Inv.first_key {s : ordered_set K V} {rows : Nat → List Nat} {H : Nat}
    (inv : Inv s rows H) {f : Nat} (hf : s.first = some f) :
    ∃ q kf, 0 < q ∧ (rows 0)[q]? = some f ∧ key_at s f = some kf := by
  rcases inv.first_mem with h | ⟨q, hq1, hq2⟩
  · rw [h] at hf; exact Option.noConfusion hf
  · rw [hf] at hq2
    obtain ⟨kf, hkf⟩ := inv.wf.hz.key_at_some hq2 hq1
    exact ⟨q, kf, hq1, hq2, hkf⟩

theorem Inv.last_key {s : ordered_set K V} {rows : Nat → List Nat} {H : Nat}
    (inv : Inv s rows H) {f : Nat} (hf : s.last = some f) :
    ∃ q kf, 0 < q ∧ (rows 0)[q]? = some f ∧ key_at s f = some kf := by
  rcases inv.last_mem with h | ⟨q, hq1, hq2⟩
  · rw [h] at hf; exact Option.noConfusion hf
  · rw [hf] at hq2
    obtain ⟨kf, hkf⟩ := inv.wf.hz.key_at_some hq2 hq1
    exact ⟨q, kf, hq1, hq2, hkf⟩

/-- The key of `first` is minimal among the keys of level 0. -/
theorem first_key_min {s : ordered_set K V} {rows : Nat → List Nat} {H : Nat}
    (inv : Inv s rows H) (ext : Ext s rows) {q f : Nat} {kf : K} (hq : 0 < q)
    (hqf : (rows 0)[q]? = some f) (hf : s.first = some f) (hkf : key_at s f = some kf)
    {m a : Nat} {ka : K} (hm : 0 < m) (ha : (rows 0)[m]? = some a)
    (hka : key_at s a = some ka) (tc : TotalCompare s.compare) : s.compare kf ka ≤ 0 := by
  by_cases c1 : m < q
  · exact ext.first_min q f kf hq hqf hf hkf m a ka hm c1 ha hka
  · by_cases c2 : m = q
    · subst c2
      rw [hqf] at ha; cases ha
      rw [hkf] at hka; cases hka
      have : ¬ s.compare kf kf < 0 := fun h => by
        have := (tc.swap_neg kf kf).mp h
        omega
      exact tc.le_of_not_lt this
    · exact inv.sorted q m f a kf ka hq (by omega) hqf ha hkf hka

theorem ext_insert {s s2 : ordered_set K V} {rows rows2 : Nat → List Nat} {H : Nat}
    (tc : TotalCompare s.compare) (inv : Inv s rows H) (ext : Ext s rows)
    {k : K} {v : Option V} {i p : Nat} (post : InsertPost s rows k v s2 rows2 i p) :
    Ext s2 rows2 := by
  have hilt := lt_length_of_getElem? post.pred_at
  have hle : i + 1 ≤ (rows 0).length := hilt
  have hlen2 : (rows2 0).length = (rows 0).length + 1 := by rw [post.row0, length_ins_at]
  have hold_key : ∀ (m a : Nat), (rows 0)[m]? = some a → key_at s2 a = key_at s a := by
    intro m a ha
    obtain ⟨n, hn⟩ := inv.wf.hz.heap_of_mem (mem_of_getElem? ha)
    exact key_at_of_payload post.payload hn
  have hnewidx : (rows2 0)[i + 1]? = some s.brk := by
    rw [post.row0, getElem?_ins_at _ _ _ _ hle, if_neg (by omega), if_pos rfl]
  have hfirst_some : ∃ f, s2.first = some f := by
    cases hf : s.first with
    | none => exact ⟨_, post.first_none hf⟩
    | some f =>
      obtain ⟨q, kf, -, -, hkf⟩ := inv.first_key hf
      rw [post.first_some f kf hf hkf]
      by_cases c : s.compare k kf < 0
      · exact ⟨_, by rw [if_pos c]⟩
      · exact ⟨_, by rw [if_neg c]⟩
  constructor
  · intro x y a a2 ka ka2 hx hxy ha ha2 hka hka2 hcmp
    rw [post.compare] at hcmp
    rw [post.row0] at ha ha2
    rcases ins_at_cases hle ha with ⟨c1, h1⟩ | ⟨c1, h1⟩ | ⟨c1, h1⟩
    · rw [hold_key _ _ h1] at hka
      rcases ins_at_cases hle ha2 with ⟨d1, g1⟩ | ⟨d1, g1⟩ | ⟨d1, g1⟩
      · rw [hold_key _ _ g1] at hka2
        exact ext.recent x y a a2 ka ka2 hx hxy h1 g1 hka hka2 hcmp
      · subst g1
        rw [post.new_key] at hka2; cases hka2
        obtain ⟨ka0, e1, e2⟩ := post.before x a hx (by omega) h1
        rw [hka] at e1; cases e1
        exact absurd e2 (tc.not_lt_of_le hcmp)
      · rw [hold_key _ _ g1] at hka2
        exact ext.recent x (y - 1) a a2 ka ka2 hx (by omega) h1 g1 hka hka2 hcmp
    · subst h1
      rcases ins_at_cases hle ha2 with ⟨d1, g1⟩ | ⟨d1, g1⟩ | ⟨d1, g1⟩
      · omega
      · omega
      · exact inv.wf.hz.lt_brk (mem_of_getElem? g1)
    · rw [hold_key _ _ h1] at hka
      rcases ins_at_cases hle ha2 with ⟨d1, g1⟩ | ⟨d1, g1⟩ | ⟨d1, g1⟩
      · omega
      · omega
      · rw [hold_key _ _ g1] at hka2
        exact ext.recent (x - 1) (y - 1) a a2 ka ka2 (by omega) (by omega) h1 g1 hka hka2 hcmp
  · rw [hlen2, if_neg (by omega)]
    have e0 : (rows 0).length + 1 - 1 = (rows 0).length := by omega
    rw [e0]
    cases hl : s.last with
    | none =>
      have hlen1 : (rows 0).length ≤ 1 := by
        by_contra hc
        have h1 := ext.last_eq
        rw [hl, if_neg hc, List.getElem?_eq_getElem (by omega)] at h1
        exact Option.noConfusion h1
      rw [post.last_none hl]
      have : (rows 0).length = i + 1 := by omega
      rw [this, hnewidx]
    | some f =>
      obtain ⟨q, kf, hq1, hq2, hkf⟩ := inv.last_key hl
      have hlen1 : ¬ (rows 0).length ≤ 1 := by
        have := lt_length_of_getElem? hq2
        omega
      have hlast := ext.last_eq
      rw [hl, if_neg hlen1] at hlast
      rw [post.last_some f kf hl hkf, post.row0, getElem?_ins_at _ _ _ _ hle]
      by_cases c : s.compare k kf > 0
      · rw [if_pos c]
        have hlt : s.compare kf k < 0 := (tc.swap_neg kf k).mpr c
        have hi : i = (rows 0).length - 1 := by
          by_contra hne
          obtain ⟨ka0, e1, e2⟩ := post.after ((rows 0).length - 1) f (by omega) hlast.symm
          rw [hkf] at e1; cases e1
          exact e2 hlt
        rw [if_neg (by omega), if_pos (by omega)]
      · rw [if_neg c]
        have hnlt : ¬ s.compare kf k < 0 := fun h => c ((tc.swap_neg kf k).mp h)
        have hi : i < (rows 0).length - 1 := by
          by_contra hne
          have hi2 : i = (rows 0).length - 1 := by omega
          obtain ⟨ka0, e1, e2⟩ := post.before i f (by omega) (le_refl _) (by
            rw [hi2]; exact hlast.symm)
          rw [hkf] at e1; cases e1
          exact hnlt e2
        rw [if_neg (by omega), if_neg (by omega)]
        exact hlast
  · intro h
    obtain ⟨f, hf⟩ := hfirst_some
    rw [hf] at h
    exact Option.noConfusion h
  · intro q2 f2 kf2 hq2 hqf2 hf2 hkf2 m a ka hm hmq ha hka
    rw [post.compare]
    rw [post.row0] at hqf2 ha
    cases hf : s.first with
    | none =>
      have hlen1 := ext.first_none hf
      have := lt_length_of_getElem? hqf2
      rw [length_ins_at] at this
      omega
    | some f =>
      obtain ⟨q, kf, hq1, hqf, hkf⟩ := inv.first_key hf
      have hfirst2 := post.first_some f kf hf hkf
      by_cases c : s.compare k kf < 0
      · rw [if_pos c, hf2] at hfirst2
        cases hfirst2
        have hnd2 : (ins_at (rows 0) (i + 1) s.brk).Nodup :=
          nodup_ins_at _ _ _ (inv.wf.hz.nodup 0) (fun h => by
            have := inv.wf.hz.lt_brk h; omega)
        have hq2i : q2 = i + 1 := nodup_index_eq hnd2 hqf2 (by rw [← post.row0]; exact hnewidx)
        rcases ins_at_cases hle ha with ⟨c1, h1⟩ | ⟨c1, h1⟩ | ⟨c1, h1⟩
        · exfalso
          obtain ⟨km, e1, e2⟩ := post.before m a hm (by omega) h1
          have h3 := first_key_min inv ext hq1 hqf hf hkf hm h1 e1 tc
          have h4 : s.compare km kf < 0 := tc.lt_of_lt_of_le e2 (by omega)
          exact tc.not_lt_of_le h3 h4
        · omega
        · omega
      · rw [if_neg c, hf2] at hfirst2
        cases hfirst2
        have hk2 : kf2 = kf := by
          rw [hold_key q f2 hqf, hkf] at hkf2
          exact (Option.some.inj hkf2).symm
        subst hk2
        rcases ins_at_cases hle ha with ⟨c1, h1⟩ | ⟨c1, h1⟩ | ⟨c1, h1⟩
        · rw [hold_key _ _ h1] at hka
          exact first_key_min inv ext hq1 hqf hf hkf hm h1 hka tc
        · subst h1
          rw [post.new_key] at hka; cases hka
          exact tc.le_of_not_lt c
        · rw [hold_key _ _ h1] at hka
          exact first_key_min inv ext hq1 hqf hf hkf (by omega) h1 hka tc

theorem RemovePost.key_back {s s2 : ordered_set K V} {rows rows2 : Nat → List Nat} {key : K}
    {i p nx : Nat} (post : RemovePost s rows key s2 rows2 i p nx) {a : Nat} {k : K}
    (hk : key_at s2 a = some k) : key_at s a = some k := by
  obtain ⟨n2, hn2, hk2⟩ := key_at_heap hk
  obtain ⟨n0, hn0, g1, -⟩ := post.survive a n2 hn2
  simp [key_at, hn0, ← g1, hk2]

theorem ext_remove {s s2 : ordered_set K V} {rows rows2 : Nat → List Nat} {H : Nat}
    (tc : TotalCompare s.compare) (inv : Inv s rows H) (ext : Ext s rows)
    {key : K} {i p nx : Nat} (post : RemovePost s rows key s2 rows2 i p nx) :
    Ext s2 rows2 := by
  have hilt := lt_length_of_getElem? post.victim_at
  have hlen2 : (rows2 0).length = (rows 0).length - 1 := by
    rw [post.row0, List.length_eraseIdx, if_pos hilt]
  obtain ⟨kx, hkx, hkxeq⟩ := post.victim_eq
  -- when the removed node is `first`, it is the very first entry
  have hfirst_i : s.first = some nx → i = 0 := by
    intro hf
    by_contra hne
    obtain ⟨a, ha⟩ : ∃ a, (rows 0)[1]? = some a :=
      ⟨(rows 0)[1], List.getElem?_eq_getElem (by omega)⟩
    obtain ⟨ka, e1, e2⟩ := post.before 1 a (by omega) (by omega) ha
    have h3 := ext.first_min (i + 1) nx kx (by omega) post.victim_at hf hkx 1 a ka (by omega)
      (by omega) ha e1
    have h4 := tc.lt_of_le_of_lt h3 e2
    omega
  have hlast_old : s.last = (rows 0)[(rows 0).length - 1]? := by
    have := ext.last_eq
    rw [if_neg (by omega)] at this
    exact this
  constructor
  · intro x y a a2 ka ka2 hx hxy ha ha2 hka hka2 hcmp
    rw [post.compare] at hcmp
    have hka0 := post.key_back hka
    have hka20 := post.key_back hka2
    rw [post.row0] at ha ha2
    rcases erase_cases ha with ⟨c1, h1⟩ | ⟨c1, h1⟩ <;>
      rcases erase_cases ha2 with ⟨d1, g1⟩ | ⟨d1, g1⟩
    · exact ext.recent x y a a2 ka ka2 hx hxy h1 g1 hka0 hka20 hcmp
    · exact ext.recent x (y + 1) a a2 ka ka2 hx (by omega) h1 g1 hka0 hka20 hcmp
    · omega
    · exact ext.recent (x + 1) (y + 1) a a2 ka ka2 (by omega) (by omega) h1 g1 hka0 hka20 hcmp
  · rw [post.last, hlen2]
    by_cases c : s.last = some nx
    · rw [if_pos c]
      have hidx : (rows 0).length - 1 = i + 1 :=
        nodup_index_eq (inv.wf.hz.nodup 0) (by rw [← hlast_old]; exact c) post.victim_at
      by_cases hi0 : i = 0
      · rw [if_pos hi0, if_pos (by omega)]
      · rw [if_neg hi0, if_neg (by omega), post.row0, List.getElem?_eraseIdx,
          if_pos (by omega)]
        have : (rows 0).length - 1 - 1 = i := by omega
        rw [this, post.pred_at]
    · rw [if_neg c]
      have hidx : (rows 0).length - 1 ≠ i + 1 := fun e => by
        rw [hlast_old, e, post.victim_at] at c
        exact c rfl
      rw [if_neg (by omega), post.row0, List.getElem?_eraseIdx, if_neg (by omega), hlast_old]
      have : (rows 0).length - 1 - 1 + 1 = (rows 0).length - 1 := by omega
      rw [this]
  · intro h
    rw [post.first] at h
    rw [hlen2]
    by_cases c : s.first = some nx
    · rw [if_pos c] at h
      have hi0 := hfirst_i c
      by_contra hc
      rw [List.getElem?_eq_getElem (by omega)] at h
      exact Option.noConfusion h
    · rw [if_neg c] at h
      have := ext.first_none h
      omega
  · intro q2 f2 kf2 hq2 hqf2 hf2 hkf2 m a ka hm hmq ha hka
    rw [post.compare]
    have hkf20 := post.key_back hkf2
    have hka0 := post.key_back hka
    rw [post.first] at hf2
    rw [post.row0] at hqf2 ha
    by_cases c : s.first = some nx
    · rw [if_pos c] at hf2
      have hi0 := hfirst_i c
      subst hi0
      have h1 : ((rows 0).eraseIdx (0 + 1))[1]? = some f2 := by
        rw [List.getElem?_eraseIdx, if_neg (by omega)]
        exact hf2
      have hnd : ((rows 0).eraseIdx (0 + 1)).Nodup :=
        (inv.wf.hz.nodup 0).sublist (List.eraseIdx_sublist _ _)
      have := nodup_index_eq hnd hqf2 h1
      omega
    · rw [if_neg c] at hf2
      obtain ⟨q, kf, hq1, hqf, hkf⟩ := inv.first_key hf2
      rw [hkf20] at hkf; cases hkf
      rcases erase_cases ha with ⟨c1, h1⟩ | ⟨c1, h1⟩
      · exact first_key_min inv ext hq1 hqf hf2 hkf20 hm h1 hka0 tc
      · exact first_key_min inv ext hq1 hqf hf2 hkf20 (by omega) h1 hka0 tc

theorem ext_create (cmp : K → K → Int) (dk dv : DestroyFunc) :
    Ext (oset_create cmp dk dv : ordered_set K V) (fun j => if j = 0 then [0] else []) := by
  have hidx : ∀ (i a : Nat),
      ((fun j => if j = 0 then [0] else ([] : List Nat)) 0)[i]? = some a → i = 0 := by
    intro i a ha
    have := lt_length_of_getElem? ha
    simpa using this
  constructor
  · intro i i2 a a2 k k2 h1 h2 ha
    have := hidx i a ha
    omega
  · rfl
  · intro _
    show [0].length ≤ 1
    simp
  · intro q f kf hq hqf
    have := hidx q f hqf
    omega

/-- The outcome of `oset_remove`: either no entry compares equal to the key, and the call
returns `false` and leaves the set as it is, or the first equal entry is removed. -/
theorem oset_remove_spec {s : ordered_set K V} {rows : Nat → List Nat} {H : Nat}
    (tc : TotalCompare s.compare) (inv : Inv s rows H) (key : K) :
    (oset_remove s key = some (false, s) ∧
      ∀ (m a : Nat) (ka : K), 0 < m → (rows 0)[m]? = some a → key_at s a = some ka →
        s.compare ka key ≠ 0) ∨
    (∃ s2 rows2 i p nx, oset_remove s key = some (true, s2) ∧ Inv s2 rows2 H ∧
      RemovePost s rows key s2 rows2 i p nx) := by
  obtain ⟨i, p, hp, hfind, hbefore, hafter⟩ := find_position tc inv key
  have hlow : ∀ (m a : Nat) (ka : K), 0 < m → m ≤ i → (rows 0)[m]? = some a →
      key_at s a = some ka → s.compare ka key ≠ 0 := by
    intro m a ka h1 h2 ha hka
    obtain ⟨ka0, e1, e2⟩ := hbefore m a h1 h2 ha
    rw [hka] at e1; cases e1
    omega
  cases hnx : (rows 0)[i + 1]? with
  | none =>
    left
    have hno : ∀ (m a : Nat) (ka : K), 0 < m → (rows 0)[m]? = some a → key_at s a = some ka →
        s.compare ka key ≠ 0 := by
      intro m a ka h1 ha hka
      by_cases c : m ≤ i
      · exact hlow m a ka h1 c ha hka
      · exfalso
        have h2 := lt_length_of_getElem? ha
        rw [List.getElem?_eq_getElem (by omega)] at hnx
        exact Option.noConfusion hnx
    exact ⟨oset_remove_miss tc inv key hno, hno⟩
  | some nx =>
    obtain ⟨kx, hkx, hnlt⟩ := hafter (i + 1) nx (by omega) hnx
    by_cases heq : s.compare kx key = 0
    · right
      obtain ⟨s2, rows2, h1, h2, h3⟩ := oset_remove_hit_at inv key hp hfind hbefore hnx hkx heq
      exact ⟨s2, rows2, i, p, nx, h1, h2, h3⟩
    · left
      have hno : ∀ (m a : Nat) (ka : K), 0 < m → (rows 0)[m]? = some a →
          key_at s a = some ka → s.compare ka key ≠ 0 := by
        intro m a ka h1 ha hka
        by_cases c : m ≤ i
        · exact hlow m a ka h1 c ha hka
        · by_cases c2 : m = i + 1
          · subst c2
            rw [hnx] at ha; cases ha
            rw [hkx] at hka; cases hka
            exact heq
          · intro h0
            have h3 := inv.sorted (i + 1) m nx a kx ka (by omega) (by omega) hnx ha hkx hka
            have h4 := tc.le_trans kx ka key h3 (by omega)
            omega
      exact ⟨oset_remove_miss tc inv key hno, hno⟩

/-- Every call of a mutator on a set satisfying the invariants succeeds and yields a set
satisfying the invariants. -/
theorem apply_good {s : ordered_set K V} {rows : Nat → List Nat} {H : Nat}
    (tc : TotalCompare s.compare) (inv : Inv s rows H) (ext : Ext s rows) (op : Op K V) :
    ∃ s2 rows2 H2, op.apply s = some s2 ∧ Inv s2 rows2 H2 ∧ Ext s2 rows2 ∧
      s2.compare = s.compare := by
  cases op with
  | insert k v heads =>
    obtain ⟨s2, rows2, H2, i, p, h1, h2, -, h4⟩ := oset_insert_spec tc inv k v heads
    exact ⟨s2, rows2, H2, h1, h2, ext_insert tc inv ext h4, h4.compare⟩
  | remove k =>
    rcases oset_remove_spec tc inv k with ⟨h1, -⟩ | ⟨s2, rows2, i, p, nx, h1, h2, h3⟩
    · exact ⟨s, rows, H, by simp [Op.apply, h1], inv, ext, rfl⟩
    · exact ⟨s2, rows2, H, by simp [Op.apply, h1], h2, ext_remove tc inv ext h3, h3.compare⟩

theorem run_ops_good (ops : List (Op K V)) :
    ∀ {s : ordered_set K V} {rows : Nat → List Nat} {H : Nat}, TotalCompare s.compare →
      Inv s rows H → Ext s rows →
      ∃ s2 rows2 H2, run_ops s ops = some s2 ∧ Inv s2 rows2 H2 ∧ Ext s2 rows2 ∧
        s2.compare = s.compare := by
  induction ops with
  | nil =>
    intro s rows H _ inv ext
    exact ⟨s, rows, H, rfl, inv, ext, rfl⟩
  | cons op rest ih =>
    intro s rows H tc inv ext
    obtain ⟨s1, rows1, H1, h1, h2, h3, h4⟩ := apply_good tc inv ext op
    obtain ⟨s2, rows2, H2, g1, g2, g3, g4⟩ := ih (h4 ▸ tc) h2 h3
    exact ⟨s2, rows2, H2, by simp [run_ops, h1, g1], g2, g3, g4.trans h4⟩

/-- Every reachable set satisfies the invariants. -/
theorem reachable_good {s : ordered_set K V} (tc : TotalCompare s.compare)
    (hr : Reachable s) : ∃ rows H, Inv s rows H ∧ Ext s rows := by
  obtain ⟨dk, dv, ops, hops⟩ := hr
  obtain ⟨s2, rows2, H2, h1, h2, h3, -⟩ :=
    @run_ops_good K V ops (oset_create s.compare dk dv) _ _ tc (create_inv _ dk dv)
      (ext_create _ dk dv)
  rw [hops] at h1
  cases h1
  exact ⟨rows2, H2, h2, h3⟩

theorem key_eq_true {s : ordered_set K V} {key : K} {a : Nat} :
    key_eq s key a = true ↔ ∃ ka, key_at s a = some ka ∧ s.compare ka key = 0 := by
  unfold key_eq
  cases h : key_at s a with
  | none => simp
  | some ka => simp

theorem key_eq_false_of {s : ordered_set K V} {key : K} {a : Nat} {ka : K}
    (h : key_at s a = some ka) (hne : s.compare ka key ≠ 0) : key_eq s key a = false := by
  unfold key_eq
  rw [h]
  simp [hne]

theorem find?_at {α : Type} (f : α → Bool) :
    ∀ (l : List α) (i : Nat), (∀ m a, m < i → l[m]? = some a → f a = false) →
      (∀ a, l[i]? = some a → f a = false → ∀ m b, i < m → l[m]? = some b → f b = false) →
      l.find? f = (l[i]?).bind fun a => if f a then some a else none := by
  intro l
  induction l with
  | nil => intro i _ _; simp
  | cons x xs ih =>
    intro i h1 h2
    cases i with
    | zero =>
      simp only [List.getElem?_cons_zero, Option.some_bind]
      by_cases hx : f x = true
      · simp [List.find?, hx]
      · have hx2 : f x = false := by simpa using hx
        simp only [List.find?, hx2]
        have hnone : List.find? f xs = none := by
          rw [List.find?_eq_none]
          intro b hb
          obtain ⟨m, hm⟩ := List.mem_iff_getElem?.mp hb
          have := h2 x (by simp) hx2 (m + 1) b (by omega) (by simpa using hm)
          simp [this]
        rw [hnone]
        simp
    | succ i =>
      have hx : f x = false := h1 0 x (by omega) (by simp)
      simp only [List.find?, hx, List.getElem?_cons_succ]
      apply ih i
      · intro m a hm ha
        exact h1 (m + 1) a (by omega) (by simpa using ha)
      · intro a ha hfa m b hm hb
        exact h2 a (by simpa using ha) hfa (m + 1) b (by omega) (by simpa using hb)

/-- The result of `oset_find_node` in terms of the node found by `node_find_previous`. -/
theorem find_node_pos {s : ordered_set K V} {rows : Nat → List Nat} {H : Nat}
    (inv : Inv s rows H) (key : K) {i p : Nat} (hp : (rows 0)[i]? = some p)
    (hfind : node_find_previous s key = some (some p)) :
    oset_find_node s key =
      some (((rows 0)[i + 1]?).bind fun nx => if key_eq s key nx then some nx else none) := by
  obtain ⟨n, hn, hnext, -⟩ := inv.wf.hz.link 0 i p hp
  cases hnx : (rows 0)[i + 1]? with
  | none =>
    rw [hnx] at hnext
    simp only [oset_find_node, hfind, hn, hnext, Option.none_bind]
  | some nx =>
    rw [hnx] at hnext
    obtain ⟨kx, hkx⟩ := inv.wf.hz.key_at_some hnx (by omega)
    obtain ⟨x, hx, hxk⟩ := key_at_heap hkx
    simp only [oset_find_node, hfind, hn, hnext, hx, hxk, Option.some_bind, key_eq, hkx]
    by_cases c : s.compare kx key = 0
    · simp [c]
    · simp [c]

/-- The function `oset_find_node` returns the first node of the level-0 chain whose key
compares equal to the key looked for, and `OSET_EOF` when there is none. -/
theorem find_node_eq {s : ordered_set K V} {rows : Nat → List Nat} {H : Nat}
    (tc : TotalCompare s.compare) (inv : Inv s rows H) (key : K) :
    oset_find_node s key = some (((rows 0).drop 1).find? (key_eq s key)) := by
  obtain ⟨i, p, hp, hfind, hbefore, hafter⟩ := find_position tc inv key
  rw [find_node_pos inv key hp hfind]
  congr 1
  rw [find?_at (key_eq s key) ((rows 0).drop 1) i]
  · rw [List.getElem?_drop]
    have : 1 + i = i + 1 := by omega
    rw [this]
  · intro m a hm ha
    rw [List.getElem?_drop] at ha
    obtain ⟨ka, e1, e2⟩ := hbefore (1 + m) a (by omega) (by omega) ha
    exact key_eq_false_of e1 (by omega)
  · intro a ha hfa m b hm hb
    rw [List.getElem?_drop] at ha hb
    obtain ⟨ka, e1, e2⟩ := hafter (1 + i) a (by omega) ha
    obtain ⟨kb, g1, g2⟩ := hafter (1 + m) b (by omega) hb
    have hane : s.compare ka key ≠ 0 := by
      intro h0
      have : key_eq s key a = true := key_eq_true.mpr ⟨ka, e1, h0⟩
      rw [hfa] at this
      exact Bool.noConfusion this
    apply key_eq_false_of g1
    intro h0
    have h3 := inv.sorted (1 + i) (1 + m) a b ka kb (by omega) (by omega) ha hb e1 g1
    have h4 := tc.le_trans ka kb key h3 (by omega)
    omega

theorem find_eq {s : ordered_set K V} {rows : Nat → List Nat} {H : Nat}
    (tc : TotalCompare s.compare) (inv : Inv s rows H) (key : K) :
    oset_find s key =
      some ((((rows 0).drop 1).find? (key_eq s key)).bind (value_at s)) := by
  unfold oset_find
  rw [find_node_eq tc inv key]
  cases h : ((rows 0).drop 1).find? (key_eq s key) with
  | none => rfl
  | some a =>
    have hk := List.find?_some h
    obtain ⟨ka, hka, -⟩ := key_eq_true.mp hk
    obtain ⟨n, hn, -⟩ := key_at_heap hka
    simp [hn, value_at]

theorem int_compare_total : TotalCompare int_compare := by
  constructor
  · intro a b; unfold int_compare; omega
  · intro a b c; unfold int_compare; omega

/-- A set obtained by running calls on a fresh set is reachable. -/
theorem reachable_getD (cmp : K → K → Int) (tc : TotalCompare cmp) (dk dv : DestroyFunc)
    (ops : List (Op K V)) (d : ordered_set K V) :
    Reachable ((run_ops (oset_create cmp dk dv) ops).getD d) ∧
      ((run_ops (oset_create cmp dk dv) ops).getD d).compare = cmp := by
  obtain ⟨s2, rows, H, h1, -, -, h4⟩ :=
    @run_ops_good K V ops (oset_create cmp dk dv) _ _ tc (create_inv cmp dk dv)
      (ext_create cmp dk dv)
  have h5 : s2.compare = cmp := h4
  rw [h1]
  refine ⟨⟨dk, dv, ops, ?_⟩, h5⟩
  show run_ops (oset_create s2.compare dk dv) ops = some s2
  rw [h5]
  exact h1

theorem demo_reachable : Reachable demo_set :=
  (reachable_getD int_compare int_compare_total none none _ _).1

theorem demo_compare : demo_set.compare = int_compare :=
  (reachable_getD int_compare int_compare_total none none _ _).2

theorem demo_total : TotalCompare demo_set.compare := by
  rw [demo_compare]; exact int_compare_total

theorem twin_reachable : Reachable twin_set :=
  (reachable_getD int_compare int_compare_total none none _ _).1

theorem twin_compare : twin_set.compare = int_compare :=
  (reachable_getD int_compare int_compare_total none none _ _).2

theorem twin_total : TotalCompare twin_set.compare := by
  rw [twin_compare]; exact int_compare_total

/-- The entries of a set satisfying the invariant, read along row 0. -/
theorem entries_spec {s : ordered_set K V} {rows : Nat → List Nat} {H : Nat}
    (inv : Inv s rows H) :
    ∃ ps, entries s = some ps ∧ ps.length + 1 = (rows 0).length ∧
      ∀ (i a : Nat), (rows 0)[i + 1]? = some a →
        ∃ k, key_at s a = some k ∧ ps[i]? = some (k, value_at s a) := by
  have hl := level0_eq inv.wf
  obtain ⟨ps, h1, h2, h3⟩ := pairs_at_spec s ((rows 0).drop 1) (by
    intro a ha
    obtain ⟨m, hm⟩ := List.mem_iff_getElem?.mp ha
    rw [List.getElem?_drop] at hm
    exact inv.wf.hz.key_at_some hm (by omega))
  refine ⟨ps, by rw [entries, hl]; exact h1, ?_, ?_⟩
  · rw [h2, List.length_drop]
    have := inv.wf.row_ne 0 inv.wf.height_pos
    have : 0 < (rows 0).length := List.length_pos.mpr this
    omega
  · intro i a ha
    apply h3 i a
    rw [List.getElem?_drop]
    have : 1 + i = i + 1 := by omega
    rw [this]; exact ha

theorem compare_self {cmp : K → K → Int} (tc : TotalCompare cmp) (a : K) :
    cmp a a = 0 := by
  have h1 : ¬ cmp a a < 0 := fun h => by
    have := (tc.swap_neg a a).mp h
    omega
  have h2 := tc.le_of_not_lt h1
  omega

/-- C1: after any sequence of `oset_insert` calls on a freshly created set (any keys, values
and coin flips, the comparator a consistent total order) the calls all succeed, the traversal
from `oset_first` along `oset_next` to `OSET_EOF` terminates, and the keys it visits are
non-decreasing: every key visited earlier compares less than or equal to every key visited
later. -/
theorem insert_ascending_sorted (cmp : K → K → Int) (tc : TotalCompare cmp)
    (dk dv : DestroyFunc) (ins : List (K × Option V × Nat)) :
    ∃ s visited ps, run_ops (oset_create cmp dk dv) (insert_calls ins) = some s ∧
      ascending s = some visited ∧ pairs_at s visited = some ps ∧
      List.Pairwise (fun a b => cmp a.1 b.1 ≤ 0) ps := by
  obtain ⟨s, rows, H, h1, inv, -, h4⟩ :=
    @run_ops_good K V (insert_calls ins) (oset_create cmp dk dv) _ _ tc
      (create_inv cmp dk dv) (ext_create cmp dk dv)
  have hcmp : s.compare = cmp := h4
  have key : ∀ q, 0 < q → ∃ ps, pairs_at s ((rows 0).drop q) = some ps ∧
      List.Pairwise (fun a b => cmp a.1 b.1 ≤ 0) ps := by
    intro q hq
    obtain ⟨ps, g1, g2, g3⟩ := pairs_at_spec s ((rows 0).drop q) (by
      intro a ha
      obtain ⟨m, hm⟩ := List.mem_iff_getElem?.mp ha
      rw [List.getElem?_drop] at hm
      exact inv.wf.hz.key_at_some hm (by omega))
    refine ⟨ps, g1, ?_⟩
    rw [List.pairwise_iff_getElem]
    intro i j hi hj hij
    have hi2 : i < ((rows 0).drop q).length := by omega
    have hj2 : j < ((rows 0).drop q).length := by omega
    obtain ⟨ki, e1, e2⟩ := g3 i _ (List.getElem?_eq_getElem hi2)
    obtain ⟨kj, f1, f2⟩ := g3 j _ (List.getElem?_eq_getElem hj2)
    rw [List.getElem?_eq_getElem hi] at e2
    rw [List.getElem?_eq_getElem hj] at f2
    have e3 : ps[i] = (ki, _) := Option.some.inj e2
    have f3 : ps[j] = (kj, _) := Option.some.inj f2
    rw [e3, f3, ← hcmp]
    have a1 : (rows 0)[q + i]? = some ((rows 0).drop q)[i] := by
      rw [← List.getElem?_drop]; exact List.getElem?_eq_getElem hi2
    have a2 : (rows 0)[q + j]? = some ((rows 0).drop q)[j] := by
      rw [← List.getElem?_drop]; exact List.getElem?_eq_getElem hj2
    exact inv.sorted (q + i) (q + j) _ _ ki kj (by omega) (by omega) a1 a2 e1 f1
  rcases ascending_eq inv with ⟨-, h⟩ | ⟨q, hq, -, -, h⟩
  · exact ⟨s, [], [], h1, h, rfl, List.Pairwise.nil⟩
  · obtain ⟨ps, g1, g2⟩ := key q hq
    exact ⟨s, _, ps, h1, h, g1, g2⟩

theorem insert_ascending_sorted_witness :
    TotalCompare int_compare ∧
    ∃ s visited ps, run_ops (oset_create int_compare none none) (insert_calls demo_inserts) =
        some s ∧
      ascending s = some visited ∧ pairs_at s visited = some ps ∧
      List.Pairwise (fun a b => int_compare a.1 b.1 ≤ 0) ps :=
  ⟨int_compare_total,
    insert_ascending_sorted int_compare int_compare_total none none demo_inserts⟩

/-- C2 (the code at the failing input): after inserting (5,50), (3,30), (8,80), (3,31) the set
has size 4 and its level-0 chain holds (3,31), (3,30), (5,50), (8,80), but the traversal from
`oset_first` along `oset_next` visits only (3,30), (5,50), (8,80): `oset_insert` left `first`
on the older entry with key 3. -/
theorem ascending_misses_duplicate_of_first :
    (ascending demo_set).bind (pairs_at demo_set) =
        some [(3, some 30), (5, some 50), (8, some 80)] ∧
      entries demo_set = some [(3, some 31), (3, some 30), (5, some 50), (8, some 80)] ∧
      oset_size demo_set = 4 := by
  decide

/-- C3 (the code at the failing input): in the set holding the single entry (1,10),
`oset_previous` of the first entry (the node at address 1) is the header of level 0 (the node
at address 0, which has `is_header` set and no key), not `OSET_BOF`; the traversal from
`oset_last` along `oset_previous` therefore visits the header after the entry. -/
theorem previous_of_first_is_header :
    oset_first solo_set = some 1 ∧ oset_last solo_set = some 1 ∧
      oset_previous solo_set 1 = some (some 0) ∧
      (solo_set.heap 0).map (fun n => (n.is_header, n.key)) = some (true, none) ∧
      descending solo_set = some [1, 0] ∧ ascending solo_set = some [1] ∧
      (descending solo_set).bind (pairs_at solo_set) = none := by
  decide

/-- After a successful insert the new node is the first node of level 0 whose key compares
equal to the inserted key. -/
theorem find?_after_insert {s s2 : ordered_set K V} {rows rows2 : Nat → List Nat} {H : Nat}
    (tc : TotalCompare s.compare) (inv : Inv s rows H) {k : K} {v : Option V} {i p : Nat}
    (post : InsertPost s rows k v s2 rows2 i p) :
    ((rows2 0).drop 1).find? (key_eq s2 k) = some s.brk := by
  have hilt := lt_length_of_getElem? post.pred_at
  have hle : i + 1 ≤ (rows 0).length := hilt
  have hnew : key_eq s2 k s.brk = true :=
    key_eq_true.mpr ⟨k, post.new_key, by rw [post.compare]; exact compare_self tc k⟩
  rw [find?_at (key_eq s2 k) ((rows2 0).drop 1) i]
  · rw [List.getElem?_drop, post.row0, getElem?_ins_at _ _ _ _ hle, if_neg (by omega),
      if_pos (by omega)]
    simp [hnew]
  · intro m a hm ha
    rw [List.getElem?_drop, post.row0, getElem?_ins_at _ _ _ _ hle, if_pos (by omega)] at ha
    obtain ⟨ka, e1, e2⟩ := post.before (1 + m) a (by omega) (by omega) ha
    obtain ⟨n, hn⟩ := inv.wf.hz.heap_of_mem (mem_of_getElem? ha)
    have hk2 : key_at s2 a = some ka := by
      rw [key_at_of_payload post.payload hn]; exact e1
    exact key_eq_false_of hk2 (by rw [post.compare]; omega)
  · intro a ha hfa
    rw [List.getElem?_drop, post.row0, getElem?_ins_at _ _ _ _ hle, if_neg (by omega),
      if_pos (by omega)] at ha
    cases ha
    rw [hnew] at hfa
    exact Bool.noConfusion hfa

/-- C4: on every reachable set, right after `oset_insert(k, v)` (which succeeds) the call
`oset_find(k)` returns exactly the value reference `v`, and `oset_find_node(k)` returns a node
whose stored key reference is `k` and whose stored value reference is `v`, whether or not
other entries with an equal key were present. -/
theorem find_after_insert {s : ordered_set K V} (tc : TotalCompare s.compare)
    (hr : Reachable s) (k : K) (v : Option V) (heads : Nat) :
    ∃ s2 node, oset_insert s k v heads = some s2 ∧ oset_find s2 k = some v ∧
      oset_find_node s2 k = some (some node) ∧ oset_node_key s2 node = some (some k) ∧
      oset_node_value s2 node = some v := by
  obtain ⟨rows, H, inv, ext⟩ := reachable_good tc hr
  obtain ⟨s2, rows2, H2, i, p, h1, inv2, -, post⟩ := oset_insert_spec tc inv k v heads
  have tc2 : TotalCompare s2.compare := by rw [post.compare]; exact tc
  have hf := find?_after_insert tc inv post
  obtain ⟨n, hn, hnk⟩ := key_at_heap post.new_key
  have hv : n.value = v := by
    have := post.new_value
    simpa [value_at, hn] using this
  refine ⟨s2, s.brk, h1, ?_, ?_, ?_, ?_⟩
  · rw [find_eq tc2 inv2 k, hf]
    simp [post.new_value]
  · rw [find_node_eq tc2 inv2 k, hf]
  · simp [oset_node_key, hn, hnk]
  · simp [oset_node_value, hn, hv]

theorem find_after_insert_witness :
    TotalCompare demo_set.compare ∧ Reachable demo_set ∧
    ∃ s2 node, oset_insert demo_set 3 (some 32) 2 = some s2 ∧
      oset_find s2 3 = some (some 32) ∧
      oset_find_node s2 3 = some (some node) ∧ oset_node_key s2 node = some (some 3) ∧
      oset_node_value s2 node = some (some 32) :=
  ⟨demo_total, demo_reachable, find_after_insert demo_total demo_reachable 3 (some 32) 2⟩

/-- C5: on every reachable set `oset_find_node(k)` returns the first node of the level-0 chain
whose key compares equal to `k` (the leftmost one when several do), and `OSET_EOF` when no
entry compares equal to `k`, in which case `oset_find(k)` returns `NULL`; every node of the
chain is a non-header node of level 0 that carries a key. -/
theorem find_node_leftmost {s : ordered_set K V} (tc : TotalCompare s.compare)
    (hr : Reachable s) (k : K) :
    ∃ l, level0 s = some l ∧
      oset_find_node s k = some (l.find? (key_eq s k)) ∧
      oset_find s k = some ((l.find? (key_eq s k)).bind (value_at s)) ∧
      ((∀ a, a ∈ l → key_eq s k a = false) →
        oset_find_node s k = some OSET_EOF ∧ oset_find s k = some none) ∧
      (∀ (i a : Nat), l[i]? = some a → key_eq s k a = true →
        (∀ (m b : Nat), m < i → l[m]? = some b → key_eq s k b = false) →
        oset_find_node s k = some (some a)) ∧
      (∀ a, a ∈ l → ∃ n ka, s.heap a = some n ∧ n.level = 0 ∧ n.is_header = false ∧
        n.key = some ka) := by
  obtain ⟨rows, H, inv, ext⟩ := reachable_good tc hr
  have h1 := find_node_eq tc inv k
  have h2 := find_eq tc inv k
  refine ⟨(rows 0).drop 1, level0_eq inv.wf, h1, h2, ?_, ?_, ?_⟩
  · intro hno
    have : ((rows 0).drop 1).find? (key_eq s k) = none := by
      rw [List.find?_eq_none]
      intro a ha
      simp [hno a ha]
    rw [h1, h2, this]
    exact ⟨rfl, rfl⟩
  · intro i a ha hka hbefore
    rw [h1, find?_at (key_eq s k) ((rows 0).drop 1) i hbefore, ha]
    · simp [hka]
    · intro a2 ha2 hfa
      rw [ha] at ha2
      cases ha2
      rw [hka] at hfa
      exact Bool.noConfusion hfa
  · intro a ha
    obtain ⟨m, hm⟩ := List.mem_iff_getElem?.mp ha
    rw [List.getElem?_drop] at hm
    obtain ⟨n, hn, -, -, g3, g4, g5, -⟩ := inv.wf.hz.link 0 (1 + m) a hm
    cases hk : n.key with
    | none => have := g5.mp hk; omega
    | some ka =>
      refine ⟨n, ka, hn, by simpa using g3, ?_, hk⟩
      rw [g4]
      simp

theorem find_node_leftmost_witness :
    TotalCompare demo_set.compare ∧ Reachable demo_set ∧
    ∃ l, level0 demo_set = some l ∧
      oset_find_node demo_set 3 = some (l.find? (key_eq demo_set 3)) ∧
      oset_find demo_set 3 = some ((l.find? (key_eq demo_set 3)).bind (value_at demo_set)) ∧
      ((∀ a, a ∈ l → key_eq demo_set 3 a = false) →
        oset_find_node demo_set 3 = some OSET_EOF ∧ oset_find demo_set 3 = some none) ∧
      (∀ (i a : Nat), l[i]? = some a → key_eq demo_set 3 a = true →
        (∀ (m b : Nat), m < i → l[m]? = some b → key_eq demo_set 3 b = false) →
        oset_find_node demo_set 3 = some (some a)) ∧
      (∀ a, a ∈ l → ∃ n ka, demo_set.heap a = some n ∧ n.level = 0 ∧ n.is_header = false ∧
        n.key = some ka) :=
  ⟨demo_total, demo_reachable, find_node_leftmost demo_total demo_reachable 3⟩

theorem drop_one_ins_at (l : List Nat) (i x : Nat) (hi : i + 1 ≤ l.length) :
    (ins_at l (i + 1) x).drop 1 = ins_at (l.drop 1) i x := by
  apply List.ext_getElem?
  intro m
  rw [List.getElem?_drop, getElem?_ins_at _ _ _ _ hi,
    getElem?_ins_at _ _ _ _ (by rw [List.length_drop]; omega)]
  by_cases c1 : m < i
  · rw [if_pos (by omega), if_pos c1, List.getElem?_drop]
  · rw [if_neg (by omega), if_neg c1]
    by_cases c2 : m = i
    · rw [if_pos (by omega), if_pos c2]
    · rw [if_neg (by omega), if_neg c2, List.getElem?_drop]
      congr 1
      omega

theorem drop_one_eraseIdx (l : List Nat) (i : Nat) :
    (l.eraseIdx (i + 1)).drop 1 = (l.drop 1).eraseIdx i := by
  apply List.ext_getElem?
  intro m
  rw [List.getElem?_drop, List.getElem?_eraseIdx, List.getElem?_eraseIdx]
  by_cases c1 : m < i
  · rw [if_pos (by omega), if_pos c1, List.getElem?_drop]
  · rw [if_neg (by omega), if_neg c1, List.getElem?_drop]
    have : 1 + m + 1 = 1 + (m + 1) := by omega
    rw [this]

/-- The leftmost node with an equal key is the successor of the node found by
`node_find_previous`. -/
theorem leftmost_is_successor {s : ordered_set K V} {rows : Nat → List Nat} {H : Nat}
    (tc : TotalCompare s.compare) (inv : Inv s rows H) (k : K) {i p a : Nat}
    (hp : (rows 0)[i]? = some p) (hfind : node_find_previous s k = some (some p))
    (ha : ((rows 0).drop 1).find? (key_eq s k) = some a) :
    (rows 0)[i + 1]? = some a ∧ key_eq s k a = true := by
  have h1 := find_node_pos inv k hp hfind
  rw [find_node_eq tc inv k, ha] at h1
  have h2 := Option.some.inj h1
  cases hnx : (rows 0)[i + 1]? with
  | none => rw [hnx] at h2; simp at h2
  | some nx =>
    rw [hnx] at h2
    simp only [Option.some_bind] at h2
    by_cases c : key_eq s k nx = true
    · rw [if_pos c] at h2
      cases h2
      exact ⟨rfl, c⟩
    · rw [if_neg c] at h2
      exact Option.noConfusion h2

/-- The entries after an insert: the new pair is put at the index of the new node. -/
theorem entries_insert {s s2 : ordered_set K V} {rows rows2 : Nat → List Nat} {H H2 : Nat}
    (inv : Inv s rows H) (inv2 : Inv s2 rows2 H2) {k : K} {v : Option V} {i p : Nat}
    (post : InsertPost s rows k v s2 rows2 i p) :
    ∃ ps, entries s = some ps ∧ entries s2 = some (ins_at ps i (k, v)) := by
  obtain ⟨ps, h1, h2, h3⟩ := entries_spec inv
  obtain ⟨ps2, g1, g2, g3⟩ := entries_spec inv2
  have hilt := lt_length_of_getElem? post.pred_at
  have hle : i + 1 ≤ (rows 0).length := hilt
  refine ⟨ps, h1, ?_⟩
  rw [g1]
  congr 1
  apply List.ext_getElem?
  intro m
  rw [getElem?_ins_at _ _ _ _ (by omega)]
  have hlen2 : ps2.length = ps.length + 1 := by
    rw [post.row0, length_ins_at] at g2
    omega
  by_cases hm : m < ps2.length
  · obtain ⟨b, hb⟩ : ∃ b, (rows2 0)[m + 1]? = some b :=
      ⟨(rows2 0)[m + 1], List.getElem?_eq_getElem (by omega)⟩
    obtain ⟨kb, e1, e2⟩ := g3 m b hb
    rw [e2]
    rw [post.row0, getElem?_ins_at _ _ _ _ hle] at hb
    have hold : ∀ (j : Nat), (rows 0)[j]? = some b →
        key_at s2 b = key_at s b ∧ value_at s2 b = value_at s b := by
      intro j hj
      obtain ⟨n, hn⟩ := inv.wf.hz.heap_of_mem (mem_of_getElem? hj)
      exact ⟨key_at_of_payload post.payload hn, value_at_of_payload post.payload hn⟩
    by_cases c1 : m < i
    · rw [if_pos (by omega)] at hb
      rw [if_pos c1]
      obtain ⟨kb0, f1, f2⟩ := h3 m b hb
      obtain ⟨q1, q2⟩ := hold _ hb
      rw [f2, q2]
      rw [q1, f1] at e1
      cases e1
      rfl
    · rw [if_neg (by omega)] at hb
      rw [if_neg c1]
      by_cases c2 : m = i
      · rw [if_pos (by omega)] at hb
        cases hb
        rw [if_pos c2]
        rw [post.new_key] at e1
        cases e1
        rw [post.new_value]
      · rw [if_neg (by omega)] at hb
        rw [if_neg c2]
        have hm1 : m + 1 - 1 = (m - 1) + 1 := by omega
        rw [hm1] at hb
        obtain ⟨kb0, f1, f2⟩ := h3 (m - 1) b hb
        obtain ⟨q1, q2⟩ := hold _ hb
        rw [f2, q2]
        rw [q1, f1] at e1
        cases e1
        rfl
  · rw [List.getElem?_eq_none (by omega)]
    rw [if_neg (by omega), if_neg (by omega), List.getElem?_eq_none (by omega)]

/-- C6: on every reachable set that already holds an entry whose key compares equal to `k`
(`a` being the leftmost such node of the level-0 chain `l`), `oset_insert(k, v)` succeeds,
increases `oset_size` by exactly 1 and puts the new node right in front of `a`: the level-0
chain afterwards is `l` with the new node inserted at the index of `a`, so that `oset_next` of
the new node is `a` and all other entries keep their order, keys and values. -/
theorem insert_before_equal {s : ordered_set K V} (tc : TotalCompare s.compare)
    (hr : Reachable s) (k : K) (v : Option V) (heads : Nat) (l : List Nat) (a : Nat)
    (hl : level0 s = some l) (ha : l.find? (key_eq s k) = some a) :
    ∃ s2 new_node idx ps, oset_insert s k v heads = some s2 ∧
      oset_size s2 = oset_size s + 1 ∧ l[idx]? = some a ∧
      level0 s2 = some (ins_at l idx new_node) ∧
      oset_next s2 new_node = some (some a) ∧
      oset_node_key s2 new_node = some (some k) ∧ oset_node_value s2 new_node = some v ∧
      entries s = some ps ∧ entries s2 = some (ins_at ps idx (k, v)) := by
  obtain ⟨rows, H, inv, ext⟩ := reachable_good tc hr
  obtain ⟨s2, rows2, H2, i, p, h1, inv2, -, post⟩ := oset_insert_spec tc inv k v heads
  have hl0 := level0_eq inv.wf
  rw [hl] at hl0
  have hl1 : l = (rows 0).drop 1 := Option.some.inj hl0
  subst hl1
  have hilt := lt_length_of_getElem? post.pred_at
  have hle : i + 1 ≤ (rows 0).length := hilt
  obtain ⟨hsucc, -⟩ := leftmost_is_successor tc inv k post.pred_at post.found ha
  obtain ⟨ps, e1, e2⟩ := entries_insert inv inv2 post
  obtain ⟨n, hn, hnk⟩ := key_at_heap post.new_key
  have hv : n.value = v := by
    have := post.new_value
    simpa [value_at, hn] using this
  have hnewidx : (rows2 0)[i + 1]? = some s.brk := by
    rw [post.row0, getElem?_ins_at _ _ _ _ hle, if_neg (by omega), if_pos rfl]
  obtain ⟨n2, hn2, hnext, -⟩ := inv2.wf.hz.link 0 (i + 1) s.brk hnewidx
  rw [hn] at hn2; cases hn2
  refine ⟨s2, s.brk, i, ps, h1, post.size, ?_, ?_, ?_, ?_, ?_, e1, e2⟩
  · rw [List.getElem?_drop]
    have : 1 + i = i + 1 := by omega
    rw [this]; exact hsucc
  · rw [level0_eq inv2.wf, post.row0, drop_one_ins_at _ _ _ hle]
  · simp only [oset_next, hn, Option.map_some', hnext]
    rw [post.row0, getElem?_ins_at _ _ _ _ hle, if_neg (by omega), if_neg (by omega)]
    have : i + 1 + 1 - 1 = i + 1 := by omega
    rw [this, hsucc]
  · simp [oset_node_key, hn, hnk]
  · simp [oset_node_value, hn, hv]

theorem insert_before_equal_witness :
    TotalCompare demo_set.compare ∧ Reachable demo_set ∧
    level0 demo_set = some [9, 4, 1, 5] ∧
    [9, 4, 1, 5].find? (key_eq demo_set 3) = some 9 ∧
    ∃ s2 new_node idx ps, oset_insert demo_set 3 (some 32) 1 = some s2 ∧
      oset_size s2 = oset_size demo_set + 1 ∧ [9, 4, 1, 5][idx]? = some 9 ∧
      level0 s2 = some (ins_at [9, 4, 1, 5] idx new_node) ∧
      oset_next s2 new_node = some (some 9) ∧
      oset_node_key s2 new_node = some (some 3) ∧
      oset_node_value s2 new_node = some (some 32) ∧
      entries demo_set = some ps ∧ entries s2 = some (ins_at ps idx (3, some 32)) :=
  ⟨demo_total, demo_reachable, by decide, by decide,
    insert_before_equal demo_total demo_reachable 3 (some 32) 1 [9, 4, 1, 5] 9
      (by decide) (by decide)⟩

/-- The entries after a successful remove: the pair of the removed node is erased. -/
theorem entries_remove {s s2 : ordered_set K V} {rows rows2 : Nat → List Nat} {H H2 : Nat}
    (inv : Inv s rows H) (inv2 : Inv s2 rows2 H2) {k : K} {i p nx : Nat}
    (post : RemovePost s rows k s2 rows2 i p nx) :
    ∃ ps, entries s = some ps ∧ entries s2 = some (ps.eraseIdx i) := by
  obtain ⟨ps, h1, h2, h3⟩ := entries_spec inv
  obtain ⟨ps2, g1, g2, g3⟩ := entries_spec inv2
  have hilt := lt_length_of_getElem? post.victim_at
  refine ⟨ps, h1, ?_⟩
  rw [g1]
  congr 1
  apply List.ext_getElem?
  intro m
  rw [List.getElem?_eraseIdx]
  have hlen2 : ps2.length + 1 = ps.length := by
    rw [post.row0, List.length_eraseIdx, if_pos hilt] at g2
    omega
  by_cases hm : m < ps2.length
  · obtain ⟨b, hb⟩ : ∃ b, (rows2 0)[m + 1]? = some b :=
      ⟨(rows2 0)[m + 1], List.getElem?_eq_getElem (by omega)⟩
    obtain ⟨kb, e1, e2⟩ := g3 m b hb
    rw [e2]
    rw [post.row0, List.getElem?_eraseIdx] at hb
    obtain ⟨n2, hn2, hk2⟩ := key_at_heap e1
    obtain ⟨n0, hn0, q1, q2⟩ := post.survive b n2 hn2
    have hv : value_at s2 b = value_at s b := by simp [value_at, hn2, hn0, q2]
    have hk : key_at s b = some kb := by simp [key_at, hn0, ← q1, hk2]
    by_cases c1 : m < i
    · rw [if_pos (by omega)] at hb
      rw [if_pos c1]
      obtain ⟨kb0, f1, f2⟩ := h3 m b hb
      rw [f2, hv]
      rw [hk] at f1
      cases f1
      rfl
    · rw [if_neg (by omega)] at hb
      rw [if_neg c1]
      obtain ⟨kb0, f1, f2⟩ := h3 (m + 1) b hb
      rw [f2, hv]
      rw [hk] at f1
      cases f1
      rfl
  · rw [List.getElem?_eq_none (by omega)]
    by_cases c1 : m < i
    · omega
    · rw [if_neg c1, List.getElem?_eq_none (by omega)]

/-- C7: on every reachable set holding an entry whose key compares equal to `k` (`a` being the
leftmost such node of the level-0 chain `l`), `oset_remove(k)` returns `true`; the removed node
is `a`, which is the leftmost of the nodes with an equal key and the most recently inserted of
them (it has the largest address, and addresses are handed out in increasing order);
the level-0 chain afterwards is `l` with `a` erased and the entries are the previous entries
with the pair of `a` erased, all others unchanged and in the same order; the size drops by
exactly 1 and the cell of `a` is freed. -/
theorem remove_leftmost {s : ordered_set K V} (tc : TotalCompare s.compare)
    (hr : Reachable s) (k : K) (l : List Nat) (a : Nat)
    (hl : level0 s = some l) (ha : l.find? (key_eq s k) = some a) :
    ∃ s2 idx ps, oset_remove s k = some (true, s2) ∧ l[idx]? = some a ∧
      (∀ (m b : Nat), m < idx → l[m]? = some b → key_eq s k b = false) ∧
      (∀ b, b ∈ l → key_eq s k b = true → b ≤ a) ∧
      level0 s2 = some (l.eraseIdx idx) ∧
      entries s = some ps ∧ entries s2 = some (ps.eraseIdx idx) ∧
      oset_size s2 = oset_size s - 1 ∧ s2.heap a = none := by
  obtain ⟨rows, H, inv, ext⟩ := reachable_good tc hr
  have hl0 := level0_eq inv.wf
  rw [hl] at hl0
  have hl1 : l = (rows 0).drop 1 := Option.some.inj hl0
  subst hl1
  have hka := List.find?_some ha
  obtain ⟨kx, hkx, hkx0⟩ := key_eq_true.mp hka
  obtain ⟨ia, hia⟩ := List.mem_iff_getElem?.mp (List.mem_of_find?_eq_some ha)
  rw [List.getElem?_drop] at hia
  rcases oset_remove_spec tc inv k with ⟨-, hno⟩ | ⟨s2, rows2, i, p, nx, h1, inv2, post⟩
  · exact absurd hkx0 (hno (1 + ia) a kx (by omega) hia hkx)
  · obtain ⟨hsucc, -⟩ := leftmost_is_successor tc inv k post.pred_at post.found ha
    have hnx : nx = a := by
      have := post.victim_at
      rw [hsucc] at this
      exact (Option.some.inj this).symm
    subst hnx
    obtain ⟨ps, e1, e2⟩ := entries_remove inv inv2 post
    refine ⟨s2, i, ps, h1, ?_, ?_, ?_, ?_, e1, e2, post.size, post.freed⟩
    · rw [List.getElem?_drop]
      have : 1 + i = i + 1 := by omega
      rw [this]; exact hsucc
    · intro m b hm hb
      rw [List.getElem?_drop] at hb
      obtain ⟨kb, f1, f2⟩ := post.before (1 + m) b (by omega) (by omega) hb
      exact key_eq_false_of f1 (by omega)
    · intro b hb hkb
      obtain ⟨m, hm⟩ := List.mem_iff_getElem?.mp hb
      rw [List.getElem?_drop] at hm
      obtain ⟨kb, f1, f2⟩ := key_eq_true.mp hkb
      by_cases c1 : 1 + m ≤ i
      · obtain ⟨kb0, g1, g2⟩ := post.before (1 + m) b (by omega) c1 hm
        rw [f1] at g1; cases g1
        omega
      · by_cases c2 : 1 + m = i + 1
        · rw [c2, hsucc] at hm
          cases hm
          exact le_refl _
        · have h3 : s.compare k kx = 0 := tc.eq_symm hkx0
          have h4 := tc.le_trans kb k kx (by omega) (by omega)
          have := ext.recent (i + 1) (1 + m) nx b kx kb (by omega) (by omega) hsucc hm hkx
            f1 h4
          omega
    · rw [level0_eq inv2.wf, post.row0, drop_one_eraseIdx]

theorem remove_leftmost_witness :
    TotalCompare demo_set.compare ∧ Reachable demo_set ∧
    level0 demo_set = some [9, 4, 1, 5] ∧
    [9, 4, 1, 5].find? (key_eq demo_set 3) = some 9 ∧
    (∃ s2 idx ps, oset_remove demo_set 3 = some (true, s2) ∧ [9, 4, 1, 5][idx]? = some 9 ∧
      (∀ (m b : Nat), m < idx → [9, 4, 1, 5][m]? = some b → key_eq demo_set 3 b = false) ∧
      (∀ b, b ∈ [9, 4, 1, 5] → key_eq demo_set 3 b = true → b ≤ 9) ∧
      level0 s2 = some ([9, 4, 1, 5].eraseIdx idx) ∧
      entries demo_set = some ps ∧ entries s2 = some (ps.eraseIdx idx) ∧
      oset_size s2 = oset_size demo_set - 1 ∧ s2.heap 9 = none) ∧
    oset_size demo_set = 4 ∧
    (oset_remove demo_set 3).map (fun r => r.1) = some true ∧
    (oset_remove demo_set 3).map (fun r => oset_size r.2) = some 3 ∧
    (oset_remove demo_set 3).bind (fun r => entries r.2) =
      some [(3, some 30), (5, some 50), (8, some 80)] ∧
    (oset_remove demo_set 3).bind (fun r => (ascending r.2).bind (pairs_at r.2)) =
      some [(3, some 30), (5, some 50), (8, some 80)] :=
  ⟨demo_total, demo_reachable, by decide, by decide,
    remove_leftmost demo_total demo_reachable 3 [9, 4, 1, 5] 9 (by decide) (by decide),
    by decide, by decide, by decide, by decide, by decide⟩

/-- C8: on every reachable set in which no entry of the level-0 chain compares equal to `k`,
`oset_remove(k)` returns `false` and the set afterwards is the set before: the same size,
`first`, `last`, header, heap cells (all nodes and links of all levels) and log of destructor
calls. -/
theorem remove_absent {s : ordered_set K V} (tc : TotalCompare s.compare)
    (hr : Reachable s) (k : K) (l : List Nat)
    (hl : level0 s = some l) (hno : l.find? (key_eq s k) = none) :
    oset_remove s k = some (false, s) := by
  obtain ⟨rows, H, inv, ext⟩ := reachable_good tc hr
  have hl0 := level0_eq inv.wf
  rw [hl] at hl0
  have hl1 : l = (rows 0).drop 1 := Option.some.inj hl0
  subst hl1
  apply oset_remove_miss tc inv k
  intro m a ka hm ha hka h0
  have hmem : a ∈ (rows 0).drop 1 := by
    apply List.mem_iff_getElem?.mpr
    refine ⟨m - 1, ?_⟩
    rw [List.getElem?_drop]
    have : 1 + (m - 1) = m := by omega
    rw [this]; exact ha
  have h1 := List.find?_eq_none.mp hno a hmem
  exact h1 (key_eq_true.mpr ⟨ka, hka, h0⟩)

theorem remove_absent_witness :
    TotalCompare demo_set.compare ∧ Reachable demo_set ∧
    level0 demo_set = some [9, 4, 1, 5] ∧
    [9, 4, 1, 5].find? (key_eq demo_set 4) = none ∧
    oset_remove demo_set 4 = some (false, demo_set) :=
  ⟨demo_total, demo_reachable, by decide, by decide,
    remove_absent demo_total demo_reachable 4 [9, 4, 1, 5] (by decide) (by decide)⟩

theorem two_le_countP {l : List Nat} (hnd : l.Nodup) (f : Nat → Bool) {a b : Nat}
    (ha : a ∈ l) (hb : b ∈ l) (hab : a ≠ b) (hfa : f a = true) (hfb : f b = true) :
    2 ≤ l.countP f := by
  rw [List.countP_eq_length_filter]
  have hnd2 : (l.filter f).Nodup := hnd.filter _
  have ha2 : a ∈ l.filter f := List.mem_filter.mpr ⟨ha, hfa⟩
  have hb2 : b ∈ l.filter f := List.mem_filter.mpr ⟨hb, hfb⟩
  cases hl : l.filter f with
  | nil => rw [hl] at ha2; simp at ha2
  | cons x rest =>
    cases rest with
    | nil =>
      rw [hl] at ha2 hb2
      simp only [List.mem_singleton] at ha2 hb2
      exact absurd (ha2.trans hb2.symm) hab
    | cons y rest2 => simp

/-- C9 (counterexample): on the set built by inserting (3,30) and then (3,31), the call
`oset_remove(3)` returns `true`, and afterwards `oset_find(3)` returns the value 30 and
`oset_find_node(3)` returns the node at address 1, not `NULL` and `OSET_EOF`. -/
theorem find_after_remove_duplicate :
    (oset_remove twin_set 3).map (fun r => r.1) = some true ∧
      (oset_remove twin_set 3).bind (fun r => oset_find r.2 3) = some (some 30) ∧
      (oset_remove twin_set 3).bind (fun r => oset_find_node r.2 3) = some (some 1) := by
  decide

/-- C9 (amended): on every reachable set that holds exactly one entry whose key compares equal
to `k`, `oset_remove(k)` returns `true`, and afterwards `oset_find(k)` returns `NULL` and
`oset_find_node(k)` returns `OSET_EOF`. -/
theorem find_after_remove_single {s : ordered_set K V} (tc : TotalCompare s.compare)
    (hr : Reachable s) (k : K) (l : List Nat)
    (hl : level0 s = some l) (hone : l.countP (key_eq s k) = 1) :
    ∃ s2, oset_remove s k = some (true, s2) ∧ oset_find s2 k = some none ∧
      oset_find_node s2 k = some OSET_EOF := by
  obtain ⟨rows, H, inv, ext⟩ := reachable_good tc hr
  have hl0 := level0_eq inv.wf
  rw [hl] at hl0
  have hl1 : l = (rows 0).drop 1 := Option.some.inj hl0
  subst hl1
  have hnd : ((rows 0).drop 1).Nodup := (inv.wf.hz.nodup 0).sublist (List.drop_sublist _ _)
  obtain ⟨a, ha, hfa⟩ : ∃ a, a ∈ (rows 0).drop 1 ∧ key_eq s k a = true := by
    have : 0 < ((rows 0).drop 1).countP (key_eq s k) := by omega
    exact List.countP_pos_iff.mp this
  obtain ⟨ka, hka, hka0⟩ := key_eq_true.mp hfa
  obtain ⟨ia, hia⟩ := List.mem_iff_getElem?.mp ha
  rw [List.getElem?_drop] at hia
  rcases oset_remove_spec tc inv k with ⟨-, hno⟩ | ⟨s2, rows2, i, p, nx, h1, inv2, post⟩
  · exact absurd hka0 (hno (1 + ia) a ka (by omega) hia hka)
  · have tc2 : TotalCompare s2.compare := by rw [post.compare]; exact tc
    obtain ⟨kx, hkx, hkx0⟩ := post.victim_eq
    have hnxmem : nx ∈ (rows 0).drop 1 := by
      apply List.mem_iff_getElem?.mpr
      refine ⟨i, ?_⟩
      rw [List.getElem?_drop]
      have : 1 + i = i + 1 := by omega
      rw [this]; exact post.victim_at
    have hnone : ((rows2 0).drop 1).find? (key_eq s2 k) = none := by
      rw [List.find?_eq_none]
      intro b hb hkb
      obtain ⟨m, hm⟩ := List.mem_iff_getElem?.mp hb
      rw [List.getElem?_drop] at hm
      have hbrow : b ∈ rows2 0 := mem_of_getElem? hm
      have hbold : b ∈ rows 0 := post.rows_sub 0 b hbrow
      obtain ⟨kb, f1, f2⟩ := key_eq_true.mp hkb
      have f1b := post.key_back f1
      rw [post.compare] at f2
      have hbne : b ≠ nx := fun e => by
        obtain ⟨n2, hn2, -⟩ := key_at_heap f1
        rw [e, post.freed] at hn2
        exact Option.noConfusion hn2
      have hbl : b ∈ (rows 0).drop 1 := by
        obtain ⟨j, hj⟩ := List.mem_iff_getElem?.mp hbold
        have hj0 : j ≠ 0 := fun e => by
          subst e
          obtain ⟨n, hn, -, -, -, -, g5, -⟩ := inv.wf.hz.link 0 0 b hj
          obtain ⟨n0, hn0, hk0⟩ := key_at_heap f1b
          rw [hn] at hn0; cases hn0
          rw [g5.mpr rfl] at hk0
          exact Option.noConfusion hk0
        apply List.mem_iff_getElem?.mpr
        refine ⟨j - 1, ?_⟩
        rw [List.getElem?_drop]
        have : 1 + (j - 1) = j := by omega
        rw [this]; exact hj
      have := two_le_countP hnd (key_eq s k) hbl hnxmem hbne
        (key_eq_true.mpr ⟨kb, f1b, f2⟩) (key_eq_true.mpr ⟨kx, hkx, hkx0⟩)
      omega
    refine ⟨s2, h1, ?_, ?_⟩
    · rw [find_eq tc2 inv2 k, hnone]
      rfl
    · rw [find_node_eq tc2 inv2 k, hnone]

theorem find_after_remove_single_witness :
    TotalCompare demo_set.compare ∧ Reachable demo_set ∧
    level0 demo_set = some [9, 4, 1, 5] ∧
    [9, 4, 1, 5].countP (key_eq demo_set 5) = 1 ∧
    ∃ s2, oset_remove demo_set 5 = some (true, s2) ∧ oset_find s2 5 = some none ∧
      oset_find_node s2 5 = some OSET_EOF :=
  ⟨demo_total, demo_reachable, by decide, by decide,
    find_after_remove_single demo_total demo_reachable 5 [9, 4, 1, 5] (by decide) (by decide)⟩

/-- Running calls on a set satisfying the invariants: all calls succeed and the size changes
by the number of insertions minus the number of removals that returned `true`. -/
theorem run_count_spec (ops : List (Op K V)) :
    ∀ {s : ordered_set K V} {rows : Nat → List Nat} {H : Nat}, TotalCompare s.compare →
      Inv s rows H → Ext s rows →
      ∃ n r s2 rows2 H2, run_count s ops = some (n, r, s2) ∧ run_ops s ops = some s2 ∧
        Inv s2 rows2 H2 ∧ s2.size = s.size + (n : Int) - (r : Int) ∧
        n = ops.countP Op.is_insert := by
  induction ops with
  | nil =>
    intro s rows H _ inv _
    exact ⟨0, 0, s, rows, H, rfl, rfl, inv, by simp, rfl⟩
  | cons op rest ih =>
    intro s rows H tc inv ext
    cases op with
    | insert k v heads =>
      obtain ⟨s1, rows1, H1, i, p, h1, inv1, -, post⟩ := oset_insert_spec tc inv k v heads
      obtain ⟨n, r, s2, rows2, H2, g1, g2, g3, g4, g5⟩ :=
        ih (post.compare ▸ tc) inv1 (ext_insert tc inv ext post)
      refine ⟨n + 1, r, s2, rows2, H2, ?_, ?_, g3, ?_, ?_⟩
      · simp only [run_count, h1, g1]
      · simp [run_ops, Op.apply, h1, g2]
      · rw [g4, post.size]
        push_cast
        ring
      · simp [List.countP_cons, Op.is_insert, g5]
    | remove k =>
      rcases oset_remove_spec tc inv k with ⟨h1, -⟩ | ⟨s1, rows1, i, p, nx, h1, inv1, post⟩
      · obtain ⟨n, r, s2, rows2, H2, g1, g2, g3, g4, g5⟩ := ih tc inv ext
        refine ⟨n, r, s2, rows2, H2, ?_, ?_, g3, g4, ?_⟩
        · simp only [run_count, h1, g1]
          rfl
        · simp [run_ops, Op.apply, h1, g2]
        · simp [List.countP_cons, Op.is_insert, g5]
      · obtain ⟨n, r, s2, rows2, H2, g1, g2, g3, g4, g5⟩ :=
          ih (post.compare ▸ tc) inv1 (ext_remove tc inv ext post)
        refine ⟨n, r + 1, s2, rows2, H2, ?_, ?_, g3, ?_, ?_⟩
        · simp only [run_count, h1, g1]
          rfl
        · simp [run_ops, Op.apply, h1, g2]
        · rw [g4, post.size]
          push_cast
          ring
        · simp [List.countP_cons, Op.is_insert, g5]

/-- C10: every sequence `ops` of `oset_insert` and `oset_remove` calls succeeds, and it changes
`oset_size` by the number `n` of its inserts minus the number `r` of its removes that returned
`true`; applied to a freshly created set (`pre` empty, size 0) the size is `n - r`; the size
is never negative. -/
theorem size_counts (cmp : K → K → Int) (tc : TotalCompare cmp) (dk dv : DestroyFunc)
    (pre ops : List (Op K V)) :
    ∃ s0 n r s, run_ops (oset_create cmp dk dv) pre = some s0 ∧
      run_count s0 ops = some (n, r, s) ∧ run_ops s0 ops = some s ∧
      n = ops.countP Op.is_insert ∧
      oset_size s = oset_size s0 + (n : Int) - (r : Int) ∧ 0 ≤ oset_size s ∧
      (pre = [] → oset_size s = (n : Int) - (r : Int)) := by
  obtain ⟨s0, rows0, H0, h1, inv0, ext0, h4⟩ :=
    @run_ops_good K V pre (oset_create cmp dk dv) _ _ tc (create_inv cmp dk dv)
      (ext_create cmp dk dv)
  have tc0 : TotalCompare s0.compare := by
    have : s0.compare = cmp := h4
    rw [this]; exact tc
  obtain ⟨n, r, s, rows, H, g1, g2, g3, g4, g5⟩ := run_count_spec ops tc0 inv0 ext0
  refine ⟨s0, n, r, s, h1, g1, g2, g5, g4, ?_, ?_⟩
  · show 0 ≤ s.size
    rw [g3.size_eq]
    have := g3.wf.row_ne 0 g3.wf.height_pos
    have : 0 < (rows 0).length := List.length_pos.mpr this
    omega
  · intro hpre
    subst hpre
    simp only [run_ops, Option.some.injEq] at h1
    subst h1
    show s.size = _
    rw [g4]
    show (0 : Int) + _ - _ = _
    ring

theorem size_counts_witness :
    TotalCompare int_compare ∧
    ∃ s0 n r s, run_ops (oset_create int_compare none none) [] = some s0 ∧
      run_count s0 demo_calls = some (n, r, s) ∧ run_ops s0 demo_calls = some s ∧
      n = demo_calls.countP Op.is_insert ∧
      oset_size s = oset_size s0 + (n : Int) - (r : Int) ∧ 0 ≤ oset_size s ∧
      (([] : List (Op Int Int)) = [] → oset_size s = (n : Int) - (r : Int)) :=
  ⟨int_compare_total, size_counts int_compare int_compare_total none none [] demo_calls⟩

/-- The defect behind C2 on every reachable set and for all coin flips: when the inserted key
compares equal to the key of `first`, `oset_insert` links the new node into the level-0 chain
but leaves `first` where it was, behind the new node, so that the traversal from `oset_first`
does not visit the new node. -/
theorem first_skips_equal_insert {s : ordered_set K V} (tc : TotalCompare s.compare)
    (hr : Reachable s) (k : K) (v : Option V) (heads : Nat) (f : Nat) (kf : K)
    (hf : s.first = some f) (hkf : key_at s f = some kf) (heq : s.compare k kf = 0) :
    ∃ s2 new_node visited l2, oset_insert s k v heads = some s2 ∧
      oset_first s2 = some f ∧ ascending s2 = some visited ∧ level0 s2 = some l2 ∧
      oset_node_key s2 new_node = some (some k) ∧ new_node ∈ l2 ∧ new_node ∉ visited := by
  obtain ⟨rows, H, inv, ext⟩ := reachable_good tc hr
  obtain ⟨s2, rows2, H2, i, p, h1, inv2, -, post⟩ := oset_insert_spec tc inv k v heads
  have hilt := lt_length_of_getElem? post.pred_at
  have hle : i + 1 ≤ (rows 0).length := hilt
  have hfirst2 : s2.first = some f := by
    rw [post.first_some f kf hf hkf, if_neg (by omega)]
  have hnewidx : (rows2 0)[i + 1]? = some s.brk := by
    rw [post.row0, getElem?_ins_at _ _ _ _ hle, if_neg (by omega), if_pos rfl]
  obtain ⟨n, hn, hnk⟩ := key_at_heap post.new_key
  rcases ascending_eq inv2 with ⟨h0, -⟩ | ⟨q, hq, hqf, hqlt, hasc⟩
  · rw [hfirst2] at h0; exact Option.noConfusion h0
  · refine ⟨s2, s.brk, _, _, h1, hfirst2, hasc, level0_eq inv2.wf, ?_, ?_, ?_⟩
    · simp [oset_node_key, hn, hnk]
    · apply List.mem_iff_getElem?.mpr
      refine ⟨i, ?_⟩
      rw [List.getElem?_drop]
      have : 1 + i = i + 1 := by omega
      rw [this]; exact hnewidx
    · intro hmem
      obtain ⟨m, hm⟩ := List.mem_iff_getElem?.mp hmem
      rw [List.getElem?_drop] at hm
      have hidx := nodup_index_eq (inv2.wf.hz.nodup 0) hm hnewidx
      rw [hfirst2, post.row0] at hqf
      rcases ins_at_cases hle hqf with ⟨c1, g1⟩ | ⟨c1, g1⟩ | ⟨c1, g1⟩
      · obtain ⟨ka, e1, e2⟩ := post.before q f hq (by omega) g1
        rw [hkf] at e1; cases e1
        have := tc.eq_symm heq
        omega
      · obtain ⟨nf, hnf, -⟩ := key_at_heap hkf
        rw [g1, inv.wf.hz.fresh s.brk (le_refl _)] at hnf
        exact Option.noConfusion hnf
      · omega

/-- The defect behind C3 on every reachable set: `oset_previous` of the leftmost entry of the
level-0 chain is not `OSET_BOF` but a header node, which carries no key. -/
theorem previous_of_leftmost_is_header {s : ordered_set K V} (tc : TotalCompare s.compare)
    (hr : Reachable s) (a : Nat) (l : List Nat) (hl : level0 s = some (a :: l)) :
    ∃ h n, oset_previous s a = some (some h) ∧ s.heap h = some n ∧ n.is_header = true ∧
      n.key = none := by
  obtain ⟨rows, H, inv, -⟩ := reachable_good tc hr
  have hl0 := level0_eq inv.wf
  rw [hl] at hl0
  have hl1 : a :: l = (rows 0).drop 1 := Option.some.inj hl0
  have ha : (rows 0)[1]? = some a := by
    have : ((rows 0).drop 1)[0]? = some a := by rw [← hl1]; simp
    rw [List.getElem?_drop] at this
    exact this
  obtain ⟨n, hn, -, hprev, -⟩ := inv.wf.hz.link 0 1 a ha
  have hlen : 0 < (rows 0).length := by
    have := lt_length_of_getElem? ha
    omega
  obtain ⟨h, hh⟩ : ∃ h, (rows 0)[0]? = some h :=
    ⟨(rows 0)[0], List.getElem?_eq_getElem hlen⟩
  obtain ⟨nh, hnh, -, -, -, g4, g5, -⟩ := inv.wf.hz.link 0 0 h hh
  refine ⟨h, nh, ?_, hnh, by simpa using g4, g5.mpr rfl⟩
  simp only [oset_previous, hn, Option.map_some', hprev]
  simp [hh]

/-- C11: in every set reachable from `oset_create` by inserts and removes, `oset_first` and
`oset_last` are both the sentinel when the size is 0; otherwise `oset_first` is a node of the
level-0 chain (level 0, not a header) whose key is minimal among the keys of all entries, and
`oset_last` is a node of the level-0 chain whose key is maximal among them. -/
theorem first_last_extremes {s : ordered_set K V} (tc : TotalCompare s.compare)
    (hr : Reachable s) :
    ∃ l, level0 s = some l ∧ oset_size s = (l.length : Int) ∧
      (oset_size s = 0 → oset_first s = OSET_EOF ∧ oset_last s = OSET_EOF) ∧
      (oset_size s ≠ 0 → ∃ f g nf ng kf kg, oset_first s = some f ∧ oset_last s = some g ∧
        f ∈ l ∧ g ∈ l ∧ s.heap f = some nf ∧ s.heap g = some ng ∧
        nf.level = 0 ∧ ng.level = 0 ∧ nf.is_header = false ∧ ng.is_header = false ∧
        nf.key = some kf ∧ ng.key = some kg ∧
        ∀ a, a ∈ l → ∃ ka, key_at s a = some ka ∧ s.compare kf ka ≤ 0 ∧
          s.compare ka kg ≤ 0) := by
  obtain ⟨rows, H, inv, ext⟩ := reachable_good tc hr
  have hne : rows 0 ≠ [] := inv.wf.row_ne 0 inv.wf.height_pos
  have hpos : 0 < (rows 0).length := List.length_pos.mpr hne
  refine ⟨_, level0_eq inv.wf, ?_, ?_, ?_⟩
  · simp only [oset_size, inv.size_eq, List.length_drop]
    omega
  · intro h0
    have hlen : (rows 0).length ≤ 1 := by
      have := inv.size_eq
      simp only [oset_size] at h0
      omega
    constructor
    · rcases inv.first_mem with h | ⟨i, hi, h⟩
      · exact h
      · show s.first = none
        rw [← h]
        exact List.getElem?_eq_none (by omega)
    · show s.last = none
      rw [ext.last_eq, if_pos hlen]
  · intro h0
    have hlen : ¬ (rows 0).length ≤ 1 := by
      intro hle
      apply h0
      have := inv.size_eq
      simp only [oset_size]
      omega
    obtain ⟨f, hf⟩ : ∃ f, s.first = some f := by
      cases h : s.first with
      | none => exact absurd (ext.first_none h) hlen
      | some f => exact ⟨f, rfl⟩
    have hg := ext.last_eq
    rw [if_neg hlen] at hg
    obtain ⟨g, hgi⟩ : ∃ g, (rows 0)[(rows 0).length - 1]? = some g :=
      ⟨(rows 0)[(rows 0).length - 1], List.getElem?_eq_getElem (by omega)⟩
    rw [hgi] at hg
    obtain ⟨q, kf, hq, hqf, hkf⟩ := inv.first_key hf
    obtain ⟨q2, kg, hq2, hqg, hkg⟩ := inv.last_key hg
    obtain ⟨nf, hnf, -, -, lf, hdf, -⟩ := inv.wf.hz.link 0 q f hqf
    obtain ⟨ng, hng, -, -, lg, hdg, -⟩ := inv.wf.hz.link 0 q2 g hqg
    obtain ⟨nf2, hnf2, hkf2⟩ := key_at_heap hkf
    obtain ⟨ng2, hng2, hkg2⟩ := key_at_heap hkg
    rw [hnf] at hnf2; cases hnf2
    rw [hng] at hng2; cases hng2
    have mem_drop : ∀ (i a : Nat), 0 < i → (rows 0)[i]? = some a → a ∈ (rows 0).drop 1 := by
      intro i a hi ha
      apply List.mem_iff_getElem?.mpr
      refine ⟨i - 1, ?_⟩
      rw [List.getElem?_drop]
      have : 1 + (i - 1) = i := by omega
      rw [this]; exact ha
    refine ⟨f, g, nf, ng, kf, kg, hf, hg, mem_drop q f hq hqf, mem_drop q2 g hq2 hqg, hnf, hng,
      by simpa using lf, by simpa using lg, ?_, ?_, hkf2, hkg2, ?_⟩
    · rw [hdf]; exact decide_eq_false (by omega)
    · rw [hdg]; exact decide_eq_false (by omega)
    · intro a ha
      obtain ⟨m, hm⟩ := List.mem_iff_getElem?.mp ha
      rw [List.getElem?_drop] at hm
      obtain ⟨ka, hka⟩ := inv.wf.hz.key_at_some hm (by omega)
      refine ⟨ka, hka, first_key_min inv ext hq hqf hf hkf (by omega) hm hka tc, ?_⟩
      have hmlt := lt_length_of_getElem? hm
      by_cases c : 1 + m = (rows 0).length - 1
      · rw [c, hgi] at hm
        cases hm
        rw [hkg] at hka
        cases hka
        exact le_of_eq (compare_self tc _)
      · exact inv.sorted (1 + m) ((rows 0).length - 1) a g ka kg (by omega) (by omega) hm hgi
          hka hkg

theorem first_last_extremes_witness :
    TotalCompare demo_set.compare ∧ Reachable demo_set ∧
    (oset_first demo_set).bind (key_at demo_set) = some 3 ∧
    (oset_last demo_set).bind (key_at demo_set) = some 8 ∧
    ((oset_remove demo_set 8).bind fun r => (oset_last r.2).bind (key_at r.2)) = some 5 ∧
    ∃ l, level0 demo_set = some l ∧ oset_size demo_set = (l.length : Int) ∧
      (oset_size demo_set = 0 → oset_first demo_set = OSET_EOF ∧ oset_last demo_set = OSET_EOF) ∧
      (oset_size demo_set ≠ 0 → ∃ f g nf ng kf kg, oset_first demo_set = some f ∧
        oset_last demo_set = some g ∧
        f ∈ l ∧ g ∈ l ∧ demo_set.heap f = some nf ∧ demo_set.heap g = some ng ∧
        nf.level = 0 ∧ ng.level = 0 ∧ nf.is_header = false ∧ ng.is_header = false ∧
        nf.key = some kf ∧ ng.key = some kg ∧
        ∀ a, a ∈ l → ∃ ka, key_at demo_set a = some ka ∧ demo_set.compare kf ka ≤ 0 ∧
          demo_set.compare ka kg ≤ 0) :=
  ⟨demo_total, demo_reachable, by decide, by decide, by decide,
    first_last_extremes demo_total demo_reachable⟩

theorem span_reachable : Reachable span_set :=
  (reachable_getD int_compare int_compare_total none none _ _).1

theorem span_compare : span_set.compare = int_compare :=
  (reachable_getD int_compare int_compare_total none none _ _).2

theorem span_total : TotalCompare span_set.compare := by
  rw [span_compare]; exact int_compare_total

theorem odd_reachable : Reachable odd_set :=
  (reachable_getD int_compare int_compare_total none none _ _).1

theorem even_reachable : Reachable even_set :=
  (reachable_getD int_compare int_compare_total none none _ _).1

theorem low_reachable : Reachable low_set :=
  (reachable_getD int_compare int_compare_total none none _ _).1

theorem high_reachable : Reachable high_set :=
  (reachable_getD int_compare int_compare_total none none _ _).1

/-- C12: `oset_split` does not split.  On the reachable set with the keys 1 to 5 the call
`oset_split(set, 3)` returns `OSET_ERROR` instead of a set holding the keys 4 and 5, and the
receiver still holds all five entries (size 5) instead of the keys 1 to 3. -/
theorem split_returns_error_on_span :
    Reachable span_set ∧
    entries span_set =
      some [(1, some 10), (2, some 20), (3, some 30), (4, some 40), (5, some 50)] ∧
    (oset_split span_set 3).1 = OSET_ERROR ∧
    entries (oset_split span_set 3).2 =
      some [(1, some 10), (2, some 20), (3, some 30), (4, some 40), (5, some 50)] ∧
    oset_size (oset_split span_set 3).2 = 5 :=
  ⟨span_reachable, by decide, rfl, by decide, by decide⟩

/-- C13: `oset_merge` does not merge.  With `a` holding the odd keys 1, 3 and `b` the even
keys 0, 2, after `oset_merge(a, b)` the traversal of `a` is still 1, 3 (not 0, 1, 2, 3), the
size of `a` is still 2, and `b` still holds its two entries. -/
theorem merge_leaves_both_sets :
    Reachable odd_set ∧ Reachable even_set ∧
    iterate odd_set = some [(1, some 1), (3, some 3)] ∧
    iterate even_set = some [(0, some 0), (2, some 2)] ∧
    iterate (oset_merge odd_set (some even_set)).1 = some [(1, some 1), (3, some 3)] ∧
    oset_size (oset_merge odd_set (some even_set)).1 = 2 ∧
    (oset_merge odd_set (some even_set)).2.map oset_size = some 2 ∧
    (oset_merge odd_set (some even_set)).2.map iterate =
      some (some [(0, some 0), (2, some 2)]) :=
  ⟨odd_reachable, even_reachable, by decide, by decide, by decide, by decide, by decide,
    by decide⟩

/-- C14: `oset_concat` does not concatenate.  With `a` holding the keys 1, 2, 3 and `b` the
keys 4, 5, after `oset_concat(a, b)` the traversal of `a` is still 1, 2, 3, the size of `a` is
still 3 (not 5), and `oset_last(a)` is still the node with key 3 while `oset_last(b)` was the
node with key 5. -/
theorem concat_leaves_receiver :
    Reachable low_set ∧ Reachable high_set ∧
    iterate low_set = some [(1, some 10), (2, some 20), (3, some 30)] ∧
    iterate high_set = some [(4, some 40), (5, some 50)] ∧
    oset_size low_set = 3 ∧ oset_size high_set = 2 ∧
    (oset_last high_set).bind (key_at high_set) = some 5 ∧
    iterate (oset_concat low_set (some high_set)).1 =
      some [(1, some 10), (2, some 20), (3, some 30)] ∧
    oset_size (oset_concat low_set (some high_set)).1 = 3 ∧
    (oset_last (oset_concat low_set (some high_set)).1).bind
      (key_at (oset_concat low_set (some high_set)).1) = some 3 :=
  ⟨low_reachable, high_reachable, by decide, by decide, by decide, by decide, by decide,
    by decide, by decide, by decide⟩

/-- The ascending traversal of a set satisfying the invariant reads a list of pairs. -/
theorem iterate_some {s : ordered_set K V} {rows : Nat → List Nat} {H : Nat}
    (inv : Inv s rows H) : ∃ ps, iterate s = some ps := by
  unfold iterate
  rcases ascending_eq inv with ⟨-, h⟩ | ⟨q, hq, -, -, h⟩
  · rw [h]; exact ⟨[], rfl⟩
  · rw [h]
    obtain ⟨ps, hps, -⟩ := pairs_at_spec s ((rows 0).drop q) (by
      intro a ha
      obtain ⟨m, hm⟩ := List.mem_iff_getElem?.mp ha
      rw [List.getElem?_drop] at hm
      exact inv.wf.hz.key_at_some hm (by omega))
    exact ⟨ps, hps⟩

/-- C16: for every set of size 0 and every split key, `oset_split` returns `OSET_ERROR`, which
is not a handle of any set (in particular not of a valid empty set), and the receiver is left
unchanged (and so still has size 0). -/
theorem split_empty_is_error (s : ordered_set K V) (split_key : K) (h : oset_size s = 0) :
    (oset_split s split_key).1 = OSET_ERROR ∧
    (∀ t : ordered_set K V, (oset_split s split_key).1 ≠ some t) ∧
    (oset_split s split_key).2 = s ∧ oset_size (oset_split s split_key).2 = 0 :=
  ⟨rfl, fun _ e => Option.noConfusion e, rfl, h⟩

theorem split_empty_is_error_witness :
    oset_size (oset_create int_compare none none : ordered_set Int Int) = 0 ∧
    (oset_split (oset_create int_compare none none : ordered_set Int Int) 7).1 = OSET_ERROR ∧
    (∀ t : ordered_set Int Int,
      (oset_split (oset_create int_compare none none : ordered_set Int Int) 7).1 ≠ some t) ∧
    (oset_split (oset_create int_compare none none : ordered_set Int Int) 7).2 =
      oset_create int_compare none none ∧
    oset_size (oset_split (oset_create int_compare none none : ordered_set Int Int) 7).2 = 0 :=
  ⟨rfl, split_empty_is_error (oset_create int_compare none none) 7 rfl⟩

/-- The forward traversal reads only the heap. -/
theorem traverse_forward_congr {s s2 : ordered_set K V} (hh : s2.heap = s.heap) :
    ∀ (fuel : Nat) (start : OrderedSetNode),
      traverse_forward s2 fuel start = traverse_forward s fuel start := by
  intro fuel
  induction fuel with
  | zero => intro start; cases start <;> rfl
  | succ fuel ih =>
    intro start
    cases start with
    | none => rfl
    | some node =>
      simp only [traverse_forward, oset_next, hh, ih]

/-- The descent to the level-0 header reads only the heap. -/
theorem bottom_header_congr {s s2 : ordered_set K V} (hh : s2.heap = s.heap) :
    ∀ (fuel node : Nat), bottom_header s2 fuel node = bottom_header s fuel node := by
  intro fuel
  induction fuel with
  | zero => intro node; rfl
  | succ fuel ih =>
    intro node
    simp only [bottom_header, hh, ih]

/-- Reading the pairs at given nodes reads only the heap. -/
theorem pairs_at_congr {s s2 : ordered_set K V} (hh : s2.heap = s.heap) :
    ∀ l : List Nat, pairs_at s2 l = pairs_at s l := by
  intro l
  induction l with
  | nil => rfl
  | cons a rest ih =>
    simp only [pairs_at, oset_node_key, oset_node_value, hh, ih]

/-- The level-0 chain depends only on the heap, the top header and the allocation counter. -/
theorem level0_congr {s s2 : ordered_set K V} (hh : s2.heap = s.heap)
    (hd : s2.header = s.header) (hb : s2.brk = s.brk) : level0 s2 = level0 s := by
  simp only [level0, hd, hb, bottom_header_congr hh, oset_next, hh, traverse_forward_congr hh]

/-- The entries depend only on the heap, the top header and the allocation counter. -/
theorem entries_congr {s s2 : ordered_set K V} (hh : s2.heap = s.heap)
    (hd : s2.header = s.header) (hb : s2.brk = s.brk) : entries s2 = entries s := by
  have hp : pairs_at s2 = pairs_at s := funext (pairs_at_congr hh)
  simp only [entries, level0_congr hh hd hb, hp]

/-- C18: `oset_create(compare, dk, dv)` yields a set of size 0 (with no entries, the given
comparator and the given destructors); on any set `oset_set_destroy_key(set, f)` returns the key
destructor configured before the call, makes `f` the configured key destructor, and changes
nothing else (size, entries, level-0 chain, first, last, value destructor, comparator, memory,
log of destructor calls); `oset_set_destroy_value` does the same for the value destructor. -/
theorem create_and_set_destroy (cmp : K → K → Int) (dk dv f : DestroyFunc)
    (s : ordered_set K V) :
    (oset_size (oset_create cmp dk dv : ordered_set K V) = 0 ∧
      entries (oset_create cmp dk dv : ordered_set K V) = some [] ∧
      oset_first (oset_create cmp dk dv : ordered_set K V) = OSET_EOF ∧
      oset_last (oset_create cmp dk dv : ordered_set K V) = OSET_EOF ∧
      (oset_create cmp dk dv : ordered_set K V).compare = cmp ∧
      (oset_create cmp dk dv : ordered_set K V).destroy_key = dk ∧
      (oset_create cmp dk dv : ordered_set K V).destroy_value = dv) ∧
    ((oset_set_destroy_key s f).1 = s.destroy_key ∧
      (oset_set_destroy_key s f).2.destroy_key = f ∧
      oset_size (oset_set_destroy_key s f).2 = oset_size s ∧
      entries (oset_set_destroy_key s f).2 = entries s ∧
      level0 (oset_set_destroy_key s f).2 = level0 s ∧
      oset_first (oset_set_destroy_key s f).2 = oset_first s ∧
      oset_last (oset_set_destroy_key s f).2 = oset_last s ∧
      (oset_set_destroy_key s f).2.destroy_value = s.destroy_value ∧
      (oset_set_destroy_key s f).2.compare = s.compare ∧
      (oset_set_destroy_key s f).2.heap = s.heap ∧
      (oset_set_destroy_key s f).2.header = s.header ∧
      (oset_set_destroy_key s f).2.brk = s.brk ∧
      (oset_set_destroy_key s f).2.calls = s.calls) ∧
    ((oset_set_destroy_value s f).1 = s.destroy_value ∧
      (oset_set_destroy_value s f).2.destroy_value = f ∧
      oset_size (oset_set_destroy_value s f).2 = oset_size s ∧
      entries (oset_set_destroy_value s f).2 = entries s ∧
      level0 (oset_set_destroy_value s f).2 = level0 s ∧
      oset_first (oset_set_destroy_value s f).2 = oset_first s ∧
      oset_last (oset_set_destroy_value s f).2 = oset_last s ∧
      (oset_set_destroy_value s f).2.destroy_key = s.destroy_key ∧
      (oset_set_destroy_value s f).2.compare = s.compare ∧
      (oset_set_destroy_value s f).2.heap = s.heap ∧
      (oset_set_destroy_value s f).2.header = s.header ∧
      (oset_set_destroy_value s f).2.brk = s.brk ∧
      (oset_set_destroy_value s f).2.calls = s.calls) := by
  refine ⟨⟨rfl, ?_, rfl, rfl, rfl, rfl, rfl⟩,
    ⟨rfl, rfl, rfl, entries_congr rfl rfl rfl, level0_congr rfl rfl rfl, rfl, rfl, rfl, rfl,
      rfl, rfl, rfl, rfl⟩,
    ⟨rfl, rfl, rfl, entries_congr rfl rfl rfl, level0_congr rfl rfl rfl, rfl, rfl, rfl, rfl,
      rfl, rfl, rfl, rfl⟩⟩
  obtain ⟨ps, h1, h2, -⟩ := entries_spec (create_inv cmp dk dv : Inv (oset_create cmp dk dv :
    ordered_set K V) _ 1)
  rw [h1]
  simp only [if_pos, List.length_singleton] at h2
  have : ps.length = 0 := by simpa using h2
  rw [List.length_eq_zero.mp this]

/-- A non-empty list is its first element followed by the rest. -/
theorem cons_drop_one {l : List Nat} {h : Nat} (h0 : l[0]? = some h) : l = h :: l.drop 1 := by
  cases l with
  | nil => simp at h0
  | cons x xs =>
    simp only [List.getElem?_cons_zero, Option.some.injEq] at h0
    simp [h0]

/-- C19: for every reachable set and key `k`, `node_find_previous` returns a node `p` of level
0, either the level-0 header `h0` (index 0) or an entry of the level-0 chain `l`, such that
every entry of level 0 up to and including `p` has a key strictly less than `k`, the successor
of `p` is `OSET_EOF` or an entry whose key is greater than or equal to `k`, and so is every
entry behind it: `p` immediately precedes the position where `k` would be inserted. -/
theorem find_previous_position {s : ordered_set K V} (tc : TotalCompare s.compare)
    (hr : Reachable s) (k : K) :
    ∃ h h0 l i p np, s.header = some h ∧ bottom_header s (s.brk + 1) h = some h0 ∧
      level0 s = some l ∧ node_find_previous s k = some (some p) ∧
      (h0 :: l)[i]? = some p ∧ s.heap p = some np ∧ np.level = 0 ∧
      np.is_header = decide (i = 0) ∧
      (∀ (m a : Nat), m < i → l[m]? = some a →
        ∃ ka, key_at s a = some ka ∧ s.compare ka k < 0) ∧
      oset_next s p = some l[i]? ∧
      (∀ (m a : Nat), i ≤ m → l[m]? = some a →
        ∃ ka, key_at s a = some ka ∧ 0 ≤ s.compare ka k) := by
  obtain ⟨rows, H, inv, -⟩ := reachable_good tc hr
  have wf := inv.wf
  have hne := wf.row_ne (H - 1) (by have := wf.height_pos; omega)
  obtain ⟨h, hh⟩ : ∃ h, (rows (H - 1))[0]? = some h := by
    cases hr : rows (H - 1) with
    | nil => exact absurd hr hne
    | cons x xs => exact ⟨x, by simp⟩
  have hhd : s.header = some h := by rw [wf.header_eq, hh]
  have hne0 := wf.row_ne 0 wf.height_pos
  obtain ⟨h0, hh0⟩ : ∃ h0, (rows 0)[0]? = some h0 := by
    cases hr : rows 0 with
    | nil => exact absurd hr hne0
    | cons x xs => exact ⟨x, by simp⟩
  have hbot : bottom_header s (s.brk + 1) h = some h0 := by
    rw [bottom_header_spec wf (H - 1) (s.brk + 1) h hh (by have := wf.height_le; omega), hh0]
  have hrow : rows 0 = h0 :: (rows 0).drop 1 := cons_drop_one hh0
  have idx : ∀ m : Nat, ((rows 0).drop 1)[m]? = (rows 0)[m + 1]? := by
    intro m
    rw [List.getElem?_drop]
    have : 1 + m = m + 1 := by omega
    rw [this]
  obtain ⟨i, p, hp, hfind, hleft, hright⟩ := find_position tc inv k
  obtain ⟨np, hnp, hnext, -, hlev, hhdr, -⟩ := wf.hz.link 0 i p hp
  refine ⟨h, h0, (rows 0).drop 1, i, p, np, hhd, hbot, level0_eq wf, hfind, ?_, hnp,
    by simpa using hlev, hhdr, ?_, ?_, ?_⟩
  · rw [← hrow]; exact hp
  · intro m a hm ha
    rw [idx] at ha
    exact hleft (m + 1) a (by omega) (by omega) ha
  · simp only [oset_next, hnp, Option.map_some', hnext, idx]
  · intro m a hm ha
    rw [idx] at ha
    obtain ⟨ka, h1, h2⟩ := hright (m + 1) a (by omega) ha
    exact ⟨ka, h1, by omega⟩

theorem find_previous_position_witness :
    TotalCompare demo_set.compare ∧ Reachable demo_set ∧
    ∃ h h0 l i p np, demo_set.header = some h ∧
      bottom_header demo_set (demo_set.brk + 1) h = some h0 ∧
      level0 demo_set = some l ∧ node_find_previous demo_set 4 = some (some p) ∧
      (h0 :: l)[i]? = some p ∧ demo_set.heap p = some np ∧ np.level = 0 ∧
      np.is_header = decide (i = 0) ∧
      (∀ (m a : Nat), m < i → l[m]? = some a →
        ∃ ka, key_at demo_set a = some ka ∧ demo_set.compare ka 4 < 0) ∧
      oset_next demo_set p = some l[i]? ∧
      (∀ (m a : Nat), i ≤ m → l[m]? = some a →
        ∃ ka, key_at demo_set a = some ka ∧ 0 ≤ demo_set.compare ka 4) :=
  ⟨demo_total, demo_reachable, find_previous_position demo_total demo_reachable 4⟩

theorem upright_refl (s : ordered_set K V) : Upright s s :=
  fun _ n2 h => ⟨n2, h, rfl, rfl⟩

theorem upright_trans {s s2 s3 : ordered_set K V} (h1 : Upright s s2) (h2 : Upright s2 s3) :
    Upright s s3 := by
  intro b n3 h
  obtain ⟨n2, g1, g2, g3⟩ := h2 b n3 h
  obtain ⟨n, f1, f2, f3⟩ := h1 b n2 g1
  exact ⟨n, f1, g2.trans f2, g3.trans f3⟩

/-- An assignment to a field other than `top` and `bottom` keeps the vertical pointers. -/
theorem modify_upright {s s1 : ordered_set K V} {a : Nat}
    {f : ordered_set_node K V → ordered_set_node K V} (h : s.modify a f = some s1)
    (hf : ∀ n, (f n).top = n.top ∧ (f n).bottom = n.bottom) : Upright s s1 := by
  unfold ordered_set.modify at h
  cases hn : s.heap a with
  | none => rw [hn] at h; exact Option.noConfusion h
  | some n =>
    rw [hn] at h
    cases h
    intro b n2 hb
    rw [store_heap] at hb
    by_cases c : b = a
    · rw [if_pos c] at hb
      cases hb
      exact ⟨n, by rw [c]; exact hn, hf n⟩
    · rw [if_neg c] at hb
      exact ⟨n2, hb, rfl, rfl⟩

/-- The function `node_destroy` frees one cell and leaves the others alone. -/
theorem node_destroy_upright {s s1 : ordered_set K V} {node : Nat} {dk dv : DestroyFunc}
    (h : node_destroy s node dk dv = some s1) : Upright s s1 ∧ s1.heap node = none := by
  unfold node_destroy at h
  cases hn : s.heap node with
  | none => rw [hn] at h; exact Option.noConfusion h
  | some n =>
    rw [hn] at h
    cases h
    constructor
    · intro b n2 hb
      have hb2 : (if b = node then none else s.heap b) = some n2 := hb
      by_cases c : b = node
      · rw [if_pos c] at hb2; exact Option.noConfusion hb2
      · rw [if_neg c] at hb2; exact ⟨n2, hb2, rfl, rfl⟩
    · show (if node = node then none else s.heap node) = none
      rw [if_pos rfl]

/-- The function `node_destroy_top` allocates nothing and never writes a `top` or `bottom`
field, and it frees the node it starts from. -/
theorem node_destroy_top_upright (dk dv : DestroyFunc) :
    ∀ (fuel : Nat) (s : ordered_set K V) (x : OrderedSetNode) (s2 : ordered_set K V),
      node_destroy_top dk dv fuel s x = some s2 →
      Upright s s2 ∧ ∀ a, x = some a → s2.heap a = none := by
  intro fuel
  induction fuel with
  | zero =>
    intro s x s2 h
    cases x with
    | none =>
      simp only [node_destroy_top] at h
      cases h
      exact ⟨upright_refl s, fun a e => Option.noConfusion e⟩
    | some node => simp [node_destroy_top] at h
  | succ fuel ih =>
    intro s x s2 h
    cases x with
    | none =>
      simp only [node_destroy_top] at h
      cases h
      exact ⟨upright_refl s, fun a e => Option.noConfusion e⟩
    | some node =>
      simp only [node_destroy_top] at h
      split at h
      · exact Option.noConfusion h
      · split at h
        · exact Option.noConfusion h
        · split at h
          · exact Option.noConfusion h
          · split at h
            · exact Option.noConfusion h
            · split at h
              · exact Option.noConfusion h
              · rename_i x4 n1 heq4 x3 sa heq3 x2 n2 heq2 x1 sb heq1 x0 sc heq0
                have u1 : Upright s sa := by
                  split at heq3
                  · cases heq3; exact upright_refl s
                  · exact modify_upright heq3 (fun _ => ⟨rfl, rfl⟩)
                have u2 : Upright sa sb := by
                  split at heq1
                  · cases heq1; exact upright_refl sa
                  · exact modify_upright heq1 (fun _ => ⟨rfl, rfl⟩)
                obtain ⟨u3, hfree⟩ := node_destroy_upright heq0
                obtain ⟨u4, -⟩ := ih sc n1.top s2 h
                refine ⟨upright_trans (upright_trans (upright_trans u1 u2) u3) u4, ?_⟩
                intro a ha
                cases ha
                cases hs : s2.heap node with
                | none => rfl
                | some m =>
                  obtain ⟨m0, g, -⟩ := u4 node m hs
                  rw [hfree] at g
                  exact Option.noConfusion g

/-- Removing a node of a well-formed set frees every cell of its tower: the cells reached from
the freed node `x` along the `top` pointers of the set before the call. -/
theorem tower_freed {s s2 : ordered_set K V} {rows rows2 : Nat → List Nat} {H H2 : Nat}
    (wf : Wf s rows H none) (wf2 : Wf s2 rows2 H2 none) (hu : Upright s s2) :
    ∀ (d x c : Nat), s2.heap x = none → tower_up s d x = some c → s2.heap c = none := by
  intro d
  induction d with
  | zero =>
    intro x c hx hc
    simp only [tower_up, Option.some.injEq] at hc
    rw [← hc]; exact hx
  | succ d ih =>
    intro x c hx hc
    simp only [tower_up] at hc
    split at hc
    · exact Option.noConfusion hc
    · rename_i n hn
      split at hc
      · exact Option.noConfusion hc
      · rename_i t ht
        apply ih t c ?_ hc
        obtain ⟨j, hj⟩ := wf.hz.live x n hn
        obtain ⟨nt, -, hnt, hbot⟩ := wf.vt.up j x n t hj hn ht
        cases hs : s2.heap t with
        | none => rfl
        | some n2 =>
          exfalso
          obtain ⟨n0, g1, -, g3⟩ := hu t n2 hs
          rw [hnt] at g1
          cases g1
          rw [hbot] at g3
          obtain ⟨j2, hj2⟩ := wf2.hz.live t n2 hs
          rcases wf2.vt.down j2 t n2 hj2 hs (fun e => Option.noConfusion e) with
            ⟨e1, -⟩ | ⟨b, nb, e1, -, -, e2, -⟩
          · rw [e1] at g3; exact Option.noConfusion g3
          · rw [e1] at g3
            cases g3
            rw [hx] at e2
            exact Option.noConfusion e2

/-- Below a node of a level above 0 sits its copy of the level underneath. -/
theorem bottom_copy {s : ordered_set K V} {rows : Nat → List Nat} {H : Nat}
    (wf : Wf s rows H none) {a : Nat} {n : ordered_set_node K V} (hn : s.heap a = some n)
    (hpos : 0 < n.level) :
    ∃ b nb, n.bottom = some b ∧ s.heap b = some nb ∧ nb.level = n.level - 1 ∧
      nb.key = n.key ∧ nb.value = n.value ∧ nb.top = some a ∧ nb.is_header = n.is_header := by
  obtain ⟨j, hj⟩ := wf.hz.live a n hn
  obtain ⟨i, hi⟩ := List.mem_iff_getElem?.mp hj
  obtain ⟨n0, hn0, -, -, hlev, -⟩ := wf.hz.link j i a hi
  rw [hn] at hn0
  cases hn0
  rcases wf.vt.down j a n hj hn (fun e => Option.noConfusion e) with
    ⟨-, e0⟩ | ⟨b, nb, e1, e2, e3, e4, e5, e6, e7, e8⟩
  · rw [hlev, e0] at hpos
    simp at hpos
  · obtain ⟨ib, hib⟩ := List.mem_iff_getElem?.mp e3
    obtain ⟨nb0, hnb0, -, -, hlevb, -⟩ := wf.hz.link (j - 1) ib b hib
    rw [e4] at hnb0
    cases hnb0
    refine ⟨b, nb, e1, e4, ?_, e6, e7, e5, e8⟩
    rw [hlevb, hlev]
    omega

/-- Following `bottom` from a node of level `k` reaches a copy of it on every level below. -/
theorem tower_down_spec {s : ordered_set K V} {rows : Nat → List Nat} {H : Nat}
    (wf : Wf s rows H none) :
    ∀ (d a : Nat) (n : ordered_set_node K V), s.heap a = some n → (d : Int) ≤ n.level →
      ∃ c nc, tower_down s d a = some c ∧ s.heap c = some nc ∧ nc.level = n.level - (d : Int) ∧
        nc.key = n.key ∧ nc.value = n.value ∧ nc.is_header = n.is_header := by
  intro d
  induction d with
  | zero =>
    intro a n hn _
    exact ⟨a, n, rfl, hn, by simp, rfl, rfl, rfl⟩
  | succ d ih =>
    intro a n hn hd
    obtain ⟨b, nb, e1, e2, e3, e4, e5, -, e7⟩ := bottom_copy wf hn (by omega)
    obtain ⟨c, nc, f1, f2, f3, f4, f5, f6⟩ := ih b nb e2 (by omega)
    refine ⟨c, nc, ?_, f2, ?_, f4.trans e4, f5.trans e5, f6.trans e7⟩
    · simp only [tower_down, hn, e1]
      exact f1
    · rw [f3, e3]
      push_cast
      omega

/-- A successful `oset_remove` allocates nothing and writes no `top` or `bottom` field. -/
theorem oset_remove_upright {s s2 : ordered_set K V} {rows rows2 : Nat → List Nat} {H : Nat}
    (inv : Inv s rows H) {key : K} {i p nx : Nat}
    (post : RemovePost s rows key s2 rows2 i p nx)
    (h : oset_remove s key = some (true, s2)) : Upright s s2 := by
  obtain ⟨n, hn, hnext, -⟩ := inv.wf.hz.link 0 i p post.pred_at
  rw [post.victim_at] at hnext
  obtain ⟨kx, hkx, heq⟩ := post.victim_eq
  obtain ⟨x, hx, hxk⟩ := key_at_heap hkx
  rw [oset_remove_unfold s key p nx n x kx post.found hn hnext hx hxk heq] at h
  split at h
  · exact Option.noConfusion h
  · rename_i s3 h3
    obtain ⟨hu, -⟩ := node_destroy_top_upright _ _ _ _ _ _ h3
    simp only [Option.some.injEq, Prod.mk.injEq, true_and] at h
    rw [← h]
    exact fun b n2 hb => hu b n2 hb

/-- C20: tower continuity holds in every set reachable by `oset_insert` and `oset_remove`
under any coin flips.  Every non-header node of a level `k > 0` has a `bottom` node of level
`k - 1` with the same key and value references whose `top` points back to it, and following
`bottom` from a node of level `k` reaches a copy of it on each of the levels `k - 1, ..., 0`.
A successful `oset_remove` frees every cell of the tower of the removed node `x` (the cells
reached from `x` along `top`), and afterwards each `top` and each `bottom` pointer of an
allocated node refers to an allocated node that points back. -/
theorem tower_continuity {s : ordered_set K V} (tc : TotalCompare s.compare)
    (hr : Reachable s) :
    (∀ a n, s.heap a = some n → n.is_header = false → 0 < n.level →
      ∃ b nb, n.bottom = some b ∧ s.heap b = some nb ∧ nb.level = n.level - 1 ∧
        nb.key = n.key ∧ nb.value = n.value ∧ nb.top = some a ∧ nb.is_header = false) ∧
    (∀ a n (d : Nat), s.heap a = some n → n.is_header = false → (d : Int) ≤ n.level →
      ∃ c nc, tower_down s d a = some c ∧ s.heap c = some nc ∧
        nc.level = n.level - (d : Int) ∧ nc.key = n.key ∧ nc.value = n.value ∧
        nc.is_header = false) ∧
    (∀ k s2, oset_remove s k = some (true, s2) →
      ∃ x, oset_find_node s k = some (some x) ∧
        (∀ (d c : Nat), tower_up s d x = some c → s2.heap c = none) ∧
        (∀ a n, s2.heap a = some n →
          (∀ t, n.top = some t → ∃ nt, s2.heap t = some nt ∧ nt.bottom = some a) ∧
          (∀ b, n.bottom = some b → ∃ nb, s2.heap b = some nb ∧ nb.top = some a))) := by
  obtain ⟨rows, H, inv, -⟩ := reachable_good tc hr
  refine ⟨?_, ?_, ?_⟩
  · intro a n hn hh hpos
    obtain ⟨b, nb, e1, e2, e3, e4, e5, e6, e7⟩ := bottom_copy inv.wf hn hpos
    exact ⟨b, nb, e1, e2, e3, e4, e5, e6, e7.trans hh⟩
  · intro a n d hn hh hd
    obtain ⟨c, nc, e1, e2, e3, e4, e5, e6⟩ := tower_down_spec inv.wf d a n hn hd
    exact ⟨c, nc, e1, e2, e3, e4, e5, e6.trans hh⟩
  · intro k s2 h
    rcases oset_remove_spec tc inv k with ⟨hmiss, -⟩ | ⟨s3, rows3, i, p, nx, h1, inv3, post⟩
    · rw [hmiss] at h
      simp at h
    · rw [h1] at h
      simp only [Option.some.injEq, Prod.mk.injEq, true_and] at h
      subst h
      refine ⟨nx, ?_, ?_, ?_⟩
      · rw [find_node_pos inv k post.pred_at post.found, post.victim_at]
        simp only [Option.some_bind, key_eq_true.mpr post.victim_eq, if_true]
      · intro d c hc
        exact tower_freed inv.wf inv3.wf (oset_remove_upright inv post h1) d nx c post.freed hc
      · intro a n hn
        obtain ⟨j, hj⟩ := inv3.wf.hz.live a n hn
        constructor
        · intro t ht
          obtain ⟨nt, -, g1, g2⟩ := inv3.wf.vt.up j a n t hj hn ht
          exact ⟨nt, g1, g2⟩
        · intro b hb
          rcases inv3.wf.vt.down j a n hj hn (fun e => Option.noConfusion e) with
            ⟨e1, -⟩ | ⟨b2, nb, e1, -, -, e2, e3, -⟩
          · rw [e1] at hb; exact Option.noConfusion hb
          · rw [e1] at hb
            cases hb
            exact ⟨nb, e2, e3⟩

theorem tower_continuity_witness :
    TotalCompare demo_set.compare ∧ Reachable demo_set ∧
    tower_up demo_set 2 5 = some 8 ∧ tower_down demo_set 2 8 = some 5 ∧
    (oset_remove demo_set 8).map (fun r =>
        (r.1, (r.2.heap 5).isSome, (r.2.heap 6).isSome, (r.2.heap 8).isSome)) =
      some (true, false, false, false) ∧
    (∀ a n, demo_set.heap a = some n → n.is_header = false → 0 < n.level →
      ∃ b nb, n.bottom = some b ∧ demo_set.heap b = some nb ∧ nb.level = n.level - 1 ∧
        nb.key = n.key ∧ nb.value = n.value ∧ nb.top = some a ∧ nb.is_header = false) ∧
    (∀ a n (d : Nat), demo_set.heap a = some n → n.is_header = false → (d : Int) ≤ n.level →
      ∃ c nc, tower_down demo_set d a = some c ∧ demo_set.heap c = some nc ∧
        nc.level = n.level - (d : Int) ∧ nc.key = n.key ∧ nc.value = n.value ∧
        nc.is_header = false) ∧
    (∀ k s2, oset_remove demo_set k = some (true, s2) →
      ∃ x, oset_find_node demo_set k = some (some x) ∧
        (∀ (d c : Nat), tower_up demo_set d x = some c → s2.heap c = none) ∧
        (∀ a n, s2.heap a = some n →
          (∀ t, n.top = some t → ∃ nt, s2.heap t = some nt ∧ nt.bottom = some a) ∧
          (∀ b, n.bottom = some b → ∃ nb, s2.heap b = some nb ∧ nb.top = some a))) :=
  ⟨demo_total, demo_reachable, by decide, by decide, by decide,
    tower_continuity demo_total demo_reachable⟩

theorem drop_cons_of_getElem? {l : List Nat} {i a : Nat} (h : l[i]? = some a) :
    l.drop i = a :: l.drop (i + 1) := by
  have hlt := lt_length_of_getElem? h
  rw [List.drop_eq_getElem_cons hlt]
  rw [List.getElem?_eq_getElem hlt] at h
  rw [Option.some.inj h]

theorem row_calls_cons (s : ordered_set K V) (dk dv : DestroyFunc) (a : Nat) (l : List Nat) :
    row_calls s dk dv (a :: l) =
      (match s.heap a with
        | some n => destroy_calls n dk dv
        | none => []) ++ row_calls s dk dv l := rfl

theorem row_calls_nil_of (s : ordered_set K V) (dk dv : DestroyFunc) :
    ∀ l : List Nat, (∀ a, a ∈ l → ∃ n, s.heap a = some n ∧ destroy_calls n dk dv = []) →
      row_calls s dk dv l = [] := by
  intro l
  induction l with
  | nil => intro _; rfl
  | cons a rest ih =>
    intro h
    obtain ⟨n, hn, hd⟩ := h a (List.mem_cons_self a rest)
    rw [row_calls_cons, hn, ih (fun b hb => h b (List.mem_cons_of_mem a hb))]
    simp only [hd, List.append_nil]

theorem destroy_level_none (dk dv : DestroyFunc) (fuel : Nat) (s : ordered_set K V) :
    destroy_level dk dv fuel s none = some s := by
  cases fuel <;> rfl

theorem destroy_levels_none (fuel : Nat) (s : ordered_set K V) :
    destroy_levels fuel s none = some s := by
  cases fuel <;> rfl

/-- The inner loop of `oset_destroy` started at the node of index `i` of a row whose cells
from `i` on are untouched: it frees exactly these cells and logs their destructor calls. -/
theorem destroy_level_spec {s0 : ordered_set K V} {rows : Nat → List Nat} (hz : Hz s0 rows)
    (dk dv : DestroyFunc) (j : Nat) :
    ∀ (fuel i a : Nat) (s : ordered_set K V), (rows j)[i]? = some a →
      (rows j).length ≤ i + fuel →
      (∀ (m b : Nat), i ≤ m → (rows j)[m]? = some b → s.heap b = s0.heap b) →
      ∃ s2, destroy_level dk dv fuel s (some a) = some s2 ∧
        (∀ b, s2.heap b = if b ∈ (rows j).drop i then none else s.heap b) ∧
        s2.calls = s.calls ++ row_calls s0 dk dv ((rows j).drop i) ∧
        s2.destroy_key = s.destroy_key ∧ s2.destroy_value = s.destroy_value ∧
        s2.brk = s.brk := by
  intro fuel
  induction fuel with
  | zero =>
    intro i a s ha hlen _
    have := lt_length_of_getElem? ha
    omega
  | succ fuel ih =>
    intro i a s ha hlen hagree
    obtain ⟨n, hn0, hnext, -⟩ := hz.link j i a ha
    have hn : s.heap a = some n := by rw [hagree i a (le_refl i) ha, hn0]
    have hdrop := drop_cons_of_getElem? ha
    have hstep : destroy_level dk dv (fuel + 1) s (some a) =
        destroy_level dk dv fuel
          { s.free a with calls := s.calls ++ destroy_calls n dk dv } n.next := by
      simp only [destroy_level, node_destroy, hn]
    rw [hstep, hnext, hdrop, row_calls_cons, hn0]
    cases hnx : (rows j)[i + 1]? with
    | none =>
      have hnil : (rows j).drop (i + 1) = [] := by
        apply List.drop_eq_nil_of_le
        by_contra hc
        rw [List.getElem?_eq_getElem (by omega)] at hnx
        exact Option.noConfusion hnx
      refine ⟨_, destroy_level_none dk dv fuel _, ?_, ?_, rfl, rfl, rfl⟩
      · intro b
        rw [hnil]
        show (if b = a then none else s.heap b) = _
        simp only [List.mem_singleton]
      · rw [hnil]
        show s.calls ++ destroy_calls n dk dv = _
        simp [row_calls]
    | some a2 =>
      obtain ⟨s2, h1, h2, h3, h4, h5, h6⟩ := ih (i + 1) a2
        ({ s.free a with calls := s.calls ++ destroy_calls n dk dv }) hnx (by omega) (by
          intro m b hm hb
          show (if b = a then none else s.heap b) = _
          have hne : b ≠ a := by
            intro e
            rw [e] at hb
            have := nodup_index_eq (hz.nodup j) hb ha
            omega
          rw [if_neg hne]
          exact hagree m b (by omega) hb)
      refine ⟨s2, h1, ?_, ?_, h4, h5, h6⟩
      · intro b
        rw [h2 b]
        show (if b ∈ (rows j).drop (i + 1) then none else if b = a then none else s.heap b) = _
        by_cases c1 : b = a
        · simp [c1]
        · by_cases c2 : b ∈ (rows j).drop (i + 1)
          · simp [c2]
          · simp [c1, c2]
      · rw [h3]
        show s.calls ++ destroy_calls n dk dv ++ _ = _
        rw [List.append_assoc]

/-- The cells of a level above 0 carry no destructor calls. -/
theorem row_calls_upper {s : ordered_set K V} {rows : Nat → List Nat} (hz : Hz s rows)
    (dk dv : DestroyFunc) {j : Nat} (hj : 0 < j) : row_calls s dk dv (rows j) = [] := by
  apply row_calls_nil_of
  intro a ha
  obtain ⟨i, hi⟩ := List.mem_iff_getElem?.mp ha
  obtain ⟨n, hn, -, -, hlev, -⟩ := hz.link j i a hi
  refine ⟨n, hn, destroy_calls_upper n dk dv (j - 1) ?_⟩
  rw [hlev]
  congr 1
  omega

/-- The outer loop of `oset_destroy` started at the header of level `j` of a set whose levels
`0..j` are untouched: it frees exactly the cells of these levels, and the destructor calls it
logs are those of level 0. -/
theorem destroy_levels_spec {s0 : ordered_set K V} {rows : Nat → List Nat} {H : Nat}
    (wf : Wf s0 rows H none) :
    ∀ (fuel j h : Nat) (s : ordered_set K V), (rows j)[0]? = some h → j < fuel →
      (∀ (m b : Nat), m ≤ j → b ∈ rows m → s.heap b = s0.heap b) →
      s.destroy_key = s0.destroy_key → s.destroy_value = s0.destroy_value →
      s.brk = s0.brk →
      ∃ s2, destroy_levels fuel s (some h) = some s2 ∧
        (∀ (m b : Nat), m ≤ j → b ∈ rows m → s2.heap b = none) ∧
        (∀ b, (∀ m, m ≤ j → b ∉ rows m) → s2.heap b = s.heap b) ∧
        s2.calls = s.calls ++ row_calls s0 s0.destroy_key s0.destroy_value (rows 0) := by
  intro fuel
  induction fuel with
  | zero => intro j h s _ hj; omega
  | succ fuel ih =>
    intro j h s hh hj hagree hdk hdv hbrk
    obtain ⟨n, hn0, -, -, -, hhdr, -⟩ := wf.hz.link j 0 h hh
    have hmem := mem_of_getElem? hh
    have hn : s.heap h = some n := by rw [hagree j h (le_refl j) hmem, hn0]
    obtain ⟨s1, e1, e2, e3, e4, e5, e6⟩ := destroy_level_spec wf.hz s.destroy_key
      s.destroy_value j (s.brk + 1) 0 h s hh (by have := wf.rows_le j; omega)
      (fun m b _ hb => hagree j b (le_refl j) (mem_of_getElem? hb))
    rw [List.drop_zero] at e2 e3
    have hstep : destroy_levels (fuel + 1) s (some h) = destroy_levels fuel s1 n.bottom := by
      simp only [destroy_levels, hn, e1]
    rw [hstep]
    rcases wf.vt.down j h n hmem hn0 (fun e => Option.noConfusion e) with
      ⟨hb, hj0⟩ | ⟨b, nb, hb, hjpos, hbm, hnb, -, -, -, hbh⟩
    · subst hj0
      rw [hb]
      refine ⟨s1, destroy_levels_none fuel s1, ?_, ?_, ?_⟩
      · intro m b hm hbm
        have : m = 0 := by omega
        subst this
        rw [e2 b, if_pos hbm]
      · intro b hnot
        rw [e2 b, if_neg (hnot 0 (le_refl 0))]
      · rw [e3, hdk, hdv]
    · rw [hb]
      obtain ⟨ib, hib⟩ := List.mem_iff_getElem?.mp hbm
      obtain ⟨nb0, hnb0, -, -, -, hbhdr, -⟩ := wf.hz.link (j - 1) ib b hib
      rw [hnb] at hnb0
      cases hnb0
      have hib0 : ib = 0 := by
        rw [hbh, hhdr] at hbhdr
        simpa using hbhdr.symm
      subst hib0
      obtain ⟨s2, f1, f2, f3, f4⟩ := ih (j - 1) b s1 hib (by omega) (by
        intro m c hm hc
        have hne : c ∉ rows j := by
          intro hcj
          have := wf.hz.disj m j c hc hcj
          omega
        rw [e2 c, if_neg hne]
        exact hagree m c (by omega) hc) (e4.trans hdk) (e5.trans hdv) (e6.trans hbrk)
      refine ⟨s2, f1, ?_, ?_, ?_⟩
      · intro m c hm hc
        by_cases c1 : m ≤ j - 1
        · exact f2 m c c1 hc
        · have hmj : m = j := by omega
          subst hmj
          rw [f3 c (fun m2 hm2 hc2 => by
            have := wf.hz.disj m2 m c hc2 hc
            omega), e2 c, if_pos hc]
      · intro c hnot
        rw [f3 c (fun m hm => hnot m (by omega)), e2 c, if_neg (hnot j (le_refl j))]
      · rw [f4, e3, hdk, hdv, row_calls_upper wf.hz _ _ hjpos, List.append_nil]

/-- The function `oset_destroy` succeeds on every well-formed set: it frees every cell, and
the destructor calls it logs are those of the cells of level 0, from left to right. -/
theorem oset_destroy_spec {s : ordered_set K V} {rows : Nat → List Nat} {H : Nat}
    (wf : Wf s rows H none) :
    ∃ t, oset_destroy s = some t ∧ (∀ b, t.heap b = none) ∧
      t.calls = s.calls ++ row_calls s s.destroy_key s.destroy_value (rows 0) := by
  obtain ⟨h, oh, hh, hhd, -⟩ := wf.header_top
  obtain ⟨t, e1, e2, e3, e4⟩ := destroy_levels_spec wf (s.brk + 1) (H - 1) h s hh
    (by have := wf.height_le; omega) (fun _ _ _ _ => rfl) rfl rfl rfl
  refine ⟨t, ?_, ?_, e4⟩
  · unfold oset_destroy
    rw [hhd]
    exact e1
  · intro b
    by_cases c : ∃ m, m ≤ H - 1 ∧ b ∈ rows m
    · obtain ⟨m, hm, hb⟩ := c
      exact e2 m b hm hb
    · rw [e3 b (fun m hm hb => c ⟨m, hm, hb⟩)]
      cases hs : s.heap b with
      | none => rfl
      | some n =>
        exfalso
        obtain ⟨j, hj⟩ := wf.hz.live b n hs
        apply c
        refine ⟨j, ?_, hj⟩
        by_contra hc
        rw [wf.row_nil j (by omega)] at hj
        exact List.not_mem_nil b hj

theorem entry_calls_cons (fk fv : Nat) (p : K × Option V) (ps : List (K × Option V)) :
    entry_calls fk fv (p :: ps) =
      [Call.key fk (some p.1), Call.value fv p.2] ++ entry_calls fk fv ps := rfl

theorem entry_calls_perm (fk fv : Nat) {ps ps2 : List (K × Option V)} (h : ps.Perm ps2) :
    (entry_calls fk fv ps : List (Call K V)).Perm (entry_calls fk fv ps2) := by
  induction h with
  | nil => exact List.Perm.refl _
  | cons x _ ih =>
    rw [entry_calls_cons, entry_calls_cons]
    exact List.Perm.append_left _ ih
  | swap x y l =>
    simp only [entry_calls_cons]
    rw [← List.append_assoc, ← List.append_assoc]
    exact List.Perm.append_right _ List.perm_append_comm
  | trans _ _ ih1 ih2 => exact ih1.trans ih2

theorem perm_ins_at {α : Type} (l : List α) (i : Nat) (x : α) : (ins_at l i x).Perm (x :: l) := by
  unfold ins_at
  have h := @List.perm_middle α x (l.take i) (l.drop i)
  rw [List.take_append_drop] at h
  exact h

theorem perm_cons_eraseIdx {α : Type} :
    ∀ (l : List α) (i : Nat) (x : α), l[i]? = some x → l.Perm (x :: l.eraseIdx i) := by
  intro l
  induction l with
  | nil => intro i x h; simp at h
  | cons y ys ih =>
    intro i x h
    cases i with
    | zero =>
      simp only [List.getElem?_cons_zero, Option.some.injEq] at h
      rw [h]
      exact List.Perm.refl _
    | succ i =>
      simp only [List.getElem?_cons_succ] at h
      simp only [List.eraseIdx_cons_succ]
      exact ((ih i x h).cons y).trans (List.Perm.swap x y _)

/-- With both destructors configured, the destructor calls of the cells of level 0 are one
key call and one value call per entry. -/
theorem row_calls_entries {s : ordered_set K V} {rows : Nat → List Nat} {H : Nat}
    (inv : Inv s rows H) (fk fv : Nat) {ps : List (K × Option V)}
    (hps : entries s = some ps) :
    row_calls s (some fk) (some fv) (rows 0) = entry_calls fk fv ps := by
  obtain ⟨ps0, h1, hlen, h3⟩ := entries_spec inv
  rw [hps] at h1
  cases h1
  have hne0 := inv.wf.row_ne 0 inv.wf.height_pos
  obtain ⟨h0, hh0⟩ : ∃ h0, (rows 0)[0]? = some h0 := by
    cases hr : rows 0 with
    | nil => exact absurd hr hne0
    | cons x xs => exact ⟨x, by simp⟩
  have hrow := cons_drop_one hh0
  obtain ⟨nh, hnh, -, -, -, hhdr, -⟩ := inv.wf.hz.link 0 0 h0 hh0
  have hhead : destroy_calls nh (some fk) (some fv) = ([] : List (Call K V)) := by
    have : nh.is_header = true := by simpa using hhdr
    simp [destroy_calls, this]
  rw [hrow, row_calls_cons, hnh]
  show destroy_calls nh (some fk) (some fv) ++ _ = _
  rw [hhead, List.nil_append]
  unfold row_calls entry_calls
  congr 1
  apply List.ext_getElem?
  intro m
  rw [List.getElem?_map, List.getElem?_map, List.getElem?_drop]
  have e : 1 + m = m + 1 := by omega
  rw [e]
  by_cases c : m + 1 < (rows 0).length
  · obtain ⟨a, ha⟩ : ∃ a, (rows 0)[m + 1]? = some a :=
      ⟨(rows 0)[m + 1], List.getElem?_eq_getElem c⟩
    obtain ⟨k, hk, hpm⟩ := h3 m a ha
    obtain ⟨n, hn, -, -, hlev, hdr, -⟩ := inv.wf.hz.link 0 (m + 1) a ha
    obtain ⟨n2, hn2, hnk⟩ := key_at_heap hk
    rw [hn] at hn2
    cases hn2
    have hv : value_at s a = n.value := by simp [value_at, hn]
    have hd : n.is_header = false := by rw [hdr]; exact decide_eq_false (by omega)
    have hl : n.level = 0 := by simpa using hlev
    rw [ha, hpm]
    simp [hn, destroy_calls, hd, hl, hnk, hv]
  · rw [List.getElem?_eq_none (by omega), List.getElem?_eq_none (by omega)]
    rfl

/-- The destructor calls logged by a successful `oset_remove` when both destructors are
configured: one key call and one value call, on the entry of the removed level-0 node. -/
theorem remove_calls {s s2 : ordered_set K V} {rows rows2 : Nat → List Nat} {H : Nat}
    (inv : Inv s rows H) {key : K} {i p nx : Nat}
    (post : RemovePost s rows key s2 rows2 i p nx) {fk fv : Nat}
    (hk : s.destroy_key = some fk) (hv : s.destroy_value = some fv) :
    ∃ kx, key_at s nx = some kx ∧ s.compare kx key = 0 ∧
      s2.calls = s.calls ++ entry_calls fk fv [(kx, value_at s nx)] := by
  obtain ⟨kx, hkx, heq⟩ := post.victim_eq
  obtain ⟨xn, hxn, hcalls⟩ := post.calls
  obtain ⟨n, hn, -, -, hlev, hdr, -⟩ := inv.wf.hz.link 0 (i + 1) nx post.victim_at
  rw [hxn] at hn
  cases hn
  obtain ⟨n2, hn2, hnk⟩ := key_at_heap hkx
  rw [hxn] at hn2
  cases hn2
  have hd : xn.is_header = false := by rw [hdr]; exact decide_eq_false (by omega)
  have hl : xn.level = 0 := by simpa using hlev
  refine ⟨kx, hkx, heq, ?_⟩
  rw [hcalls, hk, hv]
  simp [destroy_calls, hd, hl, hnk, entry_calls, value_at, hxn]

/-- Running calls on a set with both destructors configured: the destructor calls logged so far
together with the calls owed to the entries still in the set are, up to order, those logged and
owed before plus one pair of calls per inserted entry. -/
theorem calls_balance (fk fv : Nat) (ops : List (Op K V)) :
    ∀ {s : ordered_set K V} {rows : Nat → List Nat} {H : Nat}, TotalCompare s.compare →
      Inv s rows H → Ext s rows → s.destroy_key = some fk → s.destroy_value = some fv →
      ∃ s2 rows2 H2 ps ps2, run_ops s ops = some s2 ∧ Inv s2 rows2 H2 ∧ Ext s2 rows2 ∧
        entries s = some ps ∧ entries s2 = some ps2 ∧ s2.compare = s.compare ∧
        s2.destroy_key = some fk ∧ s2.destroy_value = some fv ∧
        (s2.calls ++ entry_calls fk fv ps2).Perm
          (s.calls ++ entry_calls fk fv ps ++ entry_calls fk fv (inserted ops)) := by
  induction ops with
  | nil =>
    intro s rows H _ inv ext hk hv
    obtain ⟨ps, hps, -⟩ := entries_spec inv
    refine ⟨s, rows, H, ps, ps, rfl, inv, ext, hps, hps, rfl, hk, hv, ?_⟩
    simp [inserted, entry_calls]
  | cons op rest ih =>
    intro s rows H tc inv ext hk hv
    cases op with
    | insert k v heads =>
      obtain ⟨s1, rows1, H1, i, p, h1, inv1, -, post⟩ := oset_insert_spec tc inv k v heads
      have ext1 := ext_insert tc inv ext post
      have tc1 : TotalCompare s1.compare := by rw [post.compare]; exact tc
      obtain ⟨s2, rows2, H2, ps1, ps2, g1, g2, g3, g4, g5, g6, g7, g8, g9⟩ :=
        ih tc1 inv1 ext1 (post.destroy_key.trans hk) (post.destroy_value.trans hv)
      obtain ⟨ps, e1, e2⟩ := entries_insert inv inv1 post
      rw [g4] at e2
      cases e2
      refine ⟨s2, rows2, H2, ps, ps2, ?_, g2, g3, e1, g5, g6.trans post.compare, g7, g8, ?_⟩
      · simp only [run_ops, Op.apply, h1, Option.some_bind]
        exact g1
      · refine g9.trans ?_
        rw [post.calls]
        simp only [inserted, List.append_assoc]
        apply List.Perm.append_left
        have e : entry_calls fk fv (ins_at ps i (k, v)) ++ entry_calls fk fv (inserted rest) =
            entry_calls fk fv (ins_at ps i (k, v) ++ inserted rest) := by
          simp [entry_calls]
        have e2 : entry_calls fk fv ps ++ entry_calls fk fv ((k, v) :: inserted rest) =
            entry_calls fk fv (ps ++ (k, v) :: inserted rest) := by
          simp [entry_calls]
        rw [e, e2]
        apply entry_calls_perm
        exact ((perm_ins_at ps i (k, v)).append_right _).trans List.perm_middle.symm
    | remove key =>
      rcases oset_remove_spec tc inv key with ⟨hmiss, -⟩ | ⟨s1, rows1, i, p, nx, h1, inv1, post⟩
      · obtain ⟨s2, rows2, H2, ps1, ps2, g1, g2, g3, g4, g5, g6, g7, g8, g9⟩ :=
          ih tc inv ext hk hv
        refine ⟨s2, rows2, H2, ps1, ps2, ?_, g2, g3, g4, g5, g6, g7, g8, ?_⟩
        · simp only [run_ops, Op.apply, hmiss, Option.map_some', Option.some_bind]
          exact g1
        · simpa only [inserted] using g9
      · have ext1 := ext_remove tc inv ext post
        have tc1 : TotalCompare s1.compare := by rw [post.compare]; exact tc
        obtain ⟨s2, rows2, H2, ps1, ps2, g1, g2, g3, g4, g5, g6, g7, g8, g9⟩ :=
          ih tc1 inv1 ext1 (post.destroy_key.trans hk) (post.destroy_value.trans hv)
        obtain ⟨ps, e1, e2⟩ := entries_remove inv inv1 post
        rw [g4] at e2
        cases e2
        obtain ⟨ps0, f1, -, f3⟩ := entries_spec inv
        rw [e1] at f1
        cases f1
        obtain ⟨kx, hkx, -, hcalls⟩ := remove_calls inv post hk hv
        obtain ⟨kx2, hkx2, hpi⟩ := f3 i nx post.victim_at
        rw [hkx] at hkx2
        cases hkx2
        refine ⟨s2, rows2, H2, ps, ps2, ?_, g2, g3, e1, g5, g6.trans post.compare, g7, g8, ?_⟩
        · simp only [run_ops, Op.apply, h1, Option.map_some', Option.some_bind]
          exact g1
        · refine g9.trans ?_
          rw [hcalls]
          simp only [inserted, List.append_assoc]
          apply List.Perm.append_left
          have e : entry_calls fk fv [(kx, value_at s nx)] ++
              entry_calls fk fv (ps.eraseIdx i) =
              entry_calls fk fv ((kx, value_at s nx) :: ps.eraseIdx i) := rfl
          rw [← List.append_assoc, e]
          apply List.Perm.append_right
          exact entry_calls_perm fk fv (perm_cons_eraseIdx ps i _ hpi).symm

/-- C17: with a key destructor `fk` and a value destructor `fv` configured at `oset_create`,
every run of inserts (with any coin flips, so any tower heights) and removes succeeds, and with
`s` the set it builds and `ps` the entries of `s`:
the destructor calls logged so far together with one pair of calls (key, value) per entry still
in the set are, up to order, exactly one pair of calls per inserted entry;
a successful `oset_remove` logs exactly one key call and one value call, on the entry of the
removed level-0 node, and an unsuccessful one logs nothing;
`oset_destroy` succeeds, frees every cell and logs exactly one pair of calls per remaining
entry, so that over the whole lifetime the log is, up to order, one key call and one value call
per inserted entry; and no key destructor call is ever made on the `NULL` key of a header. -/
theorem destructors_once {cmp : K → K → Int} (tc : TotalCompare cmp) (fk fv : Nat)
    (ops : List (Op K V)) :
    ∃ s ps t, run_ops (oset_create cmp (some fk) (some fv)) ops = some s ∧
      entries s = some ps ∧
      (s.calls ++ entry_calls fk fv ps).Perm (entry_calls fk fv (inserted ops)) ∧
      (∀ key s2, oset_remove s key = some (true, s2) →
        ∃ x kx, oset_find_node s key = some (some x) ∧ key_at s x = some kx ∧
          s2.calls = s.calls ++ [Call.key fk (some kx), Call.value fv (value_at s x)]) ∧
      (∀ key s2, oset_remove s key = some (false, s2) → s2.calls = s.calls) ∧
      oset_destroy s = some t ∧ (∀ a, t.heap a = none) ∧
      t.calls = s.calls ++ entry_calls fk fv ps ∧
      t.calls.Perm (entry_calls fk fv (inserted ops)) ∧
      (∀ f, Call.key f (none : Option K) ∉ t.calls) := by
  have inv0 : Inv (oset_create cmp (some fk) (some fv) : ordered_set K V) _ 1 :=
    create_inv cmp (some fk) (some fv)
  have ext0 : Ext (oset_create cmp (some fk) (some fv) : ordered_set K V) _ :=
    ext_create cmp (some fk) (some fv)
  obtain ⟨s, rows, H, ps0, ps, h1, inv, ext, e0, e1, hc, hk, hv, hperm⟩ :=
    calls_balance fk fv ops (show TotalCompare (oset_create cmp (some fk) (some fv) :
      ordered_set K V).compare from tc) inv0 ext0 rfl rfl
  have hps0 : ps0 = [] := by
    obtain ⟨qs, q1, q2, -⟩ := entries_spec inv0
    rw [e0] at q1
    cases q1
    have : ps0.length = 0 := by simpa using q2
    exact List.length_eq_zero.mp this
  have hbal : (s.calls ++ entry_calls fk fv ps).Perm (entry_calls fk fv (inserted ops)) := by
    have h2 := hperm
    rw [hps0] at h2
    simpa [entry_calls, oset_create, ordered_set.malloc, ordered_set.store] using h2
  have tcs : TotalCompare s.compare := by rw [hc]; exact tc
  obtain ⟨t, d1, d2, d3⟩ := oset_destroy_spec inv.wf
  rw [hk, hv, row_calls_entries inv fk fv e1] at d3
  refine ⟨s, ps, t, h1, e1, hbal, ?_, ?_, d1, d2, d3, by rw [d3]; exact hbal, ?_⟩
  · intro key s2 h
    rcases oset_remove_spec tcs inv key with ⟨hmiss, -⟩ | ⟨s3, rows3, i, p, nx, h3, inv3, post⟩
    · rw [hmiss] at h
      simp at h
    · rw [h3] at h
      simp only [Option.some.injEq, Prod.mk.injEq, true_and] at h
      subst h
      obtain ⟨kx, hkx, -, hcalls⟩ := remove_calls inv post hk hv
      refine ⟨nx, kx, ?_, hkx, hcalls⟩
      rw [find_node_pos inv key post.pred_at post.found, post.victim_at]
      simp only [Option.some_bind, key_eq_true.mpr post.victim_eq, if_true]
  · intro key s2 h
    rcases oset_remove_spec tcs inv key with ⟨hmiss, -⟩ | ⟨s3, rows3, i, p, nx, h3, inv3, post⟩
    · rw [hmiss] at h
      simp only [Option.some.injEq, Prod.mk.injEq, true_and] at h
      rw [← h]
    · rw [h3] at h
      simp at h
  · intro f hmem
    rw [d3] at hmem
    have := hbal.subset hmem
    simp only [entry_calls, List.mem_flatten, List.mem_map] at this
    obtain ⟨l, ⟨q, -, hq⟩, hl⟩ := this
    rw [← hq] at hl
    simp at hl

theorem destructors_once_witness :
    TotalCompare int_compare ∧
    ((run_ops (oset_create int_compare (some 7) (some 9)) lifetime_calls).bind
        oset_destroy).map (fun t => t.calls) =
      some [Call.key 7 (some 5), Call.value 9 (some 50), Call.key 7 (some 3),
        Call.value 9 (some 30), Call.key 7 (some 8), Call.value 9 (some 80)] ∧
    ∃ s ps t, run_ops (oset_create int_compare (some 7) (some 9)) lifetime_calls = some s ∧
      entries s = some ps ∧
      (s.calls ++ entry_calls 7 9 ps).Perm (entry_calls 7 9 (inserted lifetime_calls)) ∧
      (∀ key s2, oset_remove s key = some (true, s2) →
        ∃ x kx, oset_find_node s key = some (some x) ∧ key_at s x = some kx ∧
          s2.calls = s.calls ++ [Call.key 7 (some kx), Call.value 9 (value_at s x)]) ∧
      (∀ key s2, oset_remove s key = some (false, s2) → s2.calls = s.calls) ∧
      oset_destroy s = some t ∧ (∀ a, t.heap a = none) ∧
      t.calls = s.calls ++ entry_calls 7 9 ps ∧
      t.calls.Perm (entry_calls 7 9 (inserted lifetime_calls)) ∧
      (∀ f, Call.key f (none : Option Int) ∉ t.calls) :=
  ⟨int_compare_total, by decide, destructors_once int_compare_total 7 9 lifetime_calls⟩

theorem traverse_backward_none (s : ordered_set K V) (fuel : Nat) :
    traverse_backward s fuel none = some [] := by
  cases fuel <;> rfl

/-- The backward traversal from the node of index `i` of a row visits the nodes of index
`i, i - 1, ..., 0` of that row, the header last. -/
theorem traverse_backward_row {s : ordered_set K V} {rows : Nat → List Nat} (hz : Hz s rows)
    (j : Nat) :
    ∀ i fuel a, (rows j)[i]? = some a → i < fuel →
      traverse_backward s fuel (some a) = some ((rows j).take (i + 1)).reverse := by
  intro i
  induction i with
  | zero =>
    intro fuel a ha hf
    obtain ⟨f, rfl⟩ : ∃ f, fuel = f + 1 := ⟨fuel - 1, by omega⟩
    obtain ⟨n, hn, -, hprev, -⟩ := hz.link j 0 a ha
    have hp : oset_previous s a = some none := by simp [oset_previous, hn, hprev]
    have htake : (rows j).take 1 = [a] := by
      rw [List.take_succ, ha]; simp
    simp only [traverse_backward, hp, traverse_backward_none, htake, List.reverse_singleton]
  | succ i ih =>
    intro fuel a ha hf
    obtain ⟨f, rfl⟩ : ∃ f, fuel = f + 1 := ⟨fuel - 1, by omega⟩
    obtain ⟨n, hn, -, hprev, -⟩ := hz.link j (i + 1) a ha
    obtain ⟨b, hb⟩ : ∃ b, (rows j)[i]? = some b := by
      have := lt_length_of_getElem? ha
      exact ⟨(rows j)[i], List.getElem?_eq_getElem (by omega)⟩
    have hp : oset_previous s a = some (some b) := by
      simp [oset_previous, hn, hprev, hb]
    have htake : (rows j).take (i + 1 + 1) = (rows j).take (i + 1) ++ [a] := by
      rw [List.take_succ, ha]; simp
    simp only [traverse_backward, hp, ih f b hb (by omega), htake, List.reverse_append,
      List.reverse_singleton, List.singleton_append]

/-- C24: the horizontal links of every reachable set are mutually consistent on every level.
For every allocated node `a` (header or entry): if its `next` is a node `b` then `b` is an
entry of the same level whose `previous` is `a`; if its `previous` is a node `p` then `p` is a
node of the same level whose `next` is `a`; its `previous` is the sentinel exactly when it is
a header; and walking `previous` from `a` ends at a header `h` of the same level, whose
`previous` is the sentinel and whose chain along `next` contains `a`. -/
theorem links_consistent {s : ordered_set K V} (tc : TotalCompare s.compare)
    (hr : Reachable s) (a : Nat) (n : ordered_set_node K V) (hn : s.heap a = some n) :
    (∀ b, n.next = some b → ∃ nb, s.heap b = some nb ∧ nb.previous = some a ∧
      nb.level = n.level ∧ nb.is_header = false) ∧
    (∀ p, n.previous = some p → ∃ np, s.heap p = some np ∧ np.next = some a ∧
      np.level = n.level) ∧
    (n.previous = OSET_BOF ↔ n.is_header = true) ∧
    ∃ visited h nh chain, traverse_backward s (s.brk + 1) (some a) = some visited ∧
      visited.getLast? = some h ∧ s.heap h = some nh ∧ nh.is_header = true ∧
      nh.level = n.level ∧ nh.previous = OSET_BOF ∧
      traverse_forward s (s.brk + 1) (some h) = some chain ∧ a ∈ chain := by
  obtain ⟨rows, H, inv, -⟩ := reachable_good tc hr
  have hz := inv.wf.hz
  obtain ⟨j, hj⟩ := hz.live a n hn
  obtain ⟨i, hi⟩ := List.mem_iff_getElem?.mp hj
  obtain ⟨n0, hn0, hnext, hprev, hlev, hhdr, -⟩ := hz.link j i a hi
  rw [hn] at hn0
  cases hn0
  have hilt := lt_length_of_getElem? hi
  refine ⟨?_, ?_, ?_, ?_⟩
  · intro b hb
    rw [hnext] at hb
    obtain ⟨nb, hnb, -, bprev, blev, bhdr, -⟩ := hz.link j (i + 1) b hb
    refine ⟨nb, hnb, ?_, by rw [blev, hlev], ?_⟩
    · rw [bprev, if_neg (by omega)]
      exact hi
    · rw [bhdr]; exact decide_eq_false (by omega)
  · intro p hp
    by_cases c : i = 0
    · rw [hprev, if_pos c] at hp
      exact Option.noConfusion hp
    · rw [hprev, if_neg c] at hp
      obtain ⟨np, hnp, pnext, -, plev, -⟩ := hz.link j (i - 1) p hp
      refine ⟨np, hnp, ?_, by rw [plev, hlev]⟩
      rw [pnext]
      have : i - 1 + 1 = i := by omega
      rw [this]; exact hi
  · rw [hprev, hhdr]
    by_cases c : i = 0
    · simp [c]
    · rw [if_neg c]
      obtain ⟨p, hp⟩ : ∃ p, (rows j)[i - 1]? = some p :=
        ⟨(rows j)[i - 1], List.getElem?_eq_getElem (by omega)⟩
      simp [hp, c]
  · obtain ⟨h, hh⟩ : ∃ h, (rows j)[0]? = some h :=
      ⟨(rows j)[0], List.getElem?_eq_getElem (by omega)⟩
    obtain ⟨nh, hnh, -, hprevh, hlevh, hhdrh, -⟩ := hz.link j 0 h hh
    have hbrk := inv.wf.rows_le j
    refine ⟨_, h, nh, _, traverse_backward_row hz j i (s.brk + 1) a hi (by omega), ?_, hnh,
      by simpa using hhdrh, by rw [hlevh, hlev], by simpa using hprevh,
      traverse_forward_row hz j (s.brk + 1) 0 h hh (by omega), ?_⟩
    · rw [List.getLast?_reverse, List.head?_take, if_neg (by omega), List.head?_eq_getElem?]
      exact hh
    · rw [List.drop_zero]; exact hj

theorem links_consistent_witness :
    TotalCompare demo_set.compare ∧ Reachable demo_set ∧
    (demo_set.heap 6).map (fun n => (n.level, n.next, n.previous)) =
      some (1, none, some 3) ∧
    traverse_backward demo_set (demo_set.brk + 1) (some 6) = some [6, 3, 10, 2] ∧
    ∃ n, demo_set.heap 6 = some n ∧
      (∀ b, n.next = some b → ∃ nb, demo_set.heap b = some nb ∧ nb.previous = some 6 ∧
        nb.level = n.level ∧ nb.is_header = false) ∧
      (∀ p, n.previous = some p → ∃ np, demo_set.heap p = some np ∧ np.next = some 6 ∧
        np.level = n.level) ∧
      (n.previous = OSET_BOF ↔ n.is_header = true) ∧
      ∃ visited h nh chain,
        traverse_backward demo_set (demo_set.brk + 1) (some 6) = some visited ∧
        visited.getLast? = some h ∧ demo_set.heap h = some nh ∧ nh.is_header = true ∧
        nh.level = n.level ∧ nh.previous = OSET_BOF ∧
        traverse_forward demo_set (demo_set.brk + 1) (some h) = some chain ∧ 6 ∈ chain :=
  ⟨demo_total, demo_reachable, by decide, by decide,
    (Option.isSome_iff_exists.mp (by decide : (demo_set.heap 6).isSome = true)).imp
      fun n hn => ⟨hn, links_consistent demo_total demo_reachable 6 n hn⟩⟩

theorem run_ops_append (ops ops2 : List (Op K V)) :
    ∀ s : ordered_set K V,
      run_ops s (ops ++ ops2) = (run_ops s ops).bind fun s1 => run_ops s1 ops2 := by
  induction ops with
  | nil => intro s; rfl
  | cons op rest ih =>
    intro s
    simp only [List.cons_append, run_ops]
    cases op.apply s with
    | none => rfl
    | some s1 => exact ih s1

/-- A reachable set stays reachable under one more call. -/
theorem reachable_step {s s2 : ordered_set K V} (hr : Reachable s) (op : Op K V)
    (h : op.apply s = some s2) (hc : s2.compare = s.compare) : Reachable s2 := by
  obtain ⟨dk, dv, ops, hops⟩ := hr
  refine ⟨dk, dv, ops ++ [op], ?_⟩
  rw [hc, run_ops_append, hops]
  simp only [Option.some_bind, run_ops, h]

/-- C25: on every reachable set no operation dereferences a sentinel (in the model, an
operation that does returns `none`).  For every key, `node_find_previous` terminates and
returns an allocated node of level 0, never `OSET_EOF`; `oset_insert` succeeds for every key,
value and number of heads (and its result is again a reachable set), and so do `oset_remove`,
`oset_find_node` and `oset_find`.  The leftward scan of `node_promote` from any entry or
promoted copy ends either at an allocated node with an allocated `top`, or at the sentinel, and
then the node is on the level of the top header, which has no `top`, and `level_create`
succeeds.  A successful `oset_remove` reads `first->next` only on the allocated node it is
about to remove. -/
theorem no_sentinel_dereference {s : ordered_set K V} (tc : TotalCompare s.compare)
    (hr : Reachable s) :
    (∀ k, ∃ p np, node_find_previous s k = some (some p) ∧ s.heap p = some np ∧
      np.level = 0) ∧
    (∀ k v heads, ∃ s2, oset_insert s k v heads = some s2 ∧ Reachable s2) ∧
    (∀ k, ∃ found s2, oset_remove s k = some (found, s2) ∧ Reachable s2) ∧
    (∀ k, ∃ r w, oset_find_node s k = some r ∧ oset_find s k = some w) ∧
    (∀ a n, s.heap a = some n → n.is_header = false →
      ∃ r, promote_scan s (s.brk + 1) n.previous = some r ∧
        (∀ t, r = some t → ∃ nt tt ntt, s.heap t = some nt ∧ nt.top = some tt ∧
          s.heap tt = some ntt) ∧
        (r = OSET_BOF → ∃ h nh s1, s.header = some h ∧ s.heap h = some nh ∧
          nh.top = OSET_EOF ∧ nh.level = n.level ∧ level_create s = some s1)) ∧
    (∀ k s2, oset_remove s k = some (true, s2) →
      ∃ x nx, oset_find_node s k = some (some x) ∧ s.heap x = some nx ∧
        s2.first = if s.first = some x then nx.next else s.first) := by
  obtain ⟨rows, H, inv, ext⟩ := reachable_good tc hr
  have wf := inv.wf
  refine ⟨?_, ?_, ?_, ?_, ?_, ?_⟩
  · intro k
    obtain ⟨i, p, hp, hfind, -⟩ := find_position tc inv k
    obtain ⟨np, hnp, -, -, hlev, -⟩ := wf.hz.link 0 i p hp
    exact ⟨p, np, hfind, hnp, by simpa using hlev⟩
  · intro k v heads
    obtain ⟨s2, rows2, H2, i, p, h1, -, -, post⟩ := oset_insert_spec tc inv k v heads
    exact ⟨s2, h1, reachable_step hr (Op.insert k v heads) h1 post.compare⟩
  · intro k
    rcases oset_remove_spec tc inv k with ⟨hmiss, -⟩ | ⟨s2, rows2, i, p, nx, h1, -, post⟩
    · exact ⟨false, s, hmiss, hr⟩
    · refine ⟨true, s2, h1, reachable_step hr (Op.remove k) ?_ post.compare⟩
      simp only [Op.apply, h1, Option.map_some']
  · intro k
    exact ⟨_, _, find_node_eq tc inv k, find_eq tc inv k⟩
  · intro a n hn hh
    obtain ⟨j, hj⟩ := wf.hz.live a n hn
    obtain ⟨i, hi⟩ := List.mem_iff_getElem?.mp hj
    obtain ⟨n0, hn0, -, hprev, hlev, hhdr, -⟩ := wf.hz.link j i a hi
    rw [hn] at hn0
    cases hn0
    have hipos : 0 < i := by
      rw [hhdr] at hh
      by_contra c
      have : i = 0 := by omega
      simp [this] at hh
    have hilt := lt_length_of_getElem? hi
    obtain ⟨b, hb⟩ : ∃ b, (rows j)[i - 1]? = some b :=
      ⟨(rows j)[i - 1], List.getElem?_eq_getElem (by omega)⟩
    rw [hprev, if_neg (by omega), hb]
    rcases promote_scan_spec wf j (i - 1) (s.brk + 1) b hb
        (by have := wf.rows_le j; omega) with
      ⟨i2, t, nt, tt, -, h2, h3, h4, h5⟩ | ⟨h5, hjH⟩
    · refine ⟨some t, h5, ?_, fun e => Option.noConfusion e⟩
      intro t2 ht2
      cases ht2
      obtain ⟨ntt, -, g2, -⟩ := wf.vt.up j t nt tt (mem_of_getElem? h2) h3 h4
      exact ⟨nt, tt, ntt, h3, h4, g2⟩
    · refine ⟨none, h5, fun t e => Option.noConfusion e, ?_⟩
      intro _
      obtain ⟨h, oh, -, c2, c3, c4, c5, -⟩ := wf.header_top
      obtain ⟨s1, h2, oh2, -, -, -, d4, -⟩ := wf_level_create wf
      refine ⟨h, oh, s1, c2, c3, c4, ?_, d4⟩
      rw [c5, hlev]
      congr 1
      omega
  · intro k s2 h
    rcases oset_remove_spec tc inv k with ⟨hmiss, -⟩ | ⟨s3, rows3, i, p, nx, h3, inv3, post⟩
    · rw [hmiss] at h
      simp at h
    · rw [h3] at h
      simp only [Option.some.injEq, Prod.mk.injEq, true_and] at h
      subst h
      obtain ⟨xn, hxn, xnext, -⟩ := wf.hz.link 0 (i + 1) nx post.victim_at
      refine ⟨nx, xn, ?_, hxn, ?_⟩
      · rw [find_node_pos inv k post.pred_at post.found, post.victim_at]
        simp only [Option.some_bind, key_eq_true.mpr post.victim_eq, if_true]
      · rw [post.first, xnext]

theorem no_sentinel_dereference_witness :
    TotalCompare demo_set.compare ∧ Reachable demo_set ∧
    node_find_previous demo_set 4 = some (some 4) ∧
    promote_scan demo_set (demo_set.brk + 1) (some 4) = some (some 9) ∧
    promote_scan demo_set (demo_set.brk + 1) (some 2) = some (some 2) ∧
    promote_scan demo_set (demo_set.brk + 1) (some 7) = some OSET_BOF ∧
    (∀ k, ∃ p np, node_find_previous demo_set k = some (some p) ∧
      demo_set.heap p = some np ∧ np.level = 0) ∧
    (∀ k v heads, ∃ s2, oset_insert demo_set k v heads = some s2 ∧ Reachable s2) ∧
    (∀ k, ∃ found s2, oset_remove demo_set k = some (found, s2) ∧ Reachable s2) ∧
    (∀ k, ∃ r w, oset_find_node demo_set k = some r ∧ oset_find demo_set k = some w) ∧
    (∀ a n, demo_set.heap a = some n → n.is_header = false →
      ∃ r, promote_scan demo_set (demo_set.brk + 1) n.previous = some r ∧
        (∀ t, r = some t → ∃ nt tt ntt, demo_set.heap t = some nt ∧ nt.top = some tt ∧
          demo_set.heap tt = some ntt) ∧
        (r = OSET_BOF → ∃ h nh s1, demo_set.header = some h ∧ demo_set.heap h = some nh ∧
          nh.top = OSET_EOF ∧ nh.level = n.level ∧ level_create demo_set = some s1)) ∧
    (∀ k s2, oset_remove demo_set k = some (true, s2) →
      ∃ x nx, oset_find_node demo_set k = some (some x) ∧ demo_set.heap x = some nx ∧
        s2.first = if demo_set.first = some x then nx.next else demo_set.first) :=
  ⟨demo_total, demo_reachable, by decide, by decide, by decide, by decide,
    no_sentinel_dereference demo_total demo_reachable⟩

/-- Inserting "before the first entry with key >= `k`" puts the new entry at the index `i`
when the entries in front of `i` have smaller keys and the entry at `i` does not. -/
theorem sorted_list_insert_eq (cmp : K → K → Int) (k : K) (v : Option V) :
    ∀ (l : List (K × Option V)) (i : Nat), i ≤ l.length →
      (∀ (m : Nat) (e : K × Option V), m < i → l[m]? = some e → cmp e.1 k < 0) →
      (∀ e : K × Option V, l[i]? = some e → ¬ cmp e.1 k < 0) →
      sorted_list_insert cmp k v l = ins_at l i (k, v) := by
  intro l
  induction l with
  | nil =>
    intro i hi _ _
    have : i = 0 := by simpa using hi
    subst this
    rfl
  | cons e rest ih =>
    intro i hi hbefore hat
    cases i with
    | zero =>
      have := hat e (by simp)
      simp only [sorted_list_insert, ins_at, List.take_zero, List.drop_zero, List.nil_append]
      rw [if_pos (by omega)]
    | succ i =>
      have h1 := hbefore 0 e (by omega) (by simp)
      simp only [sorted_list_insert]
      rw [if_neg (by omega), ih i (by simpa using hi)
        (fun m e2 hm he => hbefore (m + 1) e2 (by omega) (by simpa using he))
        (fun e2 he => hat e2 (by simpa using he))]
      simp [ins_at]

/-- Removing from a list without an entry of key equal to `k` changes nothing. -/
theorem sorted_list_remove_miss (cmp : K → K → Int) (k : K) :
    ∀ l : List (K × Option V), (∀ e, e ∈ l → cmp e.1 k ≠ 0) →
      sorted_list_remove cmp k l = (false, l) := by
  intro l
  induction l with
  | nil => intro _; rfl
  | cons e rest ih =>
    intro h
    simp only [sorted_list_remove]
    rw [if_neg (h e (List.mem_cons_self e rest)),
      ih (fun e2 he => h e2 (List.mem_cons_of_mem e he))]

/-- Removing "the first entry with key equal to `k`" erases the index `i` when the entry at
`i` has a key equal to `k` and the entries in front of it do not. -/
theorem sorted_list_remove_hit (cmp : K → K → Int) (k : K) :
    ∀ (l : List (K × Option V)) (i : Nat) (e : K × Option V), l[i]? = some e →
      cmp e.1 k = 0 →
      (∀ (m : Nat) (e2 : K × Option V), m < i → l[m]? = some e2 → cmp e2.1 k ≠ 0) →
      sorted_list_remove cmp k l = (true, l.eraseIdx i) := by
  intro l
  induction l with
  | nil => intro i e h; simp at h
  | cons x rest ih =>
    intro i e he heq hbefore
    cases i with
    | zero =>
      simp only [List.getElem?_cons_zero, Option.some.injEq] at he
      subst he
      simp only [sorted_list_remove, List.eraseIdx_cons_zero]
      rw [if_pos heq]
    | succ i =>
      have h1 := hbefore 0 x (by omega) (by simp)
      simp only [sorted_list_remove, List.eraseIdx_cons_succ]
      rw [if_neg h1, ih i e (by simpa using he) heq
        (fun m e2 hm h2 => hbefore (m + 1) e2 (by omega) (by simpa using h2))]

/-- Searching two lists that correspond entry by entry, with tests that agree on
corresponding entries: both searches fail, or they stop at corresponding entries. -/
theorem find?_corresponding {α β : Type} (R : α → β → Prop) (p : α → Bool) (q : β → Bool)
    (hpq : ∀ a e, R a e → p a = q e) :
    ∀ (A : List α) (l : List β), A.length = l.length →
      (∀ (i : Nat) (a : α), A[i]? = some a → ∃ e, l[i]? = some e ∧ R a e) →
      (A.find? p = none ∧ l.find? q = none) ∨
        ∃ a e, A.find? p = some a ∧ l.find? q = some e ∧ R a e := by
  intro A
  induction A with
  | nil =>
    intro l hlen _
    have : l = [] := List.length_eq_zero.mp hlen.symm
    subst this
    left
    exact ⟨rfl, rfl⟩
  | cons a rest ih =>
    intro l hlen h
    cases l with
    | nil => simp at hlen
    | cons e rest2 =>
      obtain ⟨e0, he0, hr⟩ := h 0 a (by simp)
      simp only [List.getElem?_cons_zero, Option.some.injEq] at he0
      subst he0
      have hpe := hpq a e hr
      cases hq : q e with
      | true =>
        right
        refine ⟨a, e, ?_, ?_, hr⟩
        · simp [List.find?, hpe, hq]
        · simp [List.find?, hq]
      | false =>
        have hp : p a = false := by rw [hpe, hq]
        have := ih rest2 (by simpa using hlen)
          (fun i a2 ha2 => by simpa using h (i + 1) a2 (by simpa using ha2))
        simpa [List.find?, hp, hq] using this

/-- The entry of index `m` of the set is read from the node of index `m + 1` of level 0. -/
theorem entry_at {s : ordered_set K V} {rows : Nat → List Nat} {H : Nat}
    (inv : Inv s rows H) {l : List (K × Option V)} (hl : entries s = some l) :
    l.length + 1 = (rows 0).length ∧
    (∀ (m a : Nat), (rows 0)[m + 1]? = some a →
      ∃ e, l[m]? = some e ∧ key_at s a = some e.1 ∧ value_at s a = e.2) ∧
    (∀ (m : Nat) (e : K × Option V), l[m]? = some e →
      ∃ a, (rows 0)[m + 1]? = some a ∧ key_at s a = some e.1 ∧ value_at s a = e.2) := by
  obtain ⟨ps, h1, h2, h3⟩ := entries_spec inv
  rw [hl] at h1
  cases h1
  refine ⟨h2, ?_, ?_⟩
  · intro m a ha
    obtain ⟨k, hk, hm⟩ := h3 m a ha
    exact ⟨_, hm, hk, rfl⟩
  · intro m e he
    have hlt : m < l.length := by
      by_contra c
      rw [List.getElem?_eq_none (by omega)] at he
      exact Option.noConfusion he
    obtain ⟨a, ha⟩ : ∃ a, (rows 0)[m + 1]? = some a :=
      ⟨(rows 0)[m + 1], List.getElem?_eq_getElem (by omega)⟩
    obtain ⟨k, hk, hm⟩ := h3 m a ha
    rw [he] at hm
    cases hm
    exact ⟨a, ha, hk, rfl⟩

/-- The function `oset_insert` acts on the entries like the insertion into a sorted list,
whatever the coin flips. -/
theorem insert_model {s : ordered_set K V} {rows : Nat → List Nat} {H : Nat}
    (tc : TotalCompare s.compare) (inv : Inv s rows H) {l : List (K × Option V)}
    (hl : entries s = some l) (k : K) (v : Option V) (heads : Nat) :
    ∃ s2 rows2 H2, oset_insert s k v heads = some s2 ∧ Inv s2 rows2 H2 ∧
      s2.compare = s.compare ∧ entries s2 = some (sorted_list_insert s.compare k v l) := by
  obtain ⟨s2, rows2, H2, i, p, h1, inv2, -, post⟩ := oset_insert_spec tc inv k v heads
  obtain ⟨ps, e1, e2⟩ := entries_insert inv inv2 post
  rw [hl] at e1
  cases e1
  obtain ⟨hlen, -, hback⟩ := entry_at inv hl
  have hilt := lt_length_of_getElem? post.pred_at
  refine ⟨s2, rows2, H2, h1, inv2, post.compare, ?_⟩
  rw [e2, sorted_list_insert_eq s.compare k v l i (by omega)]
  · intro m e hm he
    obtain ⟨a, ha, hk, -⟩ := hback m e he
    obtain ⟨ka, g1, g2⟩ := post.before (m + 1) a (by omega) (by omega) ha
    rw [hk] at g1
    cases g1
    exact g2
  · intro e he
    obtain ⟨a, ha, hk, -⟩ := hback i e he
    obtain ⟨ka, g1, g2⟩ := post.after (i + 1) a (by omega) ha
    rw [hk] at g1
    cases g1
    exact g2

/-- The function `oset_remove` acts on the entries like the removal from a sorted list. -/
theorem remove_model {s : ordered_set K V} {rows : Nat → List Nat} {H : Nat}
    (tc : TotalCompare s.compare) (inv : Inv s rows H) {l : List (K × Option V)}
    (hl : entries s = some l) (k : K) :
    ∃ s2 rows2 H2, oset_remove s k = some ((sorted_list_remove s.compare k l).1, s2) ∧
      Inv s2 rows2 H2 ∧ s2.compare = s.compare ∧
      entries s2 = some (sorted_list_remove s.compare k l).2 := by
  obtain ⟨hlen, -, hback⟩ := entry_at inv hl
  rcases oset_remove_spec tc inv k with ⟨hmiss, hno⟩ | ⟨s2, rows2, i, p, nx, h1, inv2, post⟩
  · have hm : sorted_list_remove s.compare k l = (false, l) := by
      apply sorted_list_remove_miss
      intro e he
      obtain ⟨m, hm⟩ := List.mem_iff_getElem?.mp he
      obtain ⟨a, ha, hk, -⟩ := hback m e hm
      exact hno (m + 1) a e.1 (by omega) ha hk
    rw [hm]
    exact ⟨s, rows, H, hmiss, inv, rfl, hl⟩
  · obtain ⟨ps, e1, e2⟩ := entries_remove inv inv2 post
    rw [hl] at e1
    cases e1
    obtain ⟨kx, hkx, heq⟩ := post.victim_eq
    obtain ⟨-, hforth, -⟩ := entry_at inv hl
    obtain ⟨e, he, hek, -⟩ := hforth i nx post.victim_at
    rw [hkx] at hek
    have hm : sorted_list_remove s.compare k l = (true, l.eraseIdx i) := by
      apply sorted_list_remove_hit s.compare k l i e he
      · rw [← Option.some.inj hek]; exact heq
      · intro m e2 hm he2
        obtain ⟨a, ha, hk, -⟩ := hback m e2 he2
        obtain ⟨ka, g1, g2⟩ := post.before (m + 1) a (by omega) (by omega) ha
        rw [hk] at g1
        cases g1
        omega
    rw [hm]
    exact ⟨s2, rows2, H, h1, inv2, post.compare, e2⟩

/-- The lookups of the skip list and of the sorted list stop at corresponding entries. -/
theorem find_corresponding {s : ordered_set K V} {rows : Nat → List Nat} {H : Nat}
    (inv : Inv s rows H) {l : List (K × Option V)} (hl : entries s = some l) (k : K) :
    (((rows 0).drop 1).find? (key_eq s k) = none ∧ sorted_list_find s.compare k l = none) ∨
      ∃ a e, ((rows 0).drop 1).find? (key_eq s k) = some a ∧
        sorted_list_find s.compare k l = some e ∧
        key_at s a = some e.1 ∧ value_at s a = e.2 := by
  obtain ⟨hlen, hforth, -⟩ := entry_at inv hl
  apply find?_corresponding
    (fun (a : Nat) (e : K × Option V) => key_at s a = some e.1 ∧ value_at s a = e.2)
  · intro a e hr
    simp only [key_eq, hr.1]
  · rw [List.length_drop]
    omega
  · intro i a ha
    rw [List.getElem?_drop] at ha
    have : 1 + i = i + 1 := by omega
    rw [this] at ha
    obtain ⟨e, he, h1, h2⟩ := hforth i a ha
    exact ⟨e, he, h1, h2⟩

/-- The function `oset_find` returns the value of the first entry with an equal key. -/
theorem find_model {s : ordered_set K V} {rows : Nat → List Nat} {H : Nat}
    (tc : TotalCompare s.compare) (inv : Inv s rows H) {l : List (K × Option V)}
    (hl : entries s = some l) (k : K) :
    oset_find s k = some ((sorted_list_find s.compare k l).bind fun e => e.2) := by
  rw [find_eq tc inv k]
  rcases find_corresponding inv hl k with ⟨h1, h2⟩ | ⟨a, e, h1, h2, -, h4⟩
  · rw [h1, h2]; rfl
  · rw [h1, h2]
    simp only [Option.some_bind, h4]

/-- The function `oset_find_node` returns a node carrying the first entry with an equal key,
or `OSET_EOF` when there is none. -/
theorem find_node_model {s : ordered_set K V} {rows : Nat → List Nat} {H : Nat}
    (tc : TotalCompare s.compare) (inv : Inv s rows H) {l : List (K × Option V)}
    (hl : entries s = some l) (k : K) :
    (oset_find_node s k).bind (node_entry s) = some (sorted_list_find s.compare k l) := by
  rw [find_node_eq tc inv k]
  rcases find_corresponding inv hl k with ⟨h1, h2⟩ | ⟨a, e, h1, h2, h3, h4⟩
  · rw [h1, h2]; rfl
  · rw [h1, h2]
    obtain ⟨n, hn, hnk⟩ := key_at_heap h3
    have hv : n.value = e.2 := by
      rw [← h4]; simp [value_at, hn]
    simp only [Option.some_bind, node_entry, oset_node_key, oset_node_value, hn,
      Option.map_some', hnk, hv]

/-- A sequence of calls on a set satisfying the invariant gives the observations and the
entries of the sorted-list model, whatever the coin flips. -/
theorem run_cmds_model (coins : Nat → Nat) (cmds : List (Cmd K V)) :
    ∀ (n : Nat) {s : ordered_set K V} {rows : Nat → List Nat} {H : Nat}
      (l : List (K × Option V)), TotalCompare s.compare → Inv s rows H →
      entries s = some l →
      ∃ s2 rows2 H2, run_cmds coins n s cmds = some ((model_cmds s.compare l cmds).1, s2) ∧
        Inv s2 rows2 H2 ∧ entries s2 = some (model_cmds s.compare l cmds).2 := by
  induction cmds with
  | nil =>
    intro n s rows H l _ inv hl
    exact ⟨s, rows, H, rfl, inv, hl⟩
  | cons c rest ih =>
    intro n s rows H l tc inv hl
    cases c with
    | insert k v =>
      obtain ⟨s1, rows1, H1, h1, inv1, hc, e1⟩ := insert_model tc inv hl k v (coins n)
      have tc1 : TotalCompare s1.compare := by rw [hc]; exact tc
      obtain ⟨s2, rows2, H2, g1, g2, g3⟩ := ih (n + 1) _ tc1 inv1 e1
      rw [hc] at g1 g3
      refine ⟨s2, rows2, H2, ?_, g2, g3⟩
      simp only [run_cmds, Cmd.run, h1, Option.map_some', g1, model_cmds, Cmd.model]
    | remove k =>
      obtain ⟨s1, rows1, H1, h1, inv1, hc, e1⟩ := remove_model tc inv hl k
      have tc1 : TotalCompare s1.compare := by rw [hc]; exact tc
      obtain ⟨s2, rows2, H2, g1, g2, g3⟩ := ih (n + 1) _ tc1 inv1 e1
      rw [hc] at g1 g3
      refine ⟨s2, rows2, H2, ?_, g2, g3⟩
      simp only [run_cmds, Cmd.run, h1, Option.map_some', g1, model_cmds, Cmd.model]
    | find k =>
      obtain ⟨s2, rows2, H2, g1, g2, g3⟩ := ih (n + 1) l tc inv hl
      refine ⟨s2, rows2, H2, ?_, g2, g3⟩
      simp only [run_cmds, Cmd.run, find_model tc inv hl k, Option.map_some', g1, model_cmds,
        Cmd.model]
    | find_node k =>
      obtain ⟨s2, rows2, H2, g1, g2, g3⟩ := ih (n + 1) l tc inv hl
      refine ⟨s2, rows2, H2, ?_, g2, g3⟩
      simp only [run_cmds, Cmd.run, find_node_model tc inv hl k, Option.map_some', g1,
        model_cmds, Cmd.model]

/-- C23: the observable content of the set does not depend on the coin flips.  For every
sequence of calls of `oset_insert`, `oset_remove`, `oset_find` and `oset_find_node` on a fresh
set and every two coin-flip streams, both runs succeed, and in both the observations (the flag
of every `oset_remove`, the value returned by every `oset_find`, and for every
`oset_find_node` whether it returned `OSET_EOF` and otherwise the key and value of the
returned node), the final sequence of level-0 entries and `oset_size` are those of the plain
sorted list in which insert places the new entry before the first entry with key `>= k`,
remove erases the first entry with key equal to `k`, and the lookups return the first entry
with key equal to `k`. -/
theorem coin_independence {cmp : K → K → Int} (tc : TotalCompare cmp) (dk dv : DestroyFunc)
    (cmds : List (Cmd K V)) (coins coins2 : Nat → Nat) :
    ∃ s s2, run_cmds coins 0 (oset_create cmp dk dv) cmds =
        some ((model_cmds cmp [] cmds).1, s) ∧
      run_cmds coins2 0 (oset_create cmp dk dv) cmds =
        some ((model_cmds cmp [] cmds).1, s2) ∧
      entries s = some (model_cmds cmp [] cmds).2 ∧
      entries s2 = some (model_cmds cmp [] cmds).2 ∧
      oset_size s = ((model_cmds cmp [] cmds).2.length : Int) ∧
      oset_size s2 = ((model_cmds cmp [] cmds).2.length : Int) := by
  have inv0 : Inv (oset_create cmp dk dv : ordered_set K V) _ 1 := create_inv cmp dk dv
  have e0 : entries (oset_create cmp dk dv : ordered_set K V) = some [] := by
    obtain ⟨ps, q1, q2, -⟩ := entries_spec inv0
    have : ps.length = 0 := by simpa using q2
    rw [q1, List.length_eq_zero.mp this]
  have size_of : ∀ {t : ordered_set K V} {rows : Nat → List Nat} {H : Nat}
      {l : List (K × Option V)}, Inv t rows H → entries t = some l →
      oset_size t = (l.length : Int) := by
    intro t rows H l inv hl
    obtain ⟨hlen, -⟩ := entry_at inv hl
    simp only [oset_size, inv.size_eq]
    omega
  obtain ⟨s, rows, H, h1, inv, e1⟩ := run_cmds_model coins cmds 0 []
    (show TotalCompare (oset_create cmp dk dv : ordered_set K V).compare from tc) inv0 e0
  obtain ⟨s2, rows2, H2, h2, inv2, e2⟩ := run_cmds_model coins2 cmds 0 []
    (show TotalCompare (oset_create cmp dk dv : ordered_set K V).compare from tc) inv0 e0
  exact ⟨s, s2, h1, h2, e1, e2, size_of inv e1, size_of inv2 e2⟩

theorem coin_independence_witness :
    TotalCompare int_compare ∧
    (model_cmds int_compare [] mixed_cmds).1 =
      [Obs.done, Obs.done, Obs.value (some 30), Obs.done, Obs.node (some (3, some 31)),
        Obs.removed false, Obs.removed true, Obs.value (some 30), Obs.done, Obs.value none,
        Obs.node none] ∧
    (model_cmds int_compare [] mixed_cmds).2 = [(3, some 30), (5, some 50), (8, none)] ∧
    (run_cmds coins_a 0 (oset_create int_compare none none) mixed_cmds).map (fun r => r.2.brk) =
      some 10 ∧
    (run_cmds coins_b 0 (oset_create int_compare none none) mixed_cmds).map (fun r => r.2.brk) =
      some 16 ∧
    ∃ s s2, run_cmds coins_a 0 (oset_create int_compare none none) mixed_cmds =
        some ((model_cmds int_compare [] mixed_cmds).1, s) ∧
      run_cmds coins_b 0 (oset_create int_compare none none) mixed_cmds =
        some ((model_cmds int_compare [] mixed_cmds).1, s2) ∧
      entries s = some (model_cmds int_compare [] mixed_cmds).2 ∧
      entries s2 = some (model_cmds int_compare [] mixed_cmds).2 ∧
      oset_size s = ((model_cmds int_compare [] mixed_cmds).2.length : Int) ∧
      oset_size s2 = ((model_cmds int_compare [] mixed_cmds).2.length : Int) :=
  ⟨int_compare_total, by decide, by decide, by decide, by decide,
    coin_independence int_compare_total none none mixed_cmds coins_a coins_b⟩

theorem order_kept_refl (l : List Nat) : OrderKept l l :=
  fun i i2 a a2 h h1 h2 _ _ => ⟨i, i2, h, h1, h2⟩

theorem order_kept_ins_at (l : List Nat) (p x : Nat) (hp : p ≤ l.length) (hx : x ∉ l) :
    OrderKept (ins_at l p x) l := by
  intro i i2 a a2 h h1 h2 ha ha2
  have hax : a ≠ x := fun e => hx (e ▸ ha)
  have hax2 : a2 ≠ x := fun e => hx (e ▸ ha2)
  rcases ins_at_cases hp h1 with ⟨c1, g1⟩ | ⟨-, g1⟩ | ⟨c1, g1⟩
  · rcases ins_at_cases hp h2 with ⟨c2, g2⟩ | ⟨-, g2⟩ | ⟨c2, g2⟩
    · exact ⟨i, i2, h, g1, g2⟩
    · exact absurd g2 hax2
    · exact ⟨i, i2 - 1, by omega, g1, g2⟩
  · exact absurd g1 hax
  · rcases ins_at_cases hp h2 with ⟨c2, g2⟩ | ⟨-, g2⟩ | ⟨c2, g2⟩
    · omega
    · exact absurd g2 hax2
    · exact ⟨i - 1, i2 - 1, by omega, g1, g2⟩

theorem order_kept_eraseIdx (l : List Nat) (p : Nat) : OrderKept (l.eraseIdx p) l := by
  intro i i2 a a2 h h1 h2 _ _
  rcases erase_cases h1 with ⟨c1, g1⟩ | ⟨c1, g1⟩
  · rcases erase_cases h2 with ⟨c2, g2⟩ | ⟨c2, g2⟩
    · exact ⟨i, i2, h, g1, g2⟩
    · exact ⟨i, i2 + 1, by omega, g1, g2⟩
  · rcases erase_cases h2 with ⟨c2, g2⟩ | ⟨c2, g2⟩
    · omega
    · exact ⟨i + 1, i2 + 1, by omega, g1, g2⟩

theorem order_kept_set_row (rows : Nat → List Nat) (j : Nat) (r : List Nat)
    (h : OrderKept r (rows j)) : ∀ m, OrderKept (set_row rows j r m) (rows m) := by
  intro m
  by_cases c : m = j
  · subst c; rw [set_row_same]; exact h
  · rw [set_row_other _ _ _ c]; exact order_kept_refl _

/-- The order of two old nodes of a level is the order of the nodes below them, when the old
set has this property and the old nodes kept their order on both levels. -/
theorem mono_transfer {s : ordered_set K V} {rows rows2 : Nat → List Nat}
    (hM : Mono s rows) (hnd : ∀ j, (rows j).Nodup)
    (hE : ∀ j, OrderKept (rows2 j) (rows j))
    {j i i2 a a2 b b2 q q2 : Nat} {n n2 : ordered_set_node K V} (hi : i < i2)
    (ha : (rows2 (j + 1))[i]? = some a) (ha2 : (rows2 (j + 1))[i2]? = some a2)
    (hq : (rows2 j)[q]? = some b) (hq2 : (rows2 j)[q2]? = some b2)
    (olda : a ∈ rows (j + 1)) (olda2 : a2 ∈ rows (j + 1))
    (oldb : b ∈ rows j) (oldb2 : b2 ∈ rows j)
    (hn : s.heap a = some n) (hn2 : s.heap a2 = some n2)
    (hb : n.bottom = some b) (hb2 : n2.bottom = some b2) : q < q2 := by
  obtain ⟨p, p2, hp, g1, g2⟩ := hE (j + 1) i i2 a a2 hi ha ha2 olda olda2
  obtain ⟨r, hr⟩ := List.mem_iff_getElem?.mp oldb
  obtain ⟨r2, hr2⟩ := List.mem_iff_getElem?.mp oldb2
  have hlt := hM j p p2 a a2 n n2 b b2 r r2 hp g1 g2 hn hn2 hb hb2 hr hr2
  by_contra hc
  by_cases e : q = q2
  · subst e
    rw [hq] at hq2
    cases hq2
    have := nodup_index_eq (hnd j) hr hr2
    omega
  · obtain ⟨t2, t, ht, k2, k1⟩ := hE j q2 q b2 b (by omega) hq2 hq oldb2 oldb
    have e1 := nodup_index_eq (hnd j) k1 hr
    have e2 := nodup_index_eq (hnd j) k2 hr2
    omega

/-- The towers still do not cross after a change that adds no node, keeps the order of the
remaining nodes of every level, and keeps their `bottom` pointers. -/
theorem mono_of_kept {s s2 : ordered_set K V} {rows rows2 : Nat → List Nat}
    (hM : Mono s rows) (hnd : ∀ j, (rows j).Nodup)
    (hE : ∀ j, OrderKept (rows2 j) (rows j)) (hsub : ∀ j a, a ∈ rows2 j → a ∈ rows j)
    (hbot : ∀ a n2, s2.heap a = some n2 → ∃ n, s.heap a = some n ∧ n.bottom = n2.bottom) :
    Mono s2 rows2 := by
  intro j i i2 a a2 n n2 b b2 q q2 hi ha ha2 hn hn2 hb hb2 hq hq2
  obtain ⟨m, hm, hmb⟩ := hbot a n hn
  obtain ⟨m2, hm2, hmb2⟩ := hbot a2 n2 hn2
  exact mono_transfer hM hnd hE hi ha ha2 hq hq2 (hsub _ _ (mem_of_getElem? ha))
    (hsub _ _ (mem_of_getElem? ha2)) (hsub _ _ (mem_of_getElem? hq))
    (hsub _ _ (mem_of_getElem? hq2)) hm hm2 (hmb.trans hb) (hmb2.trans hb2)

/-- A row is determined by its first node: it is the chain of `next` pointers from there. -/
theorem row_eq_of_head {s : ordered_set K V} {rows rows2 : Nat → List Nat} (hz : Hz s rows)
    (hz2 : Hz s rows2) {j j2 h : Nat} (h1 : (rows j)[0]? = some h)
    (h2 : (rows2 j2)[0]? = some h) : rows j = rows2 j2 := by
  apply List.ext_getElem?
  intro i
  induction i with
  | zero => rw [h1, h2]
  | succ i ih =>
    cases hi : (rows j)[i]? with
    | none =>
      rw [hi] at ih
      have e1 : (rows j).length ≤ i := List.getElem?_eq_none_iff.mp hi
      have e2 : (rows2 j2).length ≤ i := List.getElem?_eq_none_iff.mp ih.symm
      rw [List.getElem?_eq_none (by omega), List.getElem?_eq_none (by omega)]
    | some a =>
      rw [hi] at ih
      obtain ⟨n, hn, hnext, -⟩ := hz.link j i a hi
      obtain ⟨n2, hn2, hnext2, -⟩ := hz2.link j2 i a ih.symm
      rw [hn] at hn2
      cases hn2
      rw [← hnext, ← hnext2]

/-- Below the header of a level above 0 sits the header of the level underneath. -/
theorem header_bottom {s : ordered_set K V} {rows : Nat → List Nat} {H : Nat}
    (wf : Wf s rows H none) {j h : Nat} {n : ordered_set_node K V}
    (hh : (rows (j + 1))[0]? = some h) (hn : s.heap h = some n) :
    ∃ b, n.bottom = some b ∧ (rows j)[0]? = some b := by
  obtain ⟨n0, hn0, -, -, -, hhdr, -⟩ := wf.hz.link (j + 1) 0 h hh
  rw [hn] at hn0
  cases hn0
  rcases wf.vt.down (j + 1) h n (mem_of_getElem? hh) hn (fun e => Option.noConfusion e) with
    ⟨-, h0⟩ | ⟨b, nb, hb, -, hbm, hnb, -, -, -, hbh⟩
  · omega
  · obtain ⟨ib, hib⟩ := List.mem_iff_getElem?.mp hbm
    have hib2 : (rows j)[ib]? = some b := by simpa using hib
    obtain ⟨nb0, hnb0, -, -, -, hbhdr, -⟩ := wf.hz.link j ib b hib2
    rw [hnb] at hnb0
    cases hnb0
    have hib0 : ib = 0 := by
      rw [hbh, hhdr] at hbhdr
      simpa using hbhdr.symm
    subst hib0
    exact ⟨b, hb, hib2⟩

/-- The layout of a well-formed set is determined by the set: two layouts of the same set
have the same number of levels and the same rows. -/
theorem rows_unique {s : ordered_set K V} {rows rows2 : Nat → List Nat} {H H2 : Nat}
    (wf : Wf s rows H none) (wf2 : Wf s rows2 H2 none) : H = H2 ∧ rows = rows2 := by
  obtain ⟨h, oh, c1, c2, c3, -, c5, -⟩ := wf.header_top
  obtain ⟨h2, oh2, d1, d2, d3, -, d5, -⟩ := wf2.header_top
  rw [c2] at d2
  cases d2
  rw [c3] at d3
  cases d3
  have hH : H = H2 := by
    have p1 := wf.height_pos
    have p2 := wf2.height_pos
    rw [c5] at d5
    have : H - 1 = H2 - 1 := by exact_mod_cast d5
    omega
  subst hH
  refine ⟨rfl, ?_⟩
  have heads : ∀ d, d < H → (rows (H - 1 - d))[0]? = (rows2 (H - 1 - d))[0]? := by
    intro d
    induction d with
    | zero => intro _; rw [Nat.sub_zero, c1, d1]
    | succ d ih =>
      intro hd
      have ih2 := ih (by omega)
      have e : H - 1 - d = (H - 1 - (d + 1)) + 1 := by omega
      rw [e] at ih2
      obtain ⟨t, ht⟩ : ∃ t, (rows (H - 1 - (d + 1) + 1))[0]? = some t := by
        have hne := wf.row_ne (H - 1 - (d + 1) + 1) (by omega)
        cases hr : rows (H - 1 - (d + 1) + 1) with
        | nil => exact absurd hr hne
        | cons x xs => exact ⟨x, by simp⟩
      have ht2 : (rows2 (H - 1 - (d + 1) + 1))[0]? = some t := by rw [← ih2, ht]
      obtain ⟨n, hn, -⟩ := wf.hz.link _ 0 t ht
      obtain ⟨b, hb, hb0⟩ := header_bottom wf ht hn
      obtain ⟨b2, hb2, hb20⟩ := header_bottom wf2 ht2 hn
      rw [hb] at hb2
      cases hb2
      rw [hb0, hb20]
  funext j
  by_cases hj : j < H
  · have hd := heads (H - 1 - j) (by omega)
    have e : H - 1 - (H - 1 - j) = j := by omega
    rw [e] at hd
    obtain ⟨t, ht⟩ : ∃ t, (rows j)[0]? = some t := by
      have hne := wf.row_ne j hj
      cases hr : rows j with
      | nil => exact absurd hr hne
      | cons x xs => exact ⟨x, by simp⟩
    exact row_eq_of_head wf.hz wf2.hz ht (by rw [← hd, ht])
  · rw [wf.row_nil j (by omega), wf2.row_nil j (by omega)]

theorem kept_refl (m : Nat) (s : ordered_set K V) : KeptBelow m s s :=
  fun _ n _ h => ⟨n, h, rfl⟩

theorem kept_trans {m : Nat} {s s2 s3 : ordered_set K V} (h1 : KeptBelow m s s2)
    (h2 : KeptBelow m s2 s3) : KeptBelow m s s3 := by
  intro b n hb hn
  obtain ⟨n2, g1, g2⟩ := h1 b n hb hn
  obtain ⟨n3, f1, f2⟩ := h2 b n2 hb g1
  exact ⟨n3, f1, f2.trans g2⟩

/-- An assignment that leaves `bottom` alone, or that goes to a cell from `m` on, keeps the
`bottom` pointers of the cells below `m`. -/
theorem modify_kept {m : Nat} {s s1 : ordered_set K V} {a : Nat}
    {f : ordered_set_node K V → ordered_set_node K V} (h : s.modify a f = some s1)
    (hf : (∀ n, (f n).bottom = n.bottom) ∨ m ≤ a) : KeptBelow m s s1 := by
  unfold ordered_set.modify at h
  cases hn : s.heap a with
  | none => rw [hn] at h; exact Option.noConfusion h
  | some n =>
    rw [hn] at h
    cases h
    intro b nb hb hnb
    rw [store_heap]
    by_cases c : b = a
    · rw [if_pos c]
      rcases hf with hf | hf
      · rw [c, hn] at hnb
        cases hnb
        exact ⟨_, rfl, hf n⟩
      · omega
    · rw [if_neg c]
      exact ⟨nb, hnb, rfl⟩

theorem malloc_kept (s : ordered_set K V) (n : ordered_set_node K V) :
    KeptBelow s.brk s (s.malloc n) := by
  intro b nb hb hnb
  rw [malloc_heap, if_neg (by omega)]
  exact ⟨nb, hnb, rfl⟩

/-- The four statements that insert a node behind another write no `bottom` field. -/
theorem link_after_kept (m : Nat) {s s2 : ordered_set K V} {target new_node : Nat}
    (h : link_after s target new_node = some s2) : KeptBelow m s s2 := by
  simp only [link_after] at h
  split at h
  · exact Option.noConfusion h
  · split at h
    · exact Option.noConfusion h
    · split at h
      · exact Option.noConfusion h
      · split at h
        · exact Option.noConfusion h
        · split at h
          · exact Option.noConfusion h
          · rename_i x1 t h1 x2 s1 h2 x3 sa h3 x4 sb h4 x5 nn h5
            have k1 : KeptBelow m s s1 := modify_kept h2 (Or.inl fun _ => rfl)
            have k2 : KeptBelow m s1 sa := modify_kept h3 (Or.inl fun _ => rfl)
            have k3 : KeptBelow m sa sb := modify_kept h4 (Or.inl fun _ => rfl)
            split at h
            · cases h
              exact kept_trans (kept_trans k1 k2) k3
            · exact kept_trans (kept_trans (kept_trans k1 k2) k3)
                (modify_kept h (Or.inl fun _ => rfl))

/-- The function `level_create` writes the `bottom` field of the new header only. -/
theorem level_create_kept {s s1 : ordered_set K V} (h : level_create s = some s1) :
    KeptBelow s.brk s s1 := by
  simp only [level_create] at h
  split at h
  · exact Option.noConfusion h
  · split at h
    · exact Option.noConfusion h
    · split at h
      · exact Option.noConfusion h
      · split at h
        · exact Option.noConfusion h
        · rename_i x1 old h1 x2 oh h2 x3 sa h3 x4 sb h4
          cases h
          have k1 := malloc_kept s (node_create (none : Option K) (none : Option V)
            (1 + oh.level) true)
          have k2 : KeptBelow s.brk _ sa := modify_kept h3 (Or.inr (le_refl _))
          have k3 : KeptBelow s.brk sa sb := modify_kept h4 (Or.inl fun _ => rfl)
          intro b n hb hn
          exact kept_trans (kept_trans k1 k2) k3 b n hb hn

/-- The second half of `node_promote` writes the `bottom` field of the new node only. -/
theorem promote_link_kept {s s2 : ordered_set K V} {node target : Nat}
    (h : promote_link s node target = some s2) : KeptBelow s.brk s s2 := by
  simp only [promote_link] at h
  split at h
  · exact Option.noConfusion h
  · split at h
    · exact Option.noConfusion h
    · split at h
      · exact Option.noConfusion h
      · rename_i x1 n h1 x2 sa h2 x3 sb h3
        have k1 := malloc_kept s (node_create n.key n.value (1 + n.level) n.is_header)
        have k2 := link_after_kept s.brk h2
        have k3 : KeptBelow s.brk sa sb := modify_kept h3 (Or.inl fun _ => rfl)
        have k4 : KeptBelow s.brk sb s2 := modify_kept h (Or.inr (le_refl _))
        exact kept_trans (kept_trans (kept_trans k1 k2) k3) k4

/-- The order of two old nodes of a level against the nodes below them, after a change that
keeps the `bottom` pointers and the order of the old nodes. -/
theorem mono_old {s s2 : ordered_set K V} {rows rows2 : Nat → List Nat} {H : Nat}
    (hM : Mono s rows) (wf : Wf s rows H none) (hk : KeptBelow s.brk s s2)
    (hE : ∀ j, OrderKept (rows2 j) (rows j))
    {j i i2 a a2 b b2 q q2 : Nat} {n n2 : ordered_set_node K V} (hi : i < i2)
    (ha : (rows2 (j + 1))[i]? = some a) (ha2 : (rows2 (j + 1))[i2]? = some a2)
    (hn : s2.heap a = some n) (hn2 : s2.heap a2 = some n2)
    (hb : n.bottom = some b) (hb2 : n2.bottom = some b2)
    (hq : (rows2 j)[q]? = some b) (hq2 : (rows2 j)[q2]? = some b2)
    (olda : a ∈ rows (j + 1)) (olda2 : a2 ∈ rows (j + 1)) : q < q2 := by
  have old : ∀ (c d : Nat) (nc : ordered_set_node K V), c ∈ rows (j + 1) →
      s2.heap c = some nc → nc.bottom = some d →
      ∃ n0, s.heap c = some n0 ∧ n0.bottom = some d ∧ d ∈ rows j := by
    intro c d nc hc hnc hd
    obtain ⟨n0, hn0⟩ := wf.hz.heap_of_mem hc
    obtain ⟨n1, g1, g2⟩ := hk c n0 (wf.hz.lt_brk hc) hn0
    rw [hnc] at g1
    cases g1
    rw [hd] at g2
    rcases wf.vt.down (j + 1) c n0 hc hn0 (fun e => Option.noConfusion e) with
      ⟨-, h0⟩ | ⟨b0, nb, e1, -, e3, -⟩
    · omega
    · rw [← g2] at e1
      cases e1
      exact ⟨n0, hn0, g2.symm, by simpa using e3⟩
  obtain ⟨n0, h1, h2, h3⟩ := old a b n olda hn hb
  obtain ⟨n02, k1, k2, k3⟩ := old a2 b2 n2 olda2 hn2 hb2
  exact mono_transfer hM wf.hz.nodup hE hi ha ha2 hq hq2 olda olda2 h3 k3 h1 k1 h2 k2

/-- Linking a new node into level 0 keeps the towers from crossing. -/
theorem mono_link_base {s s2 : ordered_set K V} {rows : Nat → List Nat} {H : Nat}
    (wf : Wf s rows H none) (hM : Mono s rows) {i p : Nat} (hp : (rows 0)[i]? = some p)
    {nn : ordered_set_node K V} (h : link_after (s.malloc nn) p s.brk = some s2) :
    Mono s2 (set_row rows 0 (ins_at (rows 0) (i + 1) s.brk)) := by
  have hk : KeptBelow s.brk s s2 := kept_trans (malloc_kept s nn) (link_after_kept s.brk h)
  have hilt := lt_length_of_getElem? hp
  have hfresh : s.brk ∉ rows 0 := fun hm => by
    have := wf.hz.lt_brk hm; omega
  have hE := order_kept_set_row rows 0 _ (order_kept_ins_at (rows 0) (i + 1) s.brk
    (by omega) hfresh)
  intro j i1 i2 a a2 n n2 b b2 q q2 hi ha ha2 hn hn2 hb hb2 hq hq2
  have e : set_row rows 0 (ins_at (rows 0) (i + 1) s.brk) (j + 1) = rows (j + 1) :=
    set_row_other _ _ _ (by omega)
  exact mono_old hM wf hk hE hi ha ha2 hn hn2 hb hb2 hq hq2
    (by rw [e] at ha; exact mem_of_getElem? ha) (by rw [e] at ha2; exact mem_of_getElem? ha2)

/-- Creating a level keeps the towers from crossing. -/
theorem mono_level_create {s s1 : ordered_set K V} {rows : Nat → List Nat} {H : Nat}
    (wf : Wf s rows H none) (hM : Mono s rows) (h : level_create s = some s1) :
    Mono s1 (set_row rows H [s.brk]) := by
  have hk := level_create_kept h
  have hE : ∀ j, OrderKept (set_row rows H [s.brk] j) (rows j) := by
    intro j
    by_cases c : j = H
    · subst c
      rw [set_row_same]
      intro i i2 a a2 hi h1 h2 _ _
      have := lt_length_of_getElem? h2
      simp only [List.length_singleton] at this
      omega
    · rw [set_row_other _ _ _ c]
      exact order_kept_refl _
  intro j i1 i2 a a2 n n2 b b2 q q2 hi ha ha2 hn hn2 hb hb2 hq hq2
  by_cases c : j + 1 = H
  · rw [c, set_row_same] at ha2
    have := lt_length_of_getElem? ha2
    simp only [List.length_singleton] at this
    omega
  · have e : set_row rows H [s.brk] (j + 1) = rows (j + 1) := set_row_other _ _ _ c
    exact mono_old hM wf hk hE hi ha ha2 hn hn2 hb hb2 hq hq2
      (by rw [e] at ha; exact mem_of_getElem? ha)
      (by rw [e] at ha2; exact mem_of_getElem? ha2)

/-- The leftward scan of `node_promote` stops at the nearest node with a `top`: the nodes it
passes have none.  When it runs off the left end, no node up to the start has a `top`. -/
theorem promote_scan_rightmost {s : ordered_set K V} {rows : Nat → List Nat} {H : Nat}
    (wf : Wf s rows H none) (j : Nat) :
    ∀ i fuel a, (rows j)[i]? = some a → i < fuel →
      (∃ i2 t nt tt, i2 ≤ i ∧ (rows j)[i2]? = some t ∧ s.heap t = some nt ∧
        nt.top = some tt ∧ promote_scan s fuel (some a) = some (some t) ∧
        ∀ (m c : Nat) (nc : ordered_set_node K V), i2 < m → m ≤ i →
          (rows j)[m]? = some c → s.heap c = some nc → nc.top = none) ∨
      (promote_scan s fuel (some a) = some none ∧ j + 1 = H ∧
        ∀ (m c : Nat) (nc : ordered_set_node K V), m ≤ i →
          (rows j)[m]? = some c → s.heap c = some nc → nc.top = none) := by
  intro i
  induction i with
  | zero =>
    intro fuel a ha hf
    rcases promote_scan_spec wf j 0 fuel a ha hf with
      ⟨i2, t, nt, tt, h1, h2, h3, h4, h5⟩ | ⟨h5, hjH⟩
    · left
      exact ⟨i2, t, nt, tt, h1, h2, h3, h4, h5, fun m c nc hm1 hm2 => by omega⟩
    · right
      refine ⟨h5, hjH, ?_⟩
      intro m c nc hm hc hnc
      have hm0 : m = 0 := by omega
      subst hm0
      rw [ha] at hc
      cases hc
      obtain ⟨f, rfl⟩ : ∃ f, fuel = f + 1 := ⟨fuel - 1, by omega⟩
      cases htop : nc.top with
      | none => rfl
      | some tt =>
        simp [promote_scan, hnc, htop] at h5
  | succ i ih =>
    intro fuel a ha hf
    obtain ⟨f, rfl⟩ : ∃ f, fuel = f + 1 := ⟨fuel - 1, by omega⟩
    obtain ⟨n, hn, -, g2, -⟩ := wf.hz.link j (i + 1) a ha
    cases htop : n.top with
    | some tt =>
      left
      exact ⟨i + 1, a, n, tt, le_refl _, ha, hn, htop, by simp [promote_scan, hn, htop],
        fun m c nc hm1 hm2 => by omega⟩
    | none =>
      have hprev : n.previous = (rows j)[i]? := by simpa using g2
      obtain ⟨b, hb⟩ : ∃ b, (rows j)[i]? = some b := by
        have := lt_length_of_getElem? ha
        exact ⟨(rows j)[i], List.getElem?_eq_getElem (by omega)⟩
      have hstep : promote_scan s (f + 1) (some a) = promote_scan s f (some b) := by
        simp only [promote_scan, hn, htop, hprev, hb]
      rw [hstep]
      have last : ∀ (c : Nat) (nc : ordered_set_node K V), (rows j)[i + 1]? = some c →
          s.heap c = some nc → nc.top = none := by
        intro c nc hc hnc
        rw [ha] at hc
        cases hc
        rw [hn] at hnc
        cases hnc
        exact htop
      rcases ih f b hb (by omega) with ⟨i2, t, nt, tt, h1, h2, h3, h4, h5, h6⟩ | ⟨h5, h6, h7⟩
      · left
        refine ⟨i2, t, nt, tt, by omega, h2, h3, h4, h5, ?_⟩
        intro m c nc hm1 hm2 hc hnc
        by_cases e : m = i + 1
        · subst e; exact last c nc hc hnc
        · exact h6 m c nc hm1 (by omega) hc hnc
      · right
        refine ⟨h5, h6, ?_⟩
        intro m c nc hm hc hnc
        by_cases e : m = i + 1
        · subst e; exact last c nc hc hnc
        · exact h7 m c nc (by omega) hc hnc

/-- Linking the copy of the node `x` of level `j` into level `j + 1` behind `target` keeps
the towers from crossing, when the nodes of level `j + 1` up to `target` stand above nodes to
the left of `x` and the nodes behind `target` stand above nodes to the right of `x`. -/
theorem mono_promote_link {s s2 : ordered_set K V} {rows : Nat → List Nat} {H : Nat}
    (wf : Wf s rows H none) (hM : Mono s rows) {j i x p target : Nat}
    (hx : (rows j)[i]? = some x) (htg : (rows (j + 1))[p]? = some target)
    (hA : ∀ (m a : Nat) (n : ordered_set_node K V) (b q : Nat), m ≤ p →
      (rows (j + 1))[m]? = some a → s.heap a = some n → n.bottom = some b →
      (rows j)[q]? = some b → q < i)
    (hB : ∀ (m a : Nat) (n : ordered_set_node K V) (b q : Nat), p < m →
      (rows (j + 1))[m]? = some a → s.heap a = some n → n.bottom = some b →
      (rows j)[q]? = some b → i < q)
    (h : promote_link s x target = some s2)
    (wf2 : Wf s2 (set_row rows (j + 1) (ins_at (rows (j + 1)) (p + 1) s.brk)) H none)
    (hx2 : ∃ x2, s2.heap x = some x2 ∧ x2.top = some s.brk) :
    Mono s2 (set_row rows (j + 1) (ins_at (rows (j + 1)) (p + 1) s.brk)) := by
  have hk := promote_link_kept h
  have hplt := lt_length_of_getElem? htg
  have hple : p + 1 ≤ (rows (j + 1)).length := hplt
  have hfresh : s.brk ∉ rows (j + 1) := fun hm => by
    have := wf.hz.lt_brk hm; omega
  have hE := order_kept_set_row rows (j + 1) _
    (order_kept_ins_at (rows (j + 1)) (p + 1) s.brk hple hfresh)
  have hrow : set_row rows (j + 1) (ins_at (rows (j + 1)) (p + 1) s.brk) (j + 1) =
      ins_at (rows (j + 1)) (p + 1) s.brk := set_row_same _ _ _
  have hrowj : set_row rows (j + 1) (ins_at (rows (j + 1)) (p + 1) s.brk) j = rows j :=
    set_row_other _ _ _ (by omega)
  have hnew : (set_row rows (j + 1) (ins_at (rows (j + 1)) (p + 1) s.brk) (j + 1))[p + 1]? =
      some s.brk := by
    rw [hrow, getElem?_ins_at _ _ _ _ hple, if_neg (by omega), if_pos rfl]
  obtain ⟨x2, hx2a, hx2b⟩ := hx2
  obtain ⟨nt, -, hnt, hbot⟩ := wf2.vt.up j x x2 s.brk
    (by rw [hrowj]; exact mem_of_getElem? hx) hx2a hx2b
  have old : ∀ (c d : Nat) (nc : ordered_set_node K V), c ∈ rows (j + 1) →
      s2.heap c = some nc → nc.bottom = some d →
      ∃ n0, s.heap c = some n0 ∧ n0.bottom = some d := by
    intro c d nc hc hnc hd
    obtain ⟨n0, hn0⟩ := wf.hz.heap_of_mem hc
    obtain ⟨n1, g1, g2⟩ := hk c n0 (wf.hz.lt_brk hc) hn0
    rw [hnc] at g1
    cases g1
    exact ⟨n0, hn0, by rw [← g2, hd]⟩
  intro j2 i1 i2 a a2 n n2 b b2 q q2 hi ha ha2 hn hn2 hb hb2 hq hq2
  by_cases ca : a = s.brk
  · subst ca
    have hj : j2 + 1 = j + 1 :=
      wf2.hz.disj _ _ _ (mem_of_getElem? ha) (mem_of_getElem? hnew)
    have hj2 : j2 = j := by omega
    subst hj2
    have hi1 := nodup_index_eq (wf2.hz.nodup _) ha hnew
    subst hi1
    rw [hrow] at ha2
    rw [hrowj] at hq hq2
    rw [hnt] at hn
    cases hn
    rw [hbot] at hb
    cases hb
    have hqi := nodup_index_eq (wf.hz.nodup _) hq hx
    rcases ins_at_cases hple ha2 with ⟨c1, -⟩ | ⟨c1, -⟩ | ⟨c1, g1⟩
    · omega
    · omega
    · obtain ⟨n0, k1, k2⟩ := old a2 b2 n2 (mem_of_getElem? g1) hn2 hb2
      have := hB (i2 - 1) a2 n0 b2 q2 (by omega) g1 k1 k2 hq2
      omega
  · by_cases ca2 : a2 = s.brk
    · subst ca2
      have hj : j2 + 1 = j + 1 :=
        wf2.hz.disj _ _ _ (mem_of_getElem? ha2) (mem_of_getElem? hnew)
      have hj2 : j2 = j := by omega
      subst hj2
      have hi2 := nodup_index_eq (wf2.hz.nodup _) ha2 hnew
      subst hi2
      rw [hrow] at ha
      rw [hrowj] at hq hq2
      rw [hnt] at hn2
      cases hn2
      rw [hbot] at hb2
      cases hb2
      have hqi := nodup_index_eq (wf.hz.nodup _) hq2 hx
      rcases ins_at_cases hple ha with ⟨c1, g1⟩ | ⟨c1, -⟩ | ⟨c1, -⟩
      · obtain ⟨n0, k1, k2⟩ := old a b n (mem_of_getElem? g1) hn hb
        have := hA i1 a n0 b q (by omega) g1 k1 k2 hq
        omega
      · omega
      · omega
    · have old_mem : ∀ c, c ∈ set_row rows (j + 1) (ins_at (rows (j + 1)) (p + 1) s.brk)
          (j2 + 1) → c ≠ s.brk → c ∈ rows (j2 + 1) := by
        intro c hc hne
        by_cases e : j2 + 1 = j + 1
        · rw [e, hrow, mem_ins_at] at hc
          rw [e]
          rcases hc with hc | hc
          · exact absurd hc hne
          · exact hc
        · rw [set_row_other _ _ _ e] at hc
          exact hc
      exact mono_old hM wf hk hE hi ha ha2 hn hn2 hb hb2 hq hq2
        (old_mem a (mem_of_getElem? ha) ca) (old_mem a2 (mem_of_getElem? ha2) ca2)

/-- The function `node_promote` keeps the set well formed and the towers from crossing, and
adds at most one level. -/
theorem node_promote_mono {s : ordered_set K V} {rows : Nat → List Nat} {H : Nat}
    (wf : Wf s rows H none) (hM : Mono s rows) {j i x : Nat} {xn : ordered_set_node K V}
    (hx : (rows j)[i]? = some x) (hi : 0 < i) (hxn : s.heap x = some xn)
    (hxtop : xn.top = none) :
    ∃ s2 rows2 H2 new_node i2, node_promote s x = some s2 ∧ Wf s2 rows2 H2 none ∧
      Mono s2 rows2 ∧ H ≤ H2 ∧ H2 ≤ H + 1 ∧
      (∃ x2, s2.heap x = some x2 ∧ x2.top = some new_node) ∧
      (rows2 (j + 1))[i2]? = some new_node ∧ 0 < i2 ∧
      (∃ nn2, s2.heap new_node = some nn2 ∧ nn2.top = none) := by
  obtain ⟨xn0, hxn0, -, xprev, -⟩ := wf.hz.link j i x hx
  rw [hxn] at hxn0; cases hxn0
  have hilt := lt_length_of_getElem? hx
  obtain ⟨a, ha⟩ : ∃ a, (rows j)[i - 1]? = some a :=
    ⟨(rows j)[i - 1], List.getElem?_eq_getElem (by omega)⟩
  have hprev : xn.previous = some a := by
    rw [xprev, if_neg (by omega), ha]
  rcases promote_scan_rightmost wf j (i - 1) (s.brk + 1) a ha
      (by have := wf.rows_le j; omega) with
    ⟨i2, t, nt, tt, h1, h2, h3, h4, h5, h6⟩ | ⟨h5, hjH, h6⟩
  · obtain ⟨ntt, g1, g2, g3⟩ := wf.vt.up j t nt tt (mem_of_getElem? h2) h3 h4
    obtain ⟨p, hp⟩ := List.mem_iff_getElem?.mp g1
    obtain ⟨s2, e1, e2, e3, e4, e5, e6, e7, ⟨nn2, e8, e9, -⟩⟩ :=
      wf_promote_link wf hx hi hxn hxtop hp
    have hA : ∀ (m c : Nat) (n : ordered_set_node K V) (b q : Nat), m ≤ p →
        (rows (j + 1))[m]? = some c → s.heap c = some n → n.bottom = some b →
        (rows j)[q]? = some b → q < i := by
      intro m c n b q hm hc hn hb hq
      by_cases e : m = p
      · subst e
        rw [hp] at hc
        cases hc
        rw [g2] at hn
        cases hn
        rw [g3] at hb
        cases hb
        have := nodup_index_eq (wf.hz.nodup j) hq h2
        omega
      · have := hM j m p c tt n ntt b t q i2 (by omega) hc hp hn g2 hb g3 hq h2
        omega
    have hB : ∀ (m c : Nat) (n : ordered_set_node K V) (b q : Nat), p < m →
        (rows (j + 1))[m]? = some c → s.heap c = some n → n.bottom = some b →
        (rows j)[q]? = some b → i < q := by
      intro m c n b q hm hc hn hb hq
      have hlt := hM j p m tt c ntt n t b i2 q hm hp hc g2 hn g3 hb h2 hq
      rcases wf.vt.down (j + 1) c n (mem_of_getElem? hc) hn
          (fun e => Option.noConfusion e) with ⟨-, h0⟩ | ⟨b0, nb, d1, -, -, d4, d5, -⟩
      · omega
      · rw [hb] at d1
        cases d1
        by_contra hc2
        by_cases e : q = i
        · subst e
          rw [hx] at hq
          cases hq
          rw [hxn] at d4
          cases d4
          rw [hxtop] at d5
          exact Option.noConfusion d5
        · have := h6 q b nb hlt (by omega) hq d4
          rw [this] at d5
          exact Option.noConfusion d5
    refine ⟨s2, _, H, s.brk, p + 1, ?_, e2, mono_promote_link wf hM hx hp hA hB e1 e2 e7,
      le_refl _, by omega, e7, ?_, by omega, ⟨nn2, e8, e9⟩⟩
    · simp only [node_promote, hxn, hprev, h5, h3, h4]
      exact e1
    · rw [set_row_same, getElem?_ins_at _ _ _ _ (lt_length_of_getElem? hp),
        if_neg (by omega), if_pos rfl]
  · obtain ⟨s1, h, oh, c1, c2, c3, c4, c5, c6, c7, c8, c9⟩ := wf_level_create wf
    have hM1 := mono_level_create wf hM c4
    have hpos := wf.height_pos
    have hxmem : x ∈ rows j := mem_of_getElem? hx
    have hxb : x ≠ s.brk := fun e => by
      have := wf.hz.lt_brk hxmem; omega
    have hjH1 : H - 1 = j := by omega
    have hxh : x ≠ h := fun e => by
      subst e
      rw [hjH1] at c3
      have := nodup_index_eq (wf.hz.nodup j) hx c3
      omega
    have hx1 : s1.heap x = some xn := by rw [c9, if_neg hxh, if_neg hxb, hxn]
    have hrowj : set_row rows H [s.brk] j = rows j := set_row_other _ _ _ (by omega)
    have hrowH : set_row rows H [s.brk] (j + 1) = [s.brk] := by rw [hjH, set_row_same]
    have hxrow : (set_row rows H [s.brk] j)[i]? = some x := by
      rw [hrowj]; exact hx
    have htg : (set_row rows H [s.brk] (j + 1))[0]? = some s.brk := by
      rw [hrowH]; simp
    obtain ⟨s2, e1, e2, e3, e4, e5, e6, e7, ⟨nn2, e8, e9, -⟩⟩ :=
      wf_promote_link c5 hxrow hi hx1 hxtop htg
    have hhb : h ≠ s.brk := fun e => by
      have := wf.hz.lt_brk (mem_of_getElem? c3); omega
    have hA : ∀ (m c : Nat) (n : ordered_set_node K V) (b q : Nat), m ≤ 0 →
        (set_row rows H [s.brk] (j + 1))[m]? = some c → s1.heap c = some n →
        n.bottom = some b → (set_row rows H [s.brk] j)[q]? = some b → q < i := by
      intro m c n b q hm hc hn hb hq
      have hm0 : m = 0 := by omega
      subst hm0
      rw [htg] at hc
      cases hc
      rw [c9, if_neg (Ne.symm hhb), if_pos rfl] at hn
      cases hn
      simp only [Option.some.injEq] at hb
      subst hb
      rw [hrowj] at hq
      rw [hjH1] at c3
      have := nodup_index_eq (wf.hz.nodup j) hq c3
      omega
    have hB : ∀ (m c : Nat) (n : ordered_set_node K V) (b q : Nat), 0 < m →
        (set_row rows H [s.brk] (j + 1))[m]? = some c → s1.heap c = some n →
        n.bottom = some b → (set_row rows H [s.brk] j)[q]? = some b → i < q := by
      intro m c n b q hm hc
      rw [hrowH] at hc
      have := lt_length_of_getElem? hc
      simp only [List.length_singleton] at this
      omega
    have hM2 := mono_promote_link c5 hM1 hxrow htg hA hB e1 e2 e7
    rw [c8] at hM2 e2
    refine ⟨s2, _, H + 1, s.brk + 1, 1, ?_, e2, hM2, by omega, le_refl _,
      by rw [c8] at e7; exact e7, ?_, by omega, ⟨nn2, by rw [c8] at e8; exact e8, e9⟩⟩
    · simp only [node_promote, hxn, hprev, h5, c4, c7]
      exact e1
    · rw [set_row_same, getElem?_ins_at _ _ _ _ (lt_length_of_getElem? htg),
        if_neg (by omega), if_pos rfl]

/-- The promotion loop of `oset_insert` keeps the set well formed and the towers from
crossing, and adds at most one level per promotion. -/
theorem promote_loop_mono (heads : Nat) :
    ∀ {s : ordered_set K V} {rows : Nat → List Nat} {H : Nat} (_ : Wf s rows H none)
      (_ : Mono s rows) {j i x : Nat} {xn : ordered_set_node K V}, (rows j)[i]? = some x →
      0 < i → s.heap x = some xn → xn.top = none →
      ∃ s2 rows2 H2, promote_loop heads s (some x) = some s2 ∧ Wf s2 rows2 H2 none ∧
        Mono s2 rows2 ∧ H ≤ H2 ∧ H2 ≤ H + heads := by
  induction heads with
  | zero =>
    intro s rows H wf hM j i x xn _ _ _ _
    exact ⟨s, rows, H, rfl, wf, hM, le_refl _, le_refl _⟩
  | succ heads ih =>
    intro s rows H wf hM j i x xn hx hi hxn hxtop
    obtain ⟨s1, rows1, H1, nw, i1, a1, a2, a3, a4, a5, ⟨x2, a8, a9⟩, a10, a11,
      ⟨nn2, b1, b2⟩⟩ := node_promote_mono wf hM hx hi hxn hxtop
    obtain ⟨s2, rows2, H2, c1, c2, c3, c4, c5⟩ := ih a2 a3 a10 a11 b1 b2
    refine ⟨s2, rows2, H2, ?_, c2, c3, by omega, by omega⟩
    simp only [promote_loop, a1, a8, a9]
    exact c1

theorem update_first_heap {s s2 : ordered_set K V} {a : Nat}
    (h : update_first s a = some s2) :
    s2.heap = s.heap ∧ s2.header = s.header ∧ s2.brk = s.brk := by
  unfold update_first at h
  split at h
  · cases h; exact ⟨rfl, rfl, rfl⟩
  · split at h
    · split at h
      · split at h
        · cases h; exact ⟨rfl, rfl, rfl⟩
        · cases h; exact ⟨rfl, rfl, rfl⟩
      · exact Option.noConfusion h
    · exact Option.noConfusion h

theorem update_last_heap {s s2 : ordered_set K V} {a : Nat}
    (h : update_last s a = some s2) :
    s2.heap = s.heap ∧ s2.header = s.header ∧ s2.brk = s.brk := by
  unfold update_last at h
  split at h
  · cases h; exact ⟨rfl, rfl, rfl⟩
  · split at h
    · split at h
      · split at h
        · cases h; exact ⟨rfl, rfl, rfl⟩
        · cases h; exact ⟨rfl, rfl, rfl⟩
      · exact Option.noConfusion h
    · exact Option.noConfusion h

theorem mono_of_heap_eq {s s2 : ordered_set K V} {rows : Nat → List Nat} (hM : Mono s rows)
    (hh : s2.heap = s.heap) : Mono s2 rows := by
  intro j i i2 a a2 n n2 b b2 q q2 hi ha ha2 hn hn2 hb hb2 hq hq2
  rw [hh] at hn hn2
  exact hM j i i2 a a2 n n2 b b2 q q2 hi ha ha2 hn hn2 hb hb2 hq hq2

/-- The function `oset_insert` keeps the towers from crossing, and adds at most one level per
`HEADS`. -/
theorem oset_insert_mono {s s2 : ordered_set K V} {rows : Nat → List Nat} {H : Nat}
    (tc : TotalCompare s.compare) (inv : Inv s rows H) (hM : Mono s rows) {k : K}
    {v : Option V} {heads : Nat} (h : oset_insert s k v heads = some s2) :
    ∃ rows2 H2, Wf s2 rows2 H2 none ∧ Mono s2 rows2 ∧ H ≤ H2 ∧ H2 ≤ H + heads := by
  obtain ⟨i, p, hp, hfind, -⟩ := find_position tc inv k
  obtain ⟨sa, t, ht, hlink, hfr, wfa, hheap⟩ := wf_link_base inv.wf i p hp k v
  have hMa := mono_link_base inv.wf hM hp hlink
  have hilt := lt_length_of_getElem? hp
  have hnew : (set_row rows 0 (ins_at (rows 0) (i + 1) s.brk) 0)[i + 1]? = some s.brk := by
    rw [set_row_same, getElem?_ins_at _ _ _ _ (by omega), if_neg (by omega), if_pos rfl]
  have hnn : sa.heap s.brk = some { node_create (some k) v 0 false with
      next := (rows 0)[i + 1]?, previous := some p } := by
    rw [hheap, if_pos rfl]
  obtain ⟨s3, rows3, H3, hloop, wf3, hM3, b1, b2⟩ :=
    promote_loop_mono heads wfa hMa hnew (by omega) hnn rfl
  simp only [oset_insert, hfind, hlink, hloop] at h
  split at h
  · exact Option.noConfusion h
  · rename_i x1 s4 h4
    split at h
    · exact Option.noConfusion h
    · rename_i x2 s5 h5
      cases h
      obtain ⟨f1, f2, f3⟩ := update_first_heap h4
      obtain ⟨g1, g2, g3⟩ := update_last_heap h5
      refine ⟨rows3, H3, wf_of_heap_eq wf3 (g1.trans f1) (g2.trans f2) (g3.trans f3),
        mono_of_heap_eq hM3 (g1.trans f1), b1, b2⟩

/-- The function `node_destroy_top` keeps the towers from crossing. -/
theorem node_destroy_top_mono (dk dv : DestroyFunc) {H : Nat} :
    ∀ (fuel : Nat) {s : ordered_set K V} {rows : Nat → List Nat} {j i x : Nat},
      Wf s rows H (some x) → (∀ a n, s.heap a = some n → n.top ≠ some x) →
      (rows j)[i]? = some x → 0 < i → H ≤ j + fuel → Mono s rows →
      ∃ s2 rows2, node_destroy_top dk dv fuel s (some x) = some s2 ∧ Wf s2 rows2 H none ∧
        Mono s2 rows2 := by
  intro fuel
  induction fuel with
  | zero =>
    intro s rows j i x wf _ hx _ hf _
    have : rows j = [] := wf.row_nil j (by omega)
    rw [this] at hx
    simp at hx
  | succ fuel ih =>
    intro s rows j i x wf hnotop hx hi hf hM
    have hjH : j < H := by
      by_contra hc
      rw [wf.row_nil j (by omega)] at hx
      simp at hx
    have hilt := lt_length_of_getElem? hx
    obtain ⟨s3, xn, pv, pvn, hxn, hpv, hpvn, hstep, c1, c2, c3, c4, c5, c6, c7, c8, c9,
      hheap⟩ := destroy_step wf.hz hx hi dk dv fuel
    have hxmem : x ∈ rows j := mem_of_getElem? hx
    have hz3 := hz_unlink wf.hz hx hi hpv hpvn c8 hheap
    have hfree : s3.heap x = none := by rw [hheap, if_pos rfl]
    have hsame : ∀ b, b ≠ x → (s3.heap b).map vview = (s.heap b).map vview := by
      intro b hb
      rw [hheap b, if_neg hb]
      by_cases h2 : b = pv
      · subst h2
        rw [if_pos rfl, hpvn]
        rfl
      · rw [if_neg h2]
        by_cases h3 : (rows j)[i + 1]? = some b
        · rw [if_pos h3]
          cases s.heap b with
          | none => rfl
          | some y => rfl
        · rw [if_neg h3]
    obtain ⟨vt3, hnotop3⟩ := vt_unlink wf.vt wf.hz.live hxmem hxn hnotop hfree hsame
      (mem_unlink_iff wf.hz hx)
    have hbot3 : ∀ a n3, s3.heap a = some n3 →
        ∃ n, s.heap a = some n ∧ n.bottom = n3.bottom := by
      intro a n3 hn3
      have hax : a ≠ x := fun e => by
        rw [e, hfree] at hn3; exact Option.noConfusion hn3
      cases h0 : s.heap a with
      | none => rw [map_eq_none_of (hsame a hax) h0] at hn3; exact Option.noConfusion hn3
      | some n =>
        obtain ⟨n4, hn4, -, e2, -⟩ := vview_of_map_eq (hsame a hax) h0
        rw [hn3] at hn4; cases hn4
        exact ⟨n, rfl, e2.symm⟩
    have hsub3 : ∀ m a, a ∈ set_row rows j ((rows j).eraseIdx i) m → a ∈ rows m :=
      fun m a h => ((mem_unlink_iff wf.hz hx m a).mp h).1
    have hM3 : Mono s3 (set_row rows j ((rows j).eraseIdx i)) :=
      mono_of_kept hM wf.hz.nodup
        (order_kept_set_row rows j _ (order_kept_eraseIdx (rows j) i)) hsub3 hbot3
    have wf3 : Wf s3 (set_row rows j ((rows j).eraseIdx i)) H xn.top := by
      constructor
      · exact hz3
      · exact vt3
      · exact wf.height_pos
      · rw [c8]; exact wf.height_le
      · intro m
        rw [c8]
        by_cases hm : m = j
        · subst hm
          rw [set_row_same, List.length_eraseIdx]
          have := wf.rows_le m
          split <;> omega
        · rw [set_row_other _ _ _ hm]; exact wf.rows_le m
      · intro m hm
        rw [set_row_other _ _ _ (by omega)]
        exact wf.row_nil m hm
      · intro m hm
        by_cases c : m = j
        · subst c
          rw [set_row_same]
          intro h
          have := congrArg List.length h
          rw [List.length_eraseIdx, if_pos hilt] at this
          simp at this
          omega
        · rw [set_row_other _ _ _ c]
          exact wf.row_ne m hm
      · rw [c7, wf.header_eq]
        by_cases h0 : H - 1 = j
        · rw [h0, set_row_same, List.getElem?_eraseIdx, if_pos hi]
        · rw [set_row_other _ _ _ h0]
    cases htop : xn.top with
    | none =>
      rw [htop] at hstep wf3
      refine ⟨s3, _, ?_, wf3, hM3⟩
      rw [hstep]
      cases fuel <;> rfl
    | some t =>
      rw [htop] at hstep wf3
      obtain ⟨nt, g1, g2, g3⟩ := wf.vt.up j x xn t hxmem hxn htop
      obtain ⟨i2, hi2⟩ := List.mem_iff_getElem?.mp g1
      have htx : t ≠ x := fun e => by
        subst e
        have := wf.hz.disj j (j + 1) t hxmem g1
        omega
      have hi2pos : 0 < i2 := by
        obtain ⟨nt0, hnt0, -, -, -, f4, -⟩ := wf.hz.link (j + 1) i2 t hi2
        rw [g2] at hnt0; cases hnt0
        obtain ⟨xn0, hxn0, -, -, -, f4x, -⟩ := wf.hz.link j i x hx
        rw [hxn] at hxn0; cases hxn0
        rcases wf.vt.down (j + 1) t nt g1 g2 (by simpa using htx) with
          ⟨-, h0⟩ | ⟨b, nb, d1, -, -, d4, -, -, -, d8⟩
        · omega
        · rw [g3] at d1; cases d1
          rw [hxn] at d4; cases d4
          by_contra hc
          have hz0 : i2 = 0 := by omega
          rw [f4, f4x] at d8
          simp [hz0] at d8
          omega
      have hi2row : (set_row rows j ((rows j).eraseIdx i) (j + 1))[i2]? = some t := by
        rw [set_row_other _ _ _ (by omega)]; exact hi2
      obtain ⟨s2, rows2, e1, e2, e3⟩ :=
        ih wf3 (hnotop3 t htop) hi2row hi2pos (by omega) hM3
      exact ⟨s2, rows2, by rw [hstep]; exact e1, e2, e3⟩

/-- A successful `oset_remove` keeps the towers from crossing. -/
theorem oset_remove_mono {s s2 : ordered_set K V} {rows rows2 : Nat → List Nat} {H : Nat}
    (inv : Inv s rows H) (hM : Mono s rows) {key : K} {i p nx : Nat}
    (post : RemovePost s rows key s2 rows2 i p nx)
    (h : oset_remove s key = some (true, s2)) :
    ∃ rows3, Wf s2 rows3 H none ∧ Mono s2 rows3 := by
  obtain ⟨n, hn, hnext, -⟩ := inv.wf.hz.link 0 i p post.pred_at
  rw [post.victim_at] at hnext
  obtain ⟨kx, hkx, heq⟩ := post.victim_eq
  obtain ⟨x, hx, hxk⟩ := key_at_heap hkx
  rw [oset_remove_unfold s key p nx n x kx post.found hn hnext hx hxk heq] at h
  let sp : ordered_set K V :=
    { s with
      first := if s.first = some nx then x.next else s.first,
      last := if s.last = some nx then (if n.is_header then none else some p) else s.last }
  have wfp : Wf sp rows H none := wf_of_heap_eq inv.wf rfl rfl rfl
  have wfx : Wf sp rows H (some nx) :=
    ⟨wfp.hz, vt_exempt _ wfp.vt, wfp.height_pos, wfp.height_le, wfp.rows_le, wfp.row_nil,
      wfp.row_ne, wfp.header_eq⟩
  have hnotop : ∀ a m, sp.heap a = some m → m.top ≠ some nx := by
    intro a m hm htop
    obtain ⟨j, hj⟩ := wfp.hz.live a m hm
    obtain ⟨nt, g1, -⟩ := wfp.vt.up j a m nx hj hm htop
    have := wfp.hz.disj (j + 1) 0 nx g1 (mem_of_getElem? post.victim_at)
    omega
  have hMp : Mono sp rows := mono_of_heap_eq hM rfl
  obtain ⟨s3, rows3, e1, e2, e3⟩ :=
    node_destroy_top_mono s.destroy_key s.destroy_value (s.brk + 1) wfx hnotop post.victim_at
      (by omega) (by have := inv.wf.height_le; show H ≤ 0 + (s.brk + 1); omega) hMp
  have e1b : node_destroy_top s.destroy_key s.destroy_value (s.brk + 1) sp (some nx) =
      some s3 := e1
  rw [e1b] at h
  simp only [Option.some.injEq, Prod.mk.injEq, true_and] at h
  rw [← h]
  exact ⟨rows3, wf_of_heap_eq e2 rfl rfl rfl, mono_of_heap_eq e3 rfl⟩

/-- One call keeps all the invariants, the non-crossing of the towers included, and never
lowers the number of levels. -/
theorem apply_mono {s : ordered_set K V} {rows : Nat → List Nat} {H : Nat}
    (tc : TotalCompare s.compare) (inv : Inv s rows H) (ext : Ext s rows) (hM : Mono s rows)
    (op : Op K V) :
    ∃ s2 rows2 H2, op.apply s = some s2 ∧ Inv s2 rows2 H2 ∧ Ext s2 rows2 ∧ Mono s2 rows2 ∧
      s2.compare = s.compare ∧ H ≤ H2 := by
  cases op with
  | insert k v heads =>
    obtain ⟨s2, rows2, H2, i, p, h1, h2, h3, h4⟩ := oset_insert_spec tc inv k v heads
    obtain ⟨rows3, H3, wf3, hM3, -⟩ := oset_insert_mono tc inv hM h1
    obtain ⟨-, e⟩ := rows_unique h2.wf wf3
    rw [← e] at hM3
    exact ⟨s2, rows2, H2, h1, h2, ext_insert tc inv ext h4, hM3, h4.compare, h3⟩
  | remove k =>
    rcases oset_remove_spec tc inv k with ⟨h1, -⟩ | ⟨s2, rows2, i, p, nx, h1, h2, h3⟩
    · exact ⟨s, rows, H, by simp [Op.apply, h1], inv, ext, hM, rfl, le_refl _⟩
    · obtain ⟨rows3, wf3, hM3⟩ := oset_remove_mono inv hM h3 h1
      obtain ⟨-, e⟩ := rows_unique h2.wf wf3
      rw [← e] at hM3
      exact ⟨s2, rows2, H, by simp [Op.apply, h1], h2, ext_remove tc inv ext h3, hM3,
        h3.compare, le_refl _⟩

theorem run_ops_mono (ops : List (Op K V)) :
    ∀ {s : ordered_set K V} {rows : Nat → List Nat} {H : Nat}, TotalCompare s.compare →
      Inv s rows H → Ext s rows → Mono s rows →
      ∃ s2 rows2 H2, run_ops s ops = some s2 ∧ Inv s2 rows2 H2 ∧ Ext s2 rows2 ∧
        Mono s2 rows2 ∧ s2.compare = s.compare ∧ H ≤ H2 := by
  induction ops with
  | nil =>
    intro s rows H _ inv ext hM
    exact ⟨s, rows, H, rfl, inv, ext, hM, rfl, le_refl _⟩
  | cons op rest ih =>
    intro s rows H tc inv ext hM
    obtain ⟨s1, rows1, H1, h1, h2, h3, h4, h5, h6⟩ := apply_mono tc inv ext hM op
    obtain ⟨s2, rows2, H2, g1, g2, g3, g4, g5, g6⟩ := ih (h5 ▸ tc) h2 h3 h4
    exact ⟨s2, rows2, H2, by simp [run_ops, h1, g1], g2, g3, g4, g5.trans h5, by omega⟩

theorem mono_create (cmp : K → K → Int) (dk dv : DestroyFunc) :
    Mono (oset_create cmp dk dv : ordered_set K V) (fun j => if j = 0 then [0] else []) := by
  intro j i i2 a a2 n n2 b b2 q q2 _ ha
  simp at ha

/-- Every reachable set satisfies the invariants, and its towers do not cross. -/
theorem reachable_mono {s : ordered_set K V} (tc : TotalCompare s.compare)
    (hr : Reachable s) : ∃ rows H, Inv s rows H ∧ Ext s rows ∧ Mono s rows := by
  obtain ⟨dk, dv, ops, hops⟩ := hr
  obtain ⟨s2, rows2, H2, h1, h2, h3, h4, -⟩ :=
    @run_ops_mono K V ops (oset_create s.compare dk dv) _ _ tc (create_inv _ dk dv)
      (ext_create _ dk dv) (mono_create _ dk dv)
  rw [hops] at h1
  cases h1
  exact ⟨rows2, H2, h2, h3, h4⟩

/-- Two entries of a level, in their order, stand above two entries of level 0 in the same
order, which carry the same keys. -/
theorem base_pair {s : ordered_set K V} {rows : Nat → List Nat} {H : Nat}
    (wf : Wf s rows H none) (hM : Mono s rows) :
    ∀ (j i i2 a a2 : Nat), 0 < i → i < i2 → (rows j)[i]? = some a →
      (rows j)[i2]? = some a2 →
      ∃ q q2 c c2, 0 < q ∧ q < q2 ∧ (rows 0)[q]? = some c ∧ (rows 0)[q2]? = some c2 ∧
        key_at s c = key_at s a ∧ key_at s c2 = key_at s a2 ∧
        tower_down s j a = some c ∧ tower_down s j a2 = some c2 := by
  intro j
  induction j with
  | zero =>
    intro i i2 a a2 hi hi2 ha ha2
    exact ⟨i, i2, a, a2, hi, hi2, ha, ha2, rfl, rfl, rfl, rfl⟩
  | succ j ih =>
    intro i i2 a a2 hi hi2 ha ha2
    obtain ⟨n, hn, -, -, -, hhdr, -⟩ := wf.hz.link (j + 1) i a ha
    obtain ⟨n2, hn2, -⟩ := wf.hz.link (j + 1) i2 a2 ha2
    rcases wf.vt.down (j + 1) a n (mem_of_getElem? ha) hn (fun e => Option.noConfusion e) with
      ⟨-, h0⟩ | ⟨b, nb, d1, -, d3, d4, -, d6, -, d8⟩
    · omega
    rcases wf.vt.down (j + 1) a2 n2 (mem_of_getElem? ha2) hn2
        (fun e => Option.noConfusion e) with
      ⟨-, h0⟩ | ⟨b2, nb2, f1, -, f3, f4, -, f6, -⟩
    · omega
    obtain ⟨q, hq⟩ := List.mem_iff_getElem?.mp d3
    obtain ⟨q2, hq2⟩ := List.mem_iff_getElem?.mp f3
    have hq' : (rows j)[q]? = some b := by simpa using hq
    have hq2' : (rows j)[q2]? = some b2 := by simpa using hq2
    have hlt := hM j i i2 a a2 n n2 b b2 q q2 hi2 ha ha2 hn hn2 d1 f1 hq' hq2'
    have hqpos : 0 < q := by
      obtain ⟨nb0, hnb0, -, -, -, bh, -⟩ := wf.hz.link j q b hq'
      rw [d4] at hnb0
      cases hnb0
      rw [d8, hhdr] at bh
      by_contra c
      have hq0 : q = 0 := by omega
      have hi0 : ¬ i = 0 := by omega
      simp [hq0, hi0] at bh
    obtain ⟨r, r2, c, c2, g1, g2, g3, g4, g5, g6, g7, g8⟩ := ih q q2 b b2 hqpos hlt hq' hq2'
    refine ⟨r, r2, c, c2, g1, g2, g3, g4, ?_, ?_, ?_, ?_⟩
    · rw [g5]; simp [key_at, d4, hn, d6]
    · rw [g6]; simp [key_at, f4, hn2, f6]
    · simp only [tower_down, hn, d1]; exact g7
    · simp only [tower_down, hn2, f1]; exact g8

theorem dup_reachable : Reachable dup_set :=
  (reachable_getD int_compare int_compare_total none none _ _).1

theorem dup_compare : dup_set.compare = int_compare :=
  (reachable_getD int_compare int_compare_total none none _ _).2

theorem dup_total : TotalCompare dup_set.compare := by
  rw [dup_compare]; exact int_compare_total

/-- C21 (counterexample): after inserting (3,30) and (3,31), each promoted once, level 1 of the
reachable set holds the two entries with the equal keys 3 and 3 next to each other (the nodes
at the addresses 5 and 3, neither a header), so the keys of level 1 are not strictly
increasing along `next`. -/
theorem upper_level_repeats_key :
    Reachable dup_set ∧
    (dup_set.heap 5).map (fun n => (n.level, n.is_header, n.key, n.next)) =
      some (1, false, some 3, some 3) ∧
    (dup_set.heap 3).map (fun n => (n.level, n.is_header, n.key)) = some (1, false, some 3) ∧
    ¬ dup_set.compare 3 3 < 0 :=
  ⟨dup_reachable, by decide, by decide, by decide⟩

/-- C21 (amended): in every reachable set, under any coin flips, the entries of every level,
the levels above 0 included, are non-decreasing by key along `next`; on level 0 an entry
whose key equals the key of its successor is the more recently allocated of the two; and when
no two entries of level 0 have equal keys, the keys of every level are strictly increasing
along `next`. -/
theorem levels_sorted {s : ordered_set K V} (tc : TotalCompare s.compare)
    (hr : Reachable s) :
    (∀ a n b, s.heap a = some n → n.is_header = false → n.next = some b →
      ∃ nb k kb, s.heap b = some nb ∧ nb.is_header = false ∧ nb.level = n.level ∧
        n.key = some k ∧ nb.key = some kb ∧ s.compare k kb ≤ 0 ∧
        (n.level = 0 → s.compare k kb = 0 → b < a)) ∧
    ((∀ c c2 nc nc2 kc kc2, s.heap c = some nc → s.heap c2 = some nc2 → nc.level = 0 →
        nc2.level = 0 → nc.key = some kc → nc2.key = some kc2 → c ≠ c2 →
        s.compare kc kc2 ≠ 0) →
      ∀ a n b nb k kb, s.heap a = some n → n.is_header = false → n.next = some b →
        s.heap b = some nb → n.key = some k → nb.key = some kb → s.compare k kb < 0) := by
  obtain ⟨rows, H, inv, ext, hM⟩ := reachable_mono tc hr
  have wf := inv.wf
  have key : ∀ a n b, s.heap a = some n → n.is_header = false → n.next = some b →
      ∃ j i nb k kb q q2 c c2, (rows j)[i]? = some a ∧ (rows j)[i + 1]? = some b ∧ 0 < i ∧
        s.heap b = some nb ∧ nb.is_header = false ∧ nb.level = n.level ∧
        n.level = (j : Int) ∧ n.key = some k ∧ nb.key = some kb ∧
        0 < q ∧ q < q2 ∧ (rows 0)[q]? = some c ∧ (rows 0)[q2]? = some c2 ∧
        key_at s c = some k ∧ key_at s c2 = some kb := by
    intro a n b hn hh hb
    obtain ⟨j, hj⟩ := wf.hz.live a n hn
    obtain ⟨i, hi⟩ := List.mem_iff_getElem?.mp hj
    obtain ⟨n0, hn0, hnext, -, hlev, hhdr, -⟩ := wf.hz.link j i a hi
    rw [hn] at hn0
    cases hn0
    have hipos : 0 < i := by
      rw [hhdr] at hh
      by_contra c
      have : i = 0 := by omega
      simp [this] at hh
    rw [hnext] at hb
    obtain ⟨nb, hnb, -, -, blev, bhdr, -⟩ := wf.hz.link j (i + 1) b hb
    obtain ⟨k, hk⟩ := wf.hz.key_at_some hi hipos
    obtain ⟨kb, hkb⟩ := wf.hz.key_at_some hb (by omega)
    obtain ⟨n1, hn1, hnk⟩ := key_at_heap hk
    obtain ⟨n2, hn2, hnkb⟩ := key_at_heap hkb
    rw [hn] at hn1
    cases hn1
    rw [hnb] at hn2
    cases hn2
    obtain ⟨q, q2, c, c2, g1, g2, g3, g4, g5, g6, -⟩ :=
      base_pair wf hM j i (i + 1) a b hipos (by omega) hi hb
    exact ⟨j, i, nb, k, kb, q, q2, c, c2, hi, hb, hipos, hnb,
      by rw [bhdr]; exact decide_eq_false (by omega), by rw [blev, hlev], hlev, hnk, hnkb,
      g1, g2, g3, g4, g5.trans hk, g6.trans hkb⟩
  constructor
  · intro a n b hn hh hb
    obtain ⟨j, i, nb, k, kb, q, q2, c, c2, hi, hbi, hipos, hnb, e1, e2, e3, e4, e5, g1, g2,
      g3, g4, g5, g6⟩ := key a n b hn hh hb
    refine ⟨nb, k, kb, hnb, e1, e2, e4, e5, inv.sorted q q2 c c2 k kb g1 g2 g3 g4 g5 g6, ?_⟩
    intro hl0 heq
    have hj0 : j = 0 := by
      rw [hl0] at e3
      exact_mod_cast e3.symm
    subst hj0
    have hka : key_at s a = some k := by simp [key_at, hn, e4]
    have hkb : key_at s b = some kb := by simp [key_at, hnb, e5]
    exact ext.recent i (i + 1) a b k kb hipos (by omega) hi hbi hka hkb
      (le_of_eq (tc.eq_symm heq))
  · intro hd a n b nb k kb hn hh hb hnb hk hkb
    obtain ⟨j, i, nb0, k0, kb0, q, q2, c, c2, hi, hbi, hipos, hnb0, e1, e2, e3, e4, e5, g1,
      g2, g3, g4, g5, g6⟩ := key a n b hn hh hb
    rw [hnb] at hnb0
    cases hnb0
    rw [hk] at e4
    cases e4
    rw [hkb] at e5
    cases e5
    have hle := inv.sorted q q2 c c2 k kb g1 g2 g3 g4 g5 g6
    obtain ⟨nc, hnc, hck⟩ := key_at_heap g5
    obtain ⟨nc2, hnc2, hck2⟩ := key_at_heap g6
    obtain ⟨m1, hm1, -, -, l1, -⟩ := wf.hz.link 0 q c g3
    obtain ⟨m2, hm2, -, -, l2, -⟩ := wf.hz.link 0 q2 c2 g4
    rw [hnc] at hm1
    cases hm1
    rw [hnc2] at hm2
    cases hm2
    have hne : c ≠ c2 := fun e => by
      rw [e] at g3
      have := nodup_index_eq (wf.hz.nodup 0) g3 g4
      omega
    have := hd c c2 nc nc2 k kb hnc hnc2 (by simpa using l1) (by simpa using l2) hck hck2 hne
    omega

theorem levels_sorted_witness :
    TotalCompare dup_set.compare ∧ Reachable dup_set ∧
    (dup_set.heap 4).map (fun n => (n.level, n.key, n.next)) = some (0, some 3, some 1) ∧
    (∀ a n b, dup_set.heap a = some n → n.is_header = false → n.next = some b →
      ∃ nb k kb, dup_set.heap b = some nb ∧ nb.is_header = false ∧ nb.level = n.level ∧
        n.key = some k ∧ nb.key = some kb ∧ dup_set.compare k kb ≤ 0 ∧
        (n.level = 0 → dup_set.compare k kb = 0 → b < a)) ∧
    ((∀ c c2 nc nc2 kc kc2, dup_set.heap c = some nc → dup_set.heap c2 = some nc2 →
        nc.level = 0 → nc2.level = 0 → nc.key = some kc → nc2.key = some kc2 → c ≠ c2 →
        dup_set.compare kc kc2 ≠ 0) →
      ∀ a n b nb k kb, dup_set.heap a = some n → n.is_header = false → n.next = some b →
        dup_set.heap b = some nb → n.key = some k → nb.key = some kb →
        dup_set.compare k kb < 0) :=
  ⟨dup_total, dup_reachable, by decide, levels_sorted dup_total dup_reachable⟩

theorem modify_header {s s1 : ordered_set K V} {a : Nat}
    {f : ordered_set_node K V → ordered_set_node K V} (h : s.modify a f = some s1) :
    s1.header = s.header := by
  unfold ordered_set.modify at h
  cases hn : s.heap a with
  | none => rw [hn] at h; exact Option.noConfusion h
  | some n =>
    rw [hn] at h
    cases h
    rfl

theorem link_after_header {s s2 : ordered_set K V} {target new_node : Nat}
    (h : link_after s target new_node = some s2) : s2.header = s.header := by
  simp only [link_after] at h
  split at h
  · exact Option.noConfusion h
  · split at h
    · exact Option.noConfusion h
    · split at h
      · exact Option.noConfusion h
      · split at h
        · exact Option.noConfusion h
        · split at h
          · exact Option.noConfusion h
          · rename_i x1 t h1 x2 s1 h2 x3 sa h3 x4 sb h4 x5 nn h5
            have k : sb.header = s.header :=
              (modify_header h4).trans ((modify_header h3).trans (modify_header h2))
            split at h
            · cases h
              exact k
            · exact (modify_header h).trans k

/-- The second half of `node_promote` does not assign `oset->header`. -/
theorem promote_link_header {s s2 : ordered_set K V} {node target : Nat}
    (h : promote_link s node target = some s2) : s2.header = s.header := by
  simp only [promote_link] at h
  split at h
  · exact Option.noConfusion h
  · split at h
    · exact Option.noConfusion h
    · split at h
      · exact Option.noConfusion h
      · rename_i x1 n h1 x2 sa h2 x3 sb h3
        have e1 := modify_header h
        have e2 := modify_header h3
        have e3 := link_after_header h2
        rw [e1, e2, e3]
        rfl

/-- The function `node_promote` changes `oset->header` only through `level_create`. -/
theorem node_promote_header {s s2 : ordered_set K V} {x : Nat}
    (h : node_promote s x = some s2) :
    s2.header = s.header ∨ ∃ s1, level_create s = some s1 ∧ s2.header = s1.header := by
  simp only [node_promote] at h
  split at h
  · exact Option.noConfusion h
  · split at h
    · exact Option.noConfusion h
    · split at h
      · exact Option.noConfusion h
      · rename_i s1 h1
        split at h
        · exact Option.noConfusion h
        · exact Or.inr ⟨s1, h1, promote_link_header h⟩
    · split at h
      · exact Option.noConfusion h
      · split at h
        · exact Option.noConfusion h
        · exact Or.inl (promote_link_header h)

/-- The level of the top header of a well-formed set with `H` levels is `H - 1`. -/
theorem top_level_eq {s : ordered_set K V} {rows : Nat → List Nat} {H : Nat}
    (wf : Wf s rows H none) : top_level s = some ((H - 1 : Nat) : Int) := by
  obtain ⟨h, oh, -, c2, c3, -, c5, -⟩ := wf.header_top
  simp only [top_level, c2, Option.some_bind, c3, Option.map_some', c5]

/-- C22: the height never shrinks and grows only through `level_create`.  In every reachable
set the top header `h` is a header without a `top`, of some level `L`.  The function
`oset_remove` leaves `oset->header` and its level unchanged (`oset_find`, `oset_find_node` and
the accessors do not write to the set at all); `oset_insert` never lowers the level of the top
header and raises it by at most the number of promotions; `node_promote` changes
`oset->header` only by a call of `level_create`; a call of `level_create` succeeds, allocates
a new top header of level `L + 1` whose `bottom` is the old top header, and makes it the `top`
of the old one; and the headers form one vertical chain: following `bottom` from the top
header reaches a header of each of the levels `L, ..., 0`, the last one without a `bottom`,
and every header of the set is on this chain. -/
theorem height_grows_by_level_create {s : ordered_set K V} (tc : TotalCompare s.compare)
    (hr : Reachable s) :
    ∃ (h : Nat) (nh : ordered_set_node K V) (L : Nat), s.header = some h ∧
      s.heap h = some nh ∧ nh.is_header = true ∧ nh.top = OSET_EOF ∧ nh.level = (L : Int) ∧
      top_level s = some (L : Int) ∧
      (∀ k found s2, oset_remove s k = some (found, s2) →
        s2.header = s.header ∧ top_level s2 = top_level s) ∧
      (∀ k v heads, ∃ (s2 : ordered_set K V) (L2 : Nat), oset_insert s k v heads = some s2 ∧
        top_level s2 = some (L2 : Int) ∧ L ≤ L2 ∧ L2 ≤ L + heads) ∧
      (∀ x s2, node_promote s x = some s2 →
        s2.header = s.header ∨ ∃ s1, level_create s = some s1 ∧ s2.header = s1.header) ∧
      (∃ s1 nh1 oh1, level_create s = some s1 ∧ s.heap s.brk = none ∧
        s1.header = some s.brk ∧ s1.heap s.brk = some nh1 ∧ nh1.level = (L : Int) + 1 ∧
        nh1.is_header = true ∧ nh1.bottom = some h ∧ nh1.top = OSET_EOF ∧
        s1.heap h = some oh1 ∧ oh1.top = some s.brk ∧ oh1.level = (L : Int) ∧
        top_level s1 = some ((L : Int) + 1)) ∧
      (∀ d : Nat, d ≤ L → ∃ c nc, tower_down s d h = some c ∧ s.heap c = some nc ∧
        nc.is_header = true ∧ nc.level = (L : Int) - (d : Int)) ∧
      (∀ c nc, tower_down s L h = some c → s.heap c = some nc → nc.bottom = OSET_EOF) ∧
      (∀ a n, s.heap a = some n → n.is_header = true →
        ∃ d, d ≤ L ∧ tower_down s d h = some a) := by
  obtain ⟨rows, H, inv, ext, hM⟩ := reachable_mono tc hr
  have wf := inv.wf
  have hpos := wf.height_pos
  obtain ⟨h, oh, c1, c2, c3, c4, c5, c6, -⟩ := wf.header_top
  have chain : ∀ d : Nat, d ≤ H - 1 → ∃ c nc, tower_down s d h = some c ∧
      s.heap c = some nc ∧ nc.is_header = true ∧ nc.level = ((H - 1 : Nat) : Int) - (d : Int) ∧
      (rows (H - 1 - d))[0]? = some c := by
    intro d hd
    obtain ⟨c, nc, e1, e2, e3, -, -, e6⟩ := tower_down_spec wf d h oh c3 (by rw [c5]; omega)
    refine ⟨c, nc, e1, e2, e6.trans c6, by rw [e3, c5], ?_⟩
    obtain ⟨j, hj⟩ := wf.hz.live c nc e2
    obtain ⟨i, hi⟩ := List.mem_iff_getElem?.mp hj
    obtain ⟨n0, hn0, -, -, hlev, hhdr, -⟩ := wf.hz.link j i c hi
    rw [e2] at hn0
    cases hn0
    have hi0 : i = 0 := by
      rw [e6, c6] at hhdr
      simpa using hhdr.symm
    have hjd : j = H - 1 - d := by
      rw [e3, c5] at hlev
      omega
    rw [← hjd, ← hi0]
    exact hi
  refine ⟨h, oh, H - 1, c2, c3, c6, c4, c5, top_level_eq wf, ?_, ?_, ?_, ?_, ?_, ?_, ?_⟩
  · intro k found s2 hrm
    rcases oset_remove_spec tc inv k with ⟨hmiss, -⟩ | ⟨s3, rows3, i, p, nx, h3, inv3, post⟩
    · rw [hmiss] at hrm
      simp only [Option.some.injEq, Prod.mk.injEq] at hrm
      rw [← hrm.2]
      exact ⟨rfl, rfl⟩
    · rw [h3] at hrm
      simp only [Option.some.injEq, Prod.mk.injEq] at hrm
      rw [← hrm.2]
      exact ⟨post.header, by rw [top_level_eq inv3.wf, top_level_eq wf]⟩
  · intro k v heads
    obtain ⟨s2, rows2, H2, i, p, h1, inv2, hle, post⟩ := oset_insert_spec tc inv k v heads
    obtain ⟨rows3, H3, wf3, -, -, hub⟩ := oset_insert_mono tc inv hM h1
    obtain ⟨e, -⟩ := rows_unique inv2.wf wf3
    have := inv2.wf.height_pos
    exact ⟨s2, H2 - 1, h1, top_level_eq inv2.wf, by omega, by omega⟩
  · intro x s2 hp
    exact node_promote_header hp
  · obtain ⟨s1, h2, oh2, d1, d2, -, d4, d5, -, d7, -, d9⟩ := wf_level_create wf
    rw [c2] at d1
    cases d1
    rw [c3] at d2
    cases d2
    have hhb : h ≠ s.brk := fun e => by
      have := wf.hz.lt_brk (mem_of_getElem? c1); omega
    have hlev : (1 : Int) + oh.level = ((H - 1 : Nat) : Int) + 1 := by rw [c5]; ring
    refine ⟨s1, { node_create none none (1 + oh.level) true with bottom := some h },
      { oh with top := some s.brk }, d4, wf.hz.fresh s.brk (le_refl _), d7,
      by rw [d9, if_neg (Ne.symm hhb), if_pos rfl], hlev, rfl, rfl, rfl,
      by rw [d9, if_pos rfl], rfl, c5, ?_⟩
    have := top_level_eq d5
    rw [this]
    congr 1
    omega
  · intro d hd
    obtain ⟨c, nc, e1, e2, e3, e4, -⟩ := chain d hd
    exact ⟨c, nc, e1, e2, e3, e4⟩
  · intro c nc hc hnc
    obtain ⟨c0, nc0, e1, e2, -, -, e5⟩ := chain (H - 1) (le_refl _)
    rw [hc] at e1
    cases e1
    rw [hnc] at e2
    cases e2
    have e0 : H - 1 - (H - 1) = 0 := by omega
    rw [e0] at e5
    rcases wf.vt.down 0 c nc (mem_of_getElem? e5) hnc (fun e => Option.noConfusion e) with
      ⟨hb, -⟩ | ⟨b, nb, -, h0, -⟩
    · exact hb
    · omega
  · intro a n hn hh
    obtain ⟨j, hj⟩ := wf.hz.live a n hn
    obtain ⟨i, hi⟩ := List.mem_iff_getElem?.mp hj
    obtain ⟨n0, hn0, -, -, -, hhdr, -⟩ := wf.hz.link j i a hi
    rw [hn] at hn0
    cases hn0
    have hi0 : i = 0 := by
      rw [hh] at hhdr
      simpa using hhdr.symm
    subst hi0
    have hjH : j < H := by
      by_contra c
      rw [wf.row_nil j (by omega)] at hj
      exact List.not_mem_nil a hj
    obtain ⟨c, nc, e1, -, -, -, e5⟩ := chain (H - 1 - j) (by omega)
    have e0 : H - 1 - (H - 1 - j) = j := by omega
    rw [e0, hi] at e5
    cases e5
    exact ⟨H - 1 - j, by omega, e1⟩

theorem height_grows_by_level_create_witness :
    TotalCompare demo_set.compare ∧ Reachable demo_set ∧
    top_level demo_set = some 2 ∧
    ((oset_insert demo_set 4 (some 40) 5).bind top_level) = some 5 ∧
    ((oset_insert demo_set 4 (some 40) 1).bind top_level) = some 2 ∧
    ((oset_remove demo_set 8).bind fun r => top_level r.2) = some 2 ∧
    ∃ (h : Nat) (nh : ordered_set_node Int Int) (L : Nat), demo_set.header = some h ∧
      demo_set.heap h = some nh ∧ nh.is_header = true ∧ nh.top = OSET_EOF ∧
      nh.level = (L : Int) ∧ top_level demo_set = some (L : Int) ∧
      (∀ k found s2, oset_remove demo_set k = some (found, s2) →
        s2.header = demo_set.header ∧ top_level s2 = top_level demo_set) ∧
      (∀ k v heads, ∃ (s2 : ordered_set Int Int) (L2 : Nat), oset_insert demo_set k v heads = some s2 ∧
        top_level s2 = some (L2 : Int) ∧ L ≤ L2 ∧ L2 ≤ L + heads) ∧
      (∀ x s2, node_promote demo_set x = some s2 →
        s2.header = demo_set.header ∨
          ∃ s1, level_create demo_set = some s1 ∧ s2.header = s1.header) ∧
      (∃ s1 nh1 oh1, level_create demo_set = some s1 ∧ demo_set.heap demo_set.brk = none ∧
        s1.header = some demo_set.brk ∧ s1.heap demo_set.brk = some nh1 ∧
        nh1.level = (L : Int) + 1 ∧ nh1.is_header = true ∧ nh1.bottom = some h ∧
        nh1.top = OSET_EOF ∧ s1.heap h = some oh1 ∧ oh1.top = some demo_set.brk ∧
        oh1.level = (L : Int) ∧ top_level s1 = some ((L : Int) + 1)) ∧
      (∀ d : Nat, d ≤ L → ∃ c nc, tower_down demo_set d h = some c ∧
        demo_set.heap c = some nc ∧ nc.is_header = true ∧
        nc.level = (L : Int) - (d : Int)) ∧
      (∀ c nc, tower_down demo_set L h = some c → demo_set.heap c = some nc →
        nc.bottom = OSET_EOF) ∧
      (∀ a n, demo_set.heap a = some n → n.is_header = true →
        ∃ d, d ≤ L ∧ tower_down demo_set d h = some a) :=
  ⟨demo_total, demo_reachable, by decide, by decide, by decide, by decide,
    height_grows_by_level_create demo_total demo_reachable⟩

end Coolbox
